import Mathlib

/-!
# streamcluster: the local-search k-median solver

A shallow embedding of `pkgs/kernels/streamcluster/src/streamcluster.cpp`
(the pthread build, `#else //!TBB_VERSION`, with `ENABLE_THREADS` or with one
worker) and theorems about it.

Conventions of the embedding.

* `float` and `double` values are rationals (`ℚ`): all statements are about
  exact arithmetic.
* A `vector<T>` is a function `Nat → T`; the number of live entries is kept
  beside it (`Points.num`).  A `vector<float>::iterator` into the coordinate
  block is the function from the offset to the coordinate stored there.
* `long`/`int` values that hold indices and counts are natural numbers.
* The program is SPMD over `nproc` workers that meet at barriers.  A piece of
  code between two barriers is run for `pid = 0, 1, …, nproc - 1` in turn.
  Locals of a worker that live across a barrier are kept in a function of
  `pid`.
* In `pgain` the piece between the barriers of lines 999 and 1015 is not free
  of races: a worker reads its offset (line 1003) while the `fill` of another
  worker (line 1009) may clear it.  With one worker `pgain` is the source.
  With more workers `pgain` is the schedule in which every offset is read
  before any `fill` runs, and `pgain_inorder` is the schedule in which the
  workers pass lines 1001-1012 one after the other; what the source does
  with more than one worker is stated on `pgain_inorder`, or on properties
  that do not depend on the table.
* `lrand48` is a stream `Nat → Nat`; the state counts the draws made so far.
-/

namespace StreamCluster

/-! ## Data model -/

/-- The `struct Point` of the source: weight, coordinates, the index of the
point this one is assigned to, and the cost of that assignment. -/
structure Point where
  weight : ℚ
  coord : Nat → ℚ
  assign : Nat
  cost : ℚ

/-- The `struct Points` of the source: `num` points of dimension `dim`. -/
structure Points where
  num : Nat
  dim : Nat
  p : Nat → Point

/-- The file-level variables of the source together with the function-level
statics that survive a call: `switch_membership`, `is_center`,
`center_table`, the `work_mem` of `pgain`, the `k`, `feasible` and
`numfeasible` of `pkmedian`, and the number of `lrand48` draws made. -/
structure State where
  points : Points
  switch_membership : Nat → Bool
  is_center : Nat → Bool
  center_table : Nat → Nat
  work_mem : Nat → ℚ
  k : Nat
  feasible : Nat → Nat
  numfeasible : Nat
  draws : Nat

/-- The constant `SP` of the source. -/
def SP : Nat := 1

/-- The constant `ITER` of the source. -/
def ITER : Nat := 3

/-- The constant `CACHE_LINE` of the source, in bytes. -/
def CACHE_LINE : Nat := 32

/-- The C loop `for (i = lo; i < hi; i++) s = body i s`. -/
def forLoop {σ : Type} (lo hi : Nat) (body : Nat → σ → σ) (s : σ) : σ :=
  (List.range' lo (hi - lo)).foldl (fun acc i => body i acc) s

/-- The block size `points->num / nproc` of a worker. -/
def bsize (num nproc : Nat) : Nat := num / nproc

/-- First index of the block of worker `pid`. -/
def k1 (num nproc pid : Nat) : Nat := bsize num nproc * pid

/-- One past the last index of the block of worker `pid`; the last worker
takes the remainder. -/
def k2 (num nproc pid : Nat) : Nat :=
  if pid = nproc - 1 then num else k1 num nproc pid + bsize num nproc

/-- The function `dist`: squared Euclidean distance of two points. -/
def dist (p1 p2 : Point) (dim : Nat) : ℚ :=
  forLoop 0 dim
    (fun i result => result + (p1.coord i - p2.coord i) * (p1.coord i - p2.coord i)) 0

/-- The cast `(int)` applied to a `double` that holds a count. -/
def castInt (q : ℚ) : Nat := (Int.floor q).toNat

/-! ## `pgain` -/

/-- The `stride` of `pgain`: `*numcenters + 2` rounded up to a multiple of
`CACHE_LINE / sizeof(double)`. -/
def stride (numcenters : Nat) : Nat :=
  let cl := CACHE_LINE / 8
  if (numcenters + 2) % cl ≠ 0 then cl * ((numcenters + 2) / cl + 1) else numcenters + 2

/-- Lines 976-982 for worker `pid`: number the centers of the block from 0
and leave their count in the first slot of the worker's strip. -/
def pgain_count (nproc num strd : Nat) (is_center : Nat → Bool) (pid : Nat)
    (m : (Nat → Nat) × (Nat → ℚ)) : (Nat → Nat) × (Nat → ℚ) :=
  let r := forLoop (k1 num nproc pid) (k2 num nproc pid)
    (fun i (c : (Nat → Nat) × Nat) =>
      if is_center i then (Function.update c.1 i c.2, c.2 + 1) else c) (m.1, 0)
  (r.1, Function.update m.2 (pid * strd) (r.2 : ℚ))

/-- Lines 988-995, worker 0 only: replace the counts by their exclusive
prefix sums. -/
def pgain_scan (nproc strd : Nat) (work_mem : Nat → ℚ) : Nat → ℚ :=
  (forLoop 0 nproc
    (fun p (a : (Nat → ℚ) × Nat) =>
      let tmp := castInt (a.1 (p * strd))
      (Function.update a.1 (p * strd) (a.2 : ℚ), a.2 + tmp)) (work_mem, 0)).1

/-- Lines 1001-1005 for worker `pid`: add the offset of the block. -/
def pgain_offset (nproc num strd : Nat) (is_center : Nat → Bool) (work_mem : Nat → ℚ)
    (pid : Nat) (center_table : Nat → Nat) : Nat → Nat :=
  forLoop (k1 num nproc pid) (k2 num nproc pid)
    (fun i ct =>
      if is_center i then Function.update ct i (ct i + castInt (work_mem (pid * strd))) else ct)
    center_table

/-- The rebuild of `center_table` at the start of `pgain` (lines 976-1005):
per-worker count, prefix sum by worker 0, per-worker offset add.  Returns the
table and the work memory.

With one worker this is the source.  With more workers it is the source
only in the runs in which every worker reads its offset (line 1003) before
the `fill` of another worker (line 1009) clears it; no barrier enforces
that.  The runs in which the workers come one after the other are
`pgain_eval_inorder`. -/
def pgain_table (nproc num strd : Nat) (is_center : Nat → Bool)
    (center_table : Nat → Nat) (work_mem : Nat → ℚ) : (Nat → Nat) × (Nat → ℚ) :=
  let a := forLoop 0 nproc (pgain_count nproc num strd is_center) (center_table, work_mem)
  let w := pgain_scan nproc strd a.2
  (forLoop 0 nproc (pgain_offset nproc num strd is_center w) a.1, w)

/-- The scratch of one `pgain` call: the two scratch arrays and the locals
`cost_of_opening_x` and `number_of_centers_to_close` of every worker, by
`pid`. -/
structure Work where
  switch_membership : Nat → Bool
  work_mem : Nat → ℚ
  cost_of_opening_x : Nat → ℚ
  number_of_centers_to_close : Nat → Nat

/-- Lines 1008-1012 for worker `pid`: the three `fill` calls.  Each runs to
the end of its vector: `switch_membership` has `num` entries and `work_mem`
has `strd * (nproc + 1)`. -/
def pgain_clear (nproc num strd : Nat) (pid : Nat)
    (m : (Nat → Bool) × (Nat → ℚ)) : (Nat → Bool) × (Nat → ℚ) :=
  let sw : Nat → Bool := fun j => if k1 num nproc pid ≤ j ∧ j < num then false else m.1 j
  let wm : Nat → ℚ := fun j => if pid * strd ≤ j ∧ j < strd * (nproc + 1) then 0 else m.2 j
  let wm2 : Nat → ℚ :=
    if pid = 0 then fun j => if nproc * strd ≤ j ∧ j < strd * (nproc + 1) then 0 else wm j
    else wm
  (sw, wm2)

/-- Lines 1023-1049 for worker `pid`: a point that is nearer to `x` than to
its center is marked and its saving is booked on `cost_of_opening_x`; any
other point books what its move to `x` would cost on the slot of its
center in the worker's strip. -/
def pgain_lower (nproc strd : Nat) (P : Points) (center_table : Nat → Nat) (x : Nat)
    (pid : Nat) (w : Work) : Work :=
  forLoop (k1 P.num nproc pid) (k2 P.num nproc pid)
    (fun i w =>
      let x_cost := dist (P.p i) (P.p x) P.dim * (P.p i).weight
      let current_cost := (P.p i).cost
      if x_cost < current_cost then
        { w with
          switch_membership := Function.update w.switch_membership i true
          cost_of_opening_x := Function.update w.cost_of_opening_x pid
            (w.cost_of_opening_x pid + (x_cost - current_cost)) }
      else
        let assign := (P.p i).assign
        let slot := pid * strd + center_table assign
        { w with
          work_mem := Function.update w.work_mem slot
            (w.work_mem slot + (current_cost - x_cost)) })
    w

/-- Lines 1058-1078 for worker `pid`: for every center of the block add up
its slot over all strips, store the total in the global row, and count the
center as one to close when the total is positive. -/
def pgain_close (nproc strd K num : Nat) (is_center : Nat → Bool) (center_table : Nat → Nat)
    (z : ℚ) (pid : Nat) (w : Work) : Work :=
  let w1 := forLoop (k1 num nproc pid) (k2 num nproc pid)
    (fun i w =>
      if is_center i then
        let low := forLoop 0 nproc
          (fun p low => low + w.work_mem (center_table i + p * strd)) z
        let w2 : Work :=
          { w with work_mem := Function.update w.work_mem (nproc * strd + center_table i) low }
        if low > 0 then
          { w2 with
            number_of_centers_to_close := Function.update w2.number_of_centers_to_close pid
              (w2.number_of_centers_to_close pid + 1)
            cost_of_opening_x := Function.update w2.cost_of_opening_x pid
              (w2.cost_of_opening_x pid - low) }
        else w2
      else w)
    w
  { w1 with
    work_mem := Function.update
      (Function.update w1.work_mem (pid * strd + K) (w1.number_of_centers_to_close pid : ℚ))
      (pid * strd + K + 1) (w1.cost_of_opening_x pid) }

/-- Lines 1085-1092, worker 0 only: `gl_cost_of_opening_x` and
`gl_number_of_centers_to_close`. -/
def pgain_reduce (nproc strd K : Nat) (z : ℚ) (work_mem : Nat → ℚ) : ℚ × Nat :=
  forLoop 0 nproc
    (fun p (a : ℚ × Nat) =>
      (a.1 + work_mem (p * strd + K + 1), a.2 + castInt (work_mem (p * strd + K))))
    (z, 0)

/-- Lines 1101-1118 for worker `pid`: move the marked points and the members
of closing centers to `x`, close those centers, open `x`. -/
def pgain_commit (nproc strd : Nat) (x : Nat) (center_table : Nat → Nat) (w : Work)
    (pid : Nat) (m : Points × (Nat → Bool)) : Points × (Nat → Bool) :=
  let lo := k1 m.1.num nproc pid
  let hi := k2 m.1.num nproc pid
  let P1 := forLoop lo hi
    (fun i (P : Points) =>
      let close_center : Bool :=
        decide (w.work_mem (nproc * strd + center_table (P.p i).assign) > 0)
      if w.switch_membership i || close_center then
        { P with
          p := Function.update P.p i
            { P.p i with
              cost := (P.p i).weight * dist (P.p i) (P.p x) P.dim
              assign := x } }
      else P)
    m.1
  let c1 := forLoop lo hi
    (fun i (c : Nat → Bool) =>
      if c i && decide (w.work_mem (nproc * strd + center_table i) > 0) then
        Function.update c i false
      else c)
    m.2
  let c2 := if lo ≤ x ∧ x < hi then Function.update c1 x true else c1
  (P1, c2)

/-- Lines 934-1095 of `pgain`: everything up to the test that decides the
commit.  Returns the rebuilt `center_table`, the scratch, and the reduced
`gl_cost_of_opening_x` and `gl_number_of_centers_to_close`.

Between the barriers of lines 999 and 1015 the source has the offset add
followed by the `fill`s, the latter running to the end of the vectors, so
that the `fill` of a worker covers the strips of the workers after it, and
no barrier in between.  Here the offset add of every worker is taken before
the `fill`s: with one worker that is the source, with more workers it is one
of the schedules of the source, and not the one that real runs mostly
take (see `pgain_eval_inorder`). -/
def pgain_eval (nproc : Nat) (x : Nat) (z : ℚ) (s : State) : (Nat → Nat) × Work × ℚ × Nat :=
  let strd := stride s.k
  let K := strd - 2
  let num := s.points.num
  let t := pgain_table nproc num strd s.is_center s.center_table s.work_mem
  let c := forLoop 0 nproc (pgain_clear nproc num strd) (s.switch_membership, t.2)
  let w0 : Work := ⟨c.1, c.2, fun _ => 0, fun _ => 0⟩
  let w1 := forLoop 0 nproc (pgain_lower nproc strd s.points t.1 x) w0
  let w2 := forLoop 0 nproc (pgain_close nproc strd K num s.is_center t.1 z) w1
  (t.1, w2, pgain_reduce nproc strd K z w2.work_mem)

/-- The value of `gl_cost_of_opening_x` at the test of line 1099. -/
def gl_cost_of_opening_x (nproc : Nat) (x : Nat) (z : ℚ) (s : State) : ℚ :=
  (pgain_eval nproc x z s).2.2.1

/-- The value of `gl_number_of_centers_to_close` at the test of line 1099. -/
def gl_number_of_centers_to_close (nproc : Nat) (x : Nat) (z : ℚ) (s : State) : Nat :=
  (pgain_eval nproc x z s).2.2.2

/-- The function `pgain` for `nproc` workers, candidate `x` and facility
cost `z`; `s.k` is `*numcenters`.  Returns the value returned by the source
and the state it leaves.

With one worker this is the source; with more workers it is the source
under the schedule of `pgain_eval`.  The count `k` is a natural number: on
a state with `k + 1` below the number of centers that close, which no valid
state is, the `long` of the source goes below 0 and `k` here stops at 0. -/
def pgain (nproc : Nat) (x : Nat) (z : ℚ) (s : State) : ℚ × State :=
  let e := pgain_eval nproc x z s
  let s1 : State :=
    { s with
      center_table := e.1
      switch_membership := e.2.1.switch_membership
      work_mem := e.2.1.work_mem }
  if e.2.2.1 < 0 then
    let m := forLoop 0 nproc (pgain_commit nproc (stride s.k) x e.1 e.2.1)
      (s.points, s.is_center)
    (-e.2.2.1, { s1 with points := m.1, is_center := m.2, k := s.k + 1 - e.2.2.2 })
  else
    (-0, s1)

/-! ## Random numbers, `shuffle`, `intshuffle` -/

/-- The constant `INT_MAX`. -/
def INT_MAX : Nat := 2147483647

/-- The gap between neighbouring `float`s at `n`: the least power of two `u`
with `n / u < 2 ^ 24`; `fuel` bounds the halvings. -/
def floatUlp : Nat → Nat → Nat
  | 0, _ => 1
  | fuel + 1, n => if n < 2 ^ 24 then 1 else 2 * floatUlp fuel (n / 2)

/-- The conversion `(float)` of a nonnegative integer: the nearest number with
24 significant bits, a tie going to the even one.  `(float)INT_MAX` is
`2 ^ 31`. -/
def toFloat (n : Nat) : ℚ :=
  if n < 2 ^ 24 then (n : ℚ)
  else
    let u := floatUlp n n
    let q := n / u
    let r := n % u
    let q' := if 2 * r > u ∨ (2 * r = u ∧ q % 2 = 1) then q + 1 else q
    ((q' * u : Nat) : ℚ)

/-- The function `shuffle`: `num - 1` swaps of `p[i]` with `p[j]`,
`j = lrand48() % (num - i) + i`. -/
def shuffle (lrand48 : Nat → Nat) (s : State) : State :=
  forLoop 0 (s.points.num - 1)
    (fun i s =>
      let j := lrand48 s.draws % (s.points.num - i) + i
      let temp := s.points.p i
      { s with
        points :=
          { s.points with
            p := Function.update (Function.update s.points.p i (s.points.p j)) j temp }
        draws := s.draws + 1 })
    s

/-- The function `intshuffle`.  Its array parameter is passed by value: the
function works on its own copy.  Returns that copy after the swaps and the
number of draws made so far. -/
def intshuffle (lrand48 : Nat → Nat) (intarray : Nat → Nat) (length : Nat) (draws : Nat) :
    (Nat → Nat) × Nat :=
  forLoop 0 length
    (fun i (a : (Nat → Nat) × Nat) =>
      let j := lrand48 a.2 % (length - i) + i
      let temp := a.1 i
      (Function.update (Function.update a.1 i (a.1 j)) j temp, a.2 + 1))
    (intarray, draws)

/-! ## `pspeedy` -/

/-- The comparison `u < c / z` on doubles, with the IEEE result of a division
by zero: `c / 0` is `+∞` for `c > 0` (the test holds), `-∞` for `c < 0` and a
NaN for `c = 0` (the test fails). -/
def ltDiv (u c z : ℚ) : Bool :=
  if z = 0 then decide (0 < c) else decide (u < c / z)

/-- Lines 753-759 and 725-733 for all workers: every point that is nearer to
the new center `i` than to its center is reassigned to `i`. -/
def pspeedy_open (nproc : Nat) (i : Nat) (P : Points) : Points :=
  forLoop 0 nproc
    (fun pid (P : Points) =>
      forLoop (k1 P.num nproc pid) (k2 P.num nproc pid)
        (fun k (P : Points) =>
          let distance := dist (P.p i) (P.p k) P.dim
          if distance * (P.p k).weight < (P.p k).cost then
            { P with
              p := Function.update P.p k
                { P.p k with cost := distance * (P.p k).weight, assign := i } }
          else P)
        P)
    P

/-- Lines 700-704 for all workers: every point is assigned to point 0, at
its distance times its weight. -/
def pspeedy_init (nproc : Nat) (P : Points) : Points :=
  forLoop 0 nproc
    (fun pid (P : Points) =>
      forLoop (k1 P.num nproc pid) (k2 P.num nproc pid)
        (fun k (P : Points) =>
          let distance := dist (P.p k) (P.p 0) P.dim
          { P with
            p := Function.update P.p k
              { P.p k with cost := distance * (P.p k).weight, assign := 0 } })
        P)
    P

/-- Lines 742-767, one round of the loop of worker 0: draw, open point `i`
when the draw is below `cost[i] / z`, and let all workers reassign. -/
def pspeedy_step (nproc : Nat) (lrand48 : Nat → Nat) (z : ℚ) (i : Nat) (s : State) : State :=
  let to_open := ltDiv (toFloat (lrand48 s.draws) / toFloat INT_MAX) (s.points.p i).cost z
  let s' : State := { s with draws := s.draws + 1 }
  if to_open then
    { s' with k := s'.k + 1, points := pspeedy_open nproc i s'.points }
  else s'

/-- Lines 782-798: the partial sums of the workers and their total
`z * k + Σ costs[pid]`. -/
def pspeedy_total (nproc : Nat) (z : ℚ) (s : State) : ℚ :=
  let costs : Nat → ℚ := fun pid =>
    forLoop (k1 s.points.num nproc pid) (k2 s.points.num nproc pid)
      (fun k mytotal => mytotal + (s.points.p k).cost) 0
  forLoop 0 nproc (fun i t => t + costs i) (z * (s.k : ℚ))

/-- The function `pspeedy` for `nproc` workers and facility cost `z`;
`s.k` is `*kcenter`.  Returns the total cost and the state. -/
def pspeedy (nproc : Nat) (lrand48 : Nat → Nat) (z : ℚ) (s : State) : ℚ × State :=
  -- lines 700-709: everything is assigned to point 0
  let s1 : State := { s with points := pspeedy_init nproc s.points, k := 1 }
  -- lines 741-768: worker 0 decides, all workers reassign
  let s2 := forLoop 1 s1.points.num (pspeedy_step nproc lrand48 z) s1
  -- lines 782-798: the total cost
  (pspeedy_total nproc z s2, s2)

/-! ## `selectfeasible_fast` -/

/-- The binary search of lines 1274-1282, at most `fuel` halvings. -/
def bsearch (accumweight : Nat → ℚ) (w : ℚ) : Nat → Nat → Nat → Nat
  | 0, _, r => r
  | fuel + 1, l, r =>
    if l + 1 < r then
      let k := (l + r) / 2
      if accumweight k > w then bsearch accumweight w fuel l k
      else bsearch accumweight w fuel k r
    else r

/-- Lines 1253-1262: the running sums `accumweight` of the weights. -/
def accumweights (P : Points) : Nat → ℚ :=
  forLoop 1 P.num (fun i a => Function.update a i (a (i - 1) + (P.p i).weight))
    (Function.update (fun _ => 0) 0 (P.p 0).weight)

/-- Lines 1268-1283: the index that the search emits for the value `w`. -/
def pick_feasible (accumweight : Nat → ℚ) (num : Nat) (w : ℚ) : Nat :=
  if accumweight 0 > w then 0 else bsearch accumweight w num 0 (num - 1)

/-- The function `selectfeasible_fast`, which fills the statics `feasible`
and `numfeasible` of `pkmedian`.  The parameter `klogk` stands for the libm
expression `(long)(ITER*k*log((double)k))`. -/
def selectfeasible_fast (lrand48 : Nat → Nat) (klogk : Nat → Nat) (kmin : Nat) (s : State) :
    State :=
  let num := s.points.num
  let numfeasible := if num > klogk kmin then klogk kmin else num
  if numfeasible = num then
    { s with
      numfeasible := numfeasible
      feasible := forLoop 0 numfeasible (fun i f => Function.update f i i) s.feasible }
  else
    let accumweight := accumweights s.points
    let totalweight := accumweight (num - 1)
    let r := forLoop 0 numfeasible
      (fun i (a : (Nat → Nat) × Nat) =>
        let w := (toFloat (lrand48 a.2) / toFloat INT_MAX) * totalweight
        (Function.update a.1 i (pick_feasible accumweight num w), a.2 + 1))
      (s.feasible, s.draws)
    { s with numfeasible := numfeasible, feasible := r.1, draws := r.2 }

/-! ## `pFL` -/

/-- The ways in which a run of the model ends without a result. -/
inductive Fault where
  | div_by_zero
  | out_of_fuel
  deriving DecidableEq, Repr

/-- The comparison `a / b > e` on doubles, with the IEEE result of a division
by zero: `a / 0` is `+∞` for `a > 0` (the test holds), `-∞` for `a < 0` and a
NaN for `a = 0` (the test fails). -/
def gtDiv (a b e : ℚ) : Bool :=
  if b = 0 then decide (0 < a) else decide (a / b > e)

/-- Lines 1203-1206: `iter` calls of `pgain`, on the candidates
`feasible[i % numfeasible]`; the remainder faults when `numfeasible` is 0.
Returns the sum of the gains. -/
def pFL_pass (nproc : Nat) (feasible : Nat → Nat) (numfeasible : Nat) (z : ℚ) (iter : Nat)
    (s : State) : Except Fault (ℚ × State) :=
  forLoop 0 iter
    (fun i (a : Except Fault (ℚ × State)) =>
      match a with
      | .error f => .error f
      | .ok (change, s) =>
        if numfeasible = 0 then .error Fault.div_by_zero
        else
          let x := i % numfeasible
          let r := pgain nproc (feasible x) z s
          .ok (change + r.1, r.2))
    (.ok (0, s))

/-- The `while` loop of `pFL` (lines 1192-1211), at most `fuel` passes.  The
array `feasible` is the by-value parameter of `pFL`; `intshuffle` receives
a copy of it. -/
def pFL_loop (nproc : Nat) (lrand48 : Nat → Nat) (feasible : Nat → Nat) (numfeasible : Nat)
    (z : ℚ) (iter : Nat) (e : ℚ) : Nat → ℚ → ℚ → State → Except Fault (ℚ × State)
  | 0, change, cost, s =>
    if gtDiv change cost e then .error Fault.out_of_fuel else .ok (cost, s)
  | fuel + 1, change, cost, s =>
    if gtDiv change cost e then
      let s1 : State := { s with draws := (intshuffle lrand48 feasible numfeasible s.draws).2 }
      match pFL_pass nproc feasible numfeasible z iter s1 with
      | .error f => .error f
      | .ok (change', s2) =>
        pFL_loop nproc lrand48 feasible numfeasible z iter e fuel change' (cost - change') s2
    else .ok (cost, s)

/-- The function `pFL`; `s.k` is `*k`.  Returns the cost and the state. -/
def pFL (nproc : Nat) (lrand48 : Nat → Nat) (feasible : Nat → Nat) (numfeasible : Nat)
    (z : ℚ) (cost : ℚ) (iter : Nat) (e : ℚ) (fuel : Nat) (s : State) :
    Except Fault (ℚ × State) :=
  pFL_loop nproc lrand48 feasible numfeasible z iter e fuel cost cost s

/-! ## `pkmedian` -/

/-- The locals `hiz`, `loz`, `z`, `cost` and `i` of `pkmedian`, with the
state. -/
structure Search where
  hiz : ℚ
  loz : ℚ
  z : ℚ
  cost : ℚ
  i : Nat
  state : State

/-- What `pkmedian` returns: the cost, the value stored in `*kfinal`, the
values of the locals `hiz`, `loz` and `z` at the return, and the state. -/
structure KMedianResult where
  cost : ℚ
  kfinal : Nat
  hiz : ℚ
  loz : ℚ
  z : ℚ
  state : State

/-- Lines 1512-1515: `while ((k < kmin) && (i < SP))`, with `n` the number of
rounds left before `i` reaches `SP`. -/
def pkmedian_retry (nproc : Nat) (lrand48 : Nat → Nat) (kmin : Nat) : Nat → Search → Search
  | 0, a => a
  | n + 1, a =>
    if a.state.k < kmin then
      let r := pspeedy nproc lrand48 a.z a.state
      pkmedian_retry nproc lrand48 kmin n { a with cost := r.1, state := r.2, i := a.i + 1 }
    else a

/-- Lines 1518-1525: `while (k < kmin)`, at most `fuel` rounds. -/
def pkmedian_lower_z (nproc : Nat) (lrand48 : Nat → Nat) (kmin : Nat) :
    Nat → Search → Except Fault Search
  | 0, a => if a.state.k < kmin then .error Fault.out_of_fuel else .ok a
  | fuel + 1, a =>
    if a.state.k < kmin then
      let a1 : Search :=
        if a.i ≥ SP then { a with hiz := a.z, z := (a.z + a.loz) / 2, i := 0 } else a
      let s1 := shuffle lrand48 a1.state
      let r := pspeedy nproc lrand48 a1.z s1
      pkmedian_lower_z nproc lrand48 kmin fuel
        { a1 with cost := r.1, state := r.2, i := a1.i + 1 }
    else .ok a

/-- The test of lines 1551-1552 for running the finer `pFL`. -/
def near_target (kmin kmax k : Nat) : Bool :=
  (decide ((k : ℚ) ≤ 11 / 10 * (kmax : ℚ)) && decide ((k : ℚ) ≥ 9 / 10 * (kmin : ℚ))) ||
  (decide (k ≤ kmax + 2) && decide (kmin ≤ k + 2))

/-- Lines 1560-1571: raise `z` when there are too many centers, lower it when
there are too few, and correct the recorded cost for the new `z`. -/
def pkmedian_adjust (kmin kmax : Nat) (a : Search) : Search :=
  let a1 : Search :=
    if a.state.k > kmax then
      { a with
        loz := a.z
        z := (a.hiz + a.z) / 2
        cost := a.cost + ((a.hiz + a.z) / 2 - a.z) * (a.state.k : ℚ) }
    else a
  if a1.state.k < kmin then
    { a1 with
      hiz := a1.z
      z := (a1.z + a1.loz) / 2
      cost := a1.cost + ((a1.z + a1.loz) / 2 - a1.z) * (a1.state.k : ℚ) }
  else a1

/-- The test of line 1575 that ends the binary search. -/
def pkmedian_done (kmin kmax : Nat) (a : Search) : Bool :=
  (decide (a.state.k ≤ kmax) && decide (a.state.k ≥ kmin)) ||
  decide (a.loz ≥ 999 / 1000 * a.hiz)

/-- Lines 1547-1558: the coarse `pFL` and, when the number of centers is near
the band, the fine one; every `pFL` gets `fuel` passes. -/
def pkmedian_round (nproc : Nat) (lrand48 : Nat → Nat) (kmin kmax iter : Nat) (fuel : Nat)
    (a : Search) : Except Fault Search :=
  match pFL nproc lrand48 a.state.feasible a.state.numfeasible a.z a.cost iter (1 / 10)
      fuel a.state with
  | .error f => .error f
  | .ok (c1, s1) =>
    if near_target kmin kmax s1.k then
      match pFL nproc lrand48 s1.feasible s1.numfeasible a.z c1 iter (1 / 1000) fuel s1 with
      | .error f => .error f
      | .ok (c2, s2) => .ok { a with cost := c2, state := s2 }
    else .ok { a with cost := c1, state := s1 }

/-- The binary search of lines 1544-1582, at most `n` rounds. -/
def pkmedian_search (nproc : Nat) (lrand48 : Nat → Nat) (kmin kmax iter : Nat) (fuel : Nat) :
    Nat → Search → Except Fault Search
  | 0, _ => .error Fault.out_of_fuel
  | n + 1, a =>
    match pkmedian_round nproc lrand48 kmin kmax iter fuel a with
    | .error f => .error f
    | .ok a2 =>
      let a4 := pkmedian_adjust kmin kmax a2
      if pkmedian_done kmin kmax a4 then .ok a4
      else pkmedian_search nproc lrand48 kmin kmax iter fuel n a4

/-- Lines 1466-1479: the partial sums `hizs[pid]` of the workers and their
total `hiz`, the weighted distances of all points to point 0. -/
def pkmedian_hiz (nproc : Nat) (P : Points) : ℚ :=
  let hizs : Nat → ℚ := fun pid =>
    forLoop (k1 P.num nproc pid) (k2 P.num nproc pid)
      (fun kk myhiz => myhiz + dist (P.p kk) (P.p 0) P.dim * (P.p kk).weight) 0
  forLoop 0 nproc (fun i hiz => hiz + hizs i) 0

/-- The function `pkmedian` for `nproc` workers.  `s.k` is the static `k`,
which keeps its value from the previous call; `fuel` bounds the rounds of
every loop that the source does not bound. -/
def pkmedian (nproc : Nat) (lrand48 : Nat → Nat) (klogk : Nat → Nat) (kmin kmax : Nat)
    (fuel : Nat) (s : State) : Except Fault KMedianResult :=
  -- lines 1466-1479
  let hiz := pkmedian_hiz nproc s.points
  let loz : ℚ := 0
  let z := (hiz + loz) / 2
  if s.points.num ≤ kmax then
    -- lines 1492-1503
    let P := forLoop 0 nproc
      (fun pid (P : Points) =>
        forLoop (k1 P.num nproc pid) (k2 P.num nproc pid)
          (fun kk (P : Points) =>
            { P with p := Function.update P.p kk { P.p kk with assign := kk, cost := 0 } })
          P)
      s.points
    .ok ⟨0, s.k, hiz, loz, z, { s with points := P }⟩
  else
    -- lines 1505-1525
    let s1 := shuffle lrand48 s
    let r := pspeedy nproc lrand48 z s1
    let a1 := pkmedian_retry nproc lrand48 kmin SP ⟨hiz, loz, z, r.1, 0, r.2⟩
    match pkmedian_lower_z nproc lrand48 kmin fuel a1 with
    | .error f => .error f
    | .ok a2 =>
      -- lines 1532-1538
      let s3 := selectfeasible_fast lrand48 klogk kmin a2.state
      let s4 : State :=
        { s3 with
          is_center := forLoop 0 s3.points.num
            (fun i c => Function.update c (s3.points.p i).assign true) s3.is_center }
      -- lines 1544-1589
      match pkmedian_search nproc lrand48 kmin kmax (klogk kmax) fuel fuel
          { a2 with state := s4 } with
      | .error f => .error f
      | .ok a => .ok ⟨a.cost, a.state.k, a.hiz, a.loz, a.z, a.state⟩

/-! ## `contcenters`, `copycenters` and the streaming driver -/

/-- The function `contcenters`: every point `i` that is not its own center
is folded into its center, whose coordinates move towards `i` by the
relative weight of `i` and whose weight grows by the weight of `i`.  The
quotient is taken in `ℚ`; the results on coordinates are stated for weights
whose sums are not zero. -/
def contcenters (P : Points) : Points :=
  forLoop 0 P.num
    (fun i (P : Points) =>
      if (P.p i).assign ≠ i then
        let a := (P.p i).assign
        let relweight := (P.p i).weight / ((P.p a).weight + (P.p i).weight)
        let coord := forLoop 0 P.dim
          (fun ii (c : Nat → ℚ) =>
            Function.update c ii (c ii * (1 - relweight) + (P.p i).coord ii * relweight))
          (P.p a).coord
        { P with
          p := Function.update P.p a
            { P.p a with coord := coord, weight := (P.p a).weight + (P.p i).weight } }
      else P)
    P

/-- The function `copycenters`.  Its parameter `centerIDs` is passed by
value: the IDs are written to the copy that the function owns.  Returns the
centers and that copy. -/
def copycenters (points centers : Points) (centerIDs : Nat → Nat) (offset : Nat) :
    Points × (Nat → Nat) :=
  -- lines 1622-1627
  let is_a_median : Nat → Bool :=
    forLoop 0 points.num (fun i m => Function.update m (points.p i).assign true)
      (fun _ => false)
  -- lines 1629-1639
  let r := forLoop 0 points.num
    (fun i (a : (Nat → Point) × (Nat → Nat) × Nat) =>
      if is_a_median i then
        (Function.update a.1 a.2.2
          { a.1 a.2.2 with
            coord := fun ii =>
              if ii < points.dim then (points.p i).coord ii else (a.1 a.2.2).coord ii
            weight := (points.p i).weight },
          Function.update a.2.1 a.2.2 (i + offset), a.2.2 + 1)
      else a)
    (centers.p, centerIDs, centers.num)
  -- line 1641
  ({ centers with p := r.1, num := r.2.2 }, r.2.1)

/-- The variables of `streamCluster` that live across the chunks, and the
statics of the solver. -/
structure Driver where
  centers : Points
  centerIDs : Nat → Nat
  IDoffset : Nat
  kfinal : Nat
  statics : State

/-- Lines 1839-1850: the driver before the first chunk, with all statics
zero. -/
def streamCluster_start (dim : Nat) : Driver :=
  ⟨⟨0, dim, fun _ => ⟨1, fun _ => 0, 0, 0⟩⟩, fun _ => 0, 0, 0,
    ⟨⟨0, dim, fun _ => ⟨0, fun _ => 0, 0, 0⟩⟩,
      fun _ => false, fun _ => false, fun _ => 0, fun _ => 0, 0, fun _ => 0, 0, 0⟩⟩

/-- One round of the loop of lines 1851-1904 of `streamCluster`, for the
point array `chunk` as the read of lines 1854-1862 leaves it.  The result
`none` is the `exit(1)` of line 1889. -/
def streamCluster_chunk (nproc : Nat) (lrand48 : Nat → Nat) (klogk : Nat → Nat)
    (kmin kmax centersize : Nat) (fuel : Nat) (chunk : Points) (d : Driver) :
    Except Fault (Option Driver) :=
  -- lines 1863-1865
  let P0 := forLoop 0 chunk.num
    (fun i (P : Points) => { P with p := Function.update P.p i { P.p i with weight := 1 } })
    chunk
  -- lines 1872-1875
  let s0 : State := { d.statics with points := P0, is_center := fun _ => false }
  -- line 1882
  match pkmedian nproc lrand48 klogk kmin kmax fuel s0 with
  | .error f => .error f
  | .ok r =>
    -- line 1885
    let P1 := contcenters r.state.points
    -- lines 1886-1890
    if r.kfinal + d.centers.num > centersize then .ok none
    else
      -- lines 1892-1893
      let c := copycenters P1 d.centers d.centerIDs d.IDoffset
      .ok (some ⟨c.1, d.centerIDs, d.IDoffset + chunk.num, r.kfinal,
        { r.state with points := P1 }⟩)

/-- The loop of lines 1851-1904 over the chunks of a stream. -/
def streamCluster_chunks (nproc : Nat) (lrand48 : Nat → Nat) (klogk : Nat → Nat)
    (kmin kmax centersize : Nat) (fuel : Nat) : List Points → Driver →
    Except Fault (Option Driver)
  | [], d => .ok (some d)
  | c :: cs, d =>
    match streamCluster_chunk nproc lrand48 klogk kmin kmax centersize fuel c d with
    | .error f => .error f
    | .ok none => .ok none
    | .ok (some d1) =>
      streamCluster_chunks nproc lrand48 klogk kmin kmax centersize fuel cs d1

/-! ## `pgain` with the workers taken one after the other

No barrier stands between the offset add of line 1003 and the `fill`s of
lines 1008-1011, so a worker may run its `fill`s before another worker has
read its offset.  The definitions below take the workers one after the other
through the code between the barriers of lines 999 and 1015. -/

/-- Lines 1001-1012 for worker `pid`: the offset add of the worker, then its
`fill`s. -/
def pgain_offset_clear (nproc num strd : Nat) (is_center : Nat → Bool) (pid : Nat)
    (m : (Nat → Nat) × (Nat → Bool) × (Nat → ℚ)) : (Nat → Nat) × (Nat → Bool) × (Nat → ℚ) :=
  let ct := pgain_offset nproc num strd is_center m.2.2 pid m.1
  let c := pgain_clear nproc num strd pid (m.2.1, m.2.2)
  (ct, c.1, c.2)

/-- Lines 934-1095 of `pgain` when every worker runs lines 1001-1012 as a
whole before the next worker starts them. -/
def pgain_eval_inorder (nproc : Nat) (x : Nat) (z : ℚ) (s : State) :
    (Nat → Nat) × Work × ℚ × Nat :=
  let strd := stride s.k
  let K := strd - 2
  let num := s.points.num
  let a := forLoop 0 nproc (pgain_count nproc num strd s.is_center)
    (s.center_table, s.work_mem)
  let w := pgain_scan nproc strd a.2
  let t := forLoop 0 nproc (pgain_offset_clear nproc num strd s.is_center)
    (a.1, s.switch_membership, w)
  let w0 : Work := ⟨t.2.1, t.2.2, fun _ => 0, fun _ => 0⟩
  let w1 := forLoop 0 nproc (pgain_lower nproc strd s.points t.1 x) w0
  let w2 := forLoop 0 nproc (pgain_close nproc strd K num s.is_center t.1 z) w1
  (t.1, w2, pgain_reduce nproc strd K z w2.work_mem)

/-- The function `pgain` when every worker runs lines 1001-1012 as a whole
before the next worker starts them. -/
def pgain_inorder (nproc : Nat) (x : Nat) (z : ℚ) (s : State) : ℚ × State :=
  let e := pgain_eval_inorder nproc x z s
  let s1 : State :=
    { s with
      center_table := e.1
      switch_membership := e.2.1.switch_membership
      work_mem := e.2.1.work_mem }
  if e.2.2.1 < 0 then
    let m := forLoop 0 nproc (pgain_commit nproc (stride s.k) x e.1 e.2.1)
      (s.points, s.is_center)
    (-e.2.2.1, { s1 with points := m.1, is_center := m.2, k := s.k + 1 - e.2.2.2 })
  else
    (-0, s1)

/-! ## Quantities used to state the results -/

/-- The boundary between the blocks of workers `p - 1` and `p`. -/
def bnd (num nproc p : Nat) : Nat := if nproc ≤ p then num else k1 num nproc p

/-- Number of open centers with index in `[a, b)`. -/
def centersIn (is_center : Nat → Bool) (a b : Nat) : Nat :=
  ((Finset.Ico a b).filter (fun j => is_center j = true)).card

/-- The cost `x_cost` of serving point `i` from `x` (line 1024). -/
def x_cost (P : Points) (x i : Nat) : ℚ :=
  dist (P.p i) (P.p x) P.dim * (P.p i).weight

/-- Point `i` is strictly nearer to `x` than to its center (line 1028). -/
def switches (P : Points) (x i : Nat) : Prop :=
  x_cost P x i < (P.p i).cost

instance (P : Points) (x : Nat) : DecidablePred (switches P x) :=
  fun i => inferInstanceAs (Decidable (x_cost P x i < (P.p i).cost))

/-- The total that line 1065 stores for center `c`: `z` plus, over the
members of `c` that do not switch, their cost minus their `x_cost`. -/
def lowerOf (P : Points) (x : Nat) (z : ℚ) (c : Nat) : ℚ :=
  z + ∑ i ∈ (Finset.range P.num).filter (fun i => ¬ switches P x i ∧ (P.p i).assign = c),
    ((P.p i).cost - x_cost P x i)

/-- Center `c` is open and line 1066 finds it worth closing. -/
def closes (s : State) (x : Nat) (z : ℚ) (c : Nat) : Prop :=
  s.is_center c = true ∧ 0 < lowerOf s.points x z c

instance (s : State) (x : Nat) (z : ℚ) : DecidablePred (closes s x z) :=
  fun c => inferInstanceAs (Decidable (s.is_center c = true ∧ 0 < lowerOf s.points x z c))

/-- The reduced cost of opening `x`, as a sum over points and centers. -/
def glCost (s : State) (x : Nat) (z : ℚ) : ℚ :=
  z + ∑ i ∈ (Finset.range s.points.num).filter (switches s.points x),
      (x_cost s.points x i - (s.points.p i).cost)
    - ∑ c ∈ (Finset.range s.points.num).filter (closes s x z), lowerOf s.points x z c

/-- The number of centers that the move closes. -/
def glClose (s : State) (x : Nat) (z : ℚ) : Nat :=
  ((Finset.range s.points.num).filter (closes s x z)).card

/-- State of the scratch while lines 1023-1049 run, when the points below
`n` have been handled. -/
structure LowerInv (nproc strd : Nat) (P : Points) (ct : Nat → Nat) (x : Nat) (n : Nat)
    (w : Work) : Prop where
  sw : ∀ i, i < P.num → w.switch_membership i = decide (i < n ∧ switches P x i)
  wm : ∀ p c, p < nproc → c < strd →
    w.work_mem (p * strd + c) =
      ∑ i ∈ (Finset.Ico (k1 P.num nproc p) (k2 P.num nproc p)).filter
        (fun i => i < n ∧ (¬ switches P x i ∧ ct (P.p i).assign = c)),
        ((P.p i).cost - x_cost P x i)
  gl : ∀ c, c < strd → w.work_mem (nproc * strd + c) = 0
  cox : ∀ p, p < nproc →
    w.cost_of_opening_x p =
      ∑ i ∈ (Finset.Ico (k1 P.num nproc p) (k2 P.num nproc p)).filter
        (fun i => i < n ∧ switches P x i), (x_cost P x i - (P.p i).cost)
  ncl : ∀ p, w.number_of_centers_to_close p = 0

/-- The centers of `S` that line 1066 finds worth closing, when `L` gives the
total of a slot. -/
def closing (is_center : Nat → Bool) (ct : Nat → Nat) (L : Nat → ℚ) (S : Finset Nat) :
    Finset Nat :=
  S.filter (fun i => is_center i = true ∧ 0 < L (ct i))

/-- State of the scratch while worker `pid` runs the loop of lines 1058-1075,
when the points of its block below `n` have been handled. -/
structure CloseInv (nproc strd K num : Nat) (is_center : Nat → Bool) (ct : Nat → Nat)
    (L : Nat → ℚ) (w1 : Work) (pid n : Nat) (w : Work) : Prop where
  sw : w.switch_membership = w1.switch_membership
  low : ∀ p c, p < nproc → c < K → w.work_mem (p * strd + c) = w1.work_mem (p * strd + c)
  gl : ∀ i, i < n → is_center i = true → w.work_mem (nproc * strd + ct i) = L (ct i)
  done : ∀ p, p < pid →
    w.work_mem (p * strd + K) =
      ((closing is_center ct L (Finset.Ico (k1 num nproc p) (k2 num nproc p))).card : ℚ) ∧
    w.work_mem (p * strd + K + 1) =
      w1.cost_of_opening_x p -
        ∑ i ∈ closing is_center ct L (Finset.Ico (k1 num nproc p) (k2 num nproc p)), L (ct i)
  ncl : w.number_of_centers_to_close pid =
    ((Finset.Ico (k1 num nproc pid) (k2 num nproc pid)).filter
      (fun i => i < n ∧ (is_center i = true ∧ 0 < L (ct i)))).card
  cox : w.cost_of_opening_x pid = w1.cost_of_opening_x pid -
    ∑ i ∈ (Finset.Ico (k1 num nproc pid) (k2 num nproc pid)).filter
      (fun i => i < n ∧ (is_center i = true ∧ 0 < L (ct i))), L (ct i)
  later : ∀ p, pid < p →
    w.cost_of_opening_x p = w1.cost_of_opening_x p ∧ w.number_of_centers_to_close p = 0

/-- State of the scratch between two workers of lines 1058-1078, when the
workers below `m` are done. -/
structure CloseDone (nproc strd K num : Nat) (is_center : Nat → Bool) (ct : Nat → Nat)
    (L : Nat → ℚ) (w1 : Work) (m : Nat) (w : Work) : Prop where
  sw : w.switch_membership = w1.switch_membership
  low : ∀ p c, p < nproc → c < K → w.work_mem (p * strd + c) = w1.work_mem (p * strd + c)
  gl : ∀ i, i < bnd num nproc m → is_center i = true →
    w.work_mem (nproc * strd + ct i) = L (ct i)
  done : ∀ p, p < m →
    w.work_mem (p * strd + K) =
      ((closing is_center ct L (Finset.Ico (k1 num nproc p) (k2 num nproc p))).card : ℚ) ∧
    w.work_mem (p * strd + K + 1) =
      w1.cost_of_opening_x p -
        ∑ i ∈ closing is_center ct L (Finset.Ico (k1 num nproc p) (k2 num nproc p)), L (ct i)
  later : ∀ p, m ≤ p →
    w.cost_of_opening_x p = w1.cost_of_opening_x p ∧ w.number_of_centers_to_close p = 0

/-- What lines 934-1095 of `pgain` compute, stated over points and centers
rather than over blocks and strips. -/
structure EvalSpec (nproc : Nat) (x : Nat) (z : ℚ) (s : State)
    (e : (Nat → Nat) × Work × ℚ × Nat) : Prop where
  ct : ∀ j, e.1 j =
    if j < s.points.num ∧ s.is_center j = true then centersIn s.is_center 0 j
    else s.center_table j
  sw : ∀ i, i < s.points.num → e.2.1.switch_membership i = decide (switches s.points x i)
  gl : ∀ c, c < s.points.num → s.is_center c = true →
    e.2.1.work_mem (nproc * stride s.k + centersIn s.is_center 0 c) = lowerOf s.points x z c
  cost : e.2.2.1 = glCost s x z
  ncl : e.2.2.2 = glClose s x z

/-- Point `i` after line 1106-1108 has moved it to `x`. -/
def moved (P : Points) (x i : Nat) : Point :=
  { P.p i with
    cost := (P.p i).weight * dist (P.p i) (P.p x) P.dim
    assign := x }

/-- The valid states of the solver: every point is assigned to an open
center of the set, `is_center` marks exactly the points that some point is
assigned to, the recorded cost of a point is its weight times its distance
to its center, and `k` is the number of open centers. -/
structure Valid (s : State) : Prop where
  assign_lt : ∀ i, i < s.points.num → (s.points.p i).assign < s.points.num
  assign_open : ∀ i, i < s.points.num → s.is_center (s.points.p i).assign = true
  center_iff : ∀ j, j < s.points.num →
    (s.is_center j = true ↔ ∃ i, i < s.points.num ∧ (s.points.p i).assign = j)
  cost_eq : ∀ i, i < s.points.num →
    (s.points.p i).cost =
      (s.points.p i).weight *
        dist (s.points.p i) (s.points.p (s.points.p i).assign) s.points.dim
  k_eq : s.k = centersIn s.is_center 0 s.points.num

/-- The k-median objective `z * k + Σ cost[i]`. -/
def objective (z : ℚ) (s : State) : ℚ :=
  z * (s.k : ℚ) + ∑ i ∈ Finset.range s.points.num, (s.points.p i).cost

/-- Point `i` is moved to `x` by a committed `pgain`: it is marked, or its
center closes. -/
def moves (s : State) (x : Nat) (z : ℚ) (i : Nat) : Prop :=
  switches s.points x i ∨ closes s x z (s.points.p i).assign

instance (s : State) (x : Nat) (z : ℚ) : DecidablePred (moves s x z) :=
  fun i => inferInstanceAs
    (Decidable (switches s.points x i ∨ closes s x z (s.points.p i).assign))

/-- All points have the coordinates `c`. -/
def Coincide (P : Points) (c : Nat → ℚ) : Prop :=
  ∀ i, i < P.num → ∀ j, j < P.dim → (P.p i).coord j = c j

/-- Every point is recorded at the cost of a nearest open center:
no open center is cheaper for it than its recorded cost. -/
def NearestAssigned (s : State) : Prop :=
  ∀ i, i < s.points.num → ∀ c, c < s.points.num → s.is_center c = true →
    (s.points.p i).cost ≤ (s.points.p i).weight * dist (s.points.p i) (s.points.p c) s.points.dim

instance (s : State) : Decidable (NearestAssigned s) :=
  inferInstanceAs (Decidable (∀ i, i < s.points.num → ∀ c, c < s.points.num →
    s.is_center c = true →
    (s.points.p i).cost ≤
      (s.points.p i).weight * dist (s.points.p i) (s.points.p c) s.points.dim))

/-- Point `j` is the assign target of some point: the value of
`is_a_median[j]` after lines 1625-1627 of `copycenters`. -/
def is_median (P : Points) (j : Nat) : Bool :=
  decide (∃ i, i < P.num ∧ (P.p i).assign = j)

/-- Every point is assigned to a point of the set that is assigned to
itself. -/
def TargetsSelfAssigned (P : Points) : Prop :=
  ∀ i, i < P.num →
    (P.p i).assign < P.num ∧ (P.p (P.p i).assign).assign = (P.p i).assign

/-- The points below `m`, other than `j` itself, that are assigned to `j`:
those that `contcenters` has folded into `j` when it reaches `m`. -/
def folded (P : Points) (m j : Nat) : Finset Nat :=
  (Finset.range m).filter (fun i => (P.p i).assign = j ∧ i ≠ j)

/-- The point array while `contcenters` runs on `P0`, when the points below
`m` have been handled. -/
structure ContInv (P0 : Points) (m : Nat) (P : Points) : Prop where
  num : P.num = P0.num
  dim : P.dim = P0.dim
  assign : ∀ i, (P.p i).assign = (P0.p i).assign
  cost : ∀ i, (P.p i).cost = (P0.p i).cost
  rest : ∀ i, ¬ (i < P0.num ∧ (P0.p i).assign = i) → P.p i = P0.p i
  weight : ∀ j, j < P0.num → (P0.p j).assign = j →
    (P.p j).weight = (P0.p j).weight + ∑ i ∈ folded P0 m j, (P0.p i).weight
  high : ∀ j ii, P0.dim ≤ ii → (P.p j).coord ii = (P0.p j).coord ii
  coord : (∀ i, i < P0.num → 0 < (P0.p i).weight) →
    ∀ j, j < P0.num → (P0.p j).assign = j → ∀ ii, ii < P0.dim →
      (P.p j).weight * (P.p j).coord ii =
        (P0.p j).weight * (P0.p j).coord ii +
          ∑ i ∈ folded P0 m j, (P0.p i).weight * (P0.p i).coord ii

/-! ## A small instance

Four points on a line, at 0, 1, 10 and 11, with unit weights; the points 0
and 2 are open and serve their right neighbours. -/

/-- A point of dimension 1. -/
def linePoint (c : ℚ) (assign : Nat) (cost : ℚ) : Point :=
  ⟨1, fun j => if j = 0 then c else 0, assign, cost⟩

/-- The four points of the instance. -/
def linePoints : Points :=
  ⟨4, 1, fun i =>
    if i = 0 then linePoint 0 0 0
    else if i = 1 then linePoint 1 0 1
    else if i = 2 then linePoint 10 2 0
    else linePoint 11 2 1⟩

/-- The instance as a state of the solver, with arbitrary scratch. -/
def lineState : State :=
  ⟨linePoints, fun _ => true, fun i => decide (i = 0 ∨ i = 2), fun _ => 7, fun _ => 5, 2,
    fun i => i, 0, 0⟩

/-- Two points of dimension 1, at `a` and `b`, in the state in which the
program starts: all statics are zero. -/
def twoPointState (a b : ℚ) : State :=
  ⟨⟨2, 1, fun i => if i = 0 then linePoint a 0 0 else linePoint b 0 0⟩,
    fun _ => false, fun _ => false, fun _ => 0, fun _ => 0, 0, fun _ => 0, 0, 0⟩

/-- A single point of dimension 1 in the state in which the program starts:
all statics are zero. -/
def onePointState : State :=
  ⟨⟨1, 1, fun _ => linePoint 3 0 0⟩,
    fun _ => false, fun _ => false, fun _ => 0, fun _ => 0, 0, fun _ => 0, 0, 0⟩

/-- A run of the model ended with a result. -/
def returns {α : Type} (e : Except Fault α) : Bool :=
  match e with
  | .ok _ => true
  | .error _ => false

/-- Three points of dimension 1, at `a`, `b` and `c`, in the state in which
the program starts: all statics are zero. -/
def threePointState (a b c : ℚ) : State :=
  ⟨⟨3, 1, fun i =>
      if i = 0 then linePoint a 0 0 else if i = 1 then linePoint b 0 0 else linePoint c 0 0⟩,
    fun _ => false, fun _ => false, fun _ => 0, fun _ => 0, 0, fun _ => 0, 0, 0⟩

/-- The values of `(long)(ITER*k*log((double)k))` for `k` from 1 to 3:
`3 * 1 * ln 1 = 0`, `3 * 2 * ln 2 = 4.158...` and `3 * 3 * ln 3 = 9.887...`. -/
def klogk3 (k : Nat) : Nat :=
  if k = 2 then 4 else if k = 3 then 9 else 0

/-- Two points of dimension 1, at `a` and `b`, each one an open center that
serves itself. -/
def twoCenterState (a b : ℚ) : State :=
  ⟨⟨2, 1, fun i => if i = 0 then linePoint a 0 0 else linePoint b 1 0⟩,
    fun _ => false, fun i => decide (i < 2), fun _ => 0, fun _ => 0, 2, fun _ => 0, 0, 0⟩

/-- A point of dimension 1 with weight `w`. -/
def weightedPoint (w c : ℚ) (assign : Nat) (cost : ℚ) : Point :=
  ⟨w, fun j => if j = 0 then c else 0, assign, cost⟩

/-- Four weighted points on a line: the open centers 0 (at 0, weight 1) and 1
(at -3, weight 2), point 2 (at -1, weight 1) and point 3 (at 10, weight 4),
both served by center 0.  Every point is served by its nearest open
center. -/
def nearestState : State :=
  ⟨⟨4, 1, fun i =>
      if i = 0 then weightedPoint 1 0 0 0
      else if i = 1 then weightedPoint 2 (-3) 1 0
      else if i = 2 then weightedPoint 1 (-1) 0 1
      else weightedPoint 4 10 0 400⟩,
    fun _ => false, fun i => decide (i < 2), fun _ => 0, fun _ => 0, 2, fun _ => 0, 0, 0⟩

/-- Four weighted points on a line, valid with two open centers in different
halves of the index range: center 0 (at 0, weight 1) with point 1 (at -1,
weight 1) and point 3 (at 10, weight 4), and center 2 (at -3, weight 2). -/
def raceState : State :=
  ⟨⟨4, 1, fun i =>
      if i = 0 then weightedPoint 1 0 0 0
      else if i = 1 then weightedPoint 1 (-1) 0 1
      else if i = 2 then weightedPoint 2 (-3) 2 0
      else weightedPoint 4 10 0 400⟩,
    fun _ => false, fun i => decide (i = 0 ∨ i = 2), fun _ => 0, fun _ => 0, 2,
    fun _ => 0, 0, 0⟩

/-! ## The points opened by `pspeedy` -/

/-- The loop of lines 742-767 of `pspeedy` up to round `m`, with the set of
the points opened so far beside the state: point 0, to which lines 700-704
assign every point, and every `i` on which the test of line 745 succeeded. -/
def pspeedy_scan (nproc : Nat) (lrand48 : Nat → Nat) (z : ℚ) (s : State) (m : Nat) :
    State × Finset Nat :=
  forLoop 1 m
    (fun i (a : State × Finset Nat) =>
      (pspeedy_step nproc lrand48 z i a.1,
        if ltDiv (toFloat (lrand48 a.1.draws) / toFloat INT_MAX) (a.1.points.p i).cost z then
          insert i a.2
        else a.2))
    ({ s with points := pspeedy_init nproc s.points, k := 1 }, {0})

/-- The set of the points that a call of `pspeedy` opens. -/
def pspeedy_opened (nproc : Nat) (lrand48 : Nat → Nat) (z : ℚ) (s : State) : Finset Nat :=
  (pspeedy_scan nproc lrand48 z s (pspeedy_init nproc s.points).num).2

/-- What the loop of `pspeedy` keeps, for the set `O` of the points opened
so far: every point is assigned to a member of `O`, at its weight times its
distance; the members of `O` serve themselves at cost 0; no member of `O` is
cheaper for a point than its recorded cost; `k` counts `O`. -/
structure SpeedyInv (O : Finset Nat) (t : State) : Prop where
  zero_mem : 0 ∈ O
  lt_num : ∀ c, c ∈ O → c < t.points.num
  weight_nonneg : ∀ j, j < t.points.num → 0 ≤ (t.points.p j).weight
  assign_mem : ∀ j, j < t.points.num → (t.points.p j).assign ∈ O
  self : ∀ c, c ∈ O → (t.points.p c).assign = c ∧ (t.points.p c).cost = 0
  cost_eq : ∀ j, j < t.points.num →
    (t.points.p j).cost =
      (t.points.p j).weight *
        dist (t.points.p j) (t.points.p (t.points.p j).assign) t.points.dim
  nearest : ∀ j c, j < t.points.num → c ∈ O →
    (t.points.p j).cost ≤
      (t.points.p j).weight * dist (t.points.p c) (t.points.p j) t.points.dim
  k_eq : t.k = O.card

/-- The marks of lines 1535-1537 of `pkmedian`: `is_center[assign[i]]` is set
for every point `i`. -/
def mark_assigned (s : State) : Nat → Bool :=
  forLoop 0 s.points.num (fun i c => Function.update c (s.points.p i).assign true) s.is_center

/-- Three points of dimension 1 in the state in which the program starts:
point 0 at 0 and point 1 at 10, of weight 1, and point 2 at 10, of
weight 0. -/
def zeroWeightState : State :=
  ⟨⟨3, 1, fun i =>
      if i = 0 then weightedPoint 1 0 0 0
      else if i = 1 then weightedPoint 1 10 0 0
      else weightedPoint 0 10 0 0⟩,
    fun _ => false, fun _ => false, fun _ => 0, fun _ => 0, 0, fun _ => 0, 0, 0⟩

/-! ## The gains of a call of `pFL` -/

/-- The calls of `pgain` of one pass of `pFL` (lines 1203-1206) on a feasible
set that is not empty: the values that they return, in the order of the
calls, and the state after the pass. -/
def pFL_pass_gains (nproc : Nat) (feasible : Nat → Nat) (numfeasible : Nat) (z : ℚ)
    (iter : Nat) (s : State) : List ℚ × State :=
  forLoop 0 iter
    (fun i (a : List ℚ × State) =>
      let r := pgain nproc (feasible (i % numfeasible)) z a.2
      (a.1 ++ [r.1], r.2))
    ([], s)

/-- The values returned by all calls of `pgain` that the loop of `pFL` makes
in at most `fuel` passes, in the order of the calls. -/
def pFL_gains (nproc : Nat) (lrand48 : Nat → Nat) (feasible : Nat → Nat) (numfeasible : Nat)
    (z : ℚ) (iter : Nat) (e : ℚ) : Nat → ℚ → ℚ → State → List ℚ
  | 0, _, _, _ => []
  | fuel + 1, change, cost, s =>
    if gtDiv change cost e then
      let s1 : State := { s with draws := (intshuffle lrand48 feasible numfeasible s.draws).2 }
      let g := pFL_pass_gains nproc feasible numfeasible z iter s1
      g.1 ++ pFL_gains nproc lrand48 feasible numfeasible z iter e fuel g.1.sum
        (cost - g.1.sum) g.2
    else []

/-- The four points of the line with all of them feasible. -/
def lineFeasibleState : State :=
  { lineState with numfeasible := 4 }

/-! ## The bracket of the binary search -/

/-- The bracket `loz ≤ z ≤ hiz` of the binary search of `pkmedian`, with `z`
its midpoint. -/
def ZOrdered (hiz loz z : ℚ) : Prop :=
  0 ≤ loz ∧ loz ≤ z ∧ z ≤ hiz ∧ z = (hiz + loz) / 2
/-! ## `pFL` and `pkmedian` when the workers of `pgain` run one after the other -/

/-- The pass of `pFL` (lines 1203-1206) when every call of `pgain` runs its
workers one after the other through lines 1001-1012. -/
def pFL_pass_inorder (nproc : Nat) (feasible : Nat → Nat) (numfeasible : Nat) (z : ℚ)
    (iter : Nat) (s : State) : Except Fault (ℚ × State) :=
  forLoop 0 iter
    (fun i (a : Except Fault (ℚ × State)) =>
      match a with
      | .error f => .error f
      | .ok (change, s) =>
        if numfeasible = 0 then .error Fault.div_by_zero
        else
          let x := i % numfeasible
          let r := pgain_inorder nproc (feasible x) z s
          .ok (change + r.1, r.2))
    (.ok (0, s))

/-- The `while` loop of `pFL` (lines 1192-1211) over `pFL_pass_inorder`, at
most `fuel` passes. -/
def pFL_loop_inorder (nproc : Nat) (lrand48 : Nat → Nat) (feasible : Nat → Nat)
    (numfeasible : Nat) (z : ℚ) (iter : Nat) (e : ℚ) :
    Nat → ℚ → ℚ → State → Except Fault (ℚ × State)
  | 0, change, cost, s =>
    if gtDiv change cost e then .error Fault.out_of_fuel else .ok (cost, s)
  | fuel + 1, change, cost, s =>
    if gtDiv change cost e then
      let s1 : State := { s with draws := (intshuffle lrand48 feasible numfeasible s.draws).2 }
      match pFL_pass_inorder nproc feasible numfeasible z iter s1 with
      | .error f => .error f
      | .ok (change', s2) =>
        pFL_loop_inorder nproc lrand48 feasible numfeasible z iter e fuel change'
          (cost - change') s2
    else .ok (cost, s)

/-- The function `pFL` over `pgain_inorder`. -/
def pFL_inorder (nproc : Nat) (lrand48 : Nat → Nat) (feasible : Nat → Nat) (numfeasible : Nat)
    (z : ℚ) (cost : ℚ) (iter : Nat) (e : ℚ) (fuel : Nat) (s : State) :
    Except Fault (ℚ × State) :=
  pFL_loop_inorder nproc lrand48 feasible numfeasible z iter e fuel cost cost s

/-- Lines 1547-1558 over `pFL_inorder`. -/
def pkmedian_round_inorder (nproc : Nat) (lrand48 : Nat → Nat) (kmin kmax iter : Nat)
    (fuel : Nat) (a : Search) : Except Fault Search :=
  match pFL_inorder nproc lrand48 a.state.feasible a.state.numfeasible a.z a.cost iter
      (1 / 10) fuel a.state with
  | .error f => .error f
  | .ok (c1, s1) =>
    if near_target kmin kmax s1.k then
      match pFL_inorder nproc lrand48 s1.feasible s1.numfeasible a.z c1 iter (1 / 1000) fuel
          s1 with
      | .error f => .error f
      | .ok (c2, s2) => .ok { a with cost := c2, state := s2 }
    else .ok { a with cost := c1, state := s1 }

/-- The binary search of lines 1544-1582 over `pFL_inorder`, at most `n`
rounds. -/
def pkmedian_search_inorder (nproc : Nat) (lrand48 : Nat → Nat) (kmin kmax iter : Nat)
    (fuel : Nat) : Nat → Search → Except Fault Search
  | 0, _ => .error Fault.out_of_fuel
  | n + 1, a =>
    match pkmedian_round_inorder nproc lrand48 kmin kmax iter fuel a with
    | .error f => .error f
    | .ok a2 =>
      let a4 := pkmedian_adjust kmin kmax a2
      if pkmedian_done kmin kmax a4 then .ok a4
      else pkmedian_search_inorder nproc lrand48 kmin kmax iter fuel n a4

/-- The function `pkmedian` over `pFL_inorder`: every call of `pgain` runs
its workers one after the other through lines 1001-1012. -/
def pkmedian_inorder (nproc : Nat) (lrand48 : Nat → Nat) (klogk : Nat → Nat)
    (kmin kmax : Nat) (fuel : Nat) (s : State) : Except Fault KMedianResult :=
  -- lines 1466-1479
  let hiz := pkmedian_hiz nproc s.points
  let loz : ℚ := 0
  let z := (hiz + loz) / 2
  if s.points.num ≤ kmax then
    -- lines 1492-1503
    let P := forLoop 0 nproc
      (fun pid (P : Points) =>
        forLoop (k1 P.num nproc pid) (k2 P.num nproc pid)
          (fun kk (P : Points) =>
            { P with p := Function.update P.p kk { P.p kk with assign := kk, cost := 0 } })
          P)
      s.points
    .ok ⟨0, s.k, hiz, loz, z, { s with points := P }⟩
  else
    -- lines 1505-1525
    let s1 := shuffle lrand48 s
    let r := pspeedy nproc lrand48 z s1
    let a1 := pkmedian_retry nproc lrand48 kmin SP ⟨hiz, loz, z, r.1, 0, r.2⟩
    match pkmedian_lower_z nproc lrand48 kmin fuel a1 with
    | .error f => .error f
    | .ok a2 =>
      -- lines 1532-1538
      let s3 := selectfeasible_fast lrand48 klogk kmin a2.state
      let s4 : State :=
        { s3 with
          is_center := forLoop 0 s3.points.num
            (fun i c => Function.update c (s3.points.p i).assign true) s3.is_center }
      -- lines 1544-1589
      match pkmedian_search_inorder nproc lrand48 kmin kmax (klogk kmax) fuel fuel
          { a2 with state := s4 } with
      | .error f => .error f
      | .ok a => .ok ⟨a.cost, a.state.k, a.hiz, a.loz, a.z, a.state⟩

/-! ## Four points in a row

Points of dimension 1 and weight 1 at 0, 1, 2 and 3; with two workers the
blocks are the points 0, 1 and the points 2, 3. -/

/-- The centers 0 and 3 are open; the points 1 and 2 are served by center 0
at the costs 1 and 4. -/
def row03State : State :=
  ⟨⟨4, 1, fun i =>
      if i = 0 then linePoint 0 0 0
      else if i = 1 then linePoint 1 0 1
      else if i = 2 then linePoint 2 0 4
      else linePoint 3 3 0⟩,
    fun _ => false, fun i => decide (i = 0 ∨ i = 3), fun _ => 0, fun _ => 0, 2,
    fun _ => 0, 0, 0⟩

/-- Every point is an open center that serves itself. -/
def rowSelfState : State :=
  ⟨⟨4, 1, fun i =>
      if i = 0 then linePoint 0 0 0
      else if i = 1 then linePoint 1 1 0
      else if i = 2 then linePoint 2 2 0
      else linePoint 3 3 0⟩,
    fun _ => false, fun i => decide (i < 4), fun _ => 0, fun _ => 0, 4,
    fun _ => 0, 0, 0⟩
/-! ## Loops and blocks -/

theorem forLoop_of_le {σ : Type} {lo hi : Nat} (body : Nat → σ → σ) (s : σ) (h : hi ≤ lo) :
    forLoop lo hi body s = s := by
  unfold forLoop
  rw [Nat.sub_eq_zero_of_le h]
  rfl

theorem forLoop_succ {σ : Type} {lo hi : Nat} (body : Nat → σ → σ) (s : σ) (h : lo ≤ hi) :
    forLoop lo (hi + 1) body s = body hi (forLoop lo hi body s) := by
  unfold forLoop
  rw [show hi + 1 - lo = (hi - lo) + 1 by omega, List.range'_concat, List.foldl_append]
  simp only [List.foldl_cons, List.foldl_nil, Nat.one_mul]
  rw [Nat.add_sub_cancel' h]

/-- Loop invariant rule for `forLoop`. -/
theorem forLoop_induction {σ : Type} {lo hi : Nat} (body : Nat → σ → σ) (s : σ)
    (Q : Nat → σ → Prop) (h : lo ≤ hi) (h0 : Q lo s)
    (hstep : ∀ i t, lo ≤ i → i < hi → Q i t → Q (i + 1) (body i t)) :
    Q hi (forLoop lo hi body s) := by
  have key : ∀ n (hn : lo ≤ n), n ≤ hi → Q n (forLoop lo n body s) := by
    intro n hn
    induction n, hn using Nat.le_induction with
    | base => intro _; rw [forLoop_of_le body s le_rfl]; exact h0
    | succ m hm ih =>
      intro hle
      rw [forLoop_succ body s hm]
      exact hstep m _ hm (by omega) (ih (by omega))
  exact key hi h le_rfl

theorem bnd_zero {N T : Nat} (h : 1 ≤ T) : bnd N T 0 = 0 := by
  simp [bnd, k1]; omega

theorem bnd_last (N T : Nat) : bnd N T T = N := by
  simp [bnd]

theorem k1_eq_bnd {N T p : Nat} (h : p < T) : k1 N T p = bnd N T p := by
  simp [bnd, Nat.not_le.mpr h]

theorem k2_eq_bnd {N T p : Nat} (h : p < T) :
    k2 N T p = bnd N T (p + 1) := by
  unfold k2 bnd k1
  by_cases hp : p = T - 1
  · have : T ≤ p + 1 := by omega
    rw [if_pos hp, if_pos this]
  · have : ¬ T ≤ p + 1 := by omega
    rw [if_neg hp, if_neg this, Nat.mul_succ]

theorem bnd_mono_succ {N T : Nat} (p : Nat) :
    bnd N T p ≤ bnd N T (p + 1) := by
  unfold bnd k1 bsize
  by_cases h1 : T ≤ p
  · have : T ≤ p + 1 := by omega
    simp [h1, this]
  · by_cases h2 : T ≤ p + 1
    · simp only [h1, h2, if_true, if_false]
      calc N / T * p ≤ N / T * T := Nat.mul_le_mul_left _ (by omega)
        _ ≤ N := Nat.div_mul_le_self N T
    · simp only [h1, h2, if_false]
      exact Nat.mul_le_mul_left _ (by omega)

theorem bnd_mono {N T : Nat} {p q : Nat} (h : p ≤ q) :
    bnd N T p ≤ bnd N T q := by
  induction q, h using Nat.le_induction with
  | base => exact le_rfl
  | succ m _ ih => exact le_trans ih (bnd_mono_succ m)

theorem bnd_le_num {N T : Nat} (p : Nat) : bnd N T p ≤ N := by
  by_cases h : p ≤ T
  · have := bnd_mono (N := N) (T := T) h
    rwa [bnd_last] at this
  · have : T ≤ p := by omega
    simp [bnd, this]

theorem k1_le_k2 {N T p : Nat} (h : p < T) : k1 N T p ≤ k2 N T p := by
  rw [k1_eq_bnd h, k2_eq_bnd h]; exact bnd_mono_succ p

theorem block_disjoint {N T p q : Nat} (hq : q < T) (hpq : p < q) :
    k2 N T p ≤ k1 N T q := by
  rw [k2_eq_bnd (by omega), k1_eq_bnd hq]
  exact bnd_mono (by omega)

/-- Invariant rule for a loop over the workers: a property indexed by the
number of processed indices is carried from block boundary to block
boundary. -/
theorem workers_induction {σ : Type} {N T : Nat} (hT : 1 ≤ T) (g : Nat → σ → σ)
    (s : σ) (Q : Nat → σ → Prop) (h0 : Q 0 s)
    (hstep : ∀ pid t, pid < T → Q (k1 N T pid) t → Q (k2 N T pid) (g pid t)) :
    Q N (forLoop 0 T g s) := by
  have := forLoop_induction g s (fun m t => Q (bnd N T m) t) (Nat.zero_le T)
    (by simpa [bnd_zero hT] using h0)
    (fun i t _ hi hQ => by
      have h := hstep i t hi (by rw [k1_eq_bnd hi]; exact hQ)
      rwa [k2_eq_bnd hi] at h)
  simpa [bnd_last] using this

/-- Invariant rule for the nested loop "every worker walks its block". -/
theorem blocks_induction {σ : Type} {N T : Nat} (hT : 1 ≤ T)
    (body : Nat → Nat → σ → σ) (s : σ) (Q : Nat → σ → Prop) (h0 : Q 0 s)
    (hstep : ∀ pid i t, pid < T → k1 N T pid ≤ i → i < k2 N T pid →
      Q i t → Q (i + 1) (body pid i t)) :
    Q N (forLoop 0 T
      (fun pid t => forLoop (k1 N T pid) (k2 N T pid) (body pid) t) s) := by
  apply workers_induction hT _ s Q h0
  intro pid t hpid hQ
  exact forLoop_induction (body pid) t Q (k1_le_k2 hpid) hQ
    (fun i u h1 h2 hu => hstep pid i u hpid h1 h2 hu)

/-! ## The rebuild of `center_table` -/

theorem centersIn_self (c : Nat → Bool) (a : Nat) : centersIn c a a = 0 := by
  simp [centersIn]

theorem centersIn_succ (c : Nat → Bool) {a b : Nat} (h : a ≤ b) :
    centersIn c a (b + 1) = centersIn c a b + (if c b then 1 else 0) := by
  unfold centersIn
  rw [Nat.Ico_succ_right_eq_insert_Ico h, Finset.filter_insert]
  by_cases hb : c b = true
  · rw [if_pos hb, if_pos hb, Finset.card_insert_of_not_mem]
    simp
  · rw [if_neg hb, if_neg hb]; rfl

theorem centersIn_add (c : Nat → Bool) {a b d : Nat} (h1 : a ≤ b) (h2 : b ≤ d) :
    centersIn c a b + centersIn c b d = centersIn c a d := by
  induction d, h2 using Nat.le_induction with
  | base => simp [centersIn_self]
  | succ m hm ih =>
    rw [centersIn_succ c hm, centersIn_succ c (le_trans h1 hm), ← ih]
    omega

theorem castInt_natCast (n : Nat) : castInt (n : ℚ) = n := by
  simp [castInt]

theorem count_block (c : Nat → Bool) {lo hi : Nat} (h : lo ≤ hi) (C : Nat → Nat) :
    (forLoop lo hi
      (fun i (a : (Nat → Nat) × Nat) =>
        if c i then (Function.update a.1 i a.2, a.2 + 1) else a) (C, 0)).2 = centersIn c lo hi ∧
    ∀ j, (forLoop lo hi
      (fun i (a : (Nat → Nat) × Nat) =>
        if c i then (Function.update a.1 i a.2, a.2 + 1) else a) (C, 0)).1 j =
      if lo ≤ j ∧ j < hi ∧ c j = true then centersIn c lo j else C j := by
  refine forLoop_induction _ (C, 0)
    (fun n a => a.2 = centersIn c lo n ∧
      ∀ j, a.1 j = if lo ≤ j ∧ j < n ∧ c j = true then centersIn c lo j else C j) h ?_ ?_
  · refine ⟨(centersIn_self c lo).symm, fun j => ?_⟩
    rw [if_neg (by omega)]
  · rintro i ⟨t, n⟩ hlo _ ⟨h2, h1⟩
    simp only at h1 h2
    by_cases hc : c i = true
    · simp only [hc, if_true]
      refine ⟨by rw [centersIn_succ c hlo, h2]; simp [hc], fun j => ?_⟩
      by_cases hj : j = i
      · subst hj
        simp [hc, hlo, h2]
      · rw [Function.update_noteq hj, h1 j]
        by_cases hj' : lo ≤ j ∧ j < i ∧ c j = true
        · rw [if_pos hj', if_pos ⟨hj'.1, by omega, hj'.2.2⟩]
        · rw [if_neg hj', if_neg]
          rintro ⟨a1, a2, a3⟩
          exact hj' ⟨a1, by omega, a3⟩
    · simp only [hc, Bool.false_eq_true, if_false]
      refine ⟨by rw [centersIn_succ c hlo, h2]; simp [hc], fun j => ?_⟩
      rw [h1 j]
      by_cases hj' : lo ≤ j ∧ j < i ∧ c j = true
      · rw [if_pos hj', if_pos ⟨hj'.1, by omega, hj'.2.2⟩]
      · rw [if_neg hj', if_neg]
        rintro ⟨a1, a2, a3⟩
        have : j ≠ i := by rintro rfl; exact hc a3
        exact hj' ⟨a1, by omega, a3⟩

theorem offset_block (c : Nat → Bool) {lo hi : Nat} (h : lo ≤ hi) (off : Nat) (C : Nat → Nat) :
    ∀ j, (forLoop lo hi
      (fun i (t : Nat → Nat) => if c i then Function.update t i (t i + off) else t) C) j =
      if lo ≤ j ∧ j < hi ∧ c j = true then C j + off else C j := by
  refine forLoop_induction _ C
    (fun n t => ∀ j, t j = if lo ≤ j ∧ j < n ∧ c j = true then C j + off else C j) h ?_ ?_
  · intro j; rw [if_neg (by omega)]
  · intro i t hlo _ h1 j
    by_cases hc : c i = true
    · simp only [hc, if_true]
      by_cases hj : j = i
      · subst hj
        rw [Function.update_same, h1 j, if_neg (by omega), if_pos ⟨hlo, by omega, hc⟩]
      · rw [Function.update_noteq hj, h1 j]
        by_cases hj' : lo ≤ j ∧ j < i ∧ c j = true
        · rw [if_pos hj', if_pos ⟨hj'.1, by omega, hj'.2.2⟩]
        · rw [if_neg hj', if_neg]
          rintro ⟨a1, a2, a3⟩
          exact hj' ⟨a1, by omega, a3⟩
    · simp only [hc, Bool.false_eq_true, if_false]
      rw [h1 j]
      by_cases hj' : lo ≤ j ∧ j < i ∧ c j = true
      · rw [if_pos hj', if_pos ⟨hj'.1, by omega, hj'.2.2⟩]
      · rw [if_neg hj', if_neg]
        rintro ⟨a1, a2, a3⟩
        have : j ≠ i := by rintro rfl; exact hc a3
        exact hj' ⟨a1, by omega, a3⟩

theorem mul_strd_ne {S p q : Nat} (hs : 1 ≤ S) (h : p ≠ q) : p * S ≠ q * S := by
  intro e
  exact h (Nat.eq_of_mul_eq_mul_right (by omega) e)

/-- After the count of every worker: each center holds its rank inside its
block, and each strip starts with the number of centers of its block. -/
theorem pgain_count_all {T N S : Nat} (hs : 1 ≤ S)
    (c : Nat → Bool) (C : Nat → Nat) (wm : Nat → ℚ) :
    ∀ q, q < T →
      (forLoop 0 T (pgain_count T N S c) (C, wm)).2 (q * S) =
        (centersIn c (k1 N T q) (k2 N T q) : ℚ) ∧
      ∀ j, k1 N T q ≤ j → j < k2 N T q → c j = true →
        (forLoop 0 T (pgain_count T N S c) (C, wm)).1 j =
          centersIn c (k1 N T q) j := by
  have key := forLoop_induction (pgain_count T N S c) (C, wm)
    (fun m a => m ≤ T → ∀ q, q < m →
      a.2 (q * S) = (centersIn c (k1 N T q) (k2 N T q) : ℚ) ∧
      ∀ j, k1 N T q ≤ j → j < k2 N T q → c j = true →
        a.1 j = centersIn c (k1 N T q) j) (Nat.zero_le T)
    (fun _ q hq => absurd hq (Nat.not_lt_zero q))
    (fun m a _ hm ih _ q hq => by
      have hb := count_block c (k1_le_k2 (N := N) hm) a.1
      by_cases hqm : q = m
      · subst hqm
        refine ⟨?_, fun j h1 h2 h3 => ?_⟩
        · simp only [pgain_count, Function.update_same, hb.1]
        · simp only [pgain_count]
          rw [hb.2 j, if_pos ⟨h1, h2, h3⟩]
      · have hlt : q < m := by omega
        obtain ⟨i1, i2⟩ := ih (by omega) q hlt
        refine ⟨?_, fun j h1 h2 h3 => ?_⟩
        · simp only [pgain_count]
          rw [Function.update_noteq (mul_strd_ne hs hqm), i1]
        · simp only [pgain_count]
          have := block_disjoint (N := N) hm hlt
          rw [hb.2 j, if_neg (by omega), i2 j h1 h2 h3])
  exact key le_rfl

/-- After the prefix sum of worker 0: each strip starts with the number of
centers in front of its block. -/
theorem pgain_scan_spec {T N S : Nat} (hT : 1 ≤ T) (hs : 1 ≤ S) (c : Nat → Bool)
    (wm : Nat → ℚ)
    (hwm : ∀ q, q < T → wm (q * S) = (centersIn c (k1 N T q) (k2 N T q) : ℚ)) :
    ∀ q, q < T → pgain_scan T S wm (q * S) = (centersIn c 0 (k1 N T q) : ℚ) := by
  have key := forLoop_induction
    (fun p (a : (Nat → ℚ) × Nat) =>
      let tmp := castInt (a.1 (p * S))
      (Function.update a.1 (p * S) (a.2 : ℚ), a.2 + tmp)) (wm, 0)
    (fun m a => m ≤ T → a.2 = centersIn c 0 (bnd N T m) ∧
      (∀ q, q < m → a.1 (q * S) = (centersIn c 0 (k1 N T q) : ℚ)) ∧
      (∀ q, m ≤ q → q < T →
        a.1 (q * S) = (centersIn c (k1 N T q) (k2 N T q) : ℚ)))
    (Nat.zero_le T)
    (fun h => by
      refine ⟨?_, fun q hq => absurd hq (Nat.not_lt_zero q), fun q _ hq => hwm q hq⟩
      rw [bnd_zero hT, centersIn_self])
    (fun m a _ hm ih _ => by
      obtain ⟨i1, i2, i3⟩ := ih (by omega)
      refine ⟨?_, fun q hq => ?_, fun q hq1 hq2 => ?_⟩
      · simp only
        rw [i3 m le_rfl hm, castInt_natCast, i1, k1_eq_bnd hm, k2_eq_bnd hm]
        exact centersIn_add c (Nat.zero_le _) (bnd_mono_succ m)
      · simp only
        by_cases hqm : q = m
        · subst hqm
          rw [Function.update_same, i1, k1_eq_bnd hm]
        · rw [Function.update_noteq (mul_strd_ne hs hqm)]
          exact i2 q (by omega)
      · simp only
        rw [Function.update_noteq (mul_strd_ne hs (by omega))]
        exact i3 q (by omega) hq2)
  intro q hq
  exact (key le_rfl).2.1 q hq

/-- Lines 976-1005: after the rebuild the table holds, for every open center
below `num`, the number of open centers in front of it; other entries keep
their old value. -/
theorem pgain_table_spec {T N S : Nat} (hT : 1 ≤ T) (hs : 1 ≤ S)
    (c : Nat → Bool) (C : Nat → Nat) (wm : Nat → ℚ) (j : Nat) :
    (pgain_table T N S c C wm).1 j =
      if j < N ∧ c j = true then centersIn c 0 j else C j := by
  have hA := pgain_count_all (T := T) (N := N) hs c C wm
  have hB := pgain_scan_spec (N := N) hT hs c
    (forLoop 0 T (pgain_count T N S c) (C, wm)).2 (fun q hq => (hA q hq).1)
  -- entries outside the blocks and entries of closed points are never written
  have hA' : ∀ j, ¬ (j < N ∧ c j = true) →
      (forLoop 0 T (pgain_count T N S c) (C, wm)).1 j = C j := by
    intro j hj
    refine forLoop_induction (pgain_count T N S c) (C, wm)
      (fun m a => m ≤ T → a.1 j = C j) (Nat.zero_le T) (fun _ => rfl)
      (fun m a _ hm ih _ => ?_) le_rfl
    have hb := count_block c (k1_le_k2 (N := N) hm) a.1
    simp only [pgain_count]
    rw [hb.2 j, if_neg, ih (by omega)]
    rintro ⟨_, a2, a3⟩
    have := bnd_le_num (N := N) (T := T) (m + 1)
    rw [← k2_eq_bnd hm] at this
    exact hj ⟨by omega, a3⟩
  unfold pgain_table
  simp only
  generalize hct1 : (forLoop 0 T (pgain_count T N S c) (C, wm)) = a at hA hB hA'
  have key := workers_induction (N := N) hT
    (pgain_offset T N S c (pgain_scan T S a.2)) a.1
    (fun n t => ∀ j, t j = if j < n ∧ c j = true then centersIn c 0 j else a.1 j)
    (fun j => by rw [if_neg (by omega)])
    (fun pid t hpid ih j => by
      unfold pgain_offset
      rw [offset_block c (k1_le_k2 hpid), ih j, hB pid hpid, castInt_natCast]
      by_cases hj : k1 N T pid ≤ j ∧ j < k2 N T pid ∧ c j = true
      · rw [if_pos hj, if_neg (by omega), if_pos ⟨hj.2.1, hj.2.2⟩,
          (hA pid hpid).2 j hj.1 hj.2.1 hj.2.2, add_comm]
        exact centersIn_add c (Nat.zero_le _) hj.1
      · rw [if_neg hj]
        have := k1_le_k2 (N := N) hpid
        by_cases hj' : j < k1 N T pid ∧ c j = true
        · rw [if_pos hj', if_pos ⟨by omega, hj'.2⟩]
        · rw [if_neg hj', if_neg]
          rintro ⟨a1, a2⟩
          by_cases h3 : j < k1 N T pid
          · exact hj' ⟨h3, a2⟩
          · exact hj ⟨by omega, a1, a2⟩)
  rw [key j]
  by_cases hj : j < N ∧ c j = true
  · rw [if_pos hj, if_pos hj]
  · rw [if_neg hj, if_neg hj, hA' j hj]

/-! ## Sums over blocks and strips -/

theorem forLoop_sum (n : Nat) (f : Nat → ℚ) (z : ℚ) :
    forLoop 0 n (fun p acc => acc + f p) z = z + ∑ p ∈ Finset.range n, f p := by
  refine forLoop_induction _ z (fun m a => a = z + ∑ p ∈ Finset.range m, f p)
    (Nat.zero_le n) (by simp) (fun i t _ _ ht => ?_)
  show t + f i = z + ∑ p ∈ Finset.range (i + 1), f p
  have ht' : t = z + ∑ p ∈ Finset.range i, f p := ht
  rw [ht', Finset.sum_range_succ]; ring

/-- The blocks of the workers partition `[0, num)`. -/
theorem sum_blocks {M : Type} [AddCommMonoid M] {N T : Nat} (hT : 1 ≤ T)
    (f : Nat → M) :
    ∑ p ∈ Finset.range T, ∑ i ∈ Finset.Ico (k1 N T p) (k2 N T p), f i =
      ∑ i ∈ Finset.range N, f i := by
  have key : ∀ m, m ≤ T →
      ∑ p ∈ Finset.range m, ∑ i ∈ Finset.Ico (k1 N T p) (k2 N T p), f i =
        ∑ i ∈ Finset.Ico 0 (bnd N T m), f i := by
    intro m
    induction m with
    | zero => intro _; simp [bnd_zero hT]
    | succ m ih =>
      intro hm
      rw [Finset.sum_range_succ, ih (by omega), k1_eq_bnd (by omega), k2_eq_bnd (by omega)]
      exact Finset.sum_Ico_consecutive f (Nat.zero_le _) (bnd_mono_succ m)
  rw [key T le_rfl, bnd_last, Finset.range_eq_Ico]

theorem sum_filter_lt_succ {M : Type} [AddCommMonoid M] (S : Finset Nat) (A : Nat → Prop)
    [DecidablePred A] (g : Nat → M) (n : Nat) :
    ∑ i ∈ S.filter (fun i => i < n + 1 ∧ A i), g i =
      ∑ i ∈ S.filter (fun i => i < n ∧ A i), g i + (if n ∈ S ∧ A n then g n else 0) := by
  have h2 : (if n ∈ S ∧ A n then g n else 0) = ∑ i ∈ S, if i = n ∧ A i then g i else 0 := by
    by_cases hn : n ∈ S
    · rw [Finset.sum_eq_single n]
      · simp [hn]
      · intro b _ hb; simp [hb]
      · intro h; exact absurd hn h
    · rw [if_neg (fun h => hn h.1)]
      symm
      apply Finset.sum_eq_zero
      intro i hi
      rw [if_neg]
      rintro ⟨rfl, _⟩
      exact hn hi
  rw [h2, Finset.sum_filter, Finset.sum_filter, ← Finset.sum_add_distrib]
  apply Finset.sum_congr rfl
  intro i _
  by_cases hA : A i
  · rcases Nat.lt_trichotomy i n with h | h | h
    · simp [hA, h, Nat.lt_succ_of_lt h, Nat.ne_of_lt h]
    · subst h; simp [hA]
    · have h1 : ¬ i < n + 1 := by omega
      have h3 : ¬ i < n := by omega
      have h4 : i ≠ n := by omega
      simp [hA, h1, h3, h4]
  · simp [hA]

theorem slot_lt {S p c T : Nat} (hp : p < T) (hc : c < S) : p * S + c < T * S := by
  calc p * S + c < p * S + S := by omega
    _ = (p + 1) * S := by ring
    _ ≤ T * S := Nat.mul_le_mul_right _ hp

theorem slot_inj {S p c q d : Nat} (hc : c < S) (hd : d < S)
    (h : p * S + c = q * S + d) : p = q ∧ c = d := by
  have hs : 0 < S := by omega
  have h1 : (p * S + c) / S = p := by
    rw [add_comm, Nat.add_mul_div_right _ _ hs, Nat.div_eq_of_lt hc, zero_add]
  have h2 : (q * S + d) / S = q := by
    rw [add_comm, Nat.add_mul_div_right _ _ hs, Nat.div_eq_of_lt hd, zero_add]
  have hpq : p = q := by rw [← h1, ← h2, h]
  subst hpq
  exact ⟨rfl, by omega⟩

/-! ## The phases of `pgain` -/

/-- Lines 1008-1012: after the `fill`s of all workers the scratch is clear. -/
theorem pgain_clear_all {T N S : Nat} (hT : 1 ≤ T)
    (sw : Nat → Bool) (wm : Nat → ℚ) :
    (∀ j, j < N → (forLoop 0 T (pgain_clear T N S) (sw, wm)).1 j = false) ∧
    (∀ j, j < S * (T + 1) →
      (forLoop 0 T (pgain_clear T N S) (sw, wm)).2 j = 0) := by
  have key := forLoop_induction (pgain_clear T N S) (sw, wm)
    (fun m a => 1 ≤ m → (∀ j, j < N → a.1 j = false) ∧
      (∀ j, j < S * (T + 1) → a.2 j = 0)) (Nat.zero_le T)
    (fun h => absurd h (by omega))
    (fun m a _ _ ih _ => by
      by_cases hm : m = 0
      · subst hm
        refine ⟨fun j hj => ?_, fun j hj => ?_⟩
        · simp [pgain_clear, k1, hj]
        · simp [pgain_clear, hj]
      · obtain ⟨i1, i2⟩ := ih (by omega)
        refine ⟨fun j hj => ?_, fun j hj => ?_⟩
        · simp only [pgain_clear]
          split
          · rfl
          · exact i1 j hj
        · simp only [pgain_clear, if_neg hm]
          split
          · rfl
          · exact i2 j hj)
  exact key hT

theorem block_unique {N T p q n : Nat} (hp : p < T) (hq : q < T)
    (h1 : k1 N T p ≤ n) (h2 : n < k2 N T p)
    (h3 : k1 N T q ≤ n) (h4 : n < k2 N T q) : p = q := by
  rcases Nat.lt_trichotomy p q with h | h | h
  · have := block_disjoint (N := N) hq h; omega
  · exact h
  · have := block_disjoint (N := N) hp h; omega

theorem k2_le_num {N T p : Nat} (hp : p < T) : k2 N T p ≤ N := by
  rw [k2_eq_bnd hp]; exact bnd_le_num _

theorem lower_step {T S : Nat} {P : Points} {C : Nat → Nat} {x : Nat}
    (hct : ∀ i, i < P.num → C (P.p i).assign < S)
    {pid n : Nat} {w : Work} (hpid : pid < T)
    (h1 : k1 P.num T pid ≤ n) (h2 : n < k2 P.num T pid)
    (hw : LowerInv T S P C x n w) :
    LowerInv T S P C x (n + 1)
      (if dist (P.p n) (P.p x) P.dim * (P.p n).weight < (P.p n).cost then
        { w with
          switch_membership := Function.update w.switch_membership n true
          cost_of_opening_x := Function.update w.cost_of_opening_x pid
            (w.cost_of_opening_x pid +
              (dist (P.p n) (P.p x) P.dim * (P.p n).weight - (P.p n).cost)) }
      else
        { w with
          work_mem := Function.update w.work_mem (pid * S + C (P.p n).assign)
            (w.work_mem (pid * S + C (P.p n).assign) +
              ((P.p n).cost - dist (P.p n) (P.p x) P.dim * (P.p n).weight)) }) := by
  have hn : n < P.num := lt_of_lt_of_le h2 (k2_le_num hpid)
  have hmem : n ∈ Finset.Ico (k1 P.num T pid) (k2 P.num T pid) :=
    Finset.mem_Ico.mpr ⟨h1, h2⟩
  have hnot : ∀ p, p < T → p ≠ pid →
      n ∉ Finset.Ico (k1 P.num T p) (k2 P.num T p) := by
    intro p hp hne hm
    rw [Finset.mem_Ico] at hm
    exact hne (block_unique hp hpid hm.1 hm.2 h1 h2)
  by_cases hs : switches P x n
  · have hs' : dist (P.p n) (P.p x) P.dim * (P.p n).weight < (P.p n).cost := hs
    rw [if_pos hs']
    refine ⟨fun i hi => ?_, fun p c hp hc => ?_, fun c hc => hw.gl c hc, fun p hp => ?_,
      fun p => hw.ncl p⟩
    · by_cases hin : i = n
      · subst hin; simp [hs]
      · simp only [Function.update_noteq hin]
        rw [hw.sw i hi]
        exact decide_eq_decide.mpr ⟨fun h => ⟨by omega, h.2⟩, fun h => ⟨by omega, h.2⟩⟩
    · show w.work_mem (p * S + c) = _
      rw [hw.wm p c hp hc, sum_filter_lt_succ, if_neg (fun h => h.2.1 hs), add_zero]
    · rw [sum_filter_lt_succ]
      by_cases hpp : p = pid
      · subst hpp
        simp only [Function.update_same]
        rw [hw.cox p hp, if_pos ⟨hmem, hs⟩]; rfl
      · simp only [Function.update_noteq hpp]
        rw [hw.cox p hp, if_neg (fun h => hnot p hp hpp h.1), add_zero]
  · have hs' : ¬ dist (P.p n) (P.p x) P.dim * (P.p n).weight < (P.p n).cost := hs
    rw [if_neg hs']
    refine ⟨fun i hi => ?_, fun p c hp hc => ?_, fun c hc => ?_, fun p hp => ?_,
      fun p => hw.ncl p⟩
    · show w.switch_membership i = _
      rw [hw.sw i hi]
      by_cases hin : i = n
      · subst hin; simp [hs]
      · exact decide_eq_decide.mpr ⟨fun h => ⟨by omega, h.2⟩, fun h => ⟨by omega, h.2⟩⟩
    · rw [sum_filter_lt_succ]
      by_cases hslot : p * S + c = pid * S + C (P.p n).assign
      · obtain ⟨e1, e2⟩ := slot_inj hc (hct n hn) hslot
        subst e1
        subst e2
        simp only [Function.update_same]
        rw [hw.wm p _ hp hc, if_pos ⟨hmem, hs, trivial⟩]; rfl
      · simp only [Function.update_noteq hslot]
        rw [hw.wm p c hp hc, if_neg, add_zero]
        rintro ⟨a1, _, a3⟩
        apply hslot
        have : p = pid := by
          by_contra hne
          exact hnot p hp hne a1
        rw [this, a3]
    · have : T * S + c ≠ pid * S + C (P.p n).assign := by
        have := slot_lt (T := T) hpid (hct n hn)
        omega
      simp only [Function.update_noteq this]
      exact hw.gl c hc
    · show w.cost_of_opening_x p = _
      rw [hw.cox p hp, sum_filter_lt_succ, if_neg (fun h => hs h.2), add_zero]

/-- Lines 1023-1049: what the scratch holds once every worker has walked its
block. -/
theorem pgain_lower_all {T S : Nat} {P : Points} {C : Nat → Nat} {x : Nat}
    (hT : 1 ≤ T) (hct : ∀ i, i < P.num → C (P.p i).assign < S)
    (w0 : Work) (h1 : ∀ i, i < P.num → w0.switch_membership i = false)
    (h2 : ∀ j, j < S * (T + 1) → w0.work_mem j = 0)
    (h3 : ∀ p, w0.cost_of_opening_x p = 0) (h4 : ∀ p, w0.number_of_centers_to_close p = 0) :
    LowerInv T S P C x P.num (forLoop 0 T (pgain_lower T S P C x) w0) := by
  unfold pgain_lower
  refine blocks_induction (N := P.num) hT _ w0 (LowerInv T S P C x) ?_ ?_
  · refine ⟨fun i hi => ?_, fun p c hp hc => ?_, fun c hc => ?_, fun p _ => ?_, h4⟩
    · simp [h1 i hi]
    · rw [h2 _ (by have := slot_lt (T := T) hp hc; nlinarith)]
      simp
    · rw [h2 _ (by nlinarith)]
    · rw [h3 p]; simp
  · intro pid i t hpid ha hb ht
    exact lower_step hct hpid ha hb ht

theorem card_filter_lt_succ (S : Finset Nat) (A : Nat → Prop) [DecidablePred A] (n : Nat) :
    (S.filter (fun i => i < n + 1 ∧ A i)).card =
      (S.filter (fun i => i < n ∧ A i)).card + (if n ∈ S ∧ A n then 1 else 0) := by
  rw [Finset.card_eq_sum_ones, Finset.card_eq_sum_ones, sum_filter_lt_succ]

theorem filter_lt_of_le {S : Finset Nat} {A : Nat → Prop} [DecidablePred A] {n : Nat}
    (h : ∀ i ∈ S, i < n) : S.filter (fun i => i < n ∧ A i) = S.filter A := by
  apply Finset.filter_congr
  intro i hi
  simp [h i hi]

theorem filter_lt_of_ge {S : Finset Nat} {A : Nat → Prop} [DecidablePred A] {n : Nat}
    (h : ∀ i ∈ S, n ≤ i) : S.filter (fun i => i < n ∧ A i) = ∅ := by
  apply Finset.filter_eq_empty_iff.mpr
  intro i hi hh
  have := h i hi
  omega

theorem close_step {T S K N : Nat} {I : Nat → Bool} {C : Nat → Nat}
    {z : ℚ} {w1 : Work} (hK : K + 2 ≤ S)
    (hct : ∀ i, i < N → I i = true → C i < K)
    {pid n : Nat} {w : Work} (hpid : pid < T)
    (h1 : k1 N T pid ≤ n) (h2 : n < k2 N T pid)
    (hw : CloseInv T S K N I C
      (fun c => z + ∑ p ∈ Finset.range T, w1.work_mem (p * S + c)) w1 pid n w) :
    CloseInv T S K N I C
      (fun c => z + ∑ p ∈ Finset.range T, w1.work_mem (p * S + c)) w1 pid (n + 1)
      (if I n then
        let low := forLoop 0 T
          (fun p low => low + w.work_mem (C n + p * S)) z
        let w2 : Work :=
          { w with work_mem := Function.update w.work_mem (T * S + C n) low }
        if low > 0 then
          { w2 with
            number_of_centers_to_close := Function.update w2.number_of_centers_to_close pid
              (w2.number_of_centers_to_close pid + 1)
            cost_of_opening_x := Function.update w2.cost_of_opening_x pid
              (w2.cost_of_opening_x pid - low) }
        else w2
      else w) := by
  have hn : n < N := lt_of_lt_of_le h2 (k2_le_num hpid)
  have hmem : n ∈ Finset.Ico (k1 N T pid) (k2 N T pid) :=
    Finset.mem_Ico.mpr ⟨h1, h2⟩
  by_cases hc : I n = true
  · have hlow : forLoop 0 T (fun p low => low + w.work_mem (C n + p * S)) z =
        z + ∑ p ∈ Finset.range T, w1.work_mem (p * S + C n) := by
      rw [forLoop_sum]
      congr 1
      apply Finset.sum_congr rfl
      intro p hp
      rw [add_comm (C n), hw.low p (C n) (Finset.mem_range.mp hp) (hct n hn hc)]
    have hcn := hct n hn hc
    have hglne : ∀ p c, p < T → c < S → p * S + c ≠ T * S + C n := by
      intro p c hp hc'
      have := slot_lt (T := T) hp hc'
      omega
    simp only [hc, if_true, hlow]
    -- facts shared by both branches
    have hgl : ∀ i, i < n + 1 → I i = true →
        Function.update w.work_mem (T * S + C n)
          (z + ∑ p ∈ Finset.range T, w1.work_mem (p * S + C n)) (T * S + C i) =
        z + ∑ p ∈ Finset.range T, w1.work_mem (p * S + C i) := by
      intro i hi hci
      by_cases hcti : C i = C n
      · rw [hcti, Function.update_same]
      · rw [Function.update_noteq (by omega)]
        have : i ≠ n := by rintro rfl; exact hcti rfl
        exact hw.gl i (by omega) hci
    split
    · rename_i hpos
      refine ⟨hw.sw, fun p c hp hc' => ?_, hgl, fun p hp => ?_, ?_, ?_, fun p hp => ?_⟩
      · show Function.update w.work_mem _ _ _ = _
        rw [Function.update_noteq (hglne p c hp (by omega))]
        exact hw.low p c hp hc'
      · show Function.update w.work_mem _ _ _ = _ ∧ Function.update w.work_mem _ _ _ = _
        rw [Function.update_noteq (hglne p K (by omega) (by omega)),
          Function.update_noteq (by
            have := hglne p (K + 1) (by omega) (by omega)
            omega)]
        exact hw.done p hp
      · simp only [Function.update_same]
        rw [hw.ncl, card_filter_lt_succ, if_pos ⟨hmem, hc, hpos⟩]
      · simp only [Function.update_same]
        rw [hw.cox, sum_filter_lt_succ, if_pos ⟨hmem, hc, hpos⟩]
        ring
      · simp only [Function.update_noteq (Nat.ne_of_gt hp)]
        exact hw.later p hp
    · rename_i hpos
      refine ⟨hw.sw, fun p c hp hc' => ?_, hgl, fun p hp => ?_, ?_, ?_, fun p hp => hw.later p hp⟩
      · show Function.update w.work_mem _ _ _ = _
        rw [Function.update_noteq (hglne p c hp (by omega))]
        exact hw.low p c hp hc'
      · show Function.update w.work_mem _ _ _ = _ ∧ Function.update w.work_mem _ _ _ = _
        rw [Function.update_noteq (hglne p K (by omega) (by omega)),
          Function.update_noteq (by
            have := hglne p (K + 1) (by omega) (by omega)
            omega)]
        exact hw.done p hp
      · show w.number_of_centers_to_close pid = _
        rw [hw.ncl, card_filter_lt_succ, if_neg (fun h => hpos h.2.2), add_zero]
      · show w.cost_of_opening_x pid = _
        rw [hw.cox, sum_filter_lt_succ, if_neg (fun h => hpos h.2.2), add_zero]
  · rw [if_neg hc]
    refine ⟨hw.sw, hw.low, fun i hi hci => ?_, hw.done, ?_, ?_, hw.later⟩
    · have : i ≠ n := by rintro rfl; exact hc hci
      exact hw.gl i (by omega) hci
    · rw [hw.ncl, card_filter_lt_succ, if_neg (fun h => hc h.2.1), add_zero]
    · rw [hw.cox, sum_filter_lt_succ, if_neg (fun h => hc h.2.1), add_zero]

/-- Lines 1058-1078: what the scratch holds once every worker is done. -/
theorem pgain_close_all {T S K N : Nat} {I : Nat → Bool} {C : Nat → Nat}
    {z : ℚ} (hT : 1 ≤ T) (hK : K + 2 ≤ S)
    (hct : ∀ i, i < N → I i = true → C i < K)
    (w1 : Work) (hncl : ∀ p, w1.number_of_centers_to_close p = 0) :
    CloseDone T S K N I C
      (fun c => z + ∑ p ∈ Finset.range T, w1.work_mem (p * S + c)) w1 T
      (forLoop 0 T (pgain_close T S K N I C z) w1) := by
  refine forLoop_induction (pgain_close T S K N I C z) w1
    (fun m w => CloseDone T S K N I C
      (fun c => z + ∑ p ∈ Finset.range T, w1.work_mem (p * S + c)) w1 m w)
    (Nat.zero_le T) ?_ ?_
  · refine ⟨rfl, fun _ _ _ _ => rfl, fun i hi => ?_,
      fun p hp => absurd hp (Nat.not_lt_zero p), fun p _ => ⟨rfl, hncl p⟩⟩
    rw [bnd_zero hT] at hi
    exact absurd hi (Nat.not_lt_zero i)
  · intro m w _ hm hw
    have hge : ∀ i ∈ Finset.Ico (k1 N T m) (k2 N T m), k1 N T m ≤ i :=
      fun i hi => (Finset.mem_Ico.mp hi).1
    have hlt : ∀ i ∈ Finset.Ico (k1 N T m) (k2 N T m), i < k2 N T m :=
      fun i hi => (Finset.mem_Ico.mp hi).2
    -- entering the loop of worker `m`
    have hstart : CloseInv T S K N I C
        (fun c => z + ∑ p ∈ Finset.range T, w1.work_mem (p * S + c)) w1 m
        (k1 N T m) w := by
      refine ⟨hw.sw, hw.low, fun i hi hc => hw.gl i (by rwa [← k1_eq_bnd hm]) hc, hw.done,
        ?_, ?_, fun p hp => hw.later p (by omega)⟩
      · rw [filter_lt_of_ge hge, Finset.card_empty]
        exact (hw.later m le_rfl).2
      · rw [filter_lt_of_ge hge, Finset.sum_empty, sub_zero]
        exact (hw.later m le_rfl).1
    unfold pgain_close
    generalize hw' : forLoop (k1 N T m) (k2 N T m) _ w = w'
    have hloop : CloseInv T S K N I C
        (fun c => z + ∑ p ∈ Finset.range T, w1.work_mem (p * S + c)) w1 m
        (k2 N T m) w' := by
      rw [← hw']
      exact forLoop_induction _ w
        (fun n t => CloseInv T S K N I C
          (fun c => z + ∑ p ∈ Finset.range T, w1.work_mem (p * S + c)) w1 m n t)
        (k1_le_k2 (N := N) hm) hstart
        (fun i t ha hb ht => close_step (z := z) hK hct hm ha hb ht)
    have hlncl := hloop.ncl
    have hlcox := hloop.cox
    rw [filter_lt_of_le hlt] at hlncl hlcox
    simp only
    have hne1 : ∀ p c, p < T → c < K → p * S + c ≠ m * S + K := by
      intro p c hp hc e
      have := (slot_inj (by omega) (by omega) e).2
      omega
    have hne2 : ∀ p c, p < T → c < K → p * S + c ≠ m * S + K + 1 := by
      intro p c hp hc e
      have := (slot_inj (d := K + 1) (by omega) (by omega) e).2
      omega
    have hsl1 := slot_lt (T := T) (c := K) (S := S) hm (by omega)
    have hsl2 := slot_lt (T := T) (c := K + 1) (S := S) hm (by omega)
    refine ⟨hloop.sw, fun p c hp hc => ?_, fun i hi hc => ?_, fun p hp => ?_,
      fun p hp => hloop.later p (by omega)⟩
    · show Function.update (Function.update w'.work_mem _ _) _ _ _ = _
      rw [Function.update_noteq (hne2 p c hp hc), Function.update_noteq (hne1 p c hp hc)]
      exact hloop.low p c hp hc
    · show Function.update (Function.update w'.work_mem _ _) _ _ _ = _
      rw [Function.update_noteq (by omega), Function.update_noteq (by omega)]
      exact hloop.gl i (by rwa [k2_eq_bnd hm]) hc
    · show Function.update (Function.update w'.work_mem _ _) _ _ _ = _ ∧
        Function.update (Function.update w'.work_mem _ _) _ _ _ = _
      by_cases hpm : p = m
      · subst hpm
        rw [Function.update_noteq (by omega), Function.update_same, Function.update_same,
          hlncl, hlcox]
        exact ⟨rfl, rfl⟩
      · have e1 : p * S + K ≠ m * S + K := by
          intro e; exact hpm (slot_inj (by omega) (by omega) e).1
        have e2 : p * S + K ≠ m * S + K + 1 := by
          intro e
          have := (slot_inj (c := K) (d := K + 1) (by omega) (by omega) e).2
          omega
        have e3 : p * S + K + 1 ≠ m * S + K := by
          intro e
          have := (slot_inj (c := K + 1) (d := K) (by omega) (by omega) e).2
          omega
        have e4 : p * S + K + 1 ≠ m * S + K + 1 := by
          intro e
          exact hpm (slot_inj (c := K + 1) (d := K + 1) (by omega) (by omega) e).1
        rw [Function.update_noteq e2, Function.update_noteq e1, Function.update_noteq e4,
          Function.update_noteq e3]
        exact hloop.done p (by omega)

/-- Lines 1085-1092: the reduction over the strips. -/
theorem pgain_reduce_spec {T S K : Nat} (z : ℚ) (wm : Nat → ℚ)
    (a : Nat → Nat) (b : Nat → ℚ)
    (h : ∀ p, p < T → wm (p * S + K) = (a p : ℚ) ∧ wm (p * S + K + 1) = b p) :
    pgain_reduce T S K z wm =
      (z + ∑ p ∈ Finset.range T, b p, ∑ p ∈ Finset.range T, a p) := by
  unfold pgain_reduce
  have key := forLoop_induction
    (fun p (a : ℚ × Nat) =>
      (a.1 + wm (p * S + K + 1), a.2 + castInt (wm (p * S + K)))) (z, 0)
    (fun m t => m ≤ T →
      t = (z + ∑ p ∈ Finset.range m, b p, ∑ p ∈ Finset.range m, a p))
    (Nat.zero_le T) (fun _ => by simp)
    (fun m t _ hm ih _ => by
      have ih' := ih (by omega)
      simp only at ih'
      subst ih'
      simp only
      rw [(h m hm).1, (h m hm).2, castInt_natCast, Finset.sum_range_succ,
        Finset.sum_range_succ, add_assoc])
  exact key le_rfl

theorem sum_blocks_filter {M : Type} [AddCommMonoid M] {N T : Nat} (hT : 1 ≤ T)
    (A : Nat → Prop) [DecidablePred A] (g : Nat → M) :
    ∑ p ∈ Finset.range T,
      ∑ i ∈ (Finset.Ico (k1 N T p) (k2 N T p)).filter A, g i =
      ∑ i ∈ (Finset.range N).filter A, g i := by
  simp only [Finset.sum_filter]
  exact sum_blocks hT _

theorem stride_ge (k : Nat) : k + 2 ≤ stride k := by
  unfold stride CACHE_LINE
  simp only
  split
  · have := Nat.div_add_mod (k + 2) (32 / 8)
    have := Nat.mod_lt (k + 2) (show 0 < 32 / 8 by norm_num)
    omega
  · exact le_rfl

theorem centersIn_lt {c : Nat → Bool} {i j : Nat} (hij : i < j) (hi : c i = true) :
    centersIn c 0 i < centersIn c 0 j := by
  have h1 := centersIn_add c (Nat.zero_le (i + 1)) (Nat.succ_le_of_lt hij)
  have h2 := centersIn_succ c (Nat.zero_le i)
  rw [if_pos hi] at h2
  omega

theorem centersIn_inj {c : Nat → Bool} {i j : Nat} (hi : c i = true) (hj : c j = true)
    (h : centersIn c 0 i = centersIn c 0 j) : i = j := by
  rcases Nat.lt_trichotomy i j with h' | h' | h'
  · have := centersIn_lt h' hi; omega
  · exact h'
  · have := centersIn_lt h' hj; omega

/-- Lines 934-1095 of `pgain` compute the sums over points and centers of
`EvalSpec`, for any number of workers, when every point is assigned to an
open center and `k` counts the open centers. -/
theorem pgain_eval_spec {T : Nat} (hT : 1 ≤ T) (x : Nat) (z : ℚ) (s : State)
    (hassign : ∀ i, i < s.points.num →
      (s.points.p i).assign < s.points.num ∧ s.is_center (s.points.p i).assign = true)
    (hk : s.k = centersIn s.is_center 0 s.points.num) :
    EvalSpec T x z s (pgain_eval T x z s) := by
  have hstr : s.k + 2 ≤ stride s.k := stride_ge _
  have hs1 : 1 ≤ stride s.k := by omega
  have hK : stride s.k - 2 + 2 ≤ stride s.k := by omega
  have htab := pgain_table_spec (N := s.points.num) hT hs1 s.is_center s.center_table
    s.work_mem
  unfold pgain_eval
  simp only
  generalize pgain_table T s.points.num (stride s.k) s.is_center s.center_table
    s.work_mem = t at htab ⊢
  have hrank : ∀ i, i < s.points.num → s.is_center i = true → t.1 i < stride s.k - 2 := by
    intro i hi hc
    rw [htab i, if_pos ⟨hi, hc⟩]
    have := centersIn_lt (j := s.points.num) hi hc
    omega
  have hct : ∀ i, i < s.points.num → t.1 (s.points.p i).assign < stride s.k := by
    intro i hi
    have := hrank _ (hassign i hi).1 (hassign i hi).2
    omega
  have hclr := pgain_clear_all (N := s.points.num) (S := stride s.k) hT
    s.switch_membership t.2
  generalize forLoop 0 T (pgain_clear T s.points.num (stride s.k))
    (s.switch_membership, t.2) = c at hclr ⊢
  have hlow := pgain_lower_all (P := s.points) (C := t.1) (x := x) hT hct
    ⟨c.1, c.2, fun _ => 0, fun _ => 0⟩ hclr.1 hclr.2 (fun _ => rfl) (fun _ => rfl)
  generalize forLoop 0 T (pgain_lower T (stride s.k) s.points t.1 x)
    ⟨c.1, c.2, fun _ => 0, fun _ => 0⟩ = w1 at hlow ⊢
  have hcl := pgain_close_all (N := s.points.num) (I := s.is_center) (C := t.1)
    (z := z) hT hK hrank w1 hlow.ncl
  generalize forLoop 0 T
    (pgain_close T (stride s.k) (stride s.k - 2) s.points.num s.is_center t.1 z) w1 = w2
    at hcl ⊢
  -- the total of the slot of a center is `lowerOf`
  have hL : ∀ c0, c0 < s.points.num → s.is_center c0 = true →
      z + ∑ p ∈ Finset.range T, w1.work_mem (p * stride s.k + t.1 c0) =
        lowerOf s.points x z c0 := by
    intro c0 h0 hc0
    unfold lowerOf
    congr 1
    rw [← sum_blocks_filter (N := s.points.num) hT]
    apply Finset.sum_congr rfl
    intro p hp
    rw [hlow.wm p (t.1 c0) (Finset.mem_range.mp hp) (by have := hrank c0 h0 hc0; omega)]
    apply Finset.sum_congr _ (fun _ _ => rfl)
    apply Finset.filter_congr
    intro i hi
    have hin : i < s.points.num :=
      lt_of_lt_of_le (Finset.mem_Ico.mp hi).2 (k2_le_num (Finset.mem_range.mp hp))
    have ha := hassign i hin
    rw [htab (s.points.p i).assign, if_pos ha, htab c0, if_pos ⟨h0, hc0⟩]
    constructor
    · rintro ⟨_, a2, a3⟩
      exact ⟨a2, centersIn_inj ha.2 hc0 a3⟩
    · rintro ⟨a2, a3⟩
      exact ⟨hin, a2, by rw [a3]⟩
  have hclosing : ∀ p, p < T →
      closing s.is_center t.1
        (fun c => z + ∑ p ∈ Finset.range T, w1.work_mem (p * stride s.k + c))
        (Finset.Ico (k1 s.points.num T p) (k2 s.points.num T p)) =
      (Finset.Ico (k1 s.points.num T p) (k2 s.points.num T p)).filter
        (closes s x z) := by
    intro p hp
    unfold closing
    apply Finset.filter_congr
    intro i hi
    have hin : i < s.points.num :=
      lt_of_lt_of_le (Finset.mem_Ico.mp hi).2 (k2_le_num hp)
    unfold closes
    constructor
    · rintro ⟨a1, a2⟩
      exact ⟨a1, by rw [← hL i hin a1]; exact a2⟩
    · rintro ⟨a1, a2⟩
      exact ⟨a1, by rw [← hL i hin a1] at a2; exact a2⟩
  have hred := pgain_reduce_spec (T := T) (S := stride s.k) (K := stride s.k - 2)
    z w2.work_mem
    (fun p => ((Finset.Ico (k1 s.points.num T p) (k2 s.points.num T p)).filter
      (closes s x z)).card)
    (fun p => w1.cost_of_opening_x p -
      ∑ i ∈ (Finset.Ico (k1 s.points.num T p) (k2 s.points.num T p)).filter
        (closes s x z), lowerOf s.points x z i)
    (fun p hp => by
      obtain ⟨d1, d2⟩ := hcl.done p hp
      rw [hclosing p hp] at d1 d2
      refine ⟨d1, ?_⟩
      rw [d2]
      congr 1
      apply Finset.sum_congr rfl
      intro i hi
      rw [Finset.mem_filter] at hi
      have hin : i < s.points.num :=
        lt_of_lt_of_le (Finset.mem_Ico.mp hi.1).2 (k2_le_num hp)
      exact hL i hin hi.2.1)
  refine ⟨htab, fun i hi => ?_, fun c0 h0 hc0 => ?_, ?_, ?_⟩
  · show w2.switch_membership i = _
    rw [hcl.sw, hlow.sw i hi]
    exact decide_eq_decide.mpr ⟨fun h => h.2, fun h => ⟨hi, h⟩⟩
  · show w2.work_mem _ = _
    have := hcl.gl c0 (by rw [bnd_last]; exact h0) hc0
    rw [htab c0, if_pos ⟨h0, hc0⟩] at this
    rw [this, ← hL c0 h0 hc0, htab c0, if_pos ⟨h0, hc0⟩]
  · show (pgain_reduce T (stride s.k) (stride s.k - 2) z w2.work_mem).1 = _
    rw [hred]
    simp only
    unfold glCost
    rw [Finset.sum_sub_distrib, sum_blocks_filter hT, ← add_sub_assoc]
    congr 2
    rw [← sum_blocks_filter (N := s.points.num) hT]
    apply Finset.sum_congr rfl
    intro p hp
    rw [hlow.cox p (Finset.mem_range.mp hp)]
    apply Finset.sum_congr _ (fun _ _ => rfl)
    apply Finset.filter_congr
    intro i hi
    have hin : i < s.points.num :=
      lt_of_lt_of_le (Finset.mem_Ico.mp hi).2 (k2_le_num (Finset.mem_range.mp hp))
    exact ⟨fun h => h.2, fun h => ⟨hin, h⟩⟩
  · show (pgain_reduce T (stride s.k) (stride s.k - 2) z w2.work_mem).2 = _
    rw [hred]
    simp only [Finset.card_eq_sum_ones]
    unfold glClose
    rw [sum_blocks_filter hT, Finset.card_eq_sum_ones]

theorem dist_congr {a b c d : Point} (h1 : a.coord = c.coord) (h2 : b.coord = d.coord)
    (dim : Nat) : dist a b dim = dist c d dim := by
  unfold dist
  rw [h1, h2]

theorem commit_points_loop {T S x : Nat} {C : Nat → Nat} {w : Work} {P0 : Points}
    {lo hi : Nat} (hle : lo ≤ hi) (P : Points)
    (h1 : P.num = P0.num) (h2 : P.dim = P0.dim)
    (h3 : ∀ i, P.p i =
      if i < lo ∧ (w.switch_membership i = true ∨
        0 < w.work_mem (T * S + C (P0.p i).assign)) then moved P0 x i else P0.p i) :
    (forLoop lo hi
      (fun i (P : Points) =>
        let close_center : Bool :=
          decide (w.work_mem (T * S + C (P.p i).assign) > 0)
        if w.switch_membership i || close_center then
          { P with
            p := Function.update P.p i
              { P.p i with
                cost := (P.p i).weight * dist (P.p i) (P.p x) P.dim
                assign := x } }
        else P) P).num = P0.num ∧
    (forLoop lo hi
      (fun i (P : Points) =>
        let close_center : Bool :=
          decide (w.work_mem (T * S + C (P.p i).assign) > 0)
        if w.switch_membership i || close_center then
          { P with
            p := Function.update P.p i
              { P.p i with
                cost := (P.p i).weight * dist (P.p i) (P.p x) P.dim
                assign := x } }
        else P) P).dim = P0.dim ∧
    ∀ i, (forLoop lo hi
      (fun i (P : Points) =>
        let close_center : Bool :=
          decide (w.work_mem (T * S + C (P.p i).assign) > 0)
        if w.switch_membership i || close_center then
          { P with
            p := Function.update P.p i
              { P.p i with
                cost := (P.p i).weight * dist (P.p i) (P.p x) P.dim
                assign := x } }
        else P) P).p i =
      if i < hi ∧ (w.switch_membership i = true ∨
        0 < w.work_mem (T * S + C (P0.p i).assign)) then moved P0 x i else P0.p i := by
  refine forLoop_induction _ P
    (fun n Q => Q.num = P0.num ∧ Q.dim = P0.dim ∧ ∀ i, Q.p i =
      if i < n ∧ (w.switch_membership i = true ∨
        0 < w.work_mem (T * S + C (P0.p i).assign)) then moved P0 x i else P0.p i)
    hle ⟨h1, h2, h3⟩ ?_
  rintro n Q _ _ ⟨q1, q2, q3⟩
  have hn : Q.p n = P0.p n := by rw [q3 n, if_neg (fun h => absurd h.1 (lt_irrefl n))]
  have hx : (Q.p x).coord = (P0.p x).coord := by
    rw [q3 x]; split <;> rfl
  simp only [hn]
  by_cases hmv : w.switch_membership n = true ∨
      0 < w.work_mem (T * S + C (P0.p n).assign)
  · have hb : (w.switch_membership n ||
        decide (w.work_mem (T * S + C (P0.p n).assign) > 0)) = true := by
      simpa using hmv
    rw [if_pos hb]
    refine ⟨q1, q2, fun i => ?_⟩
    by_cases hin : i = n
    · subst hin
      simp only [Function.update_same]
      rw [if_pos ⟨Nat.lt_succ_self i, hmv⟩, q2, dist_congr rfl hx]
      rfl
    · simp only [Function.update_noteq hin]
      rw [q3 i]
      by_cases hc : i < n ∧ (w.switch_membership i = true ∨
          0 < w.work_mem (T * S + C (P0.p i).assign))
      · rw [if_pos hc, if_pos ⟨by omega, hc.2⟩]
      · rw [if_neg hc, if_neg (fun h => hc ⟨by omega, h.2⟩)]
  · have hb : ¬ (w.switch_membership n ||
        decide (w.work_mem (T * S + C (P0.p n).assign) > 0)) = true := by
      simpa using hmv
    rw [if_neg hb]
    refine ⟨q1, q2, fun i => ?_⟩
    rw [q3 i]
    by_cases hc : i < n ∧ (w.switch_membership i = true ∨
        0 < w.work_mem (T * S + C (P0.p i).assign))
    · rw [if_pos hc, if_pos ⟨by omega, hc.2⟩]
    · rw [if_neg hc, if_neg]
      rintro ⟨a1, a2⟩
      have : i ≠ n := by rintro rfl; exact hmv a2
      exact hc ⟨by omega, a2⟩

theorem commit_centers_loop {T S : Nat} {C : Nat → Nat} {w : Work}
    {lo hi : Nat} (hle : lo ≤ hi) (c : Nat → Bool) :
    ∀ j, (forLoop lo hi
      (fun i (c : Nat → Bool) =>
        if c i && decide (w.work_mem (T * S + C i) > 0) then
          Function.update c i false
        else c) c) j =
      if lo ≤ j ∧ j < hi then (c j && !decide (0 < w.work_mem (T * S + C j)))
      else c j := by
  refine forLoop_induction _ c
    (fun n d => ∀ j, d j =
      if lo ≤ j ∧ j < n then (c j && !decide (0 < w.work_mem (T * S + C j)))
      else c j) hle (fun j => by rw [if_neg (by omega)]) ?_
  intro n d hlo _ hd j
  have hn : d n = c n := by rw [hd n, if_neg (by omega)]
  simp only [hn]
  by_cases hin : j = n
  · subst hin
    rw [if_pos (show lo ≤ j ∧ j < j + 1 from ⟨hlo, Nat.lt_succ_self j⟩)]
    by_cases hb : (c j && decide (w.work_mem (T * S + C j) > 0)) = true
    · rw [if_pos hb, Function.update_same]
      simp only [Bool.and_eq_true, decide_eq_true_eq] at hb
      simp [hb.1, hb.2]
    · rw [if_neg hb, hn]
      simp only [Bool.and_eq_true, decide_eq_true_eq, not_and] at hb
      by_cases hcj : c j = true
      · simp [hcj, hb hcj]
      · simp [hcj]
  · have key : d j = if lo ≤ j ∧ j < n + 1 then
        (c j && !decide (0 < w.work_mem (T * S + C j))) else c j := by
      rw [hd j]
      by_cases hc : lo ≤ j ∧ j < n
      · rw [if_pos hc, if_pos ⟨hc.1, by omega⟩]
      · rw [if_neg hc, if_neg (fun h => hc ⟨h.1, by omega⟩)]
    split
    · rw [Function.update_noteq hin]; exact key
    · exact key

/-- Lines 1101-1118 for all workers: the points that are marked or whose
center closes move to `x`, the closing centers are closed, `x` is opened. -/
theorem pgain_commit_all {T S : Nat} (hT : 1 ≤ T) {x : Nat} (C : Nat → Nat)
    (w : Work) (P0 : Points) (c0 : Nat → Bool) (hx : x < P0.num) :
    (forLoop 0 T (pgain_commit T S x C w) (P0, c0)).1.num = P0.num ∧
    (forLoop 0 T (pgain_commit T S x C w) (P0, c0)).1.dim = P0.dim ∧
    (∀ i, (forLoop 0 T (pgain_commit T S x C w) (P0, c0)).1.p i =
      if i < P0.num ∧ (w.switch_membership i = true ∨
        0 < w.work_mem (T * S + C (P0.p i).assign)) then moved P0 x i else P0.p i) ∧
    (∀ j, (forLoop 0 T (pgain_commit T S x C w) (P0, c0)).2 j =
      if j < P0.num then
        (if j = x then true else (c0 j && !decide (0 < w.work_mem (T * S + C j))))
      else c0 j) := by
  refine workers_induction (N := P0.num) hT (pgain_commit T S x C w) (P0, c0)
    (fun b m => m.1.num = P0.num ∧ m.1.dim = P0.dim ∧
      (∀ i, m.1.p i =
        if i < b ∧ (w.switch_membership i = true ∨
          0 < w.work_mem (T * S + C (P0.p i).assign)) then moved P0 x i else P0.p i) ∧
      (∀ j, m.2 j =
        if j < b then
          (if j = x then true else (c0 j && !decide (0 < w.work_mem (T * S + C j))))
        else c0 j))
    ⟨rfl, rfl, fun i => by rw [if_neg (fun h => absurd h.1 (Nat.not_lt_zero i))],
      fun j => by rw [if_neg (Nat.not_lt_zero j)]⟩ ?_
  rintro pid ⟨P, c⟩ hpid ⟨q1, q2, q3, q4⟩
  simp only at q1 q2 q3 q4
  have hle := k1_le_k2 (N := P0.num) hpid
  unfold pgain_commit
  simp only [q1]
  obtain ⟨r1, r2, r3⟩ := commit_points_loop (T := T) (S := S) (x := x)
    (C := C) (w := w) hle P q1 q2 q3
  refine ⟨r1, r2, r3, fun j => ?_⟩
  have hc := commit_centers_loop (T := T) (S := S) (C := C) (w := w) hle c
  by_cases hxin : k1 P0.num T pid ≤ x ∧ x < k2 P0.num T pid
  · rw [if_pos hxin]
    by_cases hjx : j = x
    · subst hjx
      rw [Function.update_same, if_pos hxin.2, if_pos rfl]
    · rw [Function.update_noteq hjx, hc j]
      by_cases hj2 : k1 P0.num T pid ≤ j ∧ j < k2 P0.num T pid
      · rw [if_pos hj2, q4 j, if_neg (show ¬ j < k1 P0.num T pid by omega),
          if_pos (show j < k2 P0.num T pid from hj2.2), if_neg hjx]
      · rw [if_neg hj2, q4 j]
        by_cases hj1 : j < k1 P0.num T pid
        · rw [if_pos hj1, if_pos (show j < k2 P0.num T pid by omega)]
        · rw [if_neg hj1, if_neg (show ¬ j < k2 P0.num T pid by omega)]
  · rw [if_neg hxin, hc j]
    by_cases hj2 : k1 P0.num T pid ≤ j ∧ j < k2 P0.num T pid
    · have hjx : j ≠ x := by rintro rfl; exact hxin hj2
      rw [if_pos hj2, q4 j, if_neg (show ¬ j < k1 P0.num T pid by omega),
        if_pos (show j < k2 P0.num T pid from hj2.2), if_neg hjx]
    · rw [if_neg hj2, q4 j]
      by_cases hj1 : j < k1 P0.num T pid
      · rw [if_pos hj1, if_pos (show j < k2 P0.num T pid by omega)]
      · rw [if_neg hj1, if_neg (show ¬ j < k2 P0.num T pid by omega)]

/-! ## `pgain` as a whole -/

/-- The state left by a `pgain` that does not commit. -/
theorem pgain_of_not_lt {T x : Nat} {z : ℚ} {s : State}
    (h : ¬ gl_cost_of_opening_x T x z s < 0) :
    (pgain T x z s).1 = 0 ∧ (pgain T x z s).2.points = s.points ∧
    (pgain T x z s).2.is_center = s.is_center ∧ (pgain T x z s).2.k = s.k := by
  unfold gl_cost_of_opening_x at h
  unfold pgain
  simp only [if_neg h, neg_zero, and_self]

/-- The reduced cost computed by the code is the sum `glCost`. -/
theorem gl_cost_eq {T : Nat} (hT : 1 ≤ T) (x : Nat) (z : ℚ) {s : State}
    (hv : Valid s) : gl_cost_of_opening_x T x z s = glCost s x z :=
  (pgain_eval_spec hT x z s (fun i hi => ⟨hv.assign_lt i hi, hv.assign_open i hi⟩)
    hv.k_eq).cost

/-- The state left by a `pgain` that commits, for any number of workers. -/
theorem pgain_of_lt {T x : Nat} {z : ℚ} {s : State} (hT : 1 ≤ T) (hv : Valid s)
    (hx : x < s.points.num) (h : glCost s x z < 0) :
    (pgain T x z s).1 = - glCost s x z ∧
    (pgain T x z s).2.points.num = s.points.num ∧
    (pgain T x z s).2.points.dim = s.points.dim ∧
    (∀ i, (pgain T x z s).2.points.p i =
      if i < s.points.num ∧ moves s x z i then moved s.points x i else s.points.p i) ∧
    (∀ j, (pgain T x z s).2.is_center j =
      if j < s.points.num then
        (if j = x then true else (s.is_center j && !decide (closes s x z j)))
      else s.is_center j) ∧
    (pgain T x z s).2.k = s.k + 1 - glClose s x z := by
  have he := pgain_eval_spec hT x z s
    (fun i hi => ⟨hv.assign_lt i hi, hv.assign_open i hi⟩) hv.k_eq
  have hc := pgain_commit_all (T := T) (S := stride s.k) hT
    (pgain_eval T x z s).1 (pgain_eval T x z s).2.1 s.points s.is_center hx
  have hlt : (pgain_eval T x z s).2.2.1 < 0 := by rw [he.cost]; exact h
  unfold pgain
  simp only [if_pos hlt]
  obtain ⟨c1, c2, c3, c4⟩ := hc
  refine ⟨by rw [he.cost], c1, c2, fun i => ?_, fun j => ?_, by rw [he.ncl]⟩
  · rw [c3 i]
    by_cases hi : i < s.points.num
    · have hgl := he.gl _ (hv.assign_lt i hi) (hv.assign_open i hi)
      have hct := he.ct (s.points.p i).assign
      rw [if_pos ⟨hv.assign_lt i hi, hv.assign_open i hi⟩] at hct
      have hiff : ((pgain_eval T x z s).2.1.switch_membership i = true ∨
          0 < (pgain_eval T x z s).2.1.work_mem
            (T * stride s.k + (pgain_eval T x z s).1 (s.points.p i).assign)) ↔
          moves s x z i := by
        rw [he.sw i hi, hct, hgl]
        unfold moves closes
        simp only [decide_eq_true_eq, hv.assign_open i hi, true_and]
      by_cases hm : moves s x z i
      · rw [if_pos ⟨hi, hiff.mpr hm⟩, if_pos ⟨hi, hm⟩]
      · rw [if_neg (fun hh => hm (hiff.mp hh.2)), if_neg (fun hh => hm hh.2)]
    · rw [if_neg (fun hh => hi hh.1), if_neg (fun hh => hi hh.1)]
  · rw [c4 j]
    by_cases hj : j < s.points.num
    · rw [if_pos hj, if_pos hj]
      by_cases hjx : j = x
      · rw [if_pos hjx, if_pos hjx]
      · rw [if_neg hjx, if_neg hjx]
        by_cases hcj : s.is_center j = true
        · have hgl := he.gl j hj hcj
          have hct := he.ct j
          rw [if_pos ⟨hj, hcj⟩] at hct
          rw [hct, hgl]
          unfold closes
          simp only [hcj, true_and]
        · simp only [Bool.not_eq_true] at hcj
          simp only [hcj, Bool.false_and]
    · rw [if_neg hj, if_neg hj]

/-! ## Consequences for the objective and the invariants -/

theorem moved_cost (P : Points) (x i : Nat) : (moved P x i).cost = x_cost P x i := by
  unfold moved x_cost
  exact mul_comm _ _

theorem closes_lt_sum {s : State} (hv : Valid s) (x : Nat) (z : ℚ) :
    ∑ c ∈ (Finset.range s.points.num).filter (closes s x z), lowerOf s.points x z c =
      (glClose s x z : ℚ) * z +
        ∑ i ∈ (Finset.range s.points.num).filter
          (fun i => ¬ switches s.points x i ∧ closes s x z (s.points.p i).assign),
          ((s.points.p i).cost - x_cost s.points x i) := by
  unfold lowerOf glClose
  rw [Finset.sum_add_distrib, Finset.sum_const, nsmul_eq_mul]
  congr 1
  rw [← Finset.sum_fiberwise_of_maps_to
    (s := (Finset.range s.points.num).filter
      (fun i => ¬ switches s.points x i ∧ closes s x z (s.points.p i).assign))
    (t := (Finset.range s.points.num).filter (closes s x z))
    (g := fun i => (s.points.p i).assign)]
  · apply Finset.sum_congr rfl
    intro c hc
    rw [Finset.mem_filter] at hc
    apply Finset.sum_congr _ (fun _ _ => rfl)
    rw [Finset.filter_filter]
    apply Finset.filter_congr
    intro i _
    constructor
    · rintro ⟨a1, a2⟩
      exact ⟨⟨a1, by rw [a2]; exact hc.2⟩, a2⟩
    · rintro ⟨⟨a1, _⟩, a3⟩
      exact ⟨a1, a3⟩
  · intro i hi
    rw [Finset.mem_filter, Finset.mem_range] at hi
    rw [Finset.mem_filter, Finset.mem_range]
    exact ⟨hv.assign_lt i hi.1, hi.2.2⟩

theorem moves_sum (s : State) (x : Nat) (z : ℚ) (f : Nat → ℚ) :
    ∑ i ∈ (Finset.range s.points.num).filter (moves s x z), f i =
      ∑ i ∈ (Finset.range s.points.num).filter (switches s.points x), f i +
      ∑ i ∈ (Finset.range s.points.num).filter
        (fun i => ¬ switches s.points x i ∧ closes s x z (s.points.p i).assign), f i := by
  rw [← Finset.sum_filter_add_sum_filter_not
    ((Finset.range s.points.num).filter (moves s x z)) (switches s.points x) f,
    Finset.filter_filter, Finset.filter_filter]
  congr 1
  · apply Finset.sum_congr _ (fun _ _ => rfl)
    apply Finset.filter_congr
    intro i _
    unfold moves
    constructor
    · rintro ⟨_, a2⟩; exact a2
    · intro a; exact ⟨Or.inl a, a⟩
  · apply Finset.sum_congr _ (fun _ _ => rfl)
    apply Finset.filter_congr
    intro i _
    unfold moves
    constructor
    · rintro ⟨a1, a2⟩
      rcases a1 with a1 | a1
      · exact absurd a1 a2
      · exact ⟨a2, a1⟩
    · rintro ⟨a1, a2⟩; exact ⟨Or.inr a2, a1⟩

/-- The reduced cost is the change of the objective, written over the moved
points. -/
theorem glCost_eq_change {s : State} (hv : Valid s) (x : Nat) (z : ℚ) :
    glCost s x z = z * (1 - (glClose s x z : ℚ)) +
      ∑ i ∈ (Finset.range s.points.num).filter (moves s x z),
        (x_cost s.points x i - (s.points.p i).cost) := by
  unfold glCost
  rw [closes_lt_sum hv, moves_sum]
  have : ∑ i ∈ (Finset.range s.points.num).filter
      (fun i => ¬ switches s.points x i ∧ closes s x z (s.points.p i).assign),
      (x_cost s.points x i - (s.points.p i).cost) =
      - ∑ i ∈ (Finset.range s.points.num).filter
        (fun i => ¬ switches s.points x i ∧ closes s x z (s.points.p i).assign),
        ((s.points.p i).cost - x_cost s.points x i) := by
    rw [← Finset.sum_neg_distrib]
    apply Finset.sum_congr rfl
    intro i _; ring
  rw [this]; ring

theorem glClose_le {s : State} (hv : Valid s) (x : Nat) (z : ℚ) : glClose s x z ≤ s.k := by
  rw [hv.k_eq]
  unfold glClose centersIn
  rw [← Finset.range_eq_Ico]
  apply Finset.card_le_card
  intro c hc
  rw [Finset.mem_filter] at hc ⊢
  exact ⟨hc.1, hc.2.1⟩

/-- A committed `pgain` changes the objective by the reduced cost. -/
theorem objective_of_lt {T x : Nat} {z : ℚ} {s : State} (hT : 1 ≤ T) (hv : Valid s)
    (hx : x < s.points.num) (h : glCost s x z < 0) :
    objective z (pgain T x z s).2 = objective z s + glCost s x z := by
  obtain ⟨_, p2, _, p4, _, p6⟩ := pgain_of_lt hT hv hx h
  unfold objective
  rw [p2, p6, glCost_eq_change hv]
  have hle := glClose_le hv x z
  have hk : ((s.k + 1 - glClose s x z : Nat) : ℚ) = (s.k : ℚ) + 1 - (glClose s x z : ℚ) := by
    rw [Nat.cast_sub (by omega)]; push_cast; ring
  rw [hk]
  have hsum : ∑ i ∈ Finset.range s.points.num, ((pgain T x z s).2.points.p i).cost =
      ∑ i ∈ Finset.range s.points.num, (s.points.p i).cost +
      ∑ i ∈ (Finset.range s.points.num).filter (moves s x z),
        (x_cost s.points x i - (s.points.p i).cost) := by
    rw [Finset.sum_filter, ← Finset.sum_add_distrib]
    apply Finset.sum_congr rfl
    intro i hi
    rw [p4 i]
    by_cases hm : moves s x z i
    · rw [if_pos ⟨Finset.mem_range.mp hi, hm⟩, if_pos hm, moved_cost]; ring
    · rw [if_neg (fun hh => hm hh.2), if_neg hm, add_zero]
  rw [hsum]; ring

theorem lineState_valid : Valid lineState := by
  refine ⟨?_, ?_, ?_, ?_, ?_⟩ <;> with_unfolding_all decide

/-! ## Claims about `pgain` -/

/-- C2: for every state (valid or not) and every candidate `x`, if the reduced
`gl_cost_of_opening_x` is `≥ 0` then `pgain` returns `0` and leaves the points
(so `assign` and `cost` of every point), `is_center` and `k` unchanged; only
the scratch `center_table`, `switch_membership` and `work_mem` may differ. -/
theorem pgain_no_move (T x : Nat) (z : ℚ) (s : State)
    (h : 0 ≤ gl_cost_of_opening_x T x z s) :
    (pgain T x z s).1 = 0 ∧
    (pgain T x z s).2.points = s.points ∧
    (pgain T x z s).2.is_center = s.is_center ∧
    (pgain T x z s).2.k = s.k ∧
    (pgain T x z s).2.feasible = s.feasible ∧
    (pgain T x z s).2.numfeasible = s.numfeasible ∧
    (pgain T x z s).2.draws = s.draws := by
  have h' : ¬ gl_cost_of_opening_x T x z s < 0 := not_lt.mpr h
  obtain ⟨h1, h2, h3, h4⟩ := pgain_of_not_lt h'
  refine ⟨h1, h2, h3, h4, ?_, ?_, ?_⟩ <;>
  · unfold gl_cost_of_opening_x at h'
    unfold pgain
    simp only [if_neg h']

theorem pgain_no_move_witness :
    0 ≤ gl_cost_of_opening_x 2 0 (3 / 10) lineState ∧
    (pgain 2 0 (3 / 10) lineState).1 = 0 ∧
    (pgain 2 0 (3 / 10) lineState).2.points = lineState.points ∧
    (pgain 2 0 (3 / 10) lineState).2.is_center = lineState.is_center ∧
    (pgain 2 0 (3 / 10) lineState).2.k = lineState.k ∧
    (pgain 2 0 (3 / 10) lineState).2.feasible = lineState.feasible ∧
    (pgain 2 0 (3 / 10) lineState).2.numfeasible = lineState.numfeasible ∧
    (pgain 2 0 (3 / 10) lineState).2.draws = lineState.draws :=
  ⟨by with_unfolding_all decide,
    pgain_no_move 2 0 (3 / 10) lineState (by with_unfolding_all decide)⟩

/-! ## Validity is preserved -/

theorem lowerOf_self {s : State} (hv : Valid s) (x : Nat) (z : ℚ) :
    lowerOf s.points x z x = z := by
  unfold lowerOf
  rw [Finset.sum_eq_zero, add_zero]
  intro i hi
  rw [Finset.mem_filter, Finset.mem_range] at hi
  have := hv.cost_eq i hi.1
  rw [hi.2.2] at this
  rw [this]
  unfold x_cost
  ring

theorem closes_self {s : State} (hv : Valid s) {x : Nat} {z : ℚ} (hz : 0 < z)
    (hc : s.is_center x = true) : closes s x z x :=
  ⟨hc, by rw [lowerOf_self hv]; exact hz⟩

theorem stays_member {s : State} {x j : Nat} {z : ℚ} (hz : 0 < z)
    (hc : s.is_center j = true) (hn : ¬ closes s x z j) :
    ∃ i, i < s.points.num ∧ ¬ switches s.points x i ∧ (s.points.p i).assign = j := by
  by_contra hne
  apply hn
  refine ⟨hc, ?_⟩
  unfold lowerOf
  rw [Finset.sum_eq_zero, add_zero]
  · exact hz
  · intro i hi
    rw [Finset.mem_filter, Finset.mem_range] at hi
    exact absurd ⟨i, hi.1, hi.2.1, hi.2.2⟩ hne

theorem exists_moves {s : State} (hv : Valid s) {x : Nat} {z : ℚ} (hz : 0 < z)
    (h : glCost s x z < 0) : ∃ i, i < s.points.num ∧ moves s x z i := by
  by_contra hne
  have h1 : (Finset.range s.points.num).filter (moves s x z) = ∅ := by
    apply Finset.filter_eq_empty_iff.mpr
    intro i hi hm
    exact hne ⟨i, Finset.mem_range.mp hi, hm⟩
  have h2 : glClose s x z = 0 := by
    unfold glClose
    rw [Finset.card_eq_zero]
    apply Finset.filter_eq_empty_iff.mpr
    intro c hc hcl
    obtain ⟨i, hi, hia⟩ := (hv.center_iff c (Finset.mem_range.mp hc)).mp hcl.1
    exact hne ⟨i, hi, Or.inr (by rw [hia]; exact hcl)⟩
  rw [glCost_eq_change hv, h1, h2] at h
  simp at h
  linarith

theorem centersIn_commit {s : State} (hv : Valid s) {x : Nat} {z : ℚ} (hz : 0 < z)
    (hx : x < s.points.num) (c' : Nat → Bool)
    (hc' : ∀ j, j < s.points.num →
      c' j = (if j = x then true else (s.is_center j && !decide (closes s x z j)))) :
    centersIn c' 0 s.points.num = s.k + 1 - glClose s x z := by
  have hle := glClose_le hv x z
  have hset : (Finset.Ico 0 s.points.num).filter (fun j => c' j = true) =
      insert x (((Finset.Ico 0 s.points.num).filter (fun j => s.is_center j = true)) \
        ((Finset.range s.points.num).filter (closes s x z))) := by
    ext j
    simp only [Finset.mem_filter, Finset.mem_Ico, Finset.mem_insert, Finset.mem_sdiff,
      Finset.mem_range, Nat.zero_le, true_and]
    constructor
    · rintro ⟨a1, a2⟩
      rw [hc' j a1] at a2
      by_cases hjx : j = x
      · exact Or.inl hjx
      · rw [if_neg hjx] at a2
        simp only [Bool.and_eq_true, Bool.not_eq_true', decide_eq_false_iff_not] at a2
        exact Or.inr ⟨⟨a1, a2.1⟩, fun hh => a2.2 hh.2⟩
    · rintro (a | ⟨⟨a1, a2⟩, a3⟩)
      · subst a
        exact ⟨hx, by rw [hc' j hx, if_pos rfl]⟩
      · refine ⟨a1, ?_⟩
        rw [hc' j a1]
        by_cases hjx : j = x
        · rw [if_pos hjx]
        · rw [if_neg hjx]
          simp only [Bool.and_eq_true, Bool.not_eq_true', decide_eq_false_iff_not]
          exact ⟨a2, fun hh => a3 ⟨a1, hh⟩⟩
  have hnot : x ∉ ((Finset.Ico 0 s.points.num).filter (fun j => s.is_center j = true)) \
      ((Finset.range s.points.num).filter (closes s x z)) := by
    intro hmem
    rw [Finset.mem_sdiff, Finset.mem_filter, Finset.mem_filter] at hmem
    exact hmem.2 ⟨Finset.mem_range.mpr hx, closes_self hv hz hmem.1.2⟩
  have hsub : (Finset.range s.points.num).filter (closes s x z) ⊆
      (Finset.Ico 0 s.points.num).filter (fun j => s.is_center j = true) := by
    intro c hc
    rw [Finset.mem_filter, Finset.mem_range] at hc
    rw [Finset.mem_filter, Finset.mem_Ico]
    exact ⟨⟨Nat.zero_le _, hc.1⟩, hc.2.1⟩
  unfold centersIn
  rw [hset, Finset.card_insert_of_not_mem hnot, Finset.card_sdiff hsub]
  have hk := hv.k_eq
  unfold centersIn at hk
  unfold glClose at hle ⊢
  omega

theorem moved_coord {s : State} {x : Nat} {z : ℚ} (p' : Nat → Point)
    (hp : ∀ i, p' i =
      if i < s.points.num ∧ moves s x z i then moved s.points x i else s.points.p i)
    (i : Nat) : (p' i).coord = (s.points.p i).coord ∧ (p' i).weight = (s.points.p i).weight := by
  rw [hp i]
  split
  · exact ⟨rfl, rfl⟩
  · exact ⟨rfl, rfl⟩

/-- A `pgain` with a positive facility cost takes valid states to valid
states. -/
theorem pgain_valid {T x : Nat} {z : ℚ} {s : State} (hT : 1 ≤ T) (hv : Valid s)
    (hz : 0 < z) (hx : x < s.points.num) : Valid (pgain T x z s).2 := by
  by_cases h : glCost s x z < 0
  · obtain ⟨_, p2, p3, p4, p5, p6⟩ := pgain_of_lt hT hv hx h
    have hcoord := moved_coord (s := s) (x := x) (z := z) _ p4
    have hopen : (pgain T x z s).2.is_center x = true := by
      rw [p5 x, if_pos hx, if_pos rfl]
    have hassign : ∀ i, i < s.points.num →
        ((pgain T x z s).2.points.p i).assign < s.points.num ∧
        (pgain T x z s).2.is_center ((pgain T x z s).2.points.p i).assign = true := by
      intro i hi
      rw [p4 i]
      by_cases hm : moves s x z i
      · rw [if_pos ⟨hi, hm⟩]
        exact ⟨hx, hopen⟩
      · rw [if_neg (fun hh => hm hh.2)]
        refine ⟨hv.assign_lt i hi, ?_⟩
        rw [p5 _, if_pos (hv.assign_lt i hi)]
        by_cases hax : (s.points.p i).assign = x
        · rw [if_pos hax]
        · rw [if_neg hax, hv.assign_open i hi]
          have : ¬ closes s x z (s.points.p i).assign := fun hh => hm (Or.inr hh)
          simp [this]
    refine ⟨fun i hi => ?_, fun i hi => ?_, fun j hj => ?_, fun i hi => ?_, ?_⟩
    · rw [p2] at hi ⊢; exact (hassign i hi).1
    · rw [p2] at hi; exact (hassign i hi).2
    · rw [p2] at hj ⊢
      constructor
      · intro hc
        by_cases hjx : j = x
        · obtain ⟨i, hi, hm⟩ := exists_moves hv hz h
          exact ⟨i, hi, by rw [p4 i, if_pos ⟨hi, hm⟩, hjx]; rfl⟩
        · rw [p5 j, if_pos hj, if_neg hjx] at hc
          simp only [Bool.and_eq_true, Bool.not_eq_true', decide_eq_false_iff_not] at hc
          obtain ⟨i, hi, hsw, hia⟩ := stays_member hz hc.1 hc.2
          refine ⟨i, hi, ?_⟩
          rw [p4 i, if_neg, hia]
          rintro ⟨_, hm | hm⟩
          · exact hsw hm
          · rw [hia] at hm; exact hc.2 hm
      · rintro ⟨i, hi, hia⟩
        rw [← hia]; exact (hassign i hi).2
    · rw [p2] at hi
      rw [p3]
      rw [dist_congr (c := s.points.p i)
        (d := s.points.p ((pgain T x z s).2.points.p i).assign)
        (hcoord i).1 (hcoord _).1]
      rw [p4 i]
      by_cases hm : moves s x z i
      · rw [if_pos ⟨hi, hm⟩]; rfl
      · rw [if_neg (fun hh => hm hh.2)]
        exact hv.cost_eq i hi
    · rw [p2, p6]
      exact (centersIn_commit hv hz hx _ (fun j hj => by rw [p5 j, if_pos hj])).symm
  · have h' : ¬ gl_cost_of_opening_x T x z s < 0 := by rw [gl_cost_eq hT x z hv]; exact h
    obtain ⟨_, h2, h3, h4⟩ := pgain_of_not_lt h'
    refine ⟨?_, ?_, ?_, ?_, ?_⟩
    · rw [h2]; exact hv.assign_lt
    · rw [h2, h3]; exact hv.assign_open
    · rw [h2, h3]; exact hv.center_iff
    · rw [h2]; exact hv.cost_eq
    · rw [h2, h3, h4]; exact hv.k_eq

theorem gl_close_eq {T : Nat} (hT : 1 ≤ T) (x : Nat) (z : ℚ) {s : State}
    (hv : Valid s) : gl_number_of_centers_to_close T x z s = glClose s x z :=
  (pgain_eval_spec hT x z s (fun i hi => ⟨hv.assign_lt i hi, hv.assign_open i hi⟩)
    hv.k_eq).ncl

/-- The points after `pgain`, in any state: a point below `num` is left
alone or moved to `x`; nothing else changes. -/
theorem pgain_points {T x : Nat} (z : ℚ) (s : State) (hT : 1 ≤ T)
    (hx : x < s.points.num) :
    (pgain T x z s).2.points.num = s.points.num ∧
    (pgain T x z s).2.points.dim = s.points.dim ∧
    ∀ i, (pgain T x z s).2.points.p i = s.points.p i ∨
      (i < s.points.num ∧ (pgain T x z s).2.points.p i = moved s.points x i) := by
  by_cases h : gl_cost_of_opening_x T x z s < 0
  · have hc := pgain_commit_all (T := T) (S := stride s.k) hT
      (pgain_eval T x z s).1 (pgain_eval T x z s).2.1 s.points s.is_center hx
    unfold gl_cost_of_opening_x at h
    unfold pgain
    simp only [if_pos h]
    obtain ⟨c1, c2, c3, _⟩ := hc
    refine ⟨c1, c2, fun i => ?_⟩
    rw [c3 i]
    split
    · rename_i hh; exact Or.inr ⟨hh.1, rfl⟩
    · exact Or.inl rfl
  · have := (pgain_of_not_lt h).2.1
    rw [this]
    exact ⟨rfl, rfl, fun i => Or.inl rfl⟩

/-- C5: for every state in which `cost[i] = weight[i] * dist(p[i],
p[assign[i]])` holds for all `i`, every candidate `x` and every number of
workers, the same equation holds for all `i` after `pgain`: a point whose
`assign` is changed gets `assign = x` and `cost = weight[i] * dist(p[i],
p[x])`, and every other point is left as it was. -/
theorem pgain_cost_invariant (T x : Nat) (z : ℚ) (s : State) (hT : 1 ≤ T)
    (hx : x < s.points.num)
    (hcost : ∀ i, i < s.points.num →
      (s.points.p i).cost =
        (s.points.p i).weight *
          dist (s.points.p i) (s.points.p (s.points.p i).assign) s.points.dim) :
    (pgain T x z s).2.points.num = s.points.num ∧
    ∀ i, i < s.points.num →
      ((pgain T x z s).2.points.p i).cost =
        ((pgain T x z s).2.points.p i).weight *
          dist ((pgain T x z s).2.points.p i)
            ((pgain T x z s).2.points.p ((pgain T x z s).2.points.p i).assign)
            (pgain T x z s).2.points.dim ∧
      (((pgain T x z s).2.points.p i).assign ≠ (s.points.p i).assign →
        ((pgain T x z s).2.points.p i).assign = x ∧
        ((pgain T x z s).2.points.p i).cost =
          (s.points.p i).weight * dist (s.points.p i) (s.points.p x) s.points.dim) ∧
      (((pgain T x z s).2.points.p i).assign = (s.points.p i).assign →
        (pgain T x z s).2.points.p i = s.points.p i) := by
  obtain ⟨q1, q2, q3⟩ := pgain_points z s hT hx
  have hcoord : ∀ j, ((pgain T x z s).2.points.p j).coord = (s.points.p j).coord := by
    intro j
    rcases q3 j with h | ⟨_, h⟩
    · rw [h]
    · rw [h]; rfl
  refine ⟨q1, fun i hi => ?_⟩
  rw [q2, dist_congr (c := s.points.p i)
    (d := s.points.p ((pgain T x z s).2.points.p i).assign) (hcoord i) (hcoord _)]
  rcases q3 i with h | ⟨_, h⟩
  · rw [h]
    exact ⟨hcost i hi, fun hne => absurd rfl hne, fun _ => rfl⟩
  · rw [h]
    refine ⟨rfl, fun _ => ⟨rfl, rfl⟩, fun he => ?_⟩
    have he' : x = (s.points.p i).assign := he
    have hc := hcost i hi
    rw [← he'] at hc
    unfold moved
    rw [← hc, he']

theorem pgain_cost_invariant_witness :
    (1 ≤ 2 ∧ 1 < lineState.points.num ∧
      ∀ i, i < lineState.points.num →
        (lineState.points.p i).cost =
          (lineState.points.p i).weight *
            dist (lineState.points.p i)
              (lineState.points.p (lineState.points.p i).assign) lineState.points.dim) ∧
    ((pgain 2 1 (1 / 2) lineState).2.points.num = lineState.points.num ∧
    ∀ i, i < lineState.points.num →
      ((pgain 2 1 (1 / 2) lineState).2.points.p i).cost =
        ((pgain 2 1 (1 / 2) lineState).2.points.p i).weight *
          dist ((pgain 2 1 (1 / 2) lineState).2.points.p i)
            ((pgain 2 1 (1 / 2) lineState).2.points.p
              ((pgain 2 1 (1 / 2) lineState).2.points.p i).assign)
            (pgain 2 1 (1 / 2) lineState).2.points.dim ∧
      (((pgain 2 1 (1 / 2) lineState).2.points.p i).assign ≠ (lineState.points.p i).assign →
        ((pgain 2 1 (1 / 2) lineState).2.points.p i).assign = 1 ∧
        ((pgain 2 1 (1 / 2) lineState).2.points.p i).cost =
          (lineState.points.p i).weight *
            dist (lineState.points.p i) (lineState.points.p 1) lineState.points.dim) ∧
      (((pgain 2 1 (1 / 2) lineState).2.points.p i).assign = (lineState.points.p i).assign →
        (pgain 2 1 (1 / 2) lineState).2.points.p i = lineState.points.p i)) :=
  ⟨⟨by decide, by decide, lineState_valid.cost_eq⟩,
    pgain_cost_invariant 2 1 (1 / 2) lineState (by decide) (by decide)
      lineState_valid.cost_eq⟩

theorem glCost_congr {s t : State} (x : Nat) (z : ℚ) (hp : t.points = s.points)
    (hc : t.is_center = s.is_center) : glCost t x z = glCost s x z := by
  obtain ⟨P, a1, c, a2, a3, a4, a5, a6, a7⟩ := s
  obtain ⟨P', b1, c', b2, b3, b4, b5, b6, b7⟩ := t
  simp only at hp hc
  subst hp
  subst hc
  rfl

/-- In the state left by a committed `pgain(x)` the reduced cost of opening
`x` again is zero. -/
theorem glCost_after_commit {T x : Nat} {z : ℚ} {s : State} (hT : 1 ≤ T)
    (hv : Valid s) (hz : 0 < z) (hx : x < s.points.num) (h : glCost s x z < 0) :
    glCost (pgain T x z s).2 x z = 0 := by
  have hv' := pgain_valid hT hv hz hx
  obtain ⟨_, p2, p3, p4, p5, _⟩ := pgain_of_lt hT hv hx h
  have hcoord := moved_coord (s := s) (x := x) (z := z) _ p4
  -- `x_cost` is unchanged
  have hxc : ∀ i, x_cost (pgain T x z s).2.points x i = x_cost s.points x i := by
    intro i
    unfold x_cost
    rw [p3, dist_congr (hcoord i).1 (hcoord x).1, (hcoord i).2]
  -- cost and assignment of the points that stay
  have hstay : ∀ i, ¬ moves s x z i →
      (pgain T x z s).2.points.p i = s.points.p i := by
    intro i hm
    rw [p4 i, if_neg (fun hh => hm hh.2)]
  -- nobody wants to switch any more
  have hsw : ∀ i, i < s.points.num → ¬ switches (pgain T x z s).2.points x i := by
    intro i hi
    unfold switches
    rw [hxc i]
    by_cases hm : moves s x z i
    · rw [p4 i, if_pos ⟨hi, hm⟩, moved_cost]
      exact lt_irrefl _
    · rw [hstay i hm]
      exact fun hh => hm (Or.inl hh)
  -- only `x` is worth closing
  have hcl : ∀ c, c < s.points.num → (closes (pgain T x z s).2 x z c ↔ c = x) := by
    intro c hc
    constructor
    · rintro ⟨a1, a2⟩
      by_contra hcx
      rw [p5 c, if_pos hc, if_neg hcx] at a1
      simp only [Bool.and_eq_true, Bool.not_eq_true', decide_eq_false_iff_not] at a1
      apply a1.2
      refine ⟨a1.1, ?_⟩
      have heq : lowerOf (pgain T x z s).2.points x z c = lowerOf s.points x z c := by
        unfold lowerOf
        congr 1
        rw [p2]
        apply Finset.sum_congr
        · apply Finset.filter_congr
          intro i hi
          rw [Finset.mem_range] at hi
          constructor
          · rintro ⟨_, b2⟩
            have hm : ¬ moves s x z i := by
              intro hm
              rw [p4 i, if_pos ⟨hi, hm⟩] at b2
              exact hcx b2.symm
            rw [hstay i hm] at b2
            exact ⟨fun hh => hm (Or.inl hh), b2⟩
          · rintro ⟨b1, b2⟩
            have hm : ¬ moves s x z i := by
              rintro (hm | hm)
              · exact b1 hm
              · rw [b2] at hm; exact a1.2 hm
            rw [hstay i hm]
            exact ⟨hsw i hi, b2⟩
        · intro i hi
          rw [Finset.mem_filter, Finset.mem_range] at hi
          have hm : ¬ moves s x z i := by
            rintro (hm | hm)
            · exact hi.2.1 hm
            · rw [hi.2.2] at hm; exact a1.2 hm
          rw [hxc i, hstay i hm]
      rw [← heq]; exact a2
    · intro hcx
      subst hcx
      exact closes_self hv' hz (by rw [p5 c, if_pos hc, if_pos rfl])
  unfold glCost
  rw [p2]
  have h1 : (Finset.range s.points.num).filter (switches (pgain T x z s).2.points x) =
      ∅ := by
    apply Finset.filter_eq_empty_iff.mpr
    intro i hi
    exact hsw i (Finset.mem_range.mp hi)
  have h2 : (Finset.range s.points.num).filter (closes (pgain T x z s).2 x z) = {x} := by
    ext c
    rw [Finset.mem_filter, Finset.mem_range, Finset.mem_singleton]
    constructor
    · rintro ⟨a1, a2⟩; exact (hcl c a1).mp a2
    · intro hcx; subst hcx; exact ⟨hx, (hcl c hx).mpr rfl⟩
  rw [h1, h2, Finset.sum_empty, Finset.sum_singleton, lowerOf_self hv']
  ring

/-! ## Claims about the rebuild of `center_table` -/

theorem centersIn_surj (c : Nat → Bool) (n r : Nat) (h : r < centersIn c 0 n) :
    ∃ i, i < n ∧ c i = true ∧ centersIn c 0 i = r := by
  induction n with
  | zero => rw [centersIn_self] at h; exact absurd h (Nat.not_lt_zero r)
  | succ m ih =>
    rw [centersIn_succ c (Nat.zero_le m)] at h
    by_cases hr : r < centersIn c 0 m
    · obtain ⟨i, hi, hc, he⟩ := ih hr
      exact ⟨i, by omega, hc, he⟩
    · by_cases hc : c m = true
      · rw [if_pos hc] at h
        exact ⟨m, by omega, hc, by omega⟩
      · rw [if_neg hc] at h
        omega

/-! ## Claims about `pkmedian` -/

theorem exists_of_returns {α : Type} {e : Except Fault α} (h : returns e = true) :
    ∃ r, e = .ok r := by
  cases e with
  | ok r => exact ⟨r, rfl⟩
  | error f => simp [returns] at h

theorem pkmedian_adjust_state (kmin kmax : Nat) (a : Search) :
    (pkmedian_adjust kmin kmax a).state = a.state := by
  unfold pkmedian_adjust
  simp only
  split <;> split <;> rfl

/-- The binary search returns only with `k` in the band or with `loz` within
a thousandth of `hiz`. -/
theorem pkmedian_search_exit (T : Nat) (lrand48 : Nat → Nat) (kmin kmax iter fuel : Nat) :
    ∀ (n : Nat) (a r : Search),
      pkmedian_search T lrand48 kmin kmax iter fuel n a = .ok r →
      (kmin ≤ r.state.k ∧ r.state.k ≤ kmax) ∨ 999 / 1000 * r.hiz ≤ r.loz := by
  intro n
  induction n with
  | zero => intro a r h; simp [pkmedian_search] at h
  | succ m ih =>
    intro a r h
    simp only [pkmedian_search] at h
    split at h
    · simp at h
    · rename_i a2 _
      by_cases hd : pkmedian_done kmin kmax (pkmedian_adjust kmin kmax a2) = true
      · rw [if_pos hd] at h
        simp only [Except.ok.injEq] at h
        subst h
        unfold pkmedian_done at hd
        simp only [Bool.or_eq_true, Bool.and_eq_true, decide_eq_true_eq] at hd
        rcases hd with hk | hz
        · exact Or.inl ⟨hk.2, hk.1⟩
        · exact Or.inr hz
      · rw [if_neg hd] at h
        exact ih _ r h

/-- C8: whenever `pkmedian` returns from its binary search (`n > kmax`), the
value stored in `*kfinal` is the current center count `k`, and either
`kmin ≤ kfinal ≤ kmax` or `loz ≥ 0.999 * hiz` (stuck); in particular with
`kmin = kmax` and `loz < 0.999 * hiz` at the exit, `kfinal = kmin`. -/
theorem pkmedian_exit (T : Nat) (lrand48 : Nat → Nat) (klogk : Nat → Nat)
    (kmin kmax fuel : Nat) (s : State) (r : KMedianResult) (hn : kmax < s.points.num)
    (h : pkmedian T lrand48 klogk kmin kmax fuel s = .ok r) :
    r.kfinal = r.state.k ∧
    ((kmin ≤ r.kfinal ∧ r.kfinal ≤ kmax) ∨ 999 / 1000 * r.hiz ≤ r.loz) ∧
    (kmin = kmax → r.loz < 999 / 1000 * r.hiz → r.kfinal = kmin) := by
  unfold pkmedian at h
  simp only [if_neg (Nat.not_le.mpr hn)] at h
  split at h
  · simp at h
  · rename_i a2 _
    split at h
    · simp at h
    · rename_i a ha
      simp only [Except.ok.injEq] at h
      subst h
      have hex := pkmedian_search_exit T lrand48 kmin kmax (klogk kmax) fuel fuel _ a ha
      refine ⟨rfl, hex, fun hkk hlt => ?_⟩
      rcases hex with hk | hz
      · show a.state.k = kmin
        omega
      · exact absurd hlt (not_lt.mpr hz)

theorem pkmedian_exit_witness :
    1 < (twoPointState 0 1).points.num ∧
    ∃ r, pkmedian 1 (fun _ => 12345) (fun _ => 0) 1 1 20 (twoPointState 0 1) = .ok r ∧
      (r.kfinal = r.state.k ∧
      ((1 ≤ r.kfinal ∧ r.kfinal ≤ 1) ∨ 999 / 1000 * r.hiz ≤ r.loz) ∧
      (1 = 1 → r.loz < 999 / 1000 * r.hiz → r.kfinal = 1)) :=
  ⟨by decide,
    (exists_of_returns (e := pkmedian 1 (fun _ => 12345) (fun _ => 0) 1 1 20
      (twoPointState 0 1)) (by with_unfolding_all decide)).elim
      (fun r hr => ⟨r, hr,
        pkmedian_exit 1 (fun _ => 12345) (fun _ => 0) 1 1 20 (twoPointState 0 1) r
          (by decide) hr⟩)⟩

/-- Lines 1494-1497 for all workers: every point below `num` becomes its own
center at cost 0; nothing else changes. -/
theorem pkmedian_self_assign {T : Nat} (hT : 1 ≤ T) (P0 : Points) :
    (forLoop 0 T
      (fun pid (P : Points) =>
        forLoop (k1 P.num T pid) (k2 P.num T pid)
          (fun kk (P : Points) =>
            { P with p := Function.update P.p kk { P.p kk with assign := kk, cost := 0 } })
          P) P0).num = P0.num ∧
    (forLoop 0 T
      (fun pid (P : Points) =>
        forLoop (k1 P.num T pid) (k2 P.num T pid)
          (fun kk (P : Points) =>
            { P with p := Function.update P.p kk { P.p kk with assign := kk, cost := 0 } })
          P) P0).dim = P0.dim ∧
    ∀ i, (forLoop 0 T
      (fun pid (P : Points) =>
        forLoop (k1 P.num T pid) (k2 P.num T pid)
          (fun kk (P : Points) =>
            { P with p := Function.update P.p kk { P.p kk with assign := kk, cost := 0 } })
          P) P0).p i =
      if i < P0.num then { P0.p i with assign := i, cost := 0 } else P0.p i := by
  refine workers_induction (N := P0.num) hT _ P0
    (fun n P => P.num = P0.num ∧ P.dim = P0.dim ∧
      ∀ i, P.p i = if i < n then { P0.p i with assign := i, cost := 0 } else P0.p i)
    ⟨rfl, rfl, fun i => by rw [if_neg (Nat.not_lt_zero i)]⟩ ?_
  rintro pid P hpid ⟨q1, q2, q3⟩
  simp only [q1]
  refine forLoop_induction _ P
    (fun n P => P.num = P0.num ∧ P.dim = P0.dim ∧
      ∀ i, P.p i = if i < n then { P0.p i with assign := i, cost := 0 } else P0.p i)
    (k1_le_k2 hpid) ⟨q1, q2, q3⟩ ?_
  rintro n Q _ _ ⟨r1, r2, r3⟩
  refine ⟨r1, r2, fun i => ?_⟩
  by_cases hin : i = n
  · subst hin
    simp only [Function.update_same]
    rw [if_pos (Nat.lt_succ_self i), r3 i, if_neg (lt_irrefl i)]
  · simp only [Function.update_noteq hin]
    rw [r3 i]
    by_cases hlt : i < n
    · rw [if_pos hlt, if_pos (by omega)]
    · rw [if_neg hlt, if_neg (by omega)]

/-- What `pkmedian` returns when there are no more points than `kmax`. -/
theorem pkmedian_of_le {T : Nat} (lrand48 : Nat → Nat) (klogk : Nat → Nat)
    (kmin kmax : Nat) (fuel : Nat) {s : State} (hT : 1 ≤ T)
    (h : s.points.num ≤ kmax) :
    ∃ r, pkmedian T lrand48 klogk kmin kmax fuel s = .ok r ∧
      r.cost = 0 ∧ r.kfinal = s.k ∧ r.state.draws = s.draws ∧
      r.state.points.num = s.points.num ∧
      ∀ i, r.state.points.p i =
        if i < s.points.num then { s.points.p i with assign := i, cost := 0 }
        else s.points.p i := by
  unfold pkmedian
  simp only [if_pos h]
  obtain ⟨p1, _, p3⟩ := pkmedian_self_assign hT s.points
  exact ⟨_, rfl, rfl, rfl, rfl, p1, p3⟩

/-- C9: for every point set with `n ≤ kmax` (every number of workers, every
`kmin`, whatever the statics hold), `pkmedian` returns cost 0 and leaves
every point `i` with `assign[i] = i` and `cost[i] = 0`; the points keep their
places (weight and coordinates of every index are unchanged) and no random
draw is consumed. -/
theorem pkmedian_few_points (T : Nat) (lrand48 : Nat → Nat) (klogk : Nat → Nat)
    (kmin kmax fuel : Nat) (s : State) (hT : 1 ≤ T) (h : s.points.num ≤ kmax) :
    ∃ r, pkmedian T lrand48 klogk kmin kmax fuel s = .ok r ∧
      r.cost = 0 ∧
      r.state.points.num = s.points.num ∧
      (∀ i, i < s.points.num →
        (r.state.points.p i).assign = i ∧ (r.state.points.p i).cost = 0) ∧
      (∀ i, (r.state.points.p i).weight = (s.points.p i).weight ∧
        (r.state.points.p i).coord = (s.points.p i).coord) ∧
      r.state.draws = s.draws := by
  obtain ⟨r, h1, h2, _, h4, h5, h6⟩ := pkmedian_of_le lrand48 klogk kmin kmax fuel hT h
  refine ⟨r, h1, h2, h5, fun i hi => ?_, fun i => ?_, h4⟩
  · rw [h6 i, if_pos hi]; exact ⟨rfl, rfl⟩
  · rw [h6 i]; split <;> exact ⟨rfl, rfl⟩

theorem pkmedian_few_points_witness :
    (1 ≤ 2 ∧ lineState.points.num ≤ 5) ∧
    ∃ r, pkmedian 2 (fun _ => 12345) (fun _ => 0) 2 5 0 lineState = .ok r ∧
      r.cost = 0 ∧
      r.state.points.num = lineState.points.num ∧
      (∀ i, i < lineState.points.num →
        (r.state.points.p i).assign = i ∧ (r.state.points.p i).cost = 0) ∧
      (∀ i, (r.state.points.p i).weight = (lineState.points.p i).weight ∧
        (r.state.points.p i).coord = (lineState.points.p i).coord) ∧
      r.state.draws = lineState.draws :=
  ⟨⟨by decide, by decide⟩,
    pkmedian_few_points 2 (fun _ => 12345) (fun _ => 0) 2 5 0 lineState (by decide)
      (by decide)⟩

/-- C10, the code at the failing input: the first chunk of a run holds one
point and `kmax = 1`.  `pkmedian` leaves the point open (assigned to itself),
but stores in `*kfinal` the static `k`, which no statement of this path sets:
`kfinal` is 0, not 1. -/
theorem pkmedian_one_point_kfinal :
    ∃ r, pkmedian 1 (fun _ => 12345) (fun _ => 0) 1 1 0 onePointState = .ok r ∧
      r.kfinal = 0 ∧ r.state.points.num = 1 ∧ (r.state.points.p 0).assign = 0 := by
  obtain ⟨r, h1, _, h3, _, h5, h6⟩ :=
    pkmedian_of_le (T := 1) (s := onePointState) (fun _ => 12345)
      (fun _ => 0) 1 1 0 (by decide) (by decide)
  refine ⟨r, h1, h3, h5, ?_⟩
  rw [h6 0, if_pos (by decide)]


/-! ## `selectfeasible_fast` -/

theorem bsearch_le (a : Nat → ℚ) (w : ℚ) (fuel l r : Nat) : bsearch a w fuel l r ≤ r := by
  induction fuel generalizing l r with
  | zero => simp [bsearch]
  | succ f ih =>
    unfold bsearch
    by_cases h : l + 1 < r
    · rw [if_pos h]
      have hk : (l + r) / 2 ≤ r := by omega
      by_cases hw : a ((l + r) / 2) > w
      · simp only [hw, if_true]
        exact le_trans (ih l ((l + r) / 2)) hk
      · simp only [hw, if_false]
        exact ih ((l + r) / 2) r
    · rw [if_neg h]

theorem pick_feasible_lt (a : Nat → ℚ) (w : ℚ) (num : Nat) (h : 0 < num) :
    pick_feasible a num w < num := by
  unfold pick_feasible
  split
  · exact h
  · have := bsearch_le a w num 0 (num - 1)
    omega

theorem identity_loop (n : Nat) (f : Nat → Nat) :
    ∀ i, forLoop 0 n (fun i f => Function.update f i i) f i = if i < n then i else f i := by
  induction n with
  | zero => intro i; simp [forLoop_of_le]
  | succ n ih =>
    intro i
    rw [forLoop_succ _ _ (Nat.zero_le n)]
    by_cases h : i = n
    · subst h; simp
    · rw [Function.update_noteq h, ih]
      by_cases h2 : i < n
      · rw [if_pos h2, if_pos (by omega)]
      · rw [if_neg h2, if_neg (by omega)]

theorem sample_loop (lrand48 : Nat → Nat) (a : Nat → ℚ) (num : Nat) (t : ℚ) (m : Nat)
    (f : Nat → Nat) (d : Nat) (h : 0 < num) :
    ∀ i, i < m →
      (forLoop 0 m
        (fun i (r : (Nat → Nat) × Nat) =>
          let w := (toFloat (lrand48 r.2) / toFloat INT_MAX) * t
          (Function.update r.1 i (pick_feasible a num w), r.2 + 1))
        (f, d)).1 i < num := by
  induction m with
  | zero => intro i hi; omega
  | succ m ih =>
    intro i hi
    rw [forLoop_succ _ _ (Nat.zero_le m)]
    by_cases h2 : i = m
    · subst h2
      simp only [Function.update_same]
      exact pick_feasible_lt _ _ _ h
    · simp only [Function.update_noteq h2]
      exact ih i (by omega)

/-- C19: `selectfeasible_fast` sets `numfeasible` to the smaller of the
number of points and `klogk kmin`, all entries of `feasible` below
`numfeasible` are indices of points, and when `numfeasible` is the number of
points the entries are the identity and no draw is consumed. -/
theorem selectfeasible_fast_spec (lrand48 : Nat → Nat) (klogk : Nat → Nat) (kmin : Nat)
    (s : State) :
    (selectfeasible_fast lrand48 klogk kmin s).numfeasible = min s.points.num (klogk kmin) ∧
    (∀ i, i < (selectfeasible_fast lrand48 klogk kmin s).numfeasible →
      (selectfeasible_fast lrand48 klogk kmin s).feasible i < s.points.num) ∧
    ((selectfeasible_fast lrand48 klogk kmin s).numfeasible = s.points.num →
      (∀ i, i < s.points.num → (selectfeasible_fast lrand48 klogk kmin s).feasible i = i) ∧
      (selectfeasible_fast lrand48 klogk kmin s).draws = s.draws) := by
  unfold selectfeasible_fast
  by_cases hn : s.points.num > klogk kmin
  · have hne : ¬ klogk kmin = s.points.num := by omega
    simp only [hn, if_true, hne, if_false]
    refine ⟨by omega, ?_, fun h => h.elim⟩
    intro i hi
    exact sample_loop lrand48 _ _ _ _ _ _ (by omega) i hi
  · simp only [hn, if_false, if_true]
    refine ⟨by omega, ?_, fun _ => ⟨?_, trivial⟩⟩
    · intro i hi
      rw [identity_loop, if_pos hi]
      exact hi
    · intro i hi
      rw [identity_loop, if_pos hi]

theorem accum_loop (P : Points) (m : Nat) :
    ∀ i, forLoop 1 (m + 1) (fun i a => Function.update a i (a (i - 1) + (P.p i).weight))
        (Function.update (fun _ => 0) 0 (P.p 0).weight) i =
      if i < m + 1 then ∑ j ∈ Finset.range (i + 1), (P.p j).weight else 0 := by
  induction m with
  | zero =>
    intro i
    rw [forLoop_of_le _ _ (le_refl 1)]
    by_cases h : i = 0
    · subst h; simp
    · rw [Function.update_noteq h, if_neg (by omega)]
  | succ m ih =>
    intro i
    rw [forLoop_succ _ _ (by omega : 1 ≤ m + 1)]
    by_cases h : i = m + 1
    · subst h
      rw [Function.update_same, ih, if_pos (by omega), if_pos (by omega)]
      simp only [Nat.add_sub_cancel]
      rw [Finset.sum_range_succ _ (m + 1)]
    · rw [Function.update_noteq h, ih]
      by_cases h2 : i < m + 1
      · rw [if_pos h2, if_pos (by omega)]
      · rw [if_neg h2, if_neg (by omega)]

theorem accumweights_eq (P : Points) (h : 0 < P.num) (i : Nat) (hi : i < P.num) :
    accumweights P i = ∑ j ∈ Finset.range (i + 1), (P.p j).weight := by
  unfold accumweights
  obtain ⟨m, hm⟩ : ∃ m, P.num = m + 1 := ⟨P.num - 1, by omega⟩
  rw [hm, accum_loop, if_pos (by omega)]

theorem accumweights_mono (P : Points) (hw : ∀ j, j < P.num → 0 ≤ (P.p j).weight)
    (i j : Nat) (hij : i ≤ j) (hj : j < P.num) : accumweights P i ≤ accumweights P j := by
  rw [accumweights_eq P (by omega) i (by omega), accumweights_eq P (by omega) j hj]
  apply Finset.sum_le_sum_of_subset_of_nonneg
  · intro x hx
    simp only [Finset.mem_range] at hx ⊢
    omega
  · intro x hx _
    simp only [Finset.mem_range] at hx
    exact hw x (by omega)

theorem bsearch_spec (a : Nat → ℚ) (w : ℚ) (fuel : Nat) :
    ∀ l r, l < r → r - l ≤ fuel + 1 → a l ≤ w → w < a r →
      l < bsearch a w fuel l r ∧ bsearch a w fuel l r ≤ r ∧
      a (bsearch a w fuel l r - 1) ≤ w ∧ w < a (bsearch a w fuel l r) := by
  induction fuel with
  | zero =>
    intro l r hlr hf hl hr
    have : r - 1 = l := by omega
    simp only [bsearch]
    exact ⟨hlr, le_refl r, by rw [this]; exact hl, hr⟩
  | succ f ih =>
    intro l r hlr hf hl hr
    unfold bsearch
    by_cases h : l + 1 < r
    · rw [if_pos h]
      by_cases hk : a ((l + r) / 2) > w
      · simp only [hk, if_true]
        obtain ⟨h1, h2, h3, h4⟩ := ih l ((l + r) / 2) (by omega) (by omega) hl hk
        exact ⟨h1, by omega, h3, h4⟩
      · simp only [hk, if_false]
        obtain ⟨h1, h2, h3, h4⟩ := ih ((l + r) / 2) r (by omega) (by omega) (not_lt.mp hk) hr
        exact ⟨by omega, h2, h3, h4⟩
    · rw [if_neg h]
      have : r - 1 = l := by omega
      exact ⟨hlr, le_refl r, by rw [this]; exact hl, hr⟩

/-- C20: with nonnegative weights, `accumweights` holds the running sums of
the weights, and for a value `w` with `0 ≤ w < accumweight[num - 1]` the
search of `selectfeasible_fast` emits the smallest index whose running sum
exceeds `w`; the point at that index has positive weight. -/
theorem pick_feasible_smallest (P : Points) (w : ℚ) (hn : 1 ≤ P.num)
    (hw : ∀ j, j < P.num → 0 ≤ (P.p j).weight)
    (h0 : 0 ≤ w) (h1 : w < accumweights P (P.num - 1)) :
    (∀ i, i < P.num → accumweights P i = ∑ j ∈ Finset.range (i + 1), (P.p j).weight) ∧
    pick_feasible (accumweights P) P.num w < P.num ∧
    w < accumweights P (pick_feasible (accumweights P) P.num w) ∧
    (∀ j, j < pick_feasible (accumweights P) P.num w → accumweights P j ≤ w) ∧
    0 < (P.p (pick_feasible (accumweights P) P.num w)).weight := by
  refine ⟨fun i hi => accumweights_eq P (by omega) i hi, pick_feasible_lt _ _ _ (by omega), ?_⟩
  unfold pick_feasible
  by_cases ha : accumweights P 0 > w
  · rw [if_pos ha]
    refine ⟨ha, fun j hj => absurd hj (by omega), ?_⟩
    rw [accumweights_eq P (by omega) 0 (by omega)] at ha
    simp only [zero_add, Finset.sum_range_one] at ha
    exact lt_of_le_of_lt h0 ha
  · rw [if_neg ha]
    have hlr : 0 < P.num - 1 := by
      rcases Nat.eq_zero_or_pos (P.num - 1) with h | h
      · rw [h] at h1; exact absurd h1 ha
      · exact h
    obtain ⟨b1, b2, b3, b4⟩ :=
      bsearch_spec (accumweights P) w P.num 0 (P.num - 1) hlr (by omega) (not_lt.mp ha) h1
    refine ⟨b4, fun j hj => ?_, ?_⟩
    · exact le_trans (accumweights_mono P hw j _ (by omega) (by omega)) b3
    · have e1 := accumweights_eq P (by omega) (bsearch (accumweights P) w P.num 0 (P.num - 1))
        (by omega)
      have e2 := accumweights_eq P (by omega)
        (bsearch (accumweights P) w P.num 0 (P.num - 1) - 1) (by omega)
      have e3 : bsearch (accumweights P) w P.num 0 (P.num - 1) - 1 + 1 =
          bsearch (accumweights P) w P.num 0 (P.num - 1) := by omega
      rw [e3] at e2
      rw [Finset.sum_range_succ, ← e2] at e1
      linarith

/-- The search on the four points of the line, for `w = 5/2`: the running
sums are 1, 2, 3, 4, and index 2 is emitted. -/
theorem pick_feasible_smallest_witness :
    (1 ≤ linePoints.num ∧ (0 : ℚ) ≤ 5 / 2 ∧
      5 / 2 < accumweights linePoints (linePoints.num - 1) ∧
      pick_feasible (accumweights linePoints) linePoints.num (5 / 2) = 2) ∧
    pick_feasible (accumweights linePoints) linePoints.num (5 / 2) < linePoints.num ∧
    5 / 2 < accumweights linePoints
      (pick_feasible (accumweights linePoints) linePoints.num (5 / 2)) ∧
    (∀ j, j < pick_feasible (accumweights linePoints) linePoints.num (5 / 2) →
      accumweights linePoints j ≤ 5 / 2) ∧
    0 < (linePoints.p (pick_feasible (accumweights linePoints) linePoints.num (5 / 2))).weight :=
  ⟨⟨by decide, by norm_num, by with_unfolding_all decide, by with_unfolding_all decide⟩,
    (pick_feasible_smallest linePoints (5 / 2) (by decide) (by with_unfolding_all decide)
      (by norm_num) (by with_unfolding_all decide)).2⟩

/-! ## `pspeedy` -/

theorem points_eq (A B : Points) (h1 : A.num = B.num) (h2 : A.dim = B.dim)
    (h3 : ∀ k, A.p k = B.p k) : A = B := by
  cases A
  cases B
  simp only [Points.mk.injEq]
  exact ⟨h1, h2, funext h3⟩

/-- The first loop of `pspeedy` assigns every point to point 0. -/
theorem pspeedy_init_spec {T : Nat} (hT : 1 ≤ T) (P : Points) :
    (pspeedy_init T P).num = P.num ∧ (pspeedy_init T P).dim = P.dim ∧
    ∀ k, (pspeedy_init T P).p k =
      if k < P.num then
        { P.p k with cost := dist (P.p k) (P.p 0) P.dim * (P.p k).weight, assign := 0 }
      else P.p k := by
  unfold pspeedy_init
  refine workers_induction (N := P.num) hT _ P
    (fun m t => t.num = P.num ∧ t.dim = P.dim ∧
      ∀ k, t.p k =
        if k < m then
          { P.p k with cost := dist (P.p k) (P.p 0) P.dim * (P.p k).weight, assign := 0 }
        else P.p k)
    ⟨rfl, rfl, fun k => by simp⟩ ?_
  intro pid t hpid ht
  show (fun m (t : Points) => t.num = P.num ∧ t.dim = P.dim ∧
      ∀ k, t.p k =
        if k < m then
          { P.p k with cost := dist (P.p k) (P.p 0) P.dim * (P.p k).weight, assign := 0 }
        else P.p k) (k2 P.num T pid) _
  rw [ht.1]
  refine forLoop_induction _ t
    (fun m (t : Points) => t.num = P.num ∧ t.dim = P.dim ∧
      ∀ k, t.p k =
        if k < m then
          { P.p k with cost := dist (P.p k) (P.p 0) P.dim * (P.p k).weight, assign := 0 }
        else P.p k)
    (k1_le_k2 hpid) ht ?_
  intro i u _ _ hu
  obtain ⟨u1, u2, u3⟩ := hu
  refine ⟨u1, u2, fun k => ?_⟩
  show Function.update u.p i
      { u.p i with cost := dist (u.p i) (u.p 0) u.dim * (u.p i).weight, assign := 0 } k = _
  by_cases hk : k = i
  · subst hk
    rw [Function.update_same, if_pos (Nat.lt_succ_self k)]
    have e1 : u.p k = P.p k := by rw [u3 k, if_neg (Nat.lt_irrefl k)]
    have e0 : (u.p 0).coord = (P.p 0).coord := by
      rw [u3 0]; split <;> rfl
    rw [e1, u2, dist_congr rfl e0]
  · rw [Function.update_noteq hk, u3 k]
    by_cases h2 : k < i
    · rw [if_pos h2, if_pos (by omega)]
    · rw [if_neg h2, if_neg (by omega)]

/-- The reassignment after point `i` has been opened: the points that are
cheaper to serve from `i` move to `i`. -/
theorem pspeedy_open_spec {T : Nat} (hT : 1 ≤ T) (i : Nat) (P : Points) :
    (pspeedy_open T i P).num = P.num ∧ (pspeedy_open T i P).dim = P.dim ∧
    ∀ k, (pspeedy_open T i P).p k =
      if k < P.num ∧ dist (P.p i) (P.p k) P.dim * (P.p k).weight < (P.p k).cost then
        { P.p k with cost := dist (P.p i) (P.p k) P.dim * (P.p k).weight, assign := i }
      else P.p k := by
  unfold pspeedy_open
  refine workers_induction (N := P.num) hT _ P
    (fun m t => t.num = P.num ∧ t.dim = P.dim ∧
      ∀ k, t.p k =
        if k < m ∧ dist (P.p i) (P.p k) P.dim * (P.p k).weight < (P.p k).cost then
          { P.p k with cost := dist (P.p i) (P.p k) P.dim * (P.p k).weight, assign := i }
        else P.p k)
    ⟨rfl, rfl, fun k => by simp⟩ ?_
  intro pid t hpid ht
  show (fun m (t : Points) => t.num = P.num ∧ t.dim = P.dim ∧
      ∀ k, t.p k =
        if k < m ∧ dist (P.p i) (P.p k) P.dim * (P.p k).weight < (P.p k).cost then
          { P.p k with cost := dist (P.p i) (P.p k) P.dim * (P.p k).weight, assign := i }
        else P.p k) (k2 P.num T pid) _
  rw [ht.1]
  refine forLoop_induction _ t
    (fun m (t : Points) => t.num = P.num ∧ t.dim = P.dim ∧
      ∀ k, t.p k =
        if k < m ∧ dist (P.p i) (P.p k) P.dim * (P.p k).weight < (P.p k).cost then
          { P.p k with cost := dist (P.p i) (P.p k) P.dim * (P.p k).weight, assign := i }
        else P.p k)
    (k1_le_k2 hpid) ht ?_
  intro j u _ _ hu
  obtain ⟨u1, u2, u3⟩ := hu
  have e1 : u.p j = P.p j := by
    rw [u3 j, if_neg (fun h => Nat.lt_irrefl j h.1)]
  have e0 : (u.p i).coord = (P.p i).coord := by
    rw [u3 i]; split <;> rfl
  have ed : dist (u.p i) (u.p j) u.dim = dist (P.p i) (P.p j) P.dim := by
    rw [u2, e1, dist_congr e0 rfl]
  show (fun m (t : Points) => t.num = P.num ∧ t.dim = P.dim ∧
      ∀ k, t.p k =
        if k < m ∧ dist (P.p i) (P.p k) P.dim * (P.p k).weight < (P.p k).cost then
          { P.p k with cost := dist (P.p i) (P.p k) P.dim * (P.p k).weight, assign := i }
        else P.p k) (j + 1)
      (if dist (u.p i) (u.p j) u.dim * (u.p j).weight < (u.p j).cost then
        { u with
          p := Function.update u.p j
            { u.p j with cost := dist (u.p i) (u.p j) u.dim * (u.p j).weight, assign := i } }
      else u)
  rw [ed, e1]
  by_cases hc : dist (P.p i) (P.p j) P.dim * (P.p j).weight < (P.p j).cost
  · rw [if_pos hc]
    refine ⟨u1, u2, fun k => ?_⟩
    by_cases hk : k = j
    · subst hk
      simp only [Function.update_same]
      rw [if_pos ⟨Nat.lt_succ_self k, hc⟩]
    · simp only [Function.update_noteq hk]
      rw [u3 k]
      by_cases h2 : k < j
      · have h3 : k < j + 1 := by omega
        simp only [h2, h3, true_and]
      · have h3 : ¬ k < j + 1 := by omega
        simp only [h2, h3, false_and, if_false]
  · rw [if_neg hc]
    refine ⟨u1, u2, fun k => ?_⟩
    rw [u3 k]
    by_cases hk : k = j
    · subst hk
      rw [if_neg (fun h => Nat.lt_irrefl k h.1), if_neg (fun h => hc h.2)]
    · by_cases h2 : k < j
      · have h3 : k < j + 1 := by omega
        simp only [h2, h3, true_and]
      · have h3 : ¬ k < j + 1 := by omega
        simp only [h2, h3, false_and, if_false]

theorem pspeedy_total_eq {T : Nat} (hT : 1 ≤ T) (z : ℚ) (s : State) :
    pspeedy_total T z s =
      z * (s.k : ℚ) + ∑ j ∈ Finset.range s.points.num, (s.points.p j).cost := by
  unfold pspeedy_total
  simp only []
  rw [forLoop_sum]
  congr 1
  rw [← sum_blocks (N := s.points.num) hT (fun j => (s.points.p j).cost)]
  apply Finset.sum_congr rfl
  intro p hp
  have hp' : p < T := Finset.mem_range.mp hp
  have := forLoop_induction (fun k mytotal => mytotal + (s.points.p k).cost) (0 : ℚ)
    (fun m a => a = ∑ j ∈ Finset.Ico (k1 s.points.num T p) m, (s.points.p j).cost)
    (k1_le_k2 (N := s.points.num) hp') (by simp)
    (fun i t h1 _ ht => by
      show t + (s.points.p i).cost = _
      rw [Finset.sum_Ico_succ_top h1, ← ht])
  exact this

theorem pspeedy_step_num {T : Nat} (hT : 1 ≤ T) (lrand48 : Nat → Nat) (z : ℚ) (i : Nat)
    (s : State) :
    (pspeedy_step T lrand48 z i s).points.num = s.points.num ∧
    (pspeedy_step T lrand48 z i s).points.dim = s.points.dim ∧
    s.k ≤ (pspeedy_step T lrand48 z i s).k := by
  unfold pspeedy_step
  simp only []
  split
  · exact ⟨(pspeedy_open_spec hT i s.points).1, (pspeedy_open_spec hT i s.points).2.1,
      Nat.le_succ _⟩
  · exact ⟨rfl, rfl, le_refl _⟩

/-- The loop of `pspeedy` keeps what the first loop sets up and every
reassignment keeps. -/
theorem pspeedy_points_induction {T : Nat} (lrand48 : Nat → Nat) (z : ℚ) (s : State)
    (R : Points → Prop) (h0 : R (pspeedy_init T s.points))
    (hstep : ∀ i P, R P → R (pspeedy_open T i P)) : R (pspeedy T lrand48 z s).2.points := by
  unfold pspeedy
  simp only []
  by_cases hn : 1 ≤ (pspeedy_init T s.points).num
  · refine forLoop_induction (pspeedy_step T lrand48 z) _ (fun _ (t : State) => R t.points) hn
      h0 (fun i t _ _ ht => ?_)
    show R (pspeedy_step T lrand48 z i t).points
    unfold pspeedy_step
    simp only []
    split
    · exact hstep i _ ht
    · exact ht
  · rw [forLoop_of_le _ _ (by omega)]
    exact h0

/-- The counter `k` of `pspeedy` is at least 1, and it is 1 only if no
point was opened: the points are then as the first loop left them. -/
theorem pspeedy_k_spec (T : Nat) (lrand48 : Nat → Nat) (z : ℚ) (s : State) :
    1 ≤ (pspeedy T lrand48 z s).2.k ∧
    ((pspeedy T lrand48 z s).2.k = 1 →
      (pspeedy T lrand48 z s).2.points = pspeedy_init T s.points) ∧
    (pspeedy T lrand48 z s).2.is_center = s.is_center ∧
    (pspeedy T lrand48 z s).2.feasible = s.feasible := by
  unfold pspeedy
  simp only []
  by_cases hn : 1 ≤ (pspeedy_init T s.points).num
  · refine forLoop_induction (pspeedy_step T lrand48 z) _
      (fun _ (t : State) => 1 ≤ t.k ∧ (t.k = 1 → t.points = pspeedy_init T s.points) ∧
        t.is_center = s.is_center ∧ t.feasible = s.feasible) hn
      ⟨le_refl 1, fun _ => rfl, rfl, rfl⟩ (fun i t _ _ ht => ?_)
    obtain ⟨t1, t2, t3, t4⟩ := ht
    show 1 ≤ (pspeedy_step T lrand48 z i t).k ∧
      ((pspeedy_step T lrand48 z i t).k = 1 →
        (pspeedy_step T lrand48 z i t).points = pspeedy_init T s.points) ∧
      (pspeedy_step T lrand48 z i t).is_center = s.is_center ∧
      (pspeedy_step T lrand48 z i t).feasible = s.feasible
    unfold pspeedy_step
    simp only []
    split
    · exact ⟨by show 1 ≤ t.k + 1; omega, fun h => by
        have : t.k + 1 = 1 := h
        omega, t3, t4⟩
    · exact ⟨t1, t2, t3, t4⟩
  · rw [forLoop_of_le _ _ (by omega)]
    exact ⟨le_refl 1, fun _ => rfl, rfl, rfl⟩

theorem ltDiv_zero_cost (u z : ℚ) (hz : z ≠ 0) (hu : 0 ≤ u) : ltDiv u 0 z = false := by
  unfold ltDiv
  rw [if_neg hz, zero_div]
  exact decide_eq_false (not_lt.mpr hu)

theorem toFloat_nonneg (n : Nat) : (0 : ℚ) ≤ toFloat n := by
  unfold toFloat
  split
  · exact Nat.cast_nonneg n
  · exact Nat.cast_nonneg _

theorem draw_nonneg (n : Nat) : (0 : ℚ) ≤ toFloat n / toFloat INT_MAX :=
  div_nonneg (toFloat_nonneg n) (toFloat_nonneg INT_MAX)

/-- C16: for `z > 0` the opening test of `pspeedy` fails on every draw
`u ≥ 0` when the cost is 0, so the round of the loop for a point `i` with
`cost[i] = 0` leaves `k` and all points as they are and only consumes the
draw. -/
theorem pspeedy_step_zero_cost (T : Nat) (lrand48 : Nat → Nat) (z : ℚ) (i : Nat) (s : State)
    (hz : 0 < z) (hc : (s.points.p i).cost = 0) :
    (∀ u : ℚ, 0 ≤ u → ltDiv u (s.points.p i).cost z = false) ∧
    pspeedy_step T lrand48 z i s = { s with draws := s.draws + 1 } := by
  refine ⟨fun u hu => by rw [hc]; exact ltDiv_zero_cost u z (ne_of_gt hz) hu, ?_⟩
  unfold pspeedy_step
  simp only []
  rw [hc, ltDiv_zero_cost _ z (ne_of_gt hz) (draw_nonneg _)]
  simp

/-- Point 0 of the line has cost 0: the round for it opens nothing. -/
theorem pspeedy_step_zero_cost_witness :
    ((0 : ℚ) < 1 ∧ (lineState.points.p 0).cost = 0) ∧
    pspeedy_step 2 (fun _ => 7) 1 0 lineState = { lineState with draws := lineState.draws + 1 } :=
  ⟨⟨by norm_num, rfl⟩,
    (pspeedy_step_zero_cost 2 (fun _ => 7) 1 0 lineState (by norm_num) rfl).2⟩

/-! ## Point sets whose points all coincide -/

theorem dist_eq_zero {a b : Point} {dim : Nat} (h : ∀ j, j < dim → a.coord j = b.coord j) :
    dist a b dim = 0 := by
  unfold dist
  refine forLoop_induction _ (0 : ℚ) (fun _ r => r = 0) (Nat.zero_le dim) rfl ?_
  intro i t _ hi ht
  show t + (a.coord i - b.coord i) * (a.coord i - b.coord i) = 0
  have ht' : t = 0 := ht
  rw [ht', h i hi]; ring

theorem dist_nonneg (a b : Point) (dim : Nat) : 0 ≤ dist a b dim := by
  unfold dist
  refine forLoop_induction _ (0 : ℚ) (fun _ r => 0 ≤ r) (Nat.zero_le dim) (le_refl 0) ?_
  intro i t _ _ ht
  show 0 ≤ t + (a.coord i - b.coord i) * (a.coord i - b.coord i)
  have ht' : 0 ≤ t := ht
  nlinarith [mul_self_nonneg (a.coord i - b.coord i)]

theorem Coincide.dist_zero {P : Points} {c : Nat → ℚ} (h : Coincide P c) {i k : Nat}
    (hi : i < P.num) (hk : k < P.num) : dist (P.p i) (P.p k) P.dim = 0 :=
  dist_eq_zero (fun j hj => by rw [h i hi j hj, h k hk j hj])

/-- The sum `hiz` of `pkmedian` is the sum over all points. -/
theorem pkmedian_hiz_eq {T : Nat} (hT : 1 ≤ T) (P : Points) :
    pkmedian_hiz T P =
      ∑ i ∈ Finset.range P.num, dist (P.p i) (P.p 0) P.dim * (P.p i).weight := by
  unfold pkmedian_hiz
  simp only []
  rw [forLoop_sum, zero_add,
    ← sum_blocks (N := P.num) hT (fun i => dist (P.p i) (P.p 0) P.dim * (P.p i).weight)]
  apply Finset.sum_congr rfl
  intro p hp
  have hp' : p < T := Finset.mem_range.mp hp
  exact forLoop_induction
    (fun kk myhiz => myhiz + dist (P.p kk) (P.p 0) P.dim * (P.p kk).weight) (0 : ℚ)
    (fun m a => a = ∑ j ∈ Finset.Ico (k1 P.num T p) m,
      dist (P.p j) (P.p 0) P.dim * (P.p j).weight)
    (k1_le_k2 (N := P.num) hp') (by simp)
    (fun i t h1 _ ht => by
      show t + dist (P.p i) (P.p 0) P.dim * (P.p i).weight = _
      rw [Finset.sum_Ico_succ_top h1, ← ht])

theorem pkmedian_hiz_coincide {T : Nat} (hT : 1 ≤ T) {P : Points} {c : Nat → ℚ}
    (h : Coincide P c) : pkmedian_hiz T P = 0 := by
  rw [pkmedian_hiz_eq hT]
  apply Finset.sum_eq_zero
  intro i hi
  have hi' : i < P.num := Finset.mem_range.mp hi
  rw [h.dist_zero hi' (by omega), zero_mul]

theorem pkmedian_hiz_nonneg {T : Nat} (hT : 1 ≤ T) (P : Points)
    (hw : ∀ i, i < P.num → 0 ≤ (P.p i).weight) : 0 ≤ pkmedian_hiz T P := by
  rw [pkmedian_hiz_eq hT]
  apply Finset.sum_nonneg
  intro i hi
  exact mul_nonneg (dist_nonneg _ _ _) (hw i (Finset.mem_range.mp hi))

/-- What `shuffle` keeps: everything but the order of the points and the
number of draws; a property that all points have is kept. -/
theorem shuffle_spec (lrand48 : Nat → Nat) (s : State) (R : Point → Prop)
    (hR : ∀ i, i < s.points.num → R (s.points.p i)) :
    (shuffle lrand48 s).points.num = s.points.num ∧
    (shuffle lrand48 s).points.dim = s.points.dim ∧
    (shuffle lrand48 s).k = s.k ∧
    (shuffle lrand48 s).is_center = s.is_center ∧
    (shuffle lrand48 s).feasible = s.feasible ∧
    (shuffle lrand48 s).numfeasible = s.numfeasible ∧
    ∀ i, i < s.points.num → R ((shuffle lrand48 s).points.p i) := by
  unfold shuffle
  refine forLoop_induction _ s
    (fun _ (t : State) => t.points.num = s.points.num ∧ t.points.dim = s.points.dim ∧
      t.k = s.k ∧ t.is_center = s.is_center ∧ t.feasible = s.feasible ∧
      t.numfeasible = s.numfeasible ∧ ∀ i, i < s.points.num → R (t.points.p i))
    (Nat.zero_le _) ⟨rfl, rfl, rfl, rfl, rfl, rfl, hR⟩ ?_
  intro i t _ hi ht
  obtain ⟨t1, t2, t3, t4, t5, t6, t7⟩ := ht
  refine ⟨t1, t2, t3, t4, t5, t6, fun k hk => ?_⟩
  show R (Function.update (Function.update t.points.p i
    (t.points.p (lrand48 t.draws % (t.points.num - i) + i)))
    (lrand48 t.draws % (t.points.num - i) + i) (t.points.p i) k)
  have hj : lrand48 t.draws % (t.points.num - i) + i < s.points.num := by
    have := Nat.mod_lt (lrand48 t.draws) (show 0 < t.points.num - i by omega)
    omega
  by_cases h1 : k = lrand48 t.draws % (t.points.num - i) + i
  · rw [h1, Function.update_same]
    exact t7 i (by omega)
  · rw [Function.update_noteq h1]
    by_cases h2 : k = i
    · rw [h2, Function.update_same]
      exact t7 _ hj
    · rw [Function.update_noteq h2]
      exact t7 k hk

theorem shuffle_coincide (lrand48 : Nat → Nat) {s : State} {c : Nat → ℚ}
    (h : Coincide s.points c) : Coincide (shuffle lrand48 s).points c := by
  obtain ⟨h1, h2, -, -, -, -, h7⟩ := shuffle_spec lrand48 s
    (fun q => ∀ j, j < s.points.dim → q.coord j = c j) h
  intro i hi j hj
  rw [h1] at hi
  rw [h2] at hj
  exact h7 i hi j hj

/-- With `z = 0` and all points coincident `pspeedy` opens nothing: it
returns 0, `k` is 1, every point is assigned to point 0 at cost 0. -/
theorem pspeedy_coincide {T : Nat} (hT : 1 ≤ T) (lrand48 : Nat → Nat) {s : State}
    {c : Nat → ℚ} (h : Coincide s.points c) (hn : 1 ≤ s.points.num) :
    (pspeedy T lrand48 0 s).1 = 0 ∧ (pspeedy T lrand48 0 s).2.k = 1 ∧
    (pspeedy T lrand48 0 s).2.points = pspeedy_init T s.points ∧
    Coincide (pspeedy T lrand48 0 s).2.points c ∧
    (pspeedy T lrand48 0 s).2.is_center = s.is_center ∧
    ∀ i, i < s.points.num →
      ((pspeedy T lrand48 0 s).2.points.p i).assign = 0 ∧
      ((pspeedy T lrand48 0 s).2.points.p i).cost = 0 := by
  obtain ⟨i1, i2, i3⟩ := pspeedy_init_spec hT s.points
  have hcost : ∀ i, i < s.points.num →
      ((pspeedy_init T s.points).p i).assign = 0 ∧ ((pspeedy_init T s.points).p i).cost = 0 := by
    intro i hi
    rw [i3 i, if_pos hi]
    exact ⟨rfl, by show dist _ _ _ * _ = 0; rw [h.dist_zero hi (by omega), zero_mul]⟩
  have hco : Coincide (pspeedy_init T s.points) c := by
    intro i hi j hj
    rw [i1] at hi
    rw [i2] at hj
    rw [i3 i, if_pos hi]
    exact h i hi j hj
  have hloop : (pspeedy T lrand48 0 s).2.k = 1 ∧
      (pspeedy T lrand48 0 s).2.points = pspeedy_init T s.points ∧
      (pspeedy T lrand48 0 s).2.is_center = s.is_center := by
    unfold pspeedy
    simp only []
    refine forLoop_induction (pspeedy_step T lrand48 0) _
      (fun _ (t : State) => t.k = 1 ∧ t.points = pspeedy_init T s.points ∧
        t.is_center = s.is_center)
      (show 1 ≤ (pspeedy_init T s.points).num by rw [i1]; exact hn) ⟨rfl, rfl, rfl⟩ ?_
    intro i t _ hi ht
    obtain ⟨t1, t2, t3⟩ := ht
    have hi' : i < s.points.num := by rw [← i1]; exact hi
    have hz : ltDiv (toFloat (lrand48 t.draws) / toFloat INT_MAX) (t.points.p i).cost 0 = false := by
      rw [t2, (hcost i hi').2]
      simp [ltDiv]
    unfold pspeedy_step
    simp only [hz]
    exact ⟨t1, t2, t3⟩
  obtain ⟨l1, l2, l3⟩ := hloop
  refine ⟨?_, l1, l2, by rw [l2]; exact hco, l3, fun i hi => by rw [l2]; exact hcost i hi⟩
  show pspeedy_total T 0 (pspeedy T lrand48 0 s).2 = 0
  rw [pspeedy_total_eq hT, zero_mul, zero_add]
  apply Finset.sum_eq_zero
  intro j hj
  rw [l2] at hj ⊢
  rw [i1] at hj
  exact (hcost j (Finset.mem_range.mp hj)).2

/-! ## `pFL` and the loops of `pkmedian` in the degenerate cases -/

theorem gtDiv_zero (b e : ℚ) (he : 0 ≤ e) : gtDiv 0 b e = false := by
  unfold gtDiv
  by_cases hb : b = 0
  · rw [if_pos hb]; simp
  · rw [if_neg hb, zero_div]
    exact decide_eq_false (not_lt.mpr he)

/-- With cost 0 the loop of `pFL` is not entered. -/
theorem pFL_zero_cost (T : Nat) (lrand48 : Nat → Nat) (feasible : Nat → Nat)
    (numfeasible : Nat) (z : ℚ) (iter : Nat) (e : ℚ) (fuel : Nat) (s : State) :
    pFL T lrand48 feasible numfeasible z 0 iter e fuel s = .ok (0, s) := by
  have h : gtDiv 0 0 e = false := by simp [gtDiv]
  unfold pFL
  cases fuel with
  | zero => simp only [pFL_loop, h, Bool.false_eq_true, if_false]
  | succ f => simp only [pFL_loop, h, Bool.false_eq_true, if_false]

theorem intshuffle_zero (lrand48 : Nat → Nat) (a : Nat → Nat) (d : Nat) :
    intshuffle lrand48 a 0 d = (a, d) := by
  unfold intshuffle
  exact forLoop_of_le _ _ (le_refl 0)

/-- With `iter = 0` and an empty feasible set a pass of `pFL` calls `pgain`
not at all: cost and state come back as they were. -/
theorem pFL_idle (T : Nat) (lrand48 : Nat → Nat) (feasible : Nat → Nat) (z cost e : ℚ)
    (fuel : Nat) (s : State) (he : 0 ≤ e) (hf : 1 ≤ fuel) :
    pFL T lrand48 feasible 0 z cost 0 e fuel s = .ok (cost, s) := by
  obtain ⟨f, rfl⟩ : ∃ f, fuel = f + 1 := ⟨fuel - 1, by omega⟩
  unfold pFL
  unfold pFL_loop
  by_cases h : gtDiv cost cost e = true
  · rw [if_pos h]
    have hp : pFL_pass T feasible 0 z 0
        { s with draws := (intshuffle lrand48 feasible 0 s.draws).2 } = .ok (0, s) := by
      unfold pFL_pass
      rw [forLoop_of_le _ _ (le_refl 0), intshuffle_zero]
    simp only [hp, sub_zero]
    cases f with
    | zero => simp only [pFL_loop, gtDiv_zero cost e he, Bool.false_eq_true, if_false]
    | succ g => simp only [pFL_loop, gtDiv_zero cost e he, Bool.false_eq_true, if_false]
  · rw [if_neg h]

theorem pFL_pass_mod_zero (T : Nat) (feasible : Nat → Nat) (z : ℚ) (iter : Nat) (s : State)
    (hi : 1 ≤ iter) : pFL_pass T feasible 0 z iter s = .error Fault.div_by_zero := by
  unfold pFL_pass
  have := forLoop_induction
    (fun i (a : Except Fault (ℚ × State)) =>
      match a with
      | .error f => .error f
      | .ok (change, s) =>
        if 0 = 0 then .error Fault.div_by_zero
        else
          let x := i % 0
          let r := pgain T (feasible x) z s
          .ok (change + r.1, r.2))
    (.ok (0, s))
    (fun m a => (m = 0 ∧ a = .ok (0, s)) ∨ (1 ≤ m ∧ a = .error Fault.div_by_zero))
    (Nat.zero_le iter) (Or.inl ⟨rfl, rfl⟩)
    (fun i t _ _ ht => by
      rcases ht with ⟨_, h2⟩ | ⟨_, h2⟩
      · right; rw [h2]; exact ⟨by omega, rfl⟩
      · right; rw [h2]; exact ⟨by omega, rfl⟩)
  rcases this with ⟨h1, _⟩ | ⟨_, h2⟩
  · omega
  · exact h2

/-- With an empty feasible set and `iter ≥ 1` the first pass of `pFL`
computes `i % 0`. -/
theorem pFL_mod_zero (T : Nat) (lrand48 : Nat → Nat) (feasible : Nat → Nat) (z cost e : ℚ)
    (iter fuel : Nat) (s : State) (hi : 1 ≤ iter) (hf : 1 ≤ fuel)
    (hc : gtDiv cost cost e = true) :
    pFL T lrand48 feasible 0 z cost iter e fuel s = .error Fault.div_by_zero := by
  obtain ⟨f, rfl⟩ : ∃ f, fuel = f + 1 := ⟨fuel - 1, by omega⟩
  unfold pFL
  unfold pFL_loop
  rw [if_pos hc]
  simp only [pFL_pass_mod_zero T feasible z iter _ hi]

theorem pkmedian_retry_skip (T : Nat) (lrand48 : Nat → Nat) (kmin n : Nat) (a : Search)
    (h : ¬ a.state.k < kmin) : pkmedian_retry T lrand48 kmin n a = a := by
  cases n with
  | zero => rfl
  | succ m => simp only [pkmedian_retry, h, if_false]

theorem pkmedian_lower_z_skip (T : Nat) (lrand48 : Nat → Nat) (kmin fuel : Nat) (a : Search)
    (h : ¬ a.state.k < kmin) : pkmedian_lower_z T lrand48 kmin fuel a = .ok a := by
  cases fuel with
  | zero => simp only [pkmedian_lower_z, h, if_false]
  | succ m => simp only [pkmedian_lower_z, h, if_false]

/-- The function `selectfeasible_fast` touches `feasible`, `numfeasible` and
the draws only. -/
theorem selectfeasible_fast_frame (lrand48 : Nat → Nat) (klogk : Nat → Nat) (kmin : Nat)
    (s : State) :
    (selectfeasible_fast lrand48 klogk kmin s).points = s.points ∧
    (selectfeasible_fast lrand48 klogk kmin s).k = s.k ∧
    (selectfeasible_fast lrand48 klogk kmin s).is_center = s.is_center := by
  unfold selectfeasible_fast
  by_cases hn : s.points.num > klogk kmin
  · have hne : ¬ klogk kmin = s.points.num := by omega
    simp only [hn, if_true, hne, if_false, and_self]
  · simp only [hn, if_false, if_true, and_self]

/-- With an empty sample `selectfeasible_fast` changes `numfeasible` only. -/
theorem selectfeasible_fast_empty (lrand48 : Nat → Nat) (klogk : Nat → Nat) (kmin : Nat)
    (s : State) (hk : klogk kmin = 0) (hn : 0 < s.points.num) :
    selectfeasible_fast lrand48 klogk kmin s = { s with numfeasible := 0 } := by
  unfold selectfeasible_fast
  rw [hk]
  have h1 : s.points.num > 0 := hn
  have h2 : ¬ (0 = s.points.num) := by omega
  simp only [h1, if_true, h2, if_false]
  rw [forLoop_of_le _ _ (le_refl 0)]

/-- The marks that line 1536 sets: the centers of all points, the other
marks stay. -/
theorem mark_centers (P : Points) (c : Nat → Bool) (j : Nat) :
    forLoop 0 P.num (fun i c => Function.update c (P.p i).assign true) c j =
      (c j || decide (∃ i, i < P.num ∧ (P.p i).assign = j)) := by
  have := forLoop_induction (fun i c => Function.update c (P.p i).assign true) c
    (fun m t => t j = (c j || decide (∃ i, i < m ∧ (P.p i).assign = j)))
    (Nat.zero_le P.num) (by simp)
    (fun i t _ _ ht => by
      show Function.update t (P.p i).assign true j = _
      by_cases h : j = (P.p i).assign
      · rw [h, Function.update_same]
        have : ∃ k, k < i + 1 ∧ (P.p k).assign = (P.p i).assign := ⟨i, by omega, rfl⟩
        simp [this]
      · rw [Function.update_noteq h, ht]
        congr 1
        apply decide_eq_decide.mpr
        constructor
        · rintro ⟨k, hk, hk2⟩
          exact ⟨k, by omega, hk2⟩
        · rintro ⟨k, hk, hk2⟩
          rcases Nat.lt_succ_iff_lt_or_eq.mp hk with h3 | h3
          · exact ⟨k, h3, hk2⟩
          · subst h3; exact absurd hk2.symm h)
  exact this

/-! ## `pkmedian` on coincident points -/

theorem pkmedian_round_zero_cost (T : Nat) (lrand48 : Nat → Nat) (kmin kmax iter fuel : Nat)
    (a : Search) (h : a.cost = 0) :
    pkmedian_round T lrand48 kmin kmax iter fuel a = .ok a := by
  unfold pkmedian_round
  rw [h]
  simp only [pFL_zero_cost]
  cases a
  simp only at h
  subst h
  split <;> rfl

theorem pkmedian_adjust_zero (kmax : Nat) (a : Search) (h1 : a.cost = 0) (h2 : a.hiz = 0)
    (h3 : a.loz = 0) (h4 : a.z = 0) (h5 : a.state.k = 1) :
    pkmedian_done 1 kmax (pkmedian_adjust 1 kmax a) = true ∧
    (pkmedian_adjust 1 kmax a).cost = 0 := by
  obtain ⟨hiz, loz, z, cost, i, st⟩ := a
  simp only at h1 h2 h3 h4 h5
  subst h1 h2 h3 h4
  unfold pkmedian_done pkmedian_adjust
  have h6 : ¬ st.k < 1 := by omega
  by_cases hk : st.k > kmax
  · simp [hk, h6]
  · simp [hk, h6]

theorem pkmedian_search_zero (T : Nat) (lrand48 : Nat → Nat) (kmax iter fuel n : Nat)
    (a : Search) (h1 : a.cost = 0) (h2 : a.hiz = 0) (h3 : a.loz = 0) (h4 : a.z = 0)
    (h5 : a.state.k = 1) :
    ∃ r, pkmedian_search T lrand48 1 kmax iter fuel (n + 1) a = .ok r ∧
      r.cost = 0 ∧ r.state = a.state := by
  unfold pkmedian_search
  simp only [pkmedian_round_zero_cost T lrand48 1 kmax iter fuel a h1]
  obtain ⟨hd, hcost⟩ := pkmedian_adjust_zero kmax a h1 h2 h3 h4 h5
  rw [if_pos hd]
  exact ⟨_, rfl, hcost, pkmedian_adjust_state 1 kmax a⟩

/-- C12: for `kmin = 1` and more than `kmax` points that all have the same
coordinates, `pkmedian` returns cost 0 and `kfinal = 1` for every sequence
of draws, with every point assigned to point 0 at cost 0: the points are as
`pspeedy` left them (it opens nothing, `k` is 1), `pFL` with cost 0 returns
at once, and the feasible set is empty when `klogk 1 = 0`. -/
theorem pkmedian_coincident (T : Nat) (lrand48 : Nat → Nat) (klogk : Nat → Nat) (kmax : Nat)
    (fuel : Nat) (s : State) (c : Nat → ℚ) (hT : 1 ≤ T) (hf : 1 ≤ fuel)
    (hn : kmax < s.points.num) (hc : Coincide s.points c) :
    (pspeedy T lrand48 0 (shuffle lrand48 s)).2.k = 1 ∧
    ∃ r, pkmedian T lrand48 klogk 1 kmax fuel s = .ok r ∧
      r.cost = 0 ∧ r.kfinal = 1 ∧
      (∀ i, i < s.points.num →
        (r.state.points.p i).assign = 0 ∧ (r.state.points.p i).cost = 0) ∧
      r.state.points = (pspeedy T lrand48 0 (shuffle lrand48 s)).2.points ∧
      (klogk 1 = 0 → r.state.numfeasible = 0) := by
  have hn1 : 1 ≤ s.points.num := by omega
  have hH : pkmedian_hiz T s.points = 0 := pkmedian_hiz_coincide hT hc
  obtain ⟨sh1, -, -, -, -, -, -⟩ :=
    shuffle_spec lrand48 s (fun _ => True) (fun _ _ => trivial)
  have hc1 : Coincide (shuffle lrand48 s).points c := shuffle_coincide lrand48 hc
  obtain ⟨q1, q2, -, -, -, q6⟩ :=
    pspeedy_coincide hT lrand48 hc1 (by rw [sh1]; exact hn1)
  obtain ⟨f, rfl⟩ : ∃ f, fuel = f + 1 := ⟨fuel - 1, by omega⟩
  refine ⟨q2, ?_⟩
  unfold pkmedian
  simp only [if_neg (not_le.mpr hn), hH, add_zero, zero_div]
  rw [pkmedian_retry_skip _ _ _ _ _ (by simp only [q2]; omega)]
  rw [pkmedian_lower_z_skip _ _ _ _ _ (by simp only [q2]; omega)]
  simp only []
  obtain ⟨g1, g2, g3⟩ := selectfeasible_fast_frame lrand48 klogk 1
    (pspeedy T lrand48 0 (shuffle lrand48 s)).2
  obtain ⟨r, hr, hr1, hr2⟩ := pkmedian_search_zero T lrand48 kmax (klogk kmax) (f + 1) f
    { hiz := 0, loz := 0, z := 0, cost := (pspeedy T lrand48 0 (shuffle lrand48 s)).1, i := 0,
      state :=
        { selectfeasible_fast lrand48 klogk 1 (pspeedy T lrand48 0 (shuffle lrand48 s)).2 with
          is_center := forLoop 0
            (selectfeasible_fast lrand48 klogk 1
              (pspeedy T lrand48 0 (shuffle lrand48 s)).2).points.num
            (fun i c => Function.update c
              ((selectfeasible_fast lrand48 klogk 1
                (pspeedy T lrand48 0 (shuffle lrand48 s)).2).points.p i).assign true)
            (selectfeasible_fast lrand48 klogk 1
              (pspeedy T lrand48 0 (shuffle lrand48 s)).2).is_center } }
    q1 rfl rfl rfl (by show (selectfeasible_fast _ _ _ _).k = 1; rw [g2, q2])
  rw [hr]
  refine ⟨_, rfl, hr1, ?_, ?_, ?_, ?_⟩
  · show r.state.k = 1
    rw [hr2]; show (selectfeasible_fast _ _ _ _).k = 1; rw [g2, q2]
  · intro i hi
    rw [hr2]
    show ((selectfeasible_fast _ _ _ _).points.p i).assign = 0 ∧
      ((selectfeasible_fast _ _ _ _).points.p i).cost = 0
    rw [g1]
    exact q6 i (by rw [sh1]; exact hi)
  · rw [hr2]
    exact g1
  · intro hk
    rw [hr2]
    show (selectfeasible_fast _ _ _ _).numfeasible = 0
    rw [(selectfeasible_fast_spec lrand48 klogk 1 _).1, hk]
    exact Nat.min_zero _

theorem threePointState_coincide (a : ℚ) :
    Coincide (threePointState a a a).points (fun _ => a) := by
  intro i _ j hj
  have hj0 : j = 0 := by
    have : j < 1 := hj
    omega
  subst hj0
  show (if i = 0 then linePoint a 0 0 else if i = 1 then linePoint a 0 0
    else linePoint a 0 0).coord 0 = a
  split
  · rfl
  · split <;> rfl

/-- Three points at 5 with `kmax = 2` and two workers: the run returns cost 0
and one center. -/
theorem pkmedian_coincident_witness :
    (1 ≤ 2 ∧ 1 ≤ 1 ∧ 2 < (threePointState 5 5 5).points.num) ∧
    (pspeedy 2 (fun _ => 7) 0 (shuffle (fun _ => 7) (threePointState 5 5 5))).2.k = 1 ∧
    ∃ r, pkmedian 2 (fun _ => 7) klogk3 1 2 1 (threePointState 5 5 5) = .ok r ∧
      r.cost = 0 ∧ r.kfinal = 1 ∧
      (∀ i, i < (threePointState 5 5 5).points.num →
        (r.state.points.p i).assign = 0 ∧ (r.state.points.p i).cost = 0) ∧
      r.state.points =
        (pspeedy 2 (fun _ => 7) 0 (shuffle (fun _ => 7) (threePointState 5 5 5))).2.points ∧
      (klogk3 1 = 0 → r.state.numfeasible = 0) :=
  ⟨⟨by decide, by decide, by decide⟩,
    pkmedian_coincident 2 (fun _ => 7) klogk3 2 1 (threePointState 5 5 5) (fun _ => 5)
      (by decide) (by decide) (by decide) (threePointState_coincide 5)⟩

theorem pspeedy_coincide_num {T : Nat} (hT : 1 ≤ T) (lrand48 : Nat → Nat) {s : State}
    {c : Nat → ℚ} (h : Coincide s.points c) (hn : 1 ≤ s.points.num) :
    (pspeedy T lrand48 0 s).2.points.num = s.points.num := by
  rw [(pspeedy_coincide hT lrand48 h hn).2.2.1]
  exact (pspeedy_init_spec hT s.points).1

theorem pkmedian_retry_coincide {T : Nat} (hT : 1 ≤ T) (lrand48 : Nat → Nat) (kmin : Nat)
    (c : Nat → ℚ) (N : Nat) (hN : 1 ≤ N) :
    ∀ (n : Nat) (a : Search), a.z = 0 → a.loz = 0 → a.state.k = 1 →
      Coincide a.state.points c → a.state.points.num = N →
      (pkmedian_retry T lrand48 kmin n a).z = 0 ∧
      (pkmedian_retry T lrand48 kmin n a).loz = 0 ∧
      (pkmedian_retry T lrand48 kmin n a).state.k = 1 ∧
      Coincide (pkmedian_retry T lrand48 kmin n a).state.points c ∧
      (pkmedian_retry T lrand48 kmin n a).state.points.num = N := by
  intro n
  induction n with
  | zero => intro a h1 h2 h3 h4 h5; exact ⟨h1, h2, h3, h4, h5⟩
  | succ m ih =>
    intro a h1 h2 h3 h4 h5
    unfold pkmedian_retry
    by_cases hk : a.state.k < kmin
    · rw [if_pos hk]
      have hn : 1 ≤ a.state.points.num := by omega
      obtain ⟨-, q2, -, q4, -, -⟩ := pspeedy_coincide hT lrand48 h4 hn
      have q5 := pspeedy_coincide_num hT lrand48 h4 hn
      simp only [h1]
      exact ih _ rfl h2 q2 q4 (q5.trans h5)
    · rw [if_neg hk]
      exact ⟨h1, h2, h3, h4, h5⟩

/-- With `z = 0` on coincident points and `kmin ≥ 2` the loop
`while (k < kmin)` of lines 1518-1525 uses up every amount of fuel. -/
theorem pkmedian_lower_z_coincide {T : Nat} (hT : 1 ≤ T) (lrand48 : Nat → Nat) (kmin : Nat)
    (hk : 2 ≤ kmin) (c : Nat → ℚ) (N : Nat) (hN : 1 ≤ N) :
    ∀ (fuel : Nat) (a : Search), a.z = 0 → a.loz = 0 → a.state.k = 1 →
      Coincide a.state.points c → a.state.points.num = N →
      pkmedian_lower_z T lrand48 kmin fuel a = .error Fault.out_of_fuel := by
  intro fuel
  induction fuel with
  | zero =>
    intro a h1 h2 h3 h4 h5
    unfold pkmedian_lower_z
    rw [if_pos (by omega)]
  | succ f ih =>
    intro a h1 h2 h3 h4 h5
    unfold pkmedian_lower_z
    rw [if_pos (by omega)]
    have key : ∀ b : Search, b.z = 0 → b.loz = 0 → Coincide b.state.points c →
        b.state.points.num = N →
        pkmedian_lower_z T lrand48 kmin f
          { b with
            cost := (pspeedy T lrand48 b.z (shuffle lrand48 b.state)).1
            state := (pspeedy T lrand48 b.z (shuffle lrand48 b.state)).2
            i := b.i + 1 } = .error Fault.out_of_fuel := by
      intro b b1 b2 b4 b5
      obtain ⟨sh1, -, -, -, -, -, -⟩ :=
        shuffle_spec lrand48 b.state (fun _ => True) (fun _ _ => trivial)
      have hc1 : Coincide (shuffle lrand48 b.state).points c := shuffle_coincide lrand48 b4
      have hn : 1 ≤ (shuffle lrand48 b.state).points.num := by omega
      rw [b1]
      obtain ⟨-, q2, -, q4, -, -⟩ := pspeedy_coincide hT lrand48 hc1 hn
      have q5 := pspeedy_coincide_num hT lrand48 hc1 hn
      exact ih _ rfl b2 q2 q4 (by rw [q5, sh1, b5])
    by_cases hi : a.i ≥ SP
    · simp only [if_pos hi]
      exact key { a with hiz := a.z, z := (a.z + a.loz) / 2, i := 0 }
        (by show (a.z + a.loz) / 2 = 0; rw [h1, h2]; norm_num) h2 h4 h5
    · simp only [if_neg hi]
      exact key a h1 h2 h4 h5

/-- C13: for `kmin ≥ 2` and more than `kmax` points that all have the same
coordinates, `pkmedian` does not terminate: `hiz` and `z` are 0, the test
`u < cost / z` of `pspeedy` is `u < 0 / 0` and fails for every draw, so `k`
stays 1 and the loop `while (k < kmin)` uses up every amount of fuel. -/
theorem pkmedian_coincident_hangs (T : Nat) (lrand48 : Nat → Nat) (klogk : Nat → Nat)
    (kmin kmax : Nat) (fuel : Nat) (s : State) (c : Nat → ℚ) (hT : 1 ≤ T) (hk : 2 ≤ kmin)
    (hn : kmax < s.points.num) (hc : Coincide s.points c) :
    (∀ u : ℚ, ltDiv u 0 0 = false) ∧
    pkmedian T lrand48 klogk kmin kmax fuel s = .error Fault.out_of_fuel := by
  refine ⟨fun u => by simp [ltDiv], ?_⟩
  have hn1 : 1 ≤ s.points.num := by omega
  have hH : pkmedian_hiz T s.points = 0 := pkmedian_hiz_coincide hT hc
  obtain ⟨sh1, -, -, -, -, -, -⟩ :=
    shuffle_spec lrand48 s (fun _ => True) (fun _ _ => trivial)
  have hc1 : Coincide (shuffle lrand48 s).points c := shuffle_coincide lrand48 hc
  have hn2 : 1 ≤ (shuffle lrand48 s).points.num := by omega
  obtain ⟨-, q2, -, q4, -, -⟩ := pspeedy_coincide hT lrand48 hc1 hn2
  have q5 := pspeedy_coincide_num hT lrand48 hc1 hn2
  obtain ⟨r1, r2, r3, r4, r5⟩ := pkmedian_retry_coincide hT lrand48 kmin c s.points.num hn1 SP
    { hiz := 0, loz := 0, z := 0, cost := (pspeedy T lrand48 0 (shuffle lrand48 s)).1, i := 0,
      state := (pspeedy T lrand48 0 (shuffle lrand48 s)).2 }
    rfl rfl q2 q4 (by rw [q5, sh1])
  unfold pkmedian
  simp only [if_neg (not_le.mpr hn), hH, add_zero, zero_div]
  rw [pkmedian_lower_z_coincide hT lrand48 kmin hk c s.points.num hn1 fuel _ r1 r2 r3 r4 r5]

/-- Three points at 5 with `kmin = kmax = 2`: the run is out of fuel after
100 rounds. -/
theorem pkmedian_coincident_hangs_witness :
    (1 ≤ 1 ∧ 2 ≤ 2 ∧ 2 < (threePointState 5 5 5).points.num) ∧
    pkmedian 1 (fun _ => 7) klogk3 2 2 100 (threePointState 5 5 5) =
      .error Fault.out_of_fuel :=
  ⟨⟨by decide, by decide, by decide⟩,
    (pkmedian_coincident_hangs 1 (fun _ => 7) klogk3 2 2 100 (threePointState 5 5 5)
      (fun _ => 5) (by decide) (by decide) (by decide) (threePointState_coincide 5)).2⟩

/-! ## `pFL` with an empty feasible set -/

/-- With weights that are not negative `pspeedy` leaves costs that are not
negative. -/
theorem pspeedy_nonneg {T : Nat} (hT : 1 ≤ T) (lrand48 : Nat → Nat) (z : ℚ) (s : State)
    (hw : ∀ i, i < s.points.num → 0 ≤ (s.points.p i).weight) :
    (pspeedy T lrand48 z s).2.points.num = s.points.num ∧
    ∀ i, i < s.points.num →
      0 ≤ ((pspeedy T lrand48 z s).2.points.p i).weight ∧
      0 ≤ ((pspeedy T lrand48 z s).2.points.p i).cost := by
  refine pspeedy_points_induction lrand48 z s
    (fun P => P.num = s.points.num ∧
      ∀ i, i < s.points.num → 0 ≤ (P.p i).weight ∧ 0 ≤ (P.p i).cost) ?_ ?_
  · obtain ⟨i1, -, i3⟩ := pspeedy_init_spec hT s.points
    refine ⟨i1, fun i hi => ?_⟩
    rw [i3 i, if_pos hi]
    exact ⟨hw i hi, mul_nonneg (dist_nonneg _ _ _) (hw i hi)⟩
  · intro i P hP
    obtain ⟨o1, -, o3⟩ := pspeedy_open_spec hT i P
    refine ⟨o1.trans hP.1, fun k hk => ?_⟩
    rw [o3 k]
    split
    · exact ⟨(hP.2 k hk).1, mul_nonneg (dist_nonneg _ _ _) (hP.2 k hk).1⟩
    · exact hP.2 k hk

theorem pspeedy_pos {T : Nat} (hT : 1 ≤ T) (lrand48 : Nat → Nat) (z : ℚ) (s : State)
    (hw : ∀ i, i < s.points.num → 0 ≤ (s.points.p i).weight) (hz : 0 < z) :
    0 < (pspeedy T lrand48 z s).1 := by
  show 0 < pspeedy_total T z (pspeedy T lrand48 z s).2
  rw [pspeedy_total_eq hT]
  obtain ⟨n1, n2⟩ := pspeedy_nonneg hT lrand48 z s hw
  have hk : (1 : ℚ) ≤ ((pspeedy T lrand48 z s).2.k : ℚ) := by
    exact_mod_cast (pspeedy_k_spec T lrand48 z s).1
  have hs : 0 ≤ ∑ j ∈ Finset.range (pspeedy T lrand48 z s).2.points.num,
      ((pspeedy T lrand48 z s).2.points.p j).cost := by
    apply Finset.sum_nonneg
    intro j hj
    rw [n1] at hj
    exact (n2 j (Finset.mem_range.mp hj)).2
  nlinarith

theorem gtDiv_self (c e : ℚ) (hc : c ≠ 0) (he : e < 1) : gtDiv c c e = true := by
  unfold gtDiv
  rw [if_neg hc, div_self hc]
  exact decide_eq_true he

theorem pkmedian_search_mod_zero (T : Nat) (lrand48 : Nat → Nat) (kmin kmax iter fuel n : Nat)
    (a : Search) (h0 : a.state.numfeasible = 0) (hi : 1 ≤ iter) (hf : 1 ≤ fuel)
    (hc : a.cost ≠ 0) :
    pkmedian_search T lrand48 kmin kmax iter fuel (n + 1) a = .error Fault.div_by_zero := by
  unfold pkmedian_search pkmedian_round
  rw [h0, pFL_mod_zero T lrand48 _ a.z a.cost (1 / 10) iter fuel a.state hi hf
    (gtDiv_self _ _ hc (by norm_num))]

/-- C14: for `kmin = 1` the sample of `selectfeasible_fast` is empty
(`klogk 1 = 0`), and with `klogk kmax ≥ 1`, more than `kmax` points,
weights that are not negative and `hiz > 0` the first pass of `pFL` in
`pkmedian` computes `i % numfeasible` with `numfeasible = 0`. -/
theorem pkmedian_mod_zero (T : Nat) (lrand48 : Nat → Nat) (klogk : Nat → Nat) (kmax : Nat)
    (fuel : Nat) (s : State) (hT : 1 ≤ T) (hf : 1 ≤ fuel) (h1 : klogk 1 = 0)
    (hi : 1 ≤ klogk kmax) (hn : kmax < s.points.num)
    (hw : ∀ i, i < s.points.num → 0 ≤ (s.points.p i).weight)
    (hz : 0 < pkmedian_hiz T s.points) :
    (selectfeasible_fast lrand48 klogk 1 s).numfeasible = 0 ∧
    pkmedian T lrand48 klogk 1 kmax fuel s = .error Fault.div_by_zero := by
  refine ⟨by rw [(selectfeasible_fast_spec lrand48 klogk 1 s).1, h1]; exact Nat.min_zero _, ?_⟩
  obtain ⟨sh1, -, -, -, -, -, sh7⟩ :=
    shuffle_spec lrand48 s (fun q => 0 ≤ q.weight) hw
  have hw1 : ∀ i, i < (shuffle lrand48 s).points.num →
      0 ≤ ((shuffle lrand48 s).points.p i).weight := by
    intro i hi
    rw [sh1] at hi
    exact sh7 i hi
  have hz2 : 0 < (pkmedian_hiz T s.points + 0) / 2 := by linarith
  have hpos := pspeedy_pos hT lrand48 _ (shuffle lrand48 s) hw1 hz2
  have hk := (pspeedy_k_spec T lrand48 ((pkmedian_hiz T s.points + 0) / 2)
    (shuffle lrand48 s)).1
  have hnum := (pspeedy_nonneg hT lrand48 ((pkmedian_hiz T s.points + 0) / 2)
    (shuffle lrand48 s) hw1).1
  obtain ⟨f, rfl⟩ : ∃ f, fuel = f + 1 := ⟨fuel - 1, by omega⟩
  unfold pkmedian
  simp only [if_neg (not_le.mpr hn)]
  rw [pkmedian_retry_skip _ _ _ _ _ (by simp only []; omega)]
  rw [pkmedian_lower_z_skip _ _ _ _ _ (by simp only []; omega)]
  simp only []
  rw [selectfeasible_fast_empty lrand48 klogk 1 _ h1 (by rw [hnum, sh1]; omega)]
  rw [pkmedian_search_mod_zero T lrand48 1 kmax (klogk kmax) (f + 1) f _ rfl hi
    (by omega) (ne_of_gt hpos)]

/-- The points 0, 1 and 3 with `kmin = 1` and `kmax = 2`: the sample is
empty and the run stops at `i % 0`. -/
theorem pkmedian_mod_zero_witness :
    (klogk3 1 = 0 ∧ 1 ≤ klogk3 2 ∧ 2 < (threePointState 0 1 3).points.num ∧
      0 < pkmedian_hiz 1 (threePointState 0 1 3).points) ∧
    (selectfeasible_fast (fun _ => 0) klogk3 1 (threePointState 0 1 3)).numfeasible = 0 ∧
    pkmedian 1 (fun _ => 0) klogk3 1 2 1 (threePointState 0 1 3) =
      .error Fault.div_by_zero :=
  ⟨⟨by decide, by decide, by decide, by with_unfolding_all decide⟩,
    pkmedian_mod_zero 1 (fun _ => 0) klogk3 2 1 (threePointState 0 1 3) (by decide)
      (by decide) (by decide) (by decide) (by decide)
      (by with_unfolding_all decide) (by with_unfolding_all decide)⟩

/-! ## `pgain` when all points coincide with the candidate -/

theorem dist_eq_sum (a b : Point) (dim : Nat) :
    dist a b dim = ∑ j ∈ Finset.range dim, (a.coord j - b.coord j) * (a.coord j - b.coord j) := by
  unfold dist
  rw [forLoop_sum, zero_add]

theorem dist_eq_zero_iff (a b : Point) (dim : Nat) :
    dist a b dim = 0 ↔ ∀ j, j < dim → a.coord j = b.coord j := by
  constructor
  · intro h j hj
    rw [dist_eq_sum, Finset.sum_eq_zero_iff_of_nonneg (fun i _ => mul_self_nonneg _)] at h
    have := h j (Finset.mem_range.mpr hj)
    have h2 : a.coord j - b.coord j = 0 := mul_self_eq_zero.mp this
    linarith
  · exact dist_eq_zero

/-- What `pgain` sees when every point coincides with `x`: no point
switches, every open center is worth closing, and the reduced cost is
`z * (1 - k)`. -/
theorem glCost_coincide {s : State} (hv : Valid s) {x : Nat} {z : ℚ} (hz : 0 < z)
    (hd : ∀ i, i < s.points.num → dist (s.points.p i) (s.points.p x) s.points.dim = 0) :
    (∀ i, i < s.points.num → (s.points.p i).cost = 0 ∧ x_cost s.points x i = 0) ∧
    (∀ i, i < s.points.num → moves s x z i) ∧
    glClose s x z = s.k ∧ glCost s x z = z * (1 - (s.k : ℚ)) := by
  have hx0 : ∀ i, i < s.points.num → x_cost s.points x i = 0 := by
    intro i hi
    unfold x_cost
    rw [hd i hi, zero_mul]
  have hc0 : ∀ i, i < s.points.num → (s.points.p i).cost = 0 := by
    intro i hi
    rw [hv.cost_eq i hi]
    have h1 := (dist_eq_zero_iff _ _ _).mp (hd i hi)
    have h2 := (dist_eq_zero_iff _ _ _).mp (hd _ (hv.assign_lt i hi))
    rw [dist_eq_zero (fun j hj => by rw [h1 j hj, h2 j hj]), mul_zero]
  have hl : ∀ c, lowerOf s.points x z c = z := by
    intro c
    unfold lowerOf
    rw [Finset.sum_eq_zero, add_zero]
    intro i hi
    have hi' : i < s.points.num := Finset.mem_range.mp (Finset.mem_filter.mp hi).1
    rw [hc0 i hi', hx0 i hi', sub_zero]
  have hcl : ∀ c, closes s x z c ↔ s.is_center c = true := by
    intro c
    unfold closes
    rw [hl c]
    exact ⟨fun h => h.1, fun h => ⟨h, hz⟩⟩
  have hm : ∀ i, i < s.points.num → moves s x z i :=
    fun i hi => Or.inr ((hcl _).mpr (hv.assign_open i hi))
  have hk : glClose s x z = s.k := by
    rw [hv.k_eq]
    unfold glClose centersIn
    rw [Finset.range_eq_Ico]
    congr 1
    exact Finset.filter_congr (fun c _ => hcl c)
  refine ⟨fun i hi => ⟨hc0 i hi, hx0 i hi⟩, hm, hk, ?_⟩
  rw [glCost_eq_change hv, hk, Finset.sum_eq_zero, add_zero]
  intro i hi
  have hi' : i < s.points.num := Finset.mem_range.mp (Finset.mem_filter.mp hi).1
  rw [hc0 i hi', hx0 i hi', sub_zero]

/-- C17, as the code has it: in a valid state with `z > 0` in which every
point coincides with the candidate `x`, `pgain` computes the reduced cost
`z * (1 - k)`, which is below `z`.  With one open center it commits nothing
and returns 0; with `k ≥ 2` open centers it commits, returns `(k - 1) * z`,
and leaves one center, `x`, with every point assigned to it at cost 0. -/
theorem pgain_coincide (T x : Nat) (z : ℚ) (s : State) (hT : 1 ≤ T) (hv : Valid s)
    (hz : 0 < z) (hx : x < s.points.num)
    (hd : ∀ i, i < s.points.num → dist (s.points.p i) (s.points.p x) s.points.dim = 0) :
    gl_cost_of_opening_x T x z s = z * (1 - (s.k : ℚ)) ∧
    gl_cost_of_opening_x T x z s < z ∧
    (s.k = 1 →
      (pgain T x z s).1 = 0 ∧ (pgain T x z s).2.points = s.points ∧
      (pgain T x z s).2.is_center = s.is_center ∧ (pgain T x z s).2.k = s.k) ∧
    (2 ≤ s.k →
      (pgain T x z s).1 = ((s.k : ℚ) - 1) * z ∧ (pgain T x z s).2.k = 1 ∧
      ∀ i, i < s.points.num →
        ((pgain T x z s).2.points.p i).assign = x ∧
        ((pgain T x z s).2.points.p i).cost = 0) := by
  obtain ⟨h0, hm, hk, hg⟩ := glCost_coincide hv hz hd
  have hk1 : 1 ≤ s.k := by
    have := hv.assign_open x hx
    rw [hv.k_eq]
    unfold centersIn
    apply Finset.card_pos.mpr
    exact ⟨(s.points.p x).assign,
      Finset.mem_filter.mpr ⟨Finset.mem_Ico.mpr ⟨Nat.zero_le _, hv.assign_lt x hx⟩, this⟩⟩
  have hk1' : (1 : ℚ) ≤ (s.k : ℚ) := by exact_mod_cast hk1
  refine ⟨by rw [gl_cost_eq hT x z hv, hg], ?_, ?_, ?_⟩
  · rw [gl_cost_eq hT x z hv, hg]
    nlinarith
  · intro h1
    apply pgain_of_not_lt
    rw [gl_cost_eq hT x z hv, hg, h1]
    norm_num
  · intro h2
    have h2' : (2 : ℚ) ≤ (s.k : ℚ) := by exact_mod_cast h2
    have hlt : glCost s x z < 0 := by rw [hg]; nlinarith
    obtain ⟨p1, -, -, p4, -, p6⟩ := pgain_of_lt hT hv hx hlt
    refine ⟨by rw [p1, hg]; ring, by rw [p6, hk]; omega, fun i hi => ?_⟩
    rw [p4 i, if_pos ⟨hi, hm i hi⟩]
    exact ⟨rfl, by rw [moved_cost]; exact (h0 i hi).2⟩

theorem twoCenterState_valid (a b : ℚ) : Valid (twoCenterState a b) := by
  refine ⟨?_, ?_, ?_, ?_, ?_⟩
  · intro i hi
    have hi' : i < 2 := hi
    show (if i = 0 then linePoint a 0 0 else linePoint b 1 0).assign < 2
    split
    · show 0 < 2; omega
    · show 1 < 2; omega
  · intro i hi
    show decide ((if i = 0 then linePoint a 0 0 else linePoint b 1 0).assign < 2) = true
    split
    · exact decide_eq_true (by show 0 < 2; omega)
    · exact decide_eq_true (by show 1 < 2; omega)
  · intro j hj
    have hj' : j < 2 := hj
    constructor
    · intro _
      refine ⟨j, hj, ?_⟩
      show (if j = 0 then linePoint a 0 0 else linePoint b 1 0).assign = j
      by_cases h : j = 0
      · rw [if_pos h, h]; rfl
      · rw [if_neg h]
        show 1 = j
        omega
    · intro _
      exact decide_eq_true hj'
  · intro i hi
    have hi' : i < 2 := hi
    have h : i = 0 ∨ i = 1 := by omega
    rcases h with h | h
    · subst h
      show (0 : ℚ) = 1 * dist (linePoint a 0 0) (linePoint a 0 0) 1
      rw [dist_eq_zero (fun _ _ => rfl), mul_zero]
    · subst h
      show (0 : ℚ) = 1 * dist (linePoint b 1 0) (linePoint b 1 0) 1
      rw [dist_eq_zero (fun _ _ => rfl), mul_zero]
  · show 2 = centersIn (fun i => decide (i < 2)) 0 2
    decide

theorem twoCenterState_dist (a : ℚ) (i : Nat) :
    dist ((twoCenterState a a).points.p i) ((twoCenterState a a).points.p 0)
      (twoCenterState a a).points.dim = 0 := by
  apply dist_eq_zero
  intro j hj
  have hj0 : j = 0 := by
    have : j < 1 := hj
    omega
  subst hj0
  show (if i = 0 then linePoint a 0 0 else linePoint a 1 0).coord 0 = (linePoint a 0 0).coord 0
  split <;> rfl

/-- Two open centers at the same place, `z = 1`: `pgain` for point 0 commits
and leaves one center. -/
theorem pgain_coincide_witness :
    (Valid (twoCenterState 5 5) ∧ (0 : ℚ) < 1 ∧ 0 < (twoCenterState 5 5).points.num ∧
      2 ≤ (twoCenterState 5 5).k) ∧
    gl_cost_of_opening_x 1 0 1 (twoCenterState 5 5) = 1 * (1 - ((twoCenterState 5 5).k : ℚ)) ∧
    (pgain 1 0 1 (twoCenterState 5 5)).2.k = 1 :=
  have h := pgain_coincide 1 0 1 (twoCenterState 5 5) (by decide) (twoCenterState_valid 5 5)
    (by norm_num) (by decide) (fun i _ => twoCenterState_dist 5 i)
  ⟨⟨twoCenterState_valid 5 5, by norm_num, by decide, by decide⟩,
    h.1, (h.2.2.2 (by decide)).2.1⟩

/-- The claim fails on two open centers at the same place with `z = 1`:
`pgain` for point 0 finds the reduced cost -1, commits the move and returns
1; center 1 is closed. -/
theorem pgain_coincide_counterexample :
    Valid (twoCenterState 5 5) ∧
    gl_cost_of_opening_x 1 0 1 (twoCenterState 5 5) = -1 ∧
    (pgain 1 0 1 (twoCenterState 5 5)).1 = 1 ∧
    (pgain 1 0 1 (twoCenterState 5 5)).2.k = 1 ∧
    (pgain 1 0 1 (twoCenterState 5 5)).2.is_center 1 = false ∧
    ((pgain 1 0 1 (twoCenterState 5 5)).2.points.p 1).assign = 0 :=
  ⟨twoCenterState_valid 5 5, by with_unfolding_all decide, by with_unfolding_all decide,
    by with_unfolding_all decide, by with_unfolding_all decide, by with_unfolding_all decide⟩

/-! ## Nearest centers after a committed `pgain` -/

theorem nearestState_valid : Valid nearestState := by
  refine ⟨?_, ?_, ?_, ?_, ?_⟩ <;> with_unfolding_all decide

/-- The claim fails on the four weighted points with `z = 230` and `x = 3`:
the state is valid with every point at its nearest open center, `pgain`
commits (reduced cost -180) and closes center 0 while center 1 stays open;
point 2, at -1, is moved to point 3, at 10, for the cost 121, though the
open center 1, at -3, would serve it for 4. -/
theorem pgain_nearest_counterexample :
    Valid nearestState ∧ NearestAssigned nearestState ∧
    gl_cost_of_opening_x 1 3 230 nearestState = -180 ∧
    (pgain 1 3 230 nearestState).2.is_center 1 = true ∧
    ((pgain 1 3 230 nearestState).2.points.p 2).assign = 3 ∧
    ((pgain 1 3 230 nearestState).2.points.p 2).cost = 121 ∧
    ((pgain 1 3 230 nearestState).2.points.p 2).weight *
      dist ((pgain 1 3 230 nearestState).2.points.p 2)
        ((pgain 1 3 230 nearestState).2.points.p 1)
        (pgain 1 3 230 nearestState).2.points.dim = 4 ∧
    ¬ NearestAssigned (pgain 1 3 230 nearestState).2 :=
  ⟨nearestState_valid, by with_unfolding_all decide, by with_unfolding_all decide,
    by with_unfolding_all decide, by with_unfolding_all decide, by with_unfolding_all decide,
    by with_unfolding_all decide, by with_unfolding_all decide⟩

/-! ## `pkmedian` for `kmin = kmax = 1` -/

theorem pkmedian_round_idle (T : Nat) (lrand48 : Nat → Nat) (kmin kmax fuel : Nat)
    (a : Search) (h0 : a.state.numfeasible = 0) (hf : 1 ≤ fuel) :
    pkmedian_round T lrand48 kmin kmax 0 fuel a = .ok a := by
  unfold pkmedian_round
  rw [h0, pFL_idle T lrand48 _ a.z a.cost (1 / 10) fuel a.state (by norm_num) hf]
  simp only [h0, pFL_idle T lrand48 _ a.z a.cost (1 / 1000) fuel a.state (by norm_num) hf]
  split <;> rfl

theorem pkmedian_adjust_one (a : Search) :
    (a.state.k = 1 → pkmedian_adjust 1 1 a = a ∧ pkmedian_done 1 1 a = true) ∧
    (2 ≤ a.state.k →
      (pkmedian_adjust 1 1 a).hiz = a.hiz ∧ (pkmedian_adjust 1 1 a).loz = a.z ∧
      (pkmedian_adjust 1 1 a).z = (a.hiz + a.z) / 2 ∧
      (pkmedian_done 1 1 (pkmedian_adjust 1 1 a) = true ↔ 999 / 1000 * a.hiz ≤ a.z)) := by
  obtain ⟨hiz, loz, z, cost, i, st⟩ := a
  constructor
  · intro h
    simp only at h
    unfold pkmedian_done pkmedian_adjust
    simp [h]
  · intro h
    simp only at h
    unfold pkmedian_done pkmedian_adjust
    have h1 : st.k > 1 := by omega
    have h2 : ¬ st.k < 1 := by omega
    have h3 : ¬ st.k ≤ 1 := by omega
    simp [h1, h2, h3]

/-- With `kmin = kmax = 1`, `iter = 0` and an empty feasible set the binary
search changes `z` only: it returns at once when `k = 1`, and otherwise when
`loz` has come within a thousandth of `hiz`, after at most `m + 1` rounds
when `hiz - z ≤ hiz * 2 ^ m / 1000`. -/
theorem pkmedian_search_one (T : Nat) (lrand48 : Nat → Nat) (fuel : Nat) (hf : 1 ≤ fuel) :
    ∀ (m n : Nat) (a : Search), m < n → a.state.numfeasible = 0 → 1 ≤ a.state.k →
      0 ≤ a.hiz → (a.hiz - a.z) * 1000 ≤ a.hiz * 2 ^ m →
      ∃ r, pkmedian_search T lrand48 1 1 0 fuel n a = .ok r ∧ r.state = a.state ∧
        r.hiz = a.hiz ∧ (a.state.k = 1 ∨ 999 / 1000 * r.hiz ≤ r.loz) := by
  intro m
  induction m with
  | zero =>
    intro n a hn h0 hk hH hz
    obtain ⟨n', rfl⟩ : ∃ n', n = n' + 1 := ⟨n - 1, by omega⟩
    unfold pkmedian_search
    simp only [pkmedian_round_idle T lrand48 1 1 fuel a h0 hf]
    obtain ⟨A1, A2⟩ := pkmedian_adjust_one a
    by_cases hk1 : a.state.k = 1
    · obtain ⟨e1, e2⟩ := A1 hk1
      rw [e1, if_pos e2]
      exact ⟨a, rfl, rfl, rfl, Or.inl hk1⟩
    · obtain ⟨e1, e2, -, e4⟩ := A2 (by omega)
      have hd : 999 / 1000 * a.hiz ≤ a.z := by
        simp only [pow_zero, mul_one] at hz
        linarith
      rw [if_pos (e4.mpr hd)]
      refine ⟨_, rfl, pkmedian_adjust_state 1 1 a, e1, Or.inr ?_⟩
      rw [e1, e2]
      exact hd
  | succ m ih =>
    intro n a hn h0 hk hH hz
    obtain ⟨n', rfl⟩ : ∃ n', n = n' + 1 := ⟨n - 1, by omega⟩
    unfold pkmedian_search
    simp only [pkmedian_round_idle T lrand48 1 1 fuel a h0 hf]
    obtain ⟨A1, A2⟩ := pkmedian_adjust_one a
    by_cases hk1 : a.state.k = 1
    · obtain ⟨e1, e2⟩ := A1 hk1
      rw [e1, if_pos e2]
      exact ⟨a, rfl, rfl, rfl, Or.inl hk1⟩
    · obtain ⟨e1, e2, e3, e4⟩ := A2 (by omega)
      have est := pkmedian_adjust_state 1 1 a
      by_cases hd : pkmedian_done 1 1 (pkmedian_adjust 1 1 a) = true
      · rw [if_pos hd]
        refine ⟨_, rfl, est, e1, Or.inr ?_⟩
        rw [e1, e2]
        exact e4.mp hd
      · rw [if_neg hd]
        obtain ⟨r, r1, r2, r3, r4⟩ := ih n' (pkmedian_adjust 1 1 a) (by omega)
          (by rw [est]; exact h0) (by rw [est]; exact hk) (by rw [e1]; exact hH)
          (by
            rw [e1, e3]
            rw [pow_succ] at hz
            linarith)
        refine ⟨r, r1, r2.trans est, r3.trans e1, ?_⟩
        rcases r4 with r4 | r4
        · rw [est] at r4; exact Or.inl r4
        · exact Or.inr r4

/-- C11, as the code has it: for `kmin = kmax = 1` (so that `klogk 1 = 0`
makes both the feasible set and `iter` empty) and `n > 1` points of weight 1,
`pkmedian` returns, for every sequence of draws, with the centers that the
first `pspeedy` left, since `pFL` calls `pgain` not at all.  `kfinal` is 1
only if `pspeedy` opened nothing, and then every point is assigned to point
0; otherwise `kfinal > 1` and the search ends because `loz` has come within
a thousandth of `hiz`. -/
theorem pkmedian_one_center (T : Nat) (lrand48 : Nat → Nat) (klogk : Nat → Nat) (fuel : Nat)
    (s : State) (hT : 1 ≤ T) (hf : 10 ≤ fuel) (hk : klogk 1 = 0) (hn : 1 < s.points.num)
    (hw : ∀ i, i < s.points.num → (s.points.p i).weight = 1) :
    ∃ r, pkmedian T lrand48 klogk 1 1 fuel s = .ok r ∧
      r.kfinal =
        (pspeedy T lrand48 (pkmedian_hiz T s.points / 2) (shuffle lrand48 s)).2.k ∧
      r.state.points =
        (pspeedy T lrand48 (pkmedian_hiz T s.points / 2) (shuffle lrand48 s)).2.points ∧
      1 ≤ r.kfinal ∧
      (r.kfinal = 1 → ∀ i, i < s.points.num → (r.state.points.p i).assign = 0) ∧
      (1 < r.kfinal → 999 / 1000 * r.hiz ≤ r.loz) := by
  have hw0 : ∀ i, i < s.points.num → 0 ≤ (s.points.p i).weight := by
    intro i hi
    rw [hw i hi]
    norm_num
  have hH : 0 ≤ pkmedian_hiz T s.points := pkmedian_hiz_nonneg hT s.points hw0
  obtain ⟨sh1, -, -, -, -, -, sh7⟩ :=
    shuffle_spec lrand48 s (fun q => 0 ≤ q.weight) hw0
  have hw1 : ∀ i, i < (shuffle lrand48 s).points.num →
      0 ≤ ((shuffle lrand48 s).points.p i).weight := by
    intro i hi
    rw [sh1] at hi
    exact sh7 i hi
  obtain ⟨k1, k2, -, -⟩ := pspeedy_k_spec T lrand48 (pkmedian_hiz T s.points / 2)
    (shuffle lrand48 s)
  have hnum := (pspeedy_nonneg hT lrand48 (pkmedian_hiz T s.points / 2)
    (shuffle lrand48 s) hw1).1
  unfold pkmedian
  simp only [if_neg (not_le.mpr hn), add_zero]
  rw [pkmedian_retry_skip _ _ _ _ _ (by simp only []; omega)]
  rw [pkmedian_lower_z_skip _ _ _ _ _ (by simp only []; omega)]
  simp only []
  rw [selectfeasible_fast_empty lrand48 klogk 1 _ hk (by rw [hnum, sh1]; omega), hk]
  obtain ⟨r, r1, r2, r3, r4⟩ := pkmedian_search_one T lrand48 fuel (by omega) 9 fuel
    { hiz := pkmedian_hiz T s.points, loz := 0, z := pkmedian_hiz T s.points / 2,
      cost := (pspeedy T lrand48 (pkmedian_hiz T s.points / 2) (shuffle lrand48 s)).1, i := 0,
      state :=
        { (pspeedy T lrand48 (pkmedian_hiz T s.points / 2) (shuffle lrand48 s)).2 with
          numfeasible := 0
          is_center := forLoop 0
            (pspeedy T lrand48 (pkmedian_hiz T s.points / 2) (shuffle lrand48 s)).2.points.num
            (fun i c => Function.update c
              ((pspeedy T lrand48 (pkmedian_hiz T s.points / 2)
                (shuffle lrand48 s)).2.points.p i).assign true)
            (pspeedy T lrand48 (pkmedian_hiz T s.points / 2)
              (shuffle lrand48 s)).2.is_center } }
    (by omega) rfl k1 hH
    (by
      show (pkmedian_hiz T s.points - pkmedian_hiz T s.points / 2) * 1000 ≤
        pkmedian_hiz T s.points * 2 ^ 9
      norm_num
      linarith)
  rw [r1]
  refine ⟨_, rfl, by show r.state.k = _; rw [r2], by show r.state.points = _; rw [r2],
    by show 1 ≤ r.state.k; rw [r2]; exact k1, ?_, ?_⟩
  · intro h1 i hi
    have h1' : r.state.k = 1 := h1
    rw [r2] at h1' ⊢
    show ((pspeedy T lrand48 (pkmedian_hiz T s.points / 2)
      (shuffle lrand48 s)).2.points.p i).assign = 0
    rw [k2 h1', (pspeedy_init_spec hT _).2.2 i, if_pos (by rw [sh1]; exact hi)]
  · intro h1
    have h1' : 1 < r.state.k := h1
    rcases r4 with r4 | r4
    · rw [r2] at h1'
      have : (pspeedy T lrand48 (pkmedian_hiz T s.points / 2) (shuffle lrand48 s)).2.k = 1 := r4
      omega
    · exact r4

/-- Two points of weight 1 at 0 and 1, ten rounds of fuel: the run
returns. -/
theorem pkmedian_one_center_witness :
    (10 ≤ 10 ∧ klogk3 1 = 0 ∧ 1 < (twoPointState 0 1).points.num) ∧
    ∃ r, pkmedian 1 (fun _ => 12345) klogk3 1 1 10 (twoPointState 0 1) = .ok r ∧
      r.kfinal =
        (pspeedy 1 (fun _ => 12345) (pkmedian_hiz 1 (twoPointState 0 1).points / 2)
          (shuffle (fun _ => 12345) (twoPointState 0 1))).2.k ∧
      r.state.points =
        (pspeedy 1 (fun _ => 12345) (pkmedian_hiz 1 (twoPointState 0 1).points / 2)
          (shuffle (fun _ => 12345) (twoPointState 0 1))).2.points ∧
      1 ≤ r.kfinal ∧
      (r.kfinal = 1 →
        ∀ i, i < (twoPointState 0 1).points.num → (r.state.points.p i).assign = 0) ∧
      (1 < r.kfinal → 999 / 1000 * r.hiz ≤ r.loz) :=
  ⟨⟨by decide, by decide, by decide⟩,
    pkmedian_one_center 1 (fun _ => 12345) klogk3 10 (twoPointState 0 1) (by decide)
      (by decide) (by decide) (by decide) (by with_unfolding_all decide)⟩

/-- The claim fails on two points of weight 1 at 0 and 1: `pspeedy` opens
point 1 (its cost over `z` is 2, above every draw), `pFL` has `iter = 0`,
and the run returns `kfinal = 2` with point 0 assigned to 0 and point 1
assigned to 1. -/
theorem pkmedian_one_center_counterexample :
    (pkmedian 1 (fun _ => 12345) klogk3 1 1 20 (twoPointState 0 1)).toOption.map
      (fun r => (r.kfinal, (r.state.points.p 0).assign, (r.state.points.p 1).assign)) =
      some (2, 0, 1) := by
  with_unfolding_all decide

/-! ## The blocks of the workers and the reduction of `hiz` -/

theorem update_swap {α : Type} (f : Nat → α) (i j k : Nat) :
    Function.update (Function.update f i (f j)) j (f i) k = f (Equiv.swap i j k) := by
  by_cases h1 : k = j
  · subst h1
    rw [Function.update_same, Equiv.swap_apply_right]
  · rw [Function.update_noteq h1]
    by_cases h2 : k = i
    · subst h2
      rw [Function.update_same, Equiv.swap_apply_left]
    · rw [Function.update_noteq h2, Equiv.swap_apply_of_ne_of_ne h2 h1]

theorem perm_range (σ : Equiv.Perm Nat) (n : Nat) (h : ∀ i, n ≤ i → σ i = i) :
    Multiset.map σ (Multiset.range n) = Multiset.range n := by
  have hmap : (Finset.range n).map σ.toEmbedding = Finset.range n := by
    apply Finset.eq_of_subset_of_card_le
    · intro x hx
      rw [Finset.mem_map] at hx
      obtain ⟨i, hi, rfl⟩ := hx
      rw [Finset.mem_range] at hi ⊢
      by_contra hc
      have h1 : σ (σ i) = σ i := h (σ i) (by
        have : ¬ σ i < n := hc
        omega)
      have h2 : σ i = i := σ.injective h1
      have h3 : ¬ σ i < n := hc
      omega
    · rw [Finset.card_map]
  have := congrArg Finset.val hmap
  rwa [Finset.map_val, Finset.range_val] at this

/-- The points after `shuffle` are the points before it, read through a
permutation of the indices that moves no index from `num` on. -/
theorem shuffle_perm (lrand48 : Nat → Nat) (s : State) :
    ∃ σ : Equiv.Perm Nat, (∀ i, s.points.num ≤ i → σ i = i) ∧
      ∀ i, (shuffle lrand48 s).points.p i = s.points.p (σ i) := by
  unfold shuffle
  refine forLoop_induction _ s
    (fun _ (t : State) => t.points.num = s.points.num ∧
      ∃ σ : Equiv.Perm Nat, (∀ i, s.points.num ≤ i → σ i = i) ∧
        ∀ i, t.points.p i = s.points.p (σ i))
    (Nat.zero_le _) ⟨rfl, Equiv.refl Nat, fun _ _ => rfl, fun _ => rfl⟩ ?_ |>.2
  intro i t _ hi ht
  obtain ⟨t1, σ, h1, h2⟩ := ht
  have hj : lrand48 t.draws % (t.points.num - i) + i < s.points.num := by
    have := Nat.mod_lt (lrand48 t.draws) (show 0 < t.points.num - i by omega)
    omega
  refine ⟨t1, (Equiv.swap i (lrand48 t.draws % (t.points.num - i) + i)).trans σ, ?_, ?_⟩
  · intro k hk
    rw [Equiv.trans_apply, Equiv.swap_apply_of_ne_of_ne (by omega) (by omega)]
    exact h1 k hk
  · intro k
    show Function.update (Function.update t.points.p i
      (t.points.p (lrand48 t.draws % (t.points.num - i) + i)))
      (lrand48 t.draws % (t.points.num - i) + i) (t.points.p i) k = _
    rw [update_swap, h2, Equiv.trans_apply]

/-- C24: for every state and every sequence of draws `shuffle` leaves `num`
and `dim` as they are, and the array after it is a permutation of the array
before it: the points (weight, coordinates, assign and cost together) are
read through a permutation of `[0, num)`, so the multiset of the points is
the same. -/
theorem shuffle_permutation (lrand48 : Nat → Nat) (s : State) :
    (shuffle lrand48 s).points.num = s.points.num ∧
    (shuffle lrand48 s).points.dim = s.points.dim ∧
    (∃ σ : Equiv.Perm Nat, (∀ i, s.points.num ≤ i → σ i = i) ∧
      ∀ i, (shuffle lrand48 s).points.p i = s.points.p (σ i)) ∧
    Multiset.map (shuffle lrand48 s).points.p (Multiset.range s.points.num) =
      Multiset.map s.points.p (Multiset.range s.points.num) := by
  obtain ⟨h1, h2, -⟩ := shuffle_spec lrand48 s (fun _ => True) (fun _ _ => trivial)
  obtain ⟨σ, s1, s2⟩ := shuffle_perm lrand48 s
  refine ⟨h1, h2, ⟨σ, s1, s2⟩, ?_⟩
  have : (shuffle lrand48 s).points.p = s.points.p ∘ σ := funext s2
  rw [this, ← Multiset.map_map, perm_range σ _ s1]

theorem shuffle_draws_eq (lrand48 : Nat → Nat) (s : State) :
    (shuffle lrand48 s).draws = s.draws + (s.points.num - 1) := by
  unfold shuffle
  refine (forLoop_induction _ s
    (fun m (t : State) => t.points.num = s.points.num ∧ t.draws = s.draws + m)
    (Nat.zero_le _) ⟨rfl, rfl⟩ ?_).2
  intro i t _ _ ht
  refine ⟨ht.1, ?_⟩
  show t.draws + 1 = s.draws + (i + 1)
  rw [ht.2]
  omega

theorem intshuffle_draws_eq (lrand48 : Nat → Nat) (a : Nat → Nat) (n d : Nat) :
    (intshuffle lrand48 a n d).2 = d + n := by
  unfold intshuffle
  refine forLoop_induction _ (a, d)
    (fun m (t : (Nat → Nat) × Nat) => t.2 = d + m)
    (Nat.zero_le _) rfl ?_
  intro i t _ _ ht
  show t.2 + 1 = d + (i + 1)
  have ht' : t.2 = d + i := ht
  rw [ht']
  omega

/-- C26, as the code has it: `shuffle` on `n` points consumes `n - 1` draws
(none for `n = 0`), and `intshuffle` on `n` integers consumes `n` draws: its
loop runs to `length`, and the last round swaps the last entry with
itself. -/
theorem shuffle_draws (lrand48 : Nat → Nat) (s : State) (a : Nat → Nat) (n d : Nat) :
    (shuffle lrand48 s).draws = s.draws + (s.points.num - 1) ∧
    (intshuffle lrand48 a n d).2 = d + n :=
  ⟨shuffle_draws_eq lrand48 s, intshuffle_draws_eq lrand48 a n d⟩

/-- The claim fails for `intshuffle` on an array of two integers: two draws
are consumed, not one; `shuffle` on two points consumes one. -/
theorem shuffle_draws_counterexample :
    (intshuffle (fun _ => 0) (fun i => i) 2 0).2 = 2 ∧
    (shuffle (fun _ => 0) (twoPointState 0 1)).draws = 1 := by
  constructor <;> with_unfolding_all decide

/-! ## `intshuffle` inside `pFL` -/

/-- The function `pgain` neither reads nor writes the draw counter. -/
theorem pgain_draws (T x : Nat) (z : ℚ) (s : State) (d : Nat) :
    pgain T x z { s with draws := d } =
      ((pgain T x z s).1, { (pgain T x z s).2 with draws := d }) := by
  unfold pgain
  simp only []
  have he : pgain_eval T x z { s with draws := d } = pgain_eval T x z s := rfl
  rw [he]
  split <;> rfl

theorem pFL_pass_succ (T : Nat) (feasible : Nat → Nat) (m : Nat) (z : ℚ) (n : Nat)
    (s : State) :
    pFL_pass T feasible m z (n + 1) s =
      match pFL_pass T feasible m z n s with
      | .error f => .error f
      | .ok (change, t) =>
        if m = 0 then .error Fault.div_by_zero
        else .ok (change + (pgain T (feasible (n % m)) z t).1,
          (pgain T (feasible (n % m)) z t).2) := by
  unfold pFL_pass
  rw [forLoop_succ _ _ (Nat.zero_le n)]

theorem pFL_pass_draws (T : Nat) (feasible : Nat → Nat) (m : Nat) (z : ℚ) (s : State)
    (d : Nat) :
    ∀ iter, pFL_pass T feasible m z iter { s with draws := d } =
      (pFL_pass T feasible m z iter s).map (fun r => (r.1, { r.2 with draws := d })) := by
  intro iter
  induction iter with
  | zero =>
    unfold pFL_pass
    rw [forLoop_of_le _ _ (le_refl 0), forLoop_of_le _ _ (le_refl 0)]
    rfl
  | succ n ih =>
    rw [pFL_pass_succ, pFL_pass_succ, ih]
    cases pFL_pass T feasible m z n s with
    | error f => rfl
    | ok r =>
      obtain ⟨c, t⟩ := r
      show (if m = 0 then Except.error Fault.div_by_zero
        else Except.ok (c + (pgain T (feasible (n % m)) z { t with draws := d }).1,
          (pgain T (feasible (n % m)) z { t with draws := d }).2)) =
        Except.map (fun r => (r.1, { r.2 with draws := d }))
          (if m = 0 then Except.error Fault.div_by_zero
            else Except.ok (c + (pgain T (feasible (n % m)) z t).1,
              (pgain T (feasible (n % m)) z t).2))
      by_cases hm : m = 0
      · rw [if_pos hm, if_pos hm]; rfl
      · rw [if_neg hm, if_neg hm, pgain_draws]; rfl

theorem pFL_loop_draws (T : Nat) (lrand48 lrand48' : Nat → Nat) (feasible : Nat → Nat)
    (m : Nat) (z : ℚ) (iter : Nat) (e : ℚ) :
    ∀ (fuel : Nat) (change cost : ℚ) (s : State) (d d' : Nat),
      (pFL_loop T lrand48 feasible m z iter e fuel change cost { s with draws := d }).map
          (fun r => (r.1, { r.2 with draws := 0 })) =
        (pFL_loop T lrand48' feasible m z iter e fuel change cost { s with draws := d' }).map
          (fun r => (r.1, { r.2 with draws := 0 })) := by
  intro fuel
  induction fuel with
  | zero =>
    intro change cost s d d'
    unfold pFL_loop
    by_cases h : gtDiv change cost e = true
    · rw [if_pos h, if_pos h]
    · rw [if_neg h, if_neg h]; rfl
  | succ f ih =>
    intro change cost s d d'
    unfold pFL_loop
    by_cases h : gtDiv change cost e = true
    · rw [if_pos h, if_pos h]
      simp only []
      have e1 := pFL_pass_draws T feasible m z s
        (intshuffle lrand48 feasible m d).2 iter
      have e2 := pFL_pass_draws T feasible m z s
        (intshuffle lrand48' feasible m d').2 iter
      rw [show ({ ({ s with draws := d } : State) with
          draws := (intshuffle lrand48 feasible m
            ({ s with draws := d } : State).draws).2 } : State) =
        { s with draws := (intshuffle lrand48 feasible m d).2 } from rfl, e1,
        show ({ ({ s with draws := d' } : State) with
          draws := (intshuffle lrand48' feasible m
            ({ s with draws := d' } : State).draws).2 } : State) =
        { s with draws := (intshuffle lrand48' feasible m d').2 } from rfl, e2]
      cases pFL_pass T feasible m z iter s with
      | error g => rfl
      | ok r =>
        obtain ⟨c, t⟩ := r
        exact ih c (cost - c) t _ _
    · rw [if_neg h, if_neg h]; rfl

/-- C25, the code: `intshuffle` receives its array by value and permutes
that copy, so the array of `pFL` is never shuffled.  Whatever the draws are,
`pFL` calls `pgain` on the same candidates in the same order, and two draw
streams give the same returned cost and the same state but for the draw
counter. -/
theorem pFL_order_fixed (T : Nat) (lrand48 lrand48' : Nat → Nat) (feasible : Nat → Nat)
    (numfeasible : Nat) (z cost : ℚ) (iter : Nat) (e : ℚ) (fuel : Nat) (s : State) :
    (pFL T lrand48 feasible numfeasible z cost iter e fuel s).map
        (fun r => (r.1, { r.2 with draws := 0 })) =
      (pFL T lrand48' feasible numfeasible z cost iter e fuel s).map
        (fun r => (r.1, { r.2 with draws := 0 })) := by
  unfold pFL
  exact pFL_loop_draws T lrand48 lrand48' feasible numfeasible z iter e fuel cost cost s
    s.draws s.draws

/-- The four points of the line with the feasible array `[1, 3]`, `z = 1/2`
and `iter = 1`: with the draws all 1 the copy made by `intshuffle` is
`[3, 1]`, but `pFL` calls `pgain` for point 1 as it does with the draws all
0: point 1 is opened, point 3 is not. -/
theorem pFL_order_fixed_witness :
    (intshuffle (fun _ => 1) (fun i => if i = 0 then 1 else 3) 2 0).1 0 = 3 ∧
    (pFL 1 (fun _ => 1) (fun i => if i = 0 then 1 else 3) 2 (1 / 2) 3 1 (1 / 10) 2
        lineState).toOption.map (fun r => (r.1, r.2.is_center 1, r.2.is_center 3)) =
      some (5 / 2, true, false) ∧
    (pFL 1 (fun _ => 1) (fun i => if i = 0 then 1 else 3) 2 (1 / 2) 3 1 (1 / 10) 2
        lineState).map (fun r => (r.1, { r.2 with draws := 0 })) =
      (pFL 1 (fun _ => 0) (fun i => if i = 0 then 1 else 3) 2 (1 / 2) 3 1 (1 / 10) 2
        lineState).map (fun r => (r.1, { r.2 with draws := 0 })) :=
  ⟨by with_unfolding_all decide, by with_unfolding_all decide,
    pFL_order_fixed 1 (fun _ => 1) (fun _ => 0) (fun i => if i = 0 then 1 else 3) 2 (1 / 2) 3
      1 (1 / 10) 2 lineState⟩

/-! ## `contcenters` -/

theorem sum_folded_succ (P : Points) (m j : Nat) (f : Nat → ℚ) :
    ∑ i ∈ folded P (m + 1) j, f i =
      ∑ i ∈ folded P m j, f i + (if (P.p m).assign = j ∧ m ≠ j then f m else 0) := by
  unfold folded
  rw [Finset.sum_filter, Finset.sum_filter, Finset.sum_range_succ]

/-- Lines 1606-1610: the loop over the coordinates. -/
theorem contcenters_coord (D : Nat) (r : ℚ) (ci c0 : Nat → ℚ) (ii : Nat) :
    forLoop 0 D
      (fun ii (c : Nat → ℚ) => Function.update c ii (c ii * (1 - r) + ci ii * r)) c0 ii =
      if ii < D then c0 ii * (1 - r) + ci ii * r else c0 ii := by
  have := forLoop_induction
    (fun ii (c : Nat → ℚ) => Function.update c ii (c ii * (1 - r) + ci ii * r)) c0
    (fun m c => ∀ k, c k = if k < m then c0 k * (1 - r) + ci k * r else c0 k)
    (Nat.zero_le D) (fun k => by simp)
    (fun i t _ _ ht k => by
      show Function.update t i (t i * (1 - r) + ci i * r) k = _
      by_cases hk : k = i
      · subst hk
        rw [Function.update_same, ht k, if_neg (Nat.lt_irrefl k), if_pos (Nat.lt_succ_self k)]
      · rw [Function.update_noteq hk, ht k]
        by_cases h2 : k < i
        · rw [if_pos h2, if_pos (by omega)]
        · rw [if_neg h2, if_neg (by omega)])
  exact this ii

theorem contcenters_step (P0 : Points) (hH : TargetsSelfAssigned P0) (i : Nat)
    (hi : i < P0.num) (P : Points) (h : ContInv P0 i P) :
    ContInv P0 (i + 1)
      (if (P.p i).assign ≠ i then
        { P with
          p := Function.update P.p (P.p i).assign
            { P.p (P.p i).assign with
              coord := forLoop 0 P.dim
                (fun ii (c : Nat → ℚ) =>
                  Function.update c ii
                    (c ii * (1 - (P.p i).weight /
                        ((P.p (P.p i).assign).weight + (P.p i).weight)) +
                      (P.p i).coord ii *
                        ((P.p i).weight / ((P.p (P.p i).assign).weight + (P.p i).weight))))
                (P.p (P.p i).assign).coord
              weight := (P.p (P.p i).assign).weight + (P.p i).weight } }
      else P) := by
  rw [h.assign i]
  by_cases ha : (P0.p i).assign = i
  · rw [if_neg (not_not.mpr ha)]
    have hf : ∀ j (f : Nat → ℚ), ∑ k ∈ folded P0 (i + 1) j, f k = ∑ k ∈ folded P0 i j, f k := by
      intro j f
      rw [sum_folded_succ, if_neg, add_zero]
      rintro ⟨h1, h2⟩
      exact h2 (ha.symm.trans h1)
    refine ⟨h.num, h.dim, h.assign, h.cost, h.rest, ?_, h.high, ?_⟩
    · intro j hj hjj
      rw [hf]
      exact h.weight j hj hjj
    · intro hw j hj hjj ii hii
      rw [hf]
      exact h.coord hw j hj hjj ii hii
  · rw [if_pos ha]
    obtain ⟨hlt, hself⟩ := hH i hi
    have hpi : P.p i = P0.p i := h.rest i (fun hc => ha hc.2)
    have hne : i ≠ (P0.p i).assign := fun hc => ha hc.symm
    rw [hpi]
    refine ⟨h.num, h.dim, ?_, ?_, ?_, ?_, ?_, ?_⟩
    · intro k
      by_cases hk : k = (P0.p i).assign
      · subst hk
        simp only [Function.update_same]
        exact h.assign _
      · simp only [Function.update_noteq hk]
        exact h.assign k
    · intro k
      by_cases hk : k = (P0.p i).assign
      · subst hk
        simp only [Function.update_same]
        exact h.cost _
      · simp only [Function.update_noteq hk]
        exact h.cost k
    · intro k hk
      have hka : k ≠ (P0.p i).assign := by
        intro hc
        exact hk ⟨by rw [hc]; exact hlt, by rw [hc]; exact hself⟩
      simp only [Function.update_noteq hka]
      exact h.rest k hk
    · intro j hj hjj
      rw [sum_folded_succ]
      by_cases hk : j = (P0.p i).assign
      · subst hk
        simp only [Function.update_same]
        rw [if_pos ⟨trivial, hne⟩, h.weight _ hlt hself]
        ring
      · simp only [Function.update_noteq hk]
        rw [if_neg (fun hc => hk hc.1.symm), add_zero]
        exact h.weight j hj hjj
    · intro j ii hii
      by_cases hk : j = (P0.p i).assign
      · subst hk
        simp only [Function.update_same]
        rw [contcenters_coord, if_neg (by rw [h.dim]; omega)]
        exact h.high _ ii hii
      · simp only [Function.update_noteq hk]
        exact h.high j ii hii
    · intro hw j hj hjj ii hii
      rw [sum_folded_succ]
      by_cases hk : j = (P0.p i).assign
      · subst hk
        simp only [Function.update_same]
        rw [if_pos ⟨trivial, hne⟩, contcenters_coord, if_pos (by rw [h.dim]; exact hii)]
        have hW := h.weight _ hlt hself
        have hC := h.coord hw _ hlt hself ii hii
        have hpos : 0 < (P.p (P0.p i).assign).weight := by
          rw [hW]
          have h1 := hw _ hlt
          have h2 : 0 ≤ ∑ k ∈ folded P0 i (P0.p i).assign, (P0.p k).weight := by
            apply Finset.sum_nonneg
            intro k hk2
            unfold folded at hk2
            exact le_of_lt (hw k (by
              have := Finset.mem_range.mp (Finset.mem_filter.mp hk2).1
              omega))
          linarith
        have hwi := hw i hi
        have hden : (P.p (P0.p i).assign).weight + (P0.p i).weight ≠ 0 := by
          have : 0 < (P.p (P0.p i).assign).weight + (P0.p i).weight := by linarith
          exact ne_of_gt this
        rw [← add_assoc, ← hC]
        field_simp
        ring
      · simp only [Function.update_noteq hk]
        rw [if_neg (fun hc => hk hc.1.symm), add_zero]
        exact h.coord hw j hj hjj ii hii

/-- What `contcenters` leaves: see `ContInv`. -/
theorem contcenters_spec (P : Points) (hH : TargetsSelfAssigned P) :
    ContInv P P.num (contcenters P) := by
  unfold contcenters
  refine forLoop_induction _ P (fun m t => ContInv P m t) (Nat.zero_le _) ?_ ?_
  · refine ⟨rfl, rfl, fun _ => rfl, fun _ => rfl, fun _ _ => rfl, ?_, fun _ _ _ => rfl, ?_⟩
    · intro j _ _
      simp [folded]
    · intro _ j _ _ ii _
      simp [folded]
  · intro i t _ hi ht
    exact contcenters_step P hH i hi t ht

theorem sum_members (P : Points) (j : Nat) (hj : j < P.num) (hjj : (P.p j).assign = j)
    (f : Nat → ℚ) :
    ∑ i ∈ (Finset.range P.num).filter (fun i => (P.p i).assign = j), f i =
      f j + ∑ i ∈ folded P P.num j, f i := by
  unfold folded
  rw [Finset.sum_filter, Finset.sum_filter]
  have h1 : ∀ i ∈ Finset.range P.num,
      (if (P.p i).assign = j then f i else 0) =
        (if i = j then f j else 0) + (if (P.p i).assign = j ∧ i ≠ j then f i else 0) := by
    intro i _
    by_cases h : i = j
    · subst h
      simp [hjj]
    · by_cases h2 : (P.p i).assign = j
      · simp [h, h2]
      · simp [h, h2]
  rw [Finset.sum_congr rfl h1, Finset.sum_add_distrib, Finset.sum_ite_eq',
    if_pos (Finset.mem_range.mpr hj)]

theorem folded_pos (P : Points) (hw : ∀ i, i < P.num → 0 < (P.p i).weight) (j : Nat) :
    0 ≤ ∑ i ∈ folded P P.num j, (P.p i).weight := by
  apply Finset.sum_nonneg
  intro k hk
  unfold folded at hk
  exact le_of_lt (hw k (Finset.mem_range.mp (Finset.mem_filter.mp hk).1))

/-- C21: for every point set with positive weights in which every assign
target is a self-assigned point of the set, `contcenters` leaves every
self-assigned point `j` with the weight `Σ w_i` and the coordinates
`(Σ w_i * coord_i) / (Σ w_i)`, the sums taken over all points `i` with
`assign[i] = j` (`j` included) with the weights and coordinates before the
call.  The sums are over a set, so the order of the members has no
influence. -/
theorem contcenters_mean (P : Points) (hw : ∀ i, i < P.num → 0 < (P.p i).weight)
    (hH : TargetsSelfAssigned P) :
    ∀ j, j < P.num → (P.p j).assign = j →
      ((contcenters P).p j).weight =
        ∑ i ∈ (Finset.range P.num).filter (fun i => (P.p i).assign = j), (P.p i).weight ∧
      ∀ ii, ii < P.dim →
        ((contcenters P).p j).coord ii =
          (∑ i ∈ (Finset.range P.num).filter (fun i => (P.p i).assign = j),
              (P.p i).weight * (P.p i).coord ii) /
            (∑ i ∈ (Finset.range P.num).filter (fun i => (P.p i).assign = j),
              (P.p i).weight) := by
  intro j hj hjj
  have inv := contcenters_spec P hH
  have hW : ((contcenters P).p j).weight =
      ∑ i ∈ (Finset.range P.num).filter (fun i => (P.p i).assign = j), (P.p i).weight := by
    rw [sum_members P j hj hjj, inv.weight j hj hjj]
  refine ⟨hW, fun ii hii => ?_⟩
  have hC := inv.coord hw j hj hjj ii hii
  have hpos : 0 < ((contcenters P).p j).weight := by
    rw [inv.weight j hj hjj]
    have := folded_pos P hw j
    have := hw j hj
    linarith
  rw [sum_members P j hj hjj (fun i => (P.p i).weight * (P.p i).coord ii), ← hW, ← hC]
  field_simp

theorem linePoints_targets : TargetsSelfAssigned linePoints := by
  unfold TargetsSelfAssigned
  with_unfolding_all decide

/-- The four points of the line: center 0 ends at the mean 1/2 of the points
0 and 1, with weight 2. -/
theorem contcenters_mean_witness :
    ((∀ i, i < linePoints.num → 0 < (linePoints.p i).weight) ∧ TargetsSelfAssigned linePoints ∧
      ((contcenters linePoints).p 0).coord 0 = 1 / 2) ∧
    ((contcenters linePoints).p 0).weight =
      ∑ i ∈ (Finset.range linePoints.num).filter (fun i => (linePoints.p i).assign = 0),
        (linePoints.p i).weight ∧
    ∀ ii, ii < linePoints.dim →
      ((contcenters linePoints).p 0).coord ii =
        (∑ i ∈ (Finset.range linePoints.num).filter (fun i => (linePoints.p i).assign = 0),
            (linePoints.p i).weight * (linePoints.p i).coord ii) /
          (∑ i ∈ (Finset.range linePoints.num).filter (fun i => (linePoints.p i).assign = 0),
            (linePoints.p i).weight) :=
  ⟨⟨by with_unfolding_all decide, linePoints_targets, by with_unfolding_all decide⟩,
    contcenters_mean linePoints (by with_unfolding_all decide) linePoints_targets 0
      (by decide) rfl⟩

theorem contcenters_self (P : Points) (h : ∀ i, i < P.num → (P.p i).assign = i) :
    contcenters P = P := by
  unfold contcenters
  refine forLoop_induction _ P (fun _ t => t = P) (Nat.zero_le _) rfl ?_
  intro i t _ hi ht
  have ht' : t = P := ht
  subst ht'
  show (if (t.p i).assign ≠ i then _ else t) = t
  rw [if_neg (not_not.mpr (h i hi))]

theorem contcenters_targets (P : Points) (hH : TargetsSelfAssigned P) :
    TargetsSelfAssigned (contcenters P) := by
  have inv := contcenters_spec P hH
  intro i hi
  rw [inv.num] at hi ⊢
  rw [inv.assign, inv.assign]
  exact hH i hi

theorem folded_contcenters (P : Points) (hH : TargetsSelfAssigned P) (j : Nat) :
    folded (contcenters P) (contcenters P).num j = folded P P.num j ∧
    ∑ i ∈ folded (contcenters P) (contcenters P).num j, ((contcenters P).p i).weight =
      ∑ i ∈ folded P P.num j, (P.p i).weight := by
  have inv := contcenters_spec P hH
  have h1 : folded (contcenters P) (contcenters P).num j = folded P P.num j := by
    unfold folded
    rw [inv.num]
    exact Finset.filter_congr (fun i _ => by rw [inv.assign i])
  refine ⟨h1, ?_⟩
  rw [h1]
  apply Finset.sum_congr rfl
  intro i hi
  unfold folded at hi
  obtain ⟨-, h2, h3⟩ := Finset.mem_filter.mp hi
  rw [inv.rest i (fun hc => h3 (hc.2.symm.trans h2))]

/-- C23, as the code has it: `contcenters` keeps no record of what it has
folded, so a second call folds every member again: a self-assigned point `j`
ends with its first weight plus twice the weights of its members.  With
positive weights, `contcenters (contcenters P) = contcenters P` holds exactly
when every point is assigned to itself. -/
theorem contcenters_twice (P : Points) (hw : ∀ i, i < P.num → 0 < (P.p i).weight)
    (hH : TargetsSelfAssigned P) :
    (∀ j, j < P.num → (P.p j).assign = j →
      ((contcenters (contcenters P)).p j).weight =
        (P.p j).weight + 2 * ∑ i ∈ folded P P.num j, (P.p i).weight) ∧
    (contcenters (contcenters P) = contcenters P ↔ ∀ i, i < P.num → (P.p i).assign = i) := by
  have inv := contcenters_spec P hH
  have inv2 := contcenters_spec (contcenters P) (contcenters_targets P hH)
  have hW : ∀ j, j < P.num → (P.p j).assign = j →
      ((contcenters (contcenters P)).p j).weight =
        (P.p j).weight + 2 * ∑ i ∈ folded P P.num j, (P.p i).weight := by
    intro j hj hjj
    rw [inv2.weight j (by rw [inv.num]; exact hj) (by rw [inv.assign]; exact hjj),
      (folded_contcenters P hH j).2, inv.weight j hj hjj]
    ring
  refine ⟨hW, ?_, ?_⟩
  · intro heq i hi
    by_contra hne
    obtain ⟨hlt, hself⟩ := hH i hi
    have h1 := hW _ hlt hself
    rw [heq, inv.weight _ hlt hself] at h1
    have hmem : i ∈ folded P P.num (P.p i).assign := by
      unfold folded
      exact Finset.mem_filter.mpr ⟨Finset.mem_range.mpr hi, rfl, fun hc => hne hc.symm⟩
    have h2 : (P.p i).weight ≤ ∑ k ∈ folded P P.num (P.p i).assign, (P.p k).weight :=
      Finset.single_le_sum (f := fun k => (P.p k).weight)
        (fun k hk => by
          unfold folded at hk
          exact le_of_lt (hw k (Finset.mem_range.mp (Finset.mem_filter.mp hk).1)))
        hmem
    have h3 := hw i hi
    linarith
  · intro h
    rw [contcenters_self P h, contcenters_self P h]

/-- The four points of the line: after the second call center 0 has the
weight `1 + 2 * 1`. -/
theorem contcenters_twice_witness :
    ((∀ i, i < linePoints.num → 0 < (linePoints.p i).weight) ∧
      TargetsSelfAssigned linePoints) ∧
    ((contcenters (contcenters linePoints)).p 0).weight =
      (linePoints.p 0).weight + 2 * ∑ i ∈ folded linePoints linePoints.num 0,
        (linePoints.p i).weight :=
  ⟨⟨by with_unfolding_all decide, linePoints_targets⟩,
    (contcenters_twice linePoints (by with_unfolding_all decide) linePoints_targets).1 0
      (by decide) rfl⟩

/-- The claim fails on the four points of the line (unit weights, points 0
and 2 self-assigned, point 1 assigned to 0, point 3 to 2): the first call
leaves center 0 with weight 2 at 1/2, the second call folds point 1 again
and leaves it with weight 3 at 2/3. -/
theorem contcenters_twice_counterexample :
    TargetsSelfAssigned linePoints ∧
    ((contcenters linePoints).p 0).weight = 2 ∧
    ((contcenters linePoints).p 0).coord 0 = 1 / 2 ∧
    ((contcenters (contcenters linePoints)).p 0).weight = 3 ∧
    ((contcenters (contcenters linePoints)).p 0).coord 0 = 2 / 3 :=
  ⟨linePoints_targets, by with_unfolding_all decide, by with_unfolding_all decide,
    by with_unfolding_all decide, by with_unfolding_all decide⟩

/-! ## `copycenters` and the streaming driver -/

theorem is_a_median_eq (P : Points) :
    forLoop 0 P.num (fun i m => Function.update m (P.p i).assign true) (fun _ => false) =
      is_median P := by
  funext j
  rw [mark_centers]
  simp [is_median]

/-- The loop of lines 1632-1639: the `r`-th marked point is copied to slot
`c0 + r`, and that slot of the array of IDs gets its index plus `off`; the
other slots are not touched. -/
theorem copycenters_loop (P : Points) (med : Nat → Bool) (cp : Nat → Point)
    (ids : Nat → Nat) (c0 off : Nat) (m : Nat) :
    (forLoop 0 m
      (fun i (a : (Nat → Point) × (Nat → Nat) × Nat) =>
        if med i then
          (Function.update a.1 a.2.2
            { a.1 a.2.2 with
              coord := fun ii =>
                if ii < P.dim then (P.p i).coord ii else (a.1 a.2.2).coord ii
              weight := (P.p i).weight },
            Function.update a.2.1 a.2.2 (i + off), a.2.2 + 1)
        else a)
      (cp, ids, c0)).2.2 = c0 + centersIn med 0 m ∧
    (∀ i, i < m → med i = true →
      ((forLoop 0 m
        (fun i (a : (Nat → Point) × (Nat → Nat) × Nat) =>
          if med i then
            (Function.update a.1 a.2.2
              { a.1 a.2.2 with
                coord := fun ii =>
                  if ii < P.dim then (P.p i).coord ii else (a.1 a.2.2).coord ii
                weight := (P.p i).weight },
              Function.update a.2.1 a.2.2 (i + off), a.2.2 + 1)
          else a)
        (cp, ids, c0)).1 (c0 + centersIn med 0 i)).weight = (P.p i).weight ∧
      (∀ ii, ii < P.dim →
        ((forLoop 0 m
          (fun i (a : (Nat → Point) × (Nat → Nat) × Nat) =>
            if med i then
              (Function.update a.1 a.2.2
                { a.1 a.2.2 with
                  coord := fun ii =>
                    if ii < P.dim then (P.p i).coord ii else (a.1 a.2.2).coord ii
                  weight := (P.p i).weight },
                Function.update a.2.1 a.2.2 (i + off), a.2.2 + 1)
            else a)
          (cp, ids, c0)).1 (c0 + centersIn med 0 i)).coord ii = (P.p i).coord ii) ∧
      (forLoop 0 m
        (fun i (a : (Nat → Point) × (Nat → Nat) × Nat) =>
          if med i then
            (Function.update a.1 a.2.2
              { a.1 a.2.2 with
                coord := fun ii =>
                  if ii < P.dim then (P.p i).coord ii else (a.1 a.2.2).coord ii
                weight := (P.p i).weight },
              Function.update a.2.1 a.2.2 (i + off), a.2.2 + 1)
          else a)
        (cp, ids, c0)).2.1 (c0 + centersIn med 0 i) = i + off) ∧
    (∀ k, k < c0 ∨ c0 + centersIn med 0 m ≤ k →
      (forLoop 0 m
        (fun i (a : (Nat → Point) × (Nat → Nat) × Nat) =>
          if med i then
            (Function.update a.1 a.2.2
              { a.1 a.2.2 with
                coord := fun ii =>
                  if ii < P.dim then (P.p i).coord ii else (a.1 a.2.2).coord ii
                weight := (P.p i).weight },
              Function.update a.2.1 a.2.2 (i + off), a.2.2 + 1)
          else a)
        (cp, ids, c0)).1 k = cp k ∧
      (forLoop 0 m
        (fun i (a : (Nat → Point) × (Nat → Nat) × Nat) =>
          if med i then
            (Function.update a.1 a.2.2
              { a.1 a.2.2 with
                coord := fun ii =>
                  if ii < P.dim then (P.p i).coord ii else (a.1 a.2.2).coord ii
                weight := (P.p i).weight },
              Function.update a.2.1 a.2.2 (i + off), a.2.2 + 1)
          else a)
        (cp, ids, c0)).2.1 k = ids k) := by
  induction m with
  | zero =>
    rw [forLoop_of_le _ _ (le_refl 0)]
    refine ⟨by simp [centersIn_self], fun i hi => absurd hi (Nat.not_lt_zero i),
      fun k _ => ⟨rfl, rfl⟩⟩
  | succ n ih =>
    rw [forLoop_succ _ _ (Nat.zero_le n)]
    generalize forLoop 0 n
      (fun i (a : (Nat → Point) × (Nat → Nat) × Nat) =>
        if med i then
          (Function.update a.1 a.2.2
            { a.1 a.2.2 with
              coord := fun ii =>
                if ii < P.dim then (P.p i).coord ii else (a.1 a.2.2).coord ii
              weight := (P.p i).weight },
            Function.update a.2.1 a.2.2 (i + off), a.2.2 + 1)
        else a)
      (cp, ids, c0) = a at ih ⊢
    obtain ⟨h1, h2, h3⟩ := ih
    have hs := centersIn_succ med (Nat.zero_le n)
    by_cases hm : med n = true
    · simp only [hm, if_true] at hs ⊢
      refine ⟨by rw [h1, hs]; omega, ?_, ?_⟩
      · intro i hi hmi
        rcases Nat.lt_succ_iff_lt_or_eq.mp hi with h | h
        · have hlt := centersIn_lt h hmi
          have hne : c0 + centersIn med 0 i ≠ a.2.2 := by rw [h1]; omega
          simp only [Function.update_noteq hne]
          exact h2 i h hmi
        · subst h
          rw [← h1]
          simp only [Function.update_same]
          exact ⟨trivial, fun ii hii => by rw [if_pos hii], trivial⟩
      · intro k hk
        have hne : k ≠ a.2.2 := by rw [h1]; omega
        simp only [Function.update_noteq hne]
        exact h3 k (by omega)
    · simp only [hm, Bool.false_eq_true, if_false, add_zero] at hs ⊢
      refine ⟨by rw [h1, hs], ?_, ?_⟩
      · intro i hi hmi
        rcases Nat.lt_succ_iff_lt_or_eq.mp hi with h | h
        · exact h2 i h hmi
        · subst h
          exact absurd hmi hm
      · intro k hk
        exact h3 k (by rw [hs] at hk; exact hk)

/-- What `copycenters` returns: the centers grow by the marked points in the
order of their indices, slot `centers.num + r` taking weight and coordinates
of the `r`-th marked point, and the function's copy of the IDs gets that
point's index plus `offset` at the same slot. -/
theorem copycenters_spec (P C : Points) (ids : Nat → Nat) (off : Nat) :
    (copycenters P C ids off).1.num = C.num + centersIn (is_median P) 0 P.num ∧
    (copycenters P C ids off).1.dim = C.dim ∧
    (∀ i, i < P.num → is_median P i = true →
      ((copycenters P C ids off).1.p (C.num + centersIn (is_median P) 0 i)).weight =
        (P.p i).weight ∧
      (∀ ii, ii < P.dim →
        ((copycenters P C ids off).1.p (C.num + centersIn (is_median P) 0 i)).coord ii =
          (P.p i).coord ii) ∧
      (copycenters P C ids off).2 (C.num + centersIn (is_median P) 0 i) = i + off) ∧
    (∀ k, k < C.num ∨ C.num + centersIn (is_median P) 0 P.num ≤ k →
      (copycenters P C ids off).1.p k = C.p k ∧ (copycenters P C ids off).2 k = ids k) := by
  unfold copycenters
  simp only [is_a_median_eq]
  obtain ⟨h1, h2, h3⟩ := copycenters_loop P (is_median P) C.p ids C.num off P.num
  exact ⟨h1, trivial, h2, h3⟩

theorem exists_of_isSome {α : Type} {e : Except Fault (Option α)}
    (h : (e.toOption.bind id).isSome = true) : ∃ d, e = .ok (some d) := by
  cases e with
  | error f => simp [Except.toOption] at h
  | ok o =>
    cases o with
    | none => simp [Except.toOption] at h
    | some d => exact ⟨d, rfl⟩

/-- A round of the driver hands `centerIDs` to `copycenters` by value and
gets nothing back: its own array stays as it was. -/
theorem streamCluster_chunk_ids (T : Nat) (lrand48 : Nat → Nat) (klogk : Nat → Nat)
    (kmin kmax centersize fuel : Nat) (chunk : Points) (d d1 : Driver)
    (h : streamCluster_chunk T lrand48 klogk kmin kmax centersize fuel chunk d =
      .ok (some d1)) :
    d1.centerIDs = d.centerIDs := by
  unfold streamCluster_chunk at h
  simp only [] at h
  split at h
  · cases h
  · split at h
    · cases h
    · injection h with h
      injection h with h
      rw [← h]

theorem streamCluster_chunks_ids (T : Nat) (lrand48 : Nat → Nat) (klogk : Nat → Nat)
    (kmin kmax centersize fuel : Nat) :
    ∀ (chunks : List Points) (d d1 : Driver),
      streamCluster_chunks T lrand48 klogk kmin kmax centersize fuel chunks d =
        .ok (some d1) →
      d1.centerIDs = d.centerIDs := by
  intro chunks
  induction chunks with
  | nil =>
    intro d d1 h
    unfold streamCluster_chunks at h
    injection h with h
    injection h with h
    rw [h]
  | cons c cs ih =>
    intro d d1 h
    unfold streamCluster_chunks at h
    split at h
    · cases h
    · cases h
    · rename_i d2 h2
      rw [ih d2 d1 h]
      exact streamCluster_chunk_ids T lrand48 klogk kmin kmax centersize fuel c d d2 h2

/-- C27, the code: `copycenters` receives `centerIDs` by value.  The copy it
owns gets, at the slot of every appended center, the index of the center in
the chunk plus `offset`; the array of the driver is never written, so after
any number of chunks every entry still holds the 0 of line 1822. -/
theorem streamCluster_centerIDs (T : Nat) (lrand48 : Nat → Nat) (klogk : Nat → Nat)
    (kmin kmax centersize fuel dim : Nat) (chunks : List Points) (d : Driver)
    (h : streamCluster_chunks T lrand48 klogk kmin kmax centersize fuel chunks
      (streamCluster_start dim) = .ok (some d)) :
    (∀ k, d.centerIDs k = 0) ∧
    (∀ (P C : Points) (ids : Nat → Nat) (off i : Nat), i < P.num → is_median P i = true →
      (copycenters P C ids off).2 (C.num + centersIn (is_median P) 0 i) = i + off) := by
  refine ⟨fun k => ?_, fun P C ids off i hi hm => ((copycenters_spec P C ids off).2.2.1 i hi hm).2.2⟩
  rw [streamCluster_chunks_ids T lrand48 klogk kmin kmax centersize fuel chunks _ d h]
  rfl

/-- The first chunk holds the points 0 and 1 and `kmax = 2`: both points are
appended as centers.  The copy of `copycenters` gets the IDs 0 and 1, the
array of the driver holds 0 at both slots. -/
theorem streamCluster_centerIDs_witness :
    (copycenters
      ⟨2, 1, fun i => if i = 0 then linePoint 0 0 0 else linePoint 1 1 0⟩
      (streamCluster_start 1).centers (streamCluster_start 1).centerIDs 0).2 1 = 1 ∧
    ∃ d, streamCluster_chunks 1 (fun _ => 0) klogk3 1 2 4 0 [(twoPointState 0 1).points]
        (streamCluster_start 1) = .ok (some d) ∧
      d.centers.num = 2 ∧ (d.statics.points.p 1).assign = 1 ∧ ∀ k, d.centerIDs k = 0 :=
  ⟨by with_unfolding_all decide,
    (exists_of_isSome (e := streamCluster_chunks 1 (fun _ => 0) klogk3 1 2 4 0
      [(twoPointState 0 1).points] (streamCluster_start 1))
      (by with_unfolding_all decide)).elim
      (fun d hd => ⟨d, hd,
        by
          have h2 : ((streamCluster_chunks 1 (fun _ => 0) klogk3 1 2 4 0
              [(twoPointState 0 1).points] (streamCluster_start 1)).toOption.bind id).map
              (fun d => (d.centers.num, (d.statics.points.p 1).assign)) = some (2, 1) := by
            with_unfolding_all decide
          rw [hd] at h2
          injection h2 with h2
          exact (Prod.mk.inj h2).1,
        by
          have h2 : ((streamCluster_chunks 1 (fun _ => 0) klogk3 1 2 4 0
              [(twoPointState 0 1).points] (streamCluster_start 1)).toOption.bind id).map
              (fun d => (d.centers.num, (d.statics.points.p 1).assign)) = some (2, 1) := by
            with_unfolding_all decide
          rw [hd] at h2
          injection h2 with h2
          exact (Prod.mk.inj h2).2,
        (streamCluster_centerIDs 1 (fun _ => 0) klogk3 1 2 4 0 1 [(twoPointState 0 1).points]
          d hd).1⟩)⟩

theorem centersIn_all (c : Nat → Bool) (n : Nat) (h : ∀ i, i < n → c i = true) :
    centersIn c 0 n = n := by
  induction n with
  | zero => exact centersIn_self c 0
  | succ m ih =>
    rw [centersIn_succ c (Nat.zero_le m), ih (fun i hi => h i (by omega)),
      if_pos (h m (Nat.lt_succ_self m))]

theorem unit_weights (chunk : Points) :
    (forLoop 0 chunk.num
      (fun i (P : Points) =>
        { P with p := Function.update P.p i { P.p i with weight := 1 } }) chunk).num =
      chunk.num := by
  refine forLoop_induction _ chunk (fun _ (t : Points) => t.num = chunk.num)
    (Nat.zero_le _) rfl ?_
  intro i t _ _ ht
  exact ht

/-- What `pkmedian` returns and leaves in the statics when there are no more
points than `kmax`: `kfinal` and the static `k` are the `k` of the call
before, every point is its own center. -/
theorem pkmedian_of_le_k {T : Nat} (lrand48 : Nat → Nat) (klogk : Nat → Nat)
    (kmin kmax : Nat) (fuel : Nat) {s : State} (hT : 1 ≤ T)
    (h : s.points.num ≤ kmax) :
    ∃ r, pkmedian T lrand48 klogk kmin kmax fuel s = .ok r ∧
      r.kfinal = s.k ∧ r.state.k = s.k ∧
      r.state.points.num = s.points.num ∧
      ∀ i, i < s.points.num → (r.state.points.p i).assign = i := by
  unfold pkmedian
  simp only [if_pos h]
  obtain ⟨p1, _, p3⟩ := pkmedian_self_assign hT s.points
  refine ⟨_, rfl, rfl, rfl, p1, fun i hi => ?_⟩
  show ((forLoop 0 T _ s.points).p i).assign = i
  rw [p3 i, if_pos hi]

/-- A round of the driver on a chunk with no more points than `kmax`, when
the static `k` of `pkmedian` is 0: the check of line 1886 sees `kfinal = 0`
and passes, and `copycenters` appends every point of the chunk. -/
theorem streamCluster_chunk_small (T : Nat) (lrand48 : Nat → Nat) (klogk : Nat → Nat)
    (kmin kmax centersize fuel : Nat) (chunk : Points) (d : Driver) (hT : 1 ≤ T)
    (hn : chunk.num ≤ kmax) (hk : d.statics.k = 0) (hc : d.centers.num ≤ centersize) :
    ∃ d1, streamCluster_chunk T lrand48 klogk kmin kmax centersize fuel chunk d =
        .ok (some d1) ∧
      d1.kfinal = 0 ∧ d1.statics.k = 0 ∧ d1.centers.num = d.centers.num + chunk.num := by
  have hnum := unit_weights chunk
  obtain ⟨r, r1, r2, r3, r4, r5⟩ := pkmedian_of_le_k (T := T) lrand48 klogk kmin kmax fuel
    (s := { d.statics with
      points := forLoop 0 chunk.num
        (fun i (P : Points) =>
          { P with p := Function.update P.p i { P.p i with weight := 1 } }) chunk
      is_center := fun _ => false })
    hT (by show (forLoop 0 chunk.num _ chunk).num ≤ kmax; rw [hnum]; exact hn)
  have r4' : r.state.points.num = chunk.num := by rw [r4]; exact hnum
  have r5' : ∀ i, i < r.state.points.num → (r.state.points.p i).assign = i := by
    intro i hi
    rw [r4] at hi
    exact r5 i hi
  have r2' : r.kfinal = 0 := by rw [r2]; exact hk
  have r3' : r.state.k = 0 := by rw [r3]; exact hk
  unfold streamCluster_chunk
  simp only [r1]
  rw [contcenters_self _ r5', if_neg (by rw [r2']; omega)]
  refine ⟨_, rfl, r2', r3', ?_⟩
  show (copycenters r.state.points d.centers d.centerIDs d.IDoffset).1.num = _
  rw [(copycenters_spec _ _ _ _).1, centersIn_all _ _ (fun i hi => by
    unfold is_median
    exact decide_eq_true ⟨i, hi, r5' i hi⟩), r4']

/-- C28, the code: for chunks with no more points than `kmax` the value
`kfinal` that the check of line 1886 reads is the static `k` of `pkmedian`,
which that path never sets, while `copycenters` appends every point of the
chunk.  With the static `k` at 0 the check passes as long as
`centers.num ≤ centersize` holds before the chunk, and the last chunk takes
`centers.num` beyond `centersize`. -/
theorem streamCluster_overflow (T : Nat) (lrand48 : Nat → Nat) (klogk : Nat → Nat)
    (kmin kmax centersize fuel : Nat) (cs : List Points) (c : Points) (d : Driver)
    (hT : 1 ≤ T) (hn : ∀ q, q ∈ cs ++ [c] → q.num ≤ kmax) (hk : d.statics.k = 0)
    (hc : d.centers.num + (cs.map (fun q => q.num)).sum ≤ centersize) :
    ∃ d1, streamCluster_chunks T lrand48 klogk kmin kmax centersize fuel (cs ++ [c]) d =
        .ok (some d1) ∧
      d1.kfinal = 0 ∧
      d1.centers.num = d.centers.num + (cs.map (fun q => q.num)).sum + c.num := by
  induction cs generalizing d with
  | nil =>
    obtain ⟨d1, h1, h2, -, h4⟩ := streamCluster_chunk_small T lrand48 klogk kmin kmax
      centersize fuel c d hT (hn c (by simp)) hk (by simpa using hc)
    refine ⟨d1, ?_, h2, by simpa using h4⟩
    show streamCluster_chunks T lrand48 klogk kmin kmax centersize fuel [c] d = _
    unfold streamCluster_chunks
    simp only [h1]
    rfl
  | cons q cs ih =>
    simp only [List.map_cons, List.sum_cons] at hc
    obtain ⟨d1, h1, -, h3, h4⟩ := streamCluster_chunk_small T lrand48 klogk kmin kmax
      centersize fuel q d hT (hn q (by simp)) hk (by omega)
    obtain ⟨d2, g1, g2, g3⟩ := ih d1 (fun p hp => hn p (by simp at hp ⊢; tauto)) h3
      (by rw [h4]; omega)
    refine ⟨d2, ?_, g2, ?_⟩
    · show streamCluster_chunks T lrand48 klogk kmin kmax centersize fuel
        (q :: (cs ++ [c])) d = _
      rw [streamCluster_chunks]
      simp only [h1]
      exact g1
    · rw [g3, h4]
      simp only [List.map_cons, List.sum_cons]
      omega

/-- Two chunks of two points with `kmax = 2` and `centersize = 2`: both
checks pass and the driver ends with four centers. -/
theorem streamCluster_overflow_witness :
    (1 ≤ 1 ∧ (streamCluster_start 1).statics.k = 0 ∧
      (streamCluster_start 1).centers.num +
        (([(twoPointState 0 1).points]).map (fun q => q.num)).sum ≤ 2) ∧
    ∃ d1, streamCluster_chunks 1 (fun _ => 0) klogk3 2 2 2 0
        ([(twoPointState 0 1).points] ++ [(twoPointState 5 7).points])
        (streamCluster_start 1) = .ok (some d1) ∧
      d1.kfinal = 0 ∧
      d1.centers.num = (streamCluster_start 1).centers.num +
        (([(twoPointState 0 1).points]).map (fun q => q.num)).sum +
        (twoPointState 5 7).points.num :=
  ⟨⟨by decide, rfl, by decide⟩,
    streamCluster_overflow 1 (fun _ => 0) klogk3 2 2 2 0 [(twoPointState 0 1).points]
      (twoPointState 5 7).points (streamCluster_start 1) (by decide)
      (by
        intro q hq
        simp only [List.singleton_append, List.mem_cons, List.mem_singleton,
          List.not_mem_nil, or_false] at hq
        rcases hq with h | h
        · rw [h]; decide
        · rw [h]; decide)
      rfl (by decide)⟩

/-! ## `pgain` and the number of workers -/

/-- With the offset adds of all workers taken before the `fill`s, `pgain` on
a valid state returns the same value and leaves the same points, `is_center`
and `k` for every number of workers. -/
theorem pgain_workers {T x : Nat} {z : ℚ} {s : State} (hT : 1 ≤ T) (hv : Valid s)
    (hx : x < s.points.num) :
    (pgain T x z s).1 = (pgain 1 x z s).1 ∧
    (pgain T x z s).2.points = (pgain 1 x z s).2.points ∧
    (pgain T x z s).2.is_center = (pgain 1 x z s).2.is_center ∧
    (pgain T x z s).2.k = (pgain 1 x z s).2.k := by
  by_cases h : glCost s x z < 0
  · obtain ⟨a1, a2, a3, a4, a5, a6⟩ := pgain_of_lt (T := T) hT hv hx h
    obtain ⟨b1, b2, b3, b4, b5, b6⟩ := pgain_of_lt (T := 1) (le_refl 1) hv hx h
    refine ⟨a1.trans b1.symm, ?_, ?_, a6.trans b6.symm⟩
    · exact points_eq _ _ (a2.trans b2.symm) (a3.trans b3.symm)
        (fun i => (a4 i).trans (b4 i).symm)
    · funext j
      exact (a5 j).trans (b5 j).symm
  · obtain ⟨a1, a2, a3, a4⟩ := pgain_of_not_lt (T := T) (x := x) (z := z) (s := s)
      (by rw [gl_cost_eq hT x z hv]; exact h)
    obtain ⟨b1, b2, b3, b4⟩ := pgain_of_not_lt (T := 1) (x := x) (z := z) (s := s)
      (by rw [gl_cost_eq (le_refl 1) x z hv]; exact h)
    exact ⟨a1.trans b1.symm, a2.trans b2.symm, a3.trans b3.symm, a4.trans b4.symm⟩

theorem raceState_valid : Valid raceState := by
  refine ⟨?_, ?_, ?_, ?_, ?_⟩ <;> with_unfolding_all decide

/-- With one worker the two orders are the same function. -/
theorem pgain_inorder_one (x : Nat) (z : ℚ) (s : State) :
    pgain_inorder 1 x z s = pgain 1 x z s := rfl

/-- C29, the code: no barrier separates the offset add of line 1003 from the
`fill`s of lines 1008-1011, and the `fill` of worker 0 runs from the start
of `work_mem` to its end.  When worker 0 is through lines 1001-1012 before
worker 1 reads its offset, worker 1 reads 0.  On the four weighted points
with two workers, `z = 230` and `x = 3` the centers 0 and 2 then share slot
0 of `center_table`, no center is found worth closing, and `pgain` returns
170 and leaves `k = 3`, where one worker returns 180 and leaves `k = 2`. -/
theorem pgain_inorder_differs :
    (∀ (x : Nat) (z : ℚ) (s : State), pgain_inorder 1 x z s = pgain 1 x z s) ∧
    Valid raceState ∧
    (pgain 1 3 230 raceState).1 = 180 ∧ (pgain 1 3 230 raceState).2.k = 2 ∧
    (pgain 1 3 230 raceState).2.is_center 0 = false ∧
    (pgain_inorder 2 3 230 raceState).2.center_table 0 = 0 ∧
    (pgain_inorder 2 3 230 raceState).2.center_table 2 = 0 ∧
    (pgain_inorder 2 3 230 raceState).1 = 170 ∧ (pgain_inorder 2 3 230 raceState).2.k = 3 ∧
    (pgain_inorder 2 3 230 raceState).2.is_center 0 = true :=
  ⟨pgain_inorder_one, raceState_valid, by with_unfolding_all decide,
    by with_unfolding_all decide, by with_unfolding_all decide, by with_unfolding_all decide,
    by with_unfolding_all decide, by with_unfolding_all decide, by with_unfolding_all decide,
    by with_unfolding_all decide⟩

/-! ## The strips of `work_mem` -/

theorem stride_spec (k : Nat) :
    4 ∣ stride k ∧ k + 2 ≤ stride k ∧ ∀ m, 4 ∣ m → k + 2 ≤ m → stride k ≤ m := by
  unfold stride CACHE_LINE
  simp only
  split
  · refine ⟨⟨(k + 2) / (32 / 8) + 1, rfl⟩, ?_, ?_⟩
    · have := Nat.div_add_mod (k + 2) (32 / 8)
      have := Nat.mod_lt (k + 2) (show 0 < 32 / 8 by norm_num)
      omega
    · rintro m ⟨q, rfl⟩ hm
      omega
  · rename_i h
    refine ⟨?_, le_refl _, fun m _ hm => hm⟩
    have h0 : (k + 2) % (32 / 8) = 0 := not_not.mp h
    exact Nat.dvd_of_mod_eq_zero h0

/-- C38: for every `k` the `stride` of `pgain` is the least multiple of 4
that is at least `k + 2`, `K = stride - 2` satisfies `k ≤ K` and
`K + 1 < stride`, and every index `t * stride + j` with `t ≤ T` and
`j ≤ K + 1` lies below the size `stride * (T + 1)` of `work_mem`.  In a
valid state the rebuilt `center_table` sends every open center below `k`, so
its slot is neither slot `K` nor slot `K + 1`. -/
theorem stride_slots (T x : Nat) (z : ℚ) (s : State) (k : Nat) (hT : 1 ≤ T) (hv : Valid s) :
    (4 ∣ stride k ∧ k + 2 ≤ stride k ∧ ∀ m, 4 ∣ m → k + 2 ≤ m → stride k ≤ m) ∧
    (k ≤ stride k - 2 ∧ stride k - 2 + 1 < stride k) ∧
    (∀ t j, t ≤ T → j ≤ stride k - 2 + 1 → t * stride k + j < stride k * (T + 1)) ∧
    (∀ c, c < s.points.num → s.is_center c = true →
      (pgain_eval T x z s).1 c < s.k ∧
      (pgain_eval T x z s).1 c ≠ stride s.k - 2 ∧
      (pgain_eval T x z s).1 c ≠ stride s.k - 2 + 1) := by
  have h1 := stride_spec k
  have h2 := stride_ge k
  refine ⟨h1, ⟨by omega, by omega⟩, ?_, ?_⟩
  · intro t j ht hj
    have : t * stride k ≤ T * stride k := Nat.mul_le_mul_right _ ht
    have e : stride k * (T + 1) = T * stride k + stride k := by ring
    omega
  · intro c hc hcc
    have hs := pgain_eval_spec hT x z s
      (fun i hi => ⟨hv.assign_lt i hi, hv.assign_open i hi⟩) hv.k_eq
    have hlt : (pgain_eval T x z s).1 c < s.k := by
      rw [hs.ct c, if_pos ⟨hc, hcc⟩, hv.k_eq]
      exact centersIn_lt hc hcc
    have h3 := stride_ge s.k
    exact ⟨hlt, by omega, by omega⟩

/-- The four points of the line with two open centers and two workers:
`stride = 4`, `K = 2`, and the centers 0 and 2 have the slots 0 and 1. -/
theorem stride_slots_witness :
    (1 ≤ 2 ∧ Valid lineState ∧ stride 2 = 4) ∧
    (4 ∣ stride 2 ∧ 2 + 2 ≤ stride 2 ∧ ∀ m, 4 ∣ m → 2 + 2 ≤ m → stride 2 ≤ m) ∧
    (2 ≤ stride 2 - 2 ∧ stride 2 - 2 + 1 < stride 2) ∧
    (∀ t j, t ≤ 2 → j ≤ stride 2 - 2 + 1 → t * stride 2 + j < stride 2 * (2 + 1)) ∧
    (∀ c, c < lineState.points.num → lineState.is_center c = true →
      (pgain_eval 2 1 (1 / 2) lineState).1 c < lineState.k ∧
      (pgain_eval 2 1 (1 / 2) lineState).1 c ≠ stride lineState.k - 2 ∧
      (pgain_eval 2 1 (1 / 2) lineState).1 c ≠ stride lineState.k - 2 + 1) :=
  ⟨⟨by decide, lineState_valid, by decide⟩,
    stride_slots 2 1 (1 / 2) lineState 2 (by decide) lineState_valid⟩

/-! ## The sign of the amounts booked on the `lower` slots -/

/-- C31, as the code has it: a point `i` that does not switch has
`x_cost ≥ cost[i]`, so the amount `cost[i] - x_cost` that line 1047 adds to
the slot of its center is not positive; after lines 1023-1049 every slot of
every worker's strip holds the sum of these amounts over the worker's block
and is at most 0. -/
theorem pgain_lower_nonpos (T S : Nat) (P : Points) (C : Nat → Nat) (x : Nat) (w0 : Work)
    (hT : 1 ≤ T) (hct : ∀ i, i < P.num → C (P.p i).assign < S)
    (h1 : ∀ i, i < P.num → w0.switch_membership i = false)
    (h2 : ∀ j, j < S * (T + 1) → w0.work_mem j = 0)
    (h3 : ∀ p, w0.cost_of_opening_x p = 0) (h4 : ∀ p, w0.number_of_centers_to_close p = 0) :
    (∀ i, ¬ switches P x i → (P.p i).cost - x_cost P x i ≤ 0) ∧
    (∀ p c, p < T → c < S →
      (forLoop 0 T (pgain_lower T S P C x) w0).work_mem (p * S + c) =
        ∑ i ∈ (Finset.Ico (k1 P.num T p) (k2 P.num T p)).filter
          (fun i => ¬ switches P x i ∧ C (P.p i).assign = c),
          ((P.p i).cost - x_cost P x i) ∧
      (forLoop 0 T (pgain_lower T S P C x) w0).work_mem (p * S + c) ≤ 0) := by
  have hpt : ∀ i, ¬ switches P x i → (P.p i).cost - x_cost P x i ≤ 0 := by
    intro i hi
    unfold switches at hi
    linarith [not_lt.mp hi]
  refine ⟨hpt, fun p c hp hc => ?_⟩
  have inv := pgain_lower_all (P := P) (C := C) (x := x) hT hct w0 h1 h2 h3 h4
  have e : (forLoop 0 T (pgain_lower T S P C x) w0).work_mem (p * S + c) =
      ∑ i ∈ (Finset.Ico (k1 P.num T p) (k2 P.num T p)).filter
        (fun i => ¬ switches P x i ∧ C (P.p i).assign = c),
        ((P.p i).cost - x_cost P x i) := by
    rw [inv.wm p c hp hc]
    apply Finset.sum_congr _ (fun _ _ => rfl)
    apply Finset.filter_congr
    intro i hi
    have := lt_of_lt_of_le (Finset.mem_Ico.mp hi).2 (k2_le_num hp)
    constructor
    · exact fun h => h.2
    · exact fun h => ⟨this, h⟩
  refine ⟨e, ?_⟩
  rw [e]
  apply Finset.sum_nonpos
  intro i hi
  exact hpt i (Finset.mem_filter.mp hi).2.1

/-- The four points of the line, `x = 1`, two workers, strips of 4 slots,
centers 0 and 2 at the slots 0 and 1: slot 0 of worker 0 holds -1. -/
theorem pgain_lower_nonpos_witness :
    (1 ≤ 2 ∧ ∀ i, i < linePoints.num →
      (fun j => if j = 2 then 1 else 0) (linePoints.p i).assign < 4) ∧
    (forLoop 0 2 (pgain_lower 2 4 linePoints (fun j => if j = 2 then 1 else 0) 1)
        ⟨fun _ => false, fun _ => 0, fun _ => 0, fun _ => 0⟩).work_mem (0 * 4 + 0) ≤ 0 :=
  ⟨⟨by decide, by with_unfolding_all decide⟩,
    ((pgain_lower_nonpos 2 4 linePoints (fun j => if j = 2 then 1 else 0) 1
      ⟨fun _ => false, fun _ => 0, fun _ => 0, fun _ => 0⟩ (by decide)
      (by with_unfolding_all decide) (fun _ _ => rfl) (fun _ _ => rfl) (fun _ => rfl)
      (fun _ => rfl)).2 0 0 (by decide) (by decide)).2⟩

/-- The claim fails on the four points of the line with `x = 1`: point 0
(cost 0, `x_cost` 1) does not switch, and line 1047 adds `0 - 1 = -1` to the
slot of its center; after `pgain` slot 0 of the strip holds -1. -/
theorem pgain_lower_nonpos_counterexample :
    ¬ switches lineState.points 1 0 ∧
    (lineState.points.p 0).cost - x_cost lineState.points 1 0 = -1 ∧
    (pgain_eval 1 1 (1 / 2) lineState).1 0 = 0 ∧
    (pgain_eval 1 1 (1 / 2) lineState).2.1.work_mem (0 * stride lineState.k + 0) = -1 :=
  ⟨by with_unfolding_all decide, by with_unfolding_all decide, by with_unfolding_all decide,
    by with_unfolding_all decide⟩

/-! ## `pFL` with `iter = 0` -/

/-- With `iter = 0` a pass of `pFL` calls `pgain` not at all: the loop runs
at most once, draws the shuffle, and returns cost and state as they were. -/
theorem pFL_iter_zero (T : Nat) (lrand48 : Nat → Nat) (feasible : Nat → Nat) (m : Nat)
    (z cost e : ℚ) (fuel : Nat) (s : State) (he : 0 ≤ e) (hf : 1 ≤ fuel) :
    ∃ d, pFL T lrand48 feasible m z cost 0 e fuel s = .ok (cost, { s with draws := d }) := by
  obtain ⟨f, rfl⟩ : ∃ f, fuel = f + 1 := ⟨fuel - 1, by omega⟩
  unfold pFL
  unfold pFL_loop
  by_cases h : gtDiv cost cost e = true
  · rw [if_pos h]
    have hp : pFL_pass T feasible m z 0
        { s with draws := (intshuffle lrand48 feasible m s.draws).2 } =
        .ok (0, { s with draws := (intshuffle lrand48 feasible m s.draws).2 }) := by
      unfold pFL_pass
      rw [forLoop_of_le _ _ (le_refl 0)]
    simp only [hp, sub_zero]
    refine ⟨(intshuffle lrand48 feasible m s.draws).2, ?_⟩
    cases f with
    | zero => simp only [pFL_loop, gtDiv_zero cost e he, Bool.false_eq_true, if_false]
    | succ g => simp only [pFL_loop, gtDiv_zero cost e he, Bool.false_eq_true, if_false]
  · rw [if_neg h]
    exact ⟨s.draws, rfl⟩

theorem pkmedian_round_iter_zero (T : Nat) (lrand48 : Nat → Nat) (kmin kmax fuel : Nat)
    (a : Search) (hf : 1 ≤ fuel) :
    ∃ d, pkmedian_round T lrand48 kmin kmax 0 fuel a =
      .ok { a with state := { a.state with draws := d } } := by
  obtain ⟨d1, h1⟩ := pFL_iter_zero T lrand48 a.state.feasible a.state.numfeasible a.z a.cost
    (1 / 10) fuel a.state (by norm_num) hf
  unfold pkmedian_round
  rw [h1]
  simp only []
  by_cases hnear : near_target kmin kmax a.state.k = true
  · rw [if_pos hnear]
    obtain ⟨d2, h2⟩ := pFL_iter_zero T lrand48 a.state.feasible a.state.numfeasible a.z a.cost
      (1 / 1000) fuel { a.state with draws := d1 } (by norm_num) hf
    rw [h2]
    exact ⟨d2, rfl⟩
  · rw [if_neg hnear]
    exact ⟨d1, rfl⟩

theorem pkmedian_adjust_top (kmin : Nat) (a : Search) (hkmin : kmin ≤ 1) :
    (a.state.k = 1 → pkmedian_adjust kmin 1 a = a ∧ pkmedian_done kmin 1 a = true) ∧
    (2 ≤ a.state.k →
      (pkmedian_adjust kmin 1 a).hiz = a.hiz ∧ (pkmedian_adjust kmin 1 a).loz = a.z ∧
      (pkmedian_adjust kmin 1 a).z = (a.hiz + a.z) / 2 ∧
      (pkmedian_done kmin 1 (pkmedian_adjust kmin 1 a) = true ↔ 999 / 1000 * a.hiz ≤ a.z)) := by
  obtain ⟨hiz, loz, z, cost, i, st⟩ := a
  constructor
  · intro h
    simp only at h
    unfold pkmedian_done pkmedian_adjust
    have h2 : ¬ 1 < kmin := by omega
    simp [h, h2, hkmin]
  · intro h
    simp only at h
    unfold pkmedian_done pkmedian_adjust
    have h1 : st.k > 1 := by omega
    have h2 : ¬ st.k < kmin := by omega
    have h3 : ¬ st.k ≤ 1 := by omega
    simp [h1, h2, h3]

/-- With `kmax = 1`, `kmin ≤ 1` and `iter = 0` the binary search returns, and
it leaves the points, the marks and `k` as they were. -/
theorem pkmedian_search_iter_zero (T : Nat) (lrand48 : Nat → Nat) (kmin fuel : Nat)
    (hkmin : kmin ≤ 1) (hf : 1 ≤ fuel) :
    ∀ (m n : Nat) (a : Search), m < n → 1 ≤ a.state.k →
      0 ≤ a.hiz → (a.hiz - a.z) * 1000 ≤ a.hiz * 2 ^ m →
      ∃ r, pkmedian_search T lrand48 kmin 1 0 fuel n a = .ok r ∧
        r.state.points = a.state.points ∧ r.state.is_center = a.state.is_center ∧
        r.state.k = a.state.k := by
  intro m
  induction m with
  | zero =>
    intro n a hn hk hH hz
    obtain ⟨n', rfl⟩ : ∃ n', n = n' + 1 := ⟨n - 1, by omega⟩
    unfold pkmedian_search
    obtain ⟨d, hd⟩ := pkmedian_round_iter_zero T lrand48 kmin 1 fuel a hf
    simp only [hd]
    obtain ⟨A1, A2⟩ := pkmedian_adjust_top kmin
      { a with state := { a.state with draws := d } } hkmin
    have est := pkmedian_adjust_state kmin 1 { a with state := { a.state with draws := d } }
    by_cases hk1 : a.state.k = 1
    · obtain ⟨e1, e2⟩ := A1 hk1
      rw [e1, if_pos e2]
      exact ⟨_, rfl, rfl, rfl, rfl⟩
    · obtain ⟨-, -, -, e4⟩ := A2 (show 2 ≤ a.state.k by omega)
      have hd : 999 / 1000 * a.hiz ≤ a.z := by
        simp only [pow_zero, mul_one] at hz
        linarith
      rw [if_pos (e4.mpr hd)]
      refine ⟨_, rfl, ?_, ?_, ?_⟩ <;> rw [est]
  | succ m ih =>
    intro n a hn hk hH hz
    obtain ⟨n', rfl⟩ : ∃ n', n = n' + 1 := ⟨n - 1, by omega⟩
    unfold pkmedian_search
    obtain ⟨d, hd⟩ := pkmedian_round_iter_zero T lrand48 kmin 1 fuel a hf
    simp only [hd]
    obtain ⟨A1, A2⟩ := pkmedian_adjust_top kmin
      { a with state := { a.state with draws := d } } hkmin
    have est := pkmedian_adjust_state kmin 1 { a with state := { a.state with draws := d } }
    by_cases hk1 : a.state.k = 1
    · obtain ⟨e1, e2⟩ := A1 hk1
      rw [e1, if_pos e2]
      exact ⟨_, rfl, rfl, rfl, rfl⟩
    · obtain ⟨e1, -, e3, -⟩ := A2 (show 2 ≤ a.state.k by omega)
      by_cases hdone : pkmedian_done kmin 1
          (pkmedian_adjust kmin 1 { a with state := { a.state with draws := d } }) = true
      · rw [if_pos hdone]
        refine ⟨_, rfl, ?_, ?_, ?_⟩ <;> rw [est]
      · rw [if_neg hdone]
        obtain ⟨r, r1, r2, r3, r4⟩ := ih n'
          (pkmedian_adjust kmin 1 { a with state := { a.state with draws := d } }) (by omega)
          (by rw [est]; exact hk) (by rw [e1]; exact hH)
          (by
            rw [e1, e3]
            rw [pow_succ] at hz
            show (a.hiz - (a.hiz + a.z) / 2) * 1000 ≤ a.hiz * 2 ^ m
            linarith)
        rw [est] at r2 r3 r4
        exact ⟨r, r1, r2, r3, r4⟩

/-- C37: with `kmax = 1` the iteration count `klogk 1` of a pass is 0, so
`pFL` makes no `pgain` call (the pass returns the change 0 and the state as
it was) and returns its input cost, with the points (their `assign` and
`cost`), `is_center` and `k` unchanged; hence `pkmedian` with `kmin ≤ 1`,
`kmax = 1` on more than one point returns with the center count and
the points that `pspeedy` produced. -/
theorem pFL_no_pass (T : Nat) (lrand48 : Nat → Nat) (klogk : Nat → Nat) (kmin fuel : Nat)
    (s : State) (hT : 1 ≤ T) (hk : klogk 1 = 0) (hf : 10 ≤ fuel) (hkmin : kmin ≤ 1)
    (hn : 1 < s.points.num) (hw : ∀ i, i < s.points.num → 0 ≤ (s.points.p i).weight) :
    (∀ (feasible : Nat → Nat) (m : Nat) (z cost e : ℚ) (t : State), 0 ≤ e →
      pFL_pass T feasible m z (klogk 1) t = .ok (0, t) ∧
      ∃ t', pFL T lrand48 feasible m z cost (klogk 1) e fuel t = .ok (cost, t') ∧
        t'.points = t.points ∧ t'.is_center = t.is_center ∧ t'.k = t.k) ∧
    ∃ r, pkmedian T lrand48 klogk kmin 1 fuel s = .ok r ∧
      r.kfinal =
        (pspeedy T lrand48 (pkmedian_hiz T s.points / 2) (shuffle lrand48 s)).2.k ∧
      r.state.k =
        (pspeedy T lrand48 (pkmedian_hiz T s.points / 2) (shuffle lrand48 s)).2.k ∧
      r.state.points =
        (pspeedy T lrand48 (pkmedian_hiz T s.points / 2) (shuffle lrand48 s)).2.points := by
  constructor
  · intro feasible m z cost e t he
    rw [hk]
    constructor
    · unfold pFL_pass
      rw [forLoop_of_le _ _ (le_refl 0)]
    · obtain ⟨d, hd⟩ := pFL_iter_zero T lrand48 feasible m z cost e fuel t he (by omega)
      exact ⟨_, hd, rfl, rfl, rfl⟩
  · have hH : 0 ≤ pkmedian_hiz T s.points := pkmedian_hiz_nonneg hT s.points hw
    obtain ⟨k1, -, -, -⟩ := pspeedy_k_spec T lrand48 (pkmedian_hiz T s.points / 2)
      (shuffle lrand48 s)
    unfold pkmedian
    simp only [if_neg (not_le.mpr hn), add_zero]
    rw [pkmedian_retry_skip _ _ _ _ _ (by simp only []; omega)]
    rw [pkmedian_lower_z_skip _ _ _ _ _ (by simp only []; omega)]
    simp only []
    obtain ⟨f1, f2, -⟩ := selectfeasible_fast_frame lrand48 klogk kmin
      (pspeedy T lrand48 (pkmedian_hiz T s.points / 2) (shuffle lrand48 s)).2
    rw [hk]
    obtain ⟨r, r1, r2, -, r4⟩ := pkmedian_search_iter_zero T lrand48 kmin fuel hkmin
      (by omega) 9 fuel
      { hiz := pkmedian_hiz T s.points, loz := 0, z := pkmedian_hiz T s.points / 2,
        cost := (pspeedy T lrand48 (pkmedian_hiz T s.points / 2) (shuffle lrand48 s)).1, i := 0,
        state :=
          { selectfeasible_fast lrand48 klogk kmin
              (pspeedy T lrand48 (pkmedian_hiz T s.points / 2) (shuffle lrand48 s)).2 with
            is_center := forLoop 0
              (selectfeasible_fast lrand48 klogk kmin
                (pspeedy T lrand48 (pkmedian_hiz T s.points / 2)
                  (shuffle lrand48 s)).2).points.num
              (fun i c => Function.update c
                ((selectfeasible_fast lrand48 klogk kmin
                  (pspeedy T lrand48 (pkmedian_hiz T s.points / 2)
                    (shuffle lrand48 s)).2).points.p i).assign true)
              (selectfeasible_fast lrand48 klogk kmin
                (pspeedy T lrand48 (pkmedian_hiz T s.points / 2)
                  (shuffle lrand48 s)).2).is_center } }
      (by omega) (by show 1 ≤ (selectfeasible_fast lrand48 klogk kmin _).k; rw [f2]; exact k1) hH
      (by
        show (pkmedian_hiz T s.points - pkmedian_hiz T s.points / 2) * 1000 ≤
          pkmedian_hiz T s.points * 2 ^ 9
        norm_num
        linarith)
    rw [r1]
    have e4 : r.state.k =
        (pspeedy T lrand48 (pkmedian_hiz T s.points / 2) (shuffle lrand48 s)).2.k :=
      r4.trans f2
    exact ⟨_, rfl, e4, e4, r2.trans f1⟩

/-- Two points of weight 1 at 0 and 1, `kmin = kmax = 1`, ten rounds of
fuel. -/
theorem pFL_no_pass_witness :
    (1 ≤ 1 ∧ klogk3 1 = 0 ∧ 10 ≤ 10 ∧ 1 < (twoPointState 0 1).points.num) ∧
    ∃ r, pkmedian 1 (fun _ => 12345) klogk3 1 1 10 (twoPointState 0 1) = .ok r ∧
      r.kfinal =
        (pspeedy 1 (fun _ => 12345) (pkmedian_hiz 1 (twoPointState 0 1).points / 2)
          (shuffle (fun _ => 12345) (twoPointState 0 1))).2.k ∧
      r.state.k =
        (pspeedy 1 (fun _ => 12345) (pkmedian_hiz 1 (twoPointState 0 1).points / 2)
          (shuffle (fun _ => 12345) (twoPointState 0 1))).2.k ∧
      r.state.points =
        (pspeedy 1 (fun _ => 12345) (pkmedian_hiz 1 (twoPointState 0 1).points / 2)
          (shuffle (fun _ => 12345) (twoPointState 0 1))).2.points :=
  ⟨⟨by decide, by decide, by decide, by decide⟩,
    (pFL_no_pass 1 (fun _ => 12345) klogk3 1 10 (twoPointState 0 1) (by decide) (by decide)
      (by decide) (by decide) (by decide) (by with_unfolding_all decide)).2⟩

/-! ## The invariant of `pspeedy` -/

theorem dist_comm (a b : Point) (dim : Nat) : dist a b dim = dist b a dim := by
  rw [dist_eq_sum, dist_eq_sum]
  apply Finset.sum_congr rfl
  intro j _
  ring

theorem dist_self (a : Point) (dim : Nat) : dist a a dim = 0 :=
  dist_eq_zero (fun _ _ => rfl)

/-- The state of the instrumented loop is the state of the loop of
`pspeedy`. -/
theorem pspeedy_scan_fst (T : Nat) (lrand48 : Nat → Nat) (z : ℚ) (s : State) (m : Nat) :
    (pspeedy_scan T lrand48 z s m).1 =
      forLoop 1 m (pspeedy_step T lrand48 z)
        { s with points := pspeedy_init T s.points, k := 1 } := by
  unfold pspeedy_scan
  by_cases hm : 1 ≤ m
  · induction m, hm using Nat.le_induction with
    | base => rw [forLoop_of_le _ _ (le_refl 1), forLoop_of_le _ _ (le_refl 1)]
    | succ n hn ih =>
      rw [forLoop_succ _ _ hn, forLoop_succ _ _ hn]
      show pspeedy_step T lrand48 z n _ = _
      rw [ih]
  · rw [forLoop_of_le _ _ (by omega), forLoop_of_le _ _ (by omega)]

theorem pspeedy_eq_scan (T : Nat) (lrand48 : Nat → Nat) (z : ℚ) (s : State) :
    (pspeedy T lrand48 z s).2 =
      (pspeedy_scan T lrand48 z s (pspeedy_init T s.points).num).1 := by
  rw [pspeedy_scan_fst]
  rfl

/-- What a reassignment to the new center `i` does to a point `k`. -/
theorem pspeedy_open_cases {T : Nat} (hT : 1 ≤ T) (i : Nat) (P : Points) :
    (pspeedy_open T i P).num = P.num ∧ (pspeedy_open T i P).dim = P.dim ∧
    (∀ k, ((pspeedy_open T i P).p k).coord = (P.p k).coord ∧
      ((pspeedy_open T i P).p k).weight = (P.p k).weight) ∧
    ∀ k, (k < P.num ∧ dist (P.p i) (P.p k) P.dim * (P.p k).weight < (P.p k).cost ∧
        ((pspeedy_open T i P).p k).assign = i ∧
        ((pspeedy_open T i P).p k).cost = dist (P.p i) (P.p k) P.dim * (P.p k).weight) ∨
      (¬ (k < P.num ∧ dist (P.p i) (P.p k) P.dim * (P.p k).weight < (P.p k).cost) ∧
        (pspeedy_open T i P).p k = P.p k) := by
  obtain ⟨a1, a2, a3⟩ := pspeedy_open_spec hT i P
  refine ⟨a1, a2, fun k => ?_, fun k => ?_⟩
  · rw [a3 k]
    split <;> exact ⟨rfl, rfl⟩
  · by_cases h : k < P.num ∧ dist (P.p i) (P.p k) P.dim * (P.p k).weight < (P.p k).cost
    · left
      rw [a3 k, if_pos h]
      exact ⟨h.1, h.2, rfl, rfl⟩
    · right
      rw [a3 k, if_neg h]
      exact ⟨h, rfl⟩

theorem ltDiv_pos {u c z : ℚ} (hz : 0 < z) (hu : 0 ≤ u) (h : ltDiv u c z = true) : 0 < c := by
  unfold ltDiv at h
  rw [if_neg (ne_of_gt hz)] at h
  have h1 : u < c / z := of_decide_eq_true h
  have h2 : 0 < c / z := lt_of_le_of_lt hu h1
  by_contra hc
  have : c / z ≤ 0 := div_nonpos_of_nonpos_of_nonneg (not_lt.mp hc) (le_of_lt hz)
  linarith

/-- The first loop of `pspeedy` opens point 0 only. -/
theorem speedy_init_inv {T : Nat} (hT : 1 ≤ T) (s : State) (hn : 1 ≤ s.points.num)
    (hw : ∀ i, i < s.points.num → 0 ≤ (s.points.p i).weight) :
    SpeedyInv {0} { s with points := pspeedy_init T s.points, k := 1 } := by
  obtain ⟨i1, i2, i3⟩ := pspeedy_init_spec hT s.points
  have hp : ∀ j, j < s.points.num → (pspeedy_init T s.points).p j =
      { s.points.p j with
        cost := dist (s.points.p j) (s.points.p 0) s.points.dim * (s.points.p j).weight,
        assign := 0 } := fun j hj => by rw [i3 j, if_pos hj]
  have h0 : 0 < s.points.num := hn
  refine
    { zero_mem := Finset.mem_singleton_self 0
      lt_num := ?_
      weight_nonneg := ?_
      assign_mem := ?_
      self := ?_
      cost_eq := ?_
      nearest := ?_
      k_eq := ?_ }
  · intro c hc
    rw [Finset.mem_singleton.mp hc]
    show 0 < (pspeedy_init T s.points).num
    rw [i1]; exact h0
  · intro j hj
    have hj' : j < s.points.num := by rw [← i1]; exact hj
    show 0 ≤ ((pspeedy_init T s.points).p j).weight
    rw [hp j hj']
    exact hw j hj'
  · intro j hj
    have hj' : j < s.points.num := by rw [← i1]; exact hj
    show ((pspeedy_init T s.points).p j).assign ∈ ({0} : Finset Nat)
    rw [hp j hj']
    exact Finset.mem_singleton_self 0
  · intro c hc
    rw [Finset.mem_singleton.mp hc]
    show ((pspeedy_init T s.points).p 0).assign = 0 ∧ ((pspeedy_init T s.points).p 0).cost = 0
    rw [hp 0 h0]
    refine ⟨rfl, ?_⟩
    show dist (s.points.p 0) (s.points.p 0) s.points.dim * (s.points.p 0).weight = 0
    rw [dist_self, zero_mul]
  · intro j hj
    have hj' : j < s.points.num := by rw [← i1]; exact hj
    show ((pspeedy_init T s.points).p j).cost =
      ((pspeedy_init T s.points).p j).weight *
        dist ((pspeedy_init T s.points).p j)
          ((pspeedy_init T s.points).p ((pspeedy_init T s.points).p j).assign)
          (pspeedy_init T s.points).dim
    rw [i2, hp j hj']
    show dist (s.points.p j) (s.points.p 0) s.points.dim * (s.points.p j).weight =
      (s.points.p j).weight * dist _ ((pspeedy_init T s.points).p 0) s.points.dim
    rw [hp 0 h0, mul_comm]
    rfl
  · intro j c hj hc
    have hj' : j < s.points.num := by rw [← i1]; exact hj
    rw [Finset.mem_singleton.mp hc]
    show ((pspeedy_init T s.points).p j).cost ≤
      ((pspeedy_init T s.points).p j).weight *
        dist ((pspeedy_init T s.points).p 0) ((pspeedy_init T s.points).p j)
          (pspeedy_init T s.points).dim
    rw [i2, hp j hj', hp 0 h0]
    show dist (s.points.p j) (s.points.p 0) s.points.dim * (s.points.p j).weight ≤
      (s.points.p j).weight * dist (s.points.p 0) (s.points.p j) s.points.dim
    rw [dist_comm (s.points.p 0), mul_comm]
  · rfl

/-- A round of the loop of `pspeedy` keeps the invariant: a point that is
opened had a positive cost, so it was not open, and it serves itself; the
points that were open stay with themselves. -/
theorem speedy_step_inv {T : Nat} (hT : 1 ≤ T) (lrand48 : Nat → Nat) {z : ℚ} (hz : 0 < z)
    {O : Finset Nat} {t : State} {i : Nat} (h : SpeedyInv O t) (hi : i < t.points.num) :
    SpeedyInv
      (if ltDiv (toFloat (lrand48 t.draws) / toFloat INT_MAX) (t.points.p i).cost z then insert i O
        else O)
      (pspeedy_step T lrand48 z i t) := by
  by_cases hopen : ltDiv (toFloat (lrand48 t.draws) / toFloat INT_MAX) (t.points.p i).cost z = true
  · rw [if_pos hopen]
    have hs : pspeedy_step T lrand48 z i t =
        { t with draws := t.draws + 1, k := t.k + 1, points := pspeedy_open T i t.points } := by
      unfold pspeedy_step
      simp only [hopen, if_true]
    rw [hs]
    have hci : 0 < (t.points.p i).cost := ltDiv_pos hz (draw_nonneg _) hopen
    have hiO : i ∉ O := fun hm => by
      have := (h.self i hm).2
      linarith
    obtain ⟨o1, o2, o3, o4⟩ := pspeedy_open_cases hT i t.points
    have hd : ∀ a b, dist ((pspeedy_open T i t.points).p a) ((pspeedy_open T i t.points).p b)
        (pspeedy_open T i t.points).dim = dist (t.points.p a) (t.points.p b) t.points.dim := by
      intro a b
      rw [o2]
      exact dist_congr (o3 a).1 (o3 b).1 _
    refine
      { zero_mem := Finset.mem_insert_of_mem h.zero_mem
        lt_num := ?_
        weight_nonneg := ?_
        assign_mem := ?_
        self := ?_
        cost_eq := ?_
        nearest := ?_
        k_eq := ?_ }
    · intro c hc
      show c < (pspeedy_open T i t.points).num
      rw [o1]
      rcases Finset.mem_insert.mp hc with hc | hc
      · rw [hc]; exact hi
      · exact h.lt_num c hc
    · intro j hj
      show 0 ≤ ((pspeedy_open T i t.points).p j).weight
      rw [(o3 j).2]
      exact h.weight_nonneg j (by rw [← o1]; exact hj)
    · intro j hj
      show ((pspeedy_open T i t.points).p j).assign ∈ insert i O
      rcases o4 j with ⟨_, _, ha, _⟩ | ⟨_, he⟩
      · rw [ha]; exact Finset.mem_insert_self i O
      · rw [he]; exact Finset.mem_insert_of_mem (h.assign_mem j (by rw [← o1]; exact hj))
    · intro c hc
      show ((pspeedy_open T i t.points).p c).assign = c ∧
        ((pspeedy_open T i t.points).p c).cost = 0
      rcases Finset.mem_insert.mp hc with hc | hc
      · rw [hc]
        rcases o4 i with ⟨_, _, ha, hcost⟩ | ⟨hn, _⟩
        · refine ⟨ha, ?_⟩
          rw [hcost, dist_self, zero_mul]
        · exfalso
          apply hn
          refine ⟨hi, ?_⟩
          rw [dist_self, zero_mul]
          exact hci
      · rcases o4 c with ⟨hlt, hsw, _, _⟩ | ⟨_, he⟩
        · exfalso
          rw [(h.self c hc).2] at hsw
          have := mul_nonneg (dist_nonneg (t.points.p i) (t.points.p c) t.points.dim)
            (h.weight_nonneg c hlt)
          linarith
        · rw [he]; exact h.self c hc
    · intro j hj
      have hj' : j < t.points.num := by rw [← o1]; exact hj
      show ((pspeedy_open T i t.points).p j).cost =
        ((pspeedy_open T i t.points).p j).weight *
          dist ((pspeedy_open T i t.points).p j)
            ((pspeedy_open T i t.points).p ((pspeedy_open T i t.points).p j).assign)
            (pspeedy_open T i t.points).dim
      rw [hd, (o3 j).2]
      rcases o4 j with ⟨_, _, ha, hcost⟩ | ⟨_, he⟩
      · rw [ha, hcost, dist_comm (t.points.p j), mul_comm]
      · rw [he]; exact h.cost_eq j hj'
    · intro j c hj hc
      have hj' : j < t.points.num := by rw [← o1]; exact hj
      show ((pspeedy_open T i t.points).p j).cost ≤
        ((pspeedy_open T i t.points).p j).weight *
          dist ((pspeedy_open T i t.points).p c) ((pspeedy_open T i t.points).p j)
            (pspeedy_open T i t.points).dim
      rw [hd, (o3 j).2]
      rcases Finset.mem_insert.mp hc with hc | hc
      · rw [hc]
        rcases o4 j with ⟨_, _, _, hcost⟩ | ⟨hn, he⟩
        · rw [hcost, mul_comm]
        · rw [he, mul_comm]
          by_contra hlt
          exact hn ⟨hj', not_le.mp hlt⟩
      · have hold := h.nearest j c hj' hc
        rcases o4 j with ⟨_, hsw, _, hcost⟩ | ⟨_, he⟩
        · rw [hcost]; linarith
        · rw [he]; exact hold
    · show t.k + 1 = (insert i O).card
      rw [Finset.card_insert_of_not_mem hiO, h.k_eq]
  · rw [if_neg hopen]
    have hs : pspeedy_step T lrand48 z i t = { t with draws := t.draws + 1 } := by
      unfold pspeedy_step
      simp only [hopen, Bool.false_eq_true, if_false]
    rw [hs]
    exact ⟨h.zero_mem, h.lt_num, h.weight_nonneg, h.assign_mem, h.self, h.cost_eq, h.nearest,
      h.k_eq⟩

/-- The invariant holds when `pspeedy` returns. -/
theorem pspeedy_inv {T : Nat} (hT : 1 ≤ T) (lrand48 : Nat → Nat) {z : ℚ} (hz : 0 < z)
    (s : State) (hn : 1 ≤ s.points.num)
    (hw : ∀ i, i < s.points.num → 0 ≤ (s.points.p i).weight) :
    SpeedyInv (pspeedy_opened T lrand48 z s) (pspeedy T lrand48 z s).2 ∧
    (pspeedy T lrand48 z s).2.points.num = s.points.num := by
  rw [pspeedy_eq_scan]
  unfold pspeedy_opened pspeedy_scan
  have i1 := (pspeedy_init_spec hT s.points).1
  refine forLoop_induction _ _
    (fun _ (a : State × Finset Nat) => SpeedyInv a.2 a.1 ∧ a.1.points.num = s.points.num)
    (by rw [i1]; exact hn) ⟨speedy_init_inv hT s hn hw, i1⟩ ?_
  intro i a _ hi ha
  obtain ⟨ha1, ha2⟩ := ha
  rw [i1] at hi
  exact ⟨speedy_step_inv hT lrand48 hz ha1 (by rw [ha2]; exact hi),
    (pspeedy_step_num hT lrand48 z i a.1).1.trans ha2⟩

/-- Marking the assign targets of a state that `pspeedy` left, on marks that
were all clear, gives a valid state with `k` open centers. -/
theorem speedy_marked_valid {O : Finset Nat} {t : State} (h : SpeedyInv O t) (u : State)
    (hp : u.points = t.points) (hk : u.k = t.k)
    (hc : ∀ j, j < t.points.num →
      (u.is_center j = true ↔ ∃ i, i < t.points.num ∧ (t.points.p i).assign = j)) :
    Valid u ∧ (Finset.Ico 0 t.points.num).filter (fun j => u.is_center j = true) = O := by
  have hset : (Finset.Ico 0 t.points.num).filter (fun j => u.is_center j = true) = O := by
    ext j
    rw [Finset.mem_filter, Finset.mem_Ico]
    constructor
    · rintro ⟨⟨_, hj⟩, hm⟩
      obtain ⟨i, hi, ha⟩ := (hc j hj).mp hm
      rw [← ha]
      exact h.assign_mem i hi
    · intro hj
      have hlt := h.lt_num j hj
      exact ⟨⟨Nat.zero_le j, hlt⟩, (hc j hlt).mpr ⟨j, hlt, (h.self j hj).1⟩⟩
  refine ⟨?_, hset⟩
  refine
    { assign_lt := ?_
      assign_open := ?_
      center_iff := ?_
      cost_eq := ?_
      k_eq := ?_ }
  · intro i hi
    rw [hp] at hi ⊢
    exact h.lt_num _ (h.assign_mem i hi)
  · intro i hi
    rw [hp] at hi ⊢
    exact (hc _ (h.lt_num _ (h.assign_mem i hi))).mpr ⟨i, hi, rfl⟩
  · intro j hj
    rw [hp] at hj ⊢
    exact hc j hj
  · intro i hi
    rw [hp] at hi ⊢
    exact h.cost_eq i hi
  · rw [hk, h.k_eq, hp]
    unfold centersIn
    rw [hset]

theorem mark_assigned_iff (t : State) (hc : ∀ j, j < t.points.num → t.is_center j = false)
    (j : Nat) (hj : j < t.points.num) :
    mark_assigned t j = true ↔ ∃ i, i < t.points.num ∧ (t.points.p i).assign = j := by
  unfold mark_assigned
  rw [mark_centers t.points t.is_center j, hc j hj, Bool.false_or, decide_eq_true_iff]

/-! ## What `pspeedy` leaves -/

/-- C33: for `n ≥ 1` points of nonnegative weight, `z > 0` and every sequence
of draws, after `pspeedy` every point `j` has
`cost[j] = weight[j] * dist(p[j], p[assign[j]])`; point 0 and every opened
point are assigned to themselves with cost 0; `k` is the number of distinct
values of `assign`; and, on marks that were all clear, marking
`is_center[assign[i]]` for all `i` marks exactly the assign targets, which
are `k` open centers. -/
theorem pspeedy_assign_count (T : Nat) (lrand48 : Nat → Nat) (z : ℚ) (s : State)
    (hT : 1 ≤ T) (hn : 1 ≤ s.points.num)
    (hw : ∀ i, i < s.points.num → 0 ≤ (s.points.p i).weight) (hz : 0 < z)
    (hc : ∀ j, j < s.points.num → s.is_center j = false) :
    (pspeedy T lrand48 z s).2.points.num = s.points.num ∧
    (∀ j, j < s.points.num →
      ((pspeedy T lrand48 z s).2.points.p j).cost =
        ((pspeedy T lrand48 z s).2.points.p j).weight *
          dist ((pspeedy T lrand48 z s).2.points.p j)
            ((pspeedy T lrand48 z s).2.points.p
              ((pspeedy T lrand48 z s).2.points.p j).assign)
            (pspeedy T lrand48 z s).2.points.dim) ∧
    0 ∈ pspeedy_opened T lrand48 z s ∧
    (∀ c, c ∈ pspeedy_opened T lrand48 z s →
      c < s.points.num ∧ ((pspeedy T lrand48 z s).2.points.p c).assign = c ∧
      ((pspeedy T lrand48 z s).2.points.p c).cost = 0) ∧
    (pspeedy T lrand48 z s).2.k =
      ((Finset.range s.points.num).image
        (fun i => ((pspeedy T lrand48 z s).2.points.p i).assign)).card ∧
    (∀ j, j < s.points.num →
      (mark_assigned (pspeedy T lrand48 z s).2 j = true ↔
        ∃ i, i < s.points.num ∧ ((pspeedy T lrand48 z s).2.points.p i).assign = j)) ∧
    centersIn (mark_assigned (pspeedy T lrand48 z s).2) 0 s.points.num =
      (pspeedy T lrand48 z s).2.k := by
  obtain ⟨inv, hnum⟩ := pspeedy_inv hT lrand48 hz s hn hw
  have hcl : ∀ j, j < (pspeedy T lrand48 z s).2.points.num →
      (pspeedy T lrand48 z s).2.is_center j = false := by
    intro j hj
    rw [(pspeedy_k_spec T lrand48 z s).2.2.1]
    exact hc j (by rw [← hnum]; exact hj)
  have himg : (Finset.range s.points.num).image
      (fun i => ((pspeedy T lrand48 z s).2.points.p i).assign) =
      pspeedy_opened T lrand48 z s := by
    ext j
    rw [Finset.mem_image]
    constructor
    · rintro ⟨i, hi, rfl⟩
      exact inv.assign_mem i (by rw [hnum]; exact Finset.mem_range.mp hi)
    · intro hj
      exact ⟨j, Finset.mem_range.mpr (by rw [← hnum]; exact inv.lt_num j hj),
        (inv.self j hj).1⟩
  obtain ⟨-, hset⟩ := speedy_marked_valid inv
    { (pspeedy T lrand48 z s).2 with is_center := mark_assigned (pspeedy T lrand48 z s).2 }
    rfl rfl (fun j hj => mark_assigned_iff _ hcl j hj)
  refine ⟨hnum, fun j hj => inv.cost_eq j (by rw [hnum]; exact hj), inv.zero_mem,
    fun c hc' => ⟨by rw [← hnum]; exact inv.lt_num c hc', inv.self c hc'⟩, ?_, ?_, ?_⟩
  · rw [himg]
    exact inv.k_eq
  · intro j hj
    rw [← hnum] at hj ⊢
    exact mark_assigned_iff _ hcl j hj
  · unfold centersIn
    rw [← hnum]
    show ((Finset.Ico 0 (pspeedy T lrand48 z s).2.points.num).filter
      (fun j => mark_assigned (pspeedy T lrand48 z s).2 j = true)).card = _
    rw [inv.k_eq]
    exact congrArg Finset.card hset

/-- Two points of weight 1 at 0 and 1, `z = 1/2`: `pspeedy` opens point 1
and `k` is 2. -/
theorem pspeedy_assign_count_witness :
    (1 ≤ 1 ∧ 1 ≤ (twoPointState 0 1).points.num ∧ (0 : ℚ) < 1 / 2 ∧
      (pspeedy 1 (fun _ => 12345) (1 / 2) (twoPointState 0 1)).2.k = 2) ∧
    centersIn (mark_assigned (pspeedy 1 (fun _ => 12345) (1 / 2) (twoPointState 0 1)).2) 0
        (twoPointState 0 1).points.num =
      (pspeedy 1 (fun _ => 12345) (1 / 2) (twoPointState 0 1)).2.k :=
  ⟨⟨by decide, by decide, by norm_num, by with_unfolding_all decide⟩,
    (pspeedy_assign_count 1 (fun _ => 12345) (1 / 2) (twoPointState 0 1) (by decide)
      (by decide) (by with_unfolding_all decide) (by norm_num)
      (fun _ _ => rfl)).2.2.2.2.2.2⟩

/-- C35, as the code has it: after `pspeedy` on `n ≥ 1` points of
nonnegative weight with `z > 0`, the recorded cost of every point `j` is
`weight[j]` times the least distance from `j` to an opened point, and every
point of positive weight is assigned to an opened point at that least
distance.  A point of weight 0 stays with point 0, since the test of
lines 725-733 compares products with the weight. -/
theorem pspeedy_nearest (T : Nat) (lrand48 : Nat → Nat) (z : ℚ) (s : State)
    (hT : 1 ≤ T) (hn : 1 ≤ s.points.num)
    (hw : ∀ i, i < s.points.num → 0 ≤ (s.points.p i).weight) (hz : 0 < z) :
    (∀ j, j < s.points.num →
      ∃ c, c ∈ pspeedy_opened T lrand48 z s ∧
        (∀ c', c' ∈ pspeedy_opened T lrand48 z s →
          dist ((pspeedy T lrand48 z s).2.points.p c) ((pspeedy T lrand48 z s).2.points.p j)
              (pspeedy T lrand48 z s).2.points.dim ≤
            dist ((pspeedy T lrand48 z s).2.points.p c')
              ((pspeedy T lrand48 z s).2.points.p j) (pspeedy T lrand48 z s).2.points.dim) ∧
        ((pspeedy T lrand48 z s).2.points.p j).cost =
          ((pspeedy T lrand48 z s).2.points.p j).weight *
            dist ((pspeedy T lrand48 z s).2.points.p c)
              ((pspeedy T lrand48 z s).2.points.p j) (pspeedy T lrand48 z s).2.points.dim) ∧
    (∀ j, j < s.points.num → 0 < ((pspeedy T lrand48 z s).2.points.p j).weight →
      ((pspeedy T lrand48 z s).2.points.p j).assign ∈ pspeedy_opened T lrand48 z s ∧
      ∀ c', c' ∈ pspeedy_opened T lrand48 z s →
        dist ((pspeedy T lrand48 z s).2.points.p ((pspeedy T lrand48 z s).2.points.p j).assign)
            ((pspeedy T lrand48 z s).2.points.p j) (pspeedy T lrand48 z s).2.points.dim ≤
          dist ((pspeedy T lrand48 z s).2.points.p c')
            ((pspeedy T lrand48 z s).2.points.p j) (pspeedy T lrand48 z s).2.points.dim) := by
  obtain ⟨inv, hnum⟩ := pspeedy_inv hT lrand48 hz s hn hw
  have hpos : ∀ j, j < s.points.num → 0 < ((pspeedy T lrand48 z s).2.points.p j).weight →
      ∀ c', c' ∈ pspeedy_opened T lrand48 z s →
        dist ((pspeedy T lrand48 z s).2.points.p ((pspeedy T lrand48 z s).2.points.p j).assign)
            ((pspeedy T lrand48 z s).2.points.p j) (pspeedy T lrand48 z s).2.points.dim ≤
          dist ((pspeedy T lrand48 z s).2.points.p c')
            ((pspeedy T lrand48 z s).2.points.p j) (pspeedy T lrand48 z s).2.points.dim := by
    intro j hj hwj c' hc'
    have hj' : j < (pspeedy T lrand48 z s).2.points.num := by rw [hnum]; exact hj
    have h1 := inv.nearest j c' hj' hc'
    rw [inv.cost_eq j hj', dist_comm ((pspeedy T lrand48 z s).2.points.p j)] at h1
    exact le_of_mul_le_mul_left h1 hwj
  constructor
  · intro j hj
    have hj' : j < (pspeedy T lrand48 z s).2.points.num := by rw [hnum]; exact hj
    by_cases hwj : 0 < ((pspeedy T lrand48 z s).2.points.p j).weight
    · refine ⟨_, inv.assign_mem j hj', hpos j hj hwj, ?_⟩
      rw [dist_comm]
      exact inv.cost_eq j hj'
    · have hw0 : ((pspeedy T lrand48 z s).2.points.p j).weight = 0 :=
        le_antisymm (not_lt.mp hwj) (inv.weight_nonneg j hj')
      obtain ⟨c, hc, hmin⟩ := Finset.exists_min_image (pspeedy_opened T lrand48 z s)
        (fun c => dist ((pspeedy T lrand48 z s).2.points.p c)
          ((pspeedy T lrand48 z s).2.points.p j) (pspeedy T lrand48 z s).2.points.dim)
        ⟨0, inv.zero_mem⟩
      refine ⟨c, hc, hmin, ?_⟩
      rw [inv.cost_eq j hj', hw0, zero_mul, zero_mul]
  · intro j hj hwj
    exact ⟨inv.assign_mem j (by rw [hnum]; exact hj), hpos j hj hwj⟩

/-- Two points of weight 1 at 0 and 1, `z = 1/2`: point 1 is opened and
serves itself. -/
theorem pspeedy_nearest_witness :
    (1 ≤ 1 ∧ 1 ≤ (twoPointState 0 1).points.num ∧ (0 : ℚ) < 1 / 2) ∧
    ∀ j, j < (twoPointState 0 1).points.num →
      0 < ((pspeedy 1 (fun _ => 12345) (1 / 2) (twoPointState 0 1)).2.points.p j).weight →
      ((pspeedy 1 (fun _ => 12345) (1 / 2) (twoPointState 0 1)).2.points.p j).assign ∈
          pspeedy_opened 1 (fun _ => 12345) (1 / 2) (twoPointState 0 1) ∧
      ∀ c', c' ∈ pspeedy_opened 1 (fun _ => 12345) (1 / 2) (twoPointState 0 1) →
        dist ((pspeedy 1 (fun _ => 12345) (1 / 2) (twoPointState 0 1)).2.points.p
              ((pspeedy 1 (fun _ => 12345) (1 / 2) (twoPointState 0 1)).2.points.p j).assign)
            ((pspeedy 1 (fun _ => 12345) (1 / 2) (twoPointState 0 1)).2.points.p j)
            (pspeedy 1 (fun _ => 12345) (1 / 2) (twoPointState 0 1)).2.points.dim ≤
          dist ((pspeedy 1 (fun _ => 12345) (1 / 2) (twoPointState 0 1)).2.points.p c')
            ((pspeedy 1 (fun _ => 12345) (1 / 2) (twoPointState 0 1)).2.points.p j)
            (pspeedy 1 (fun _ => 12345) (1 / 2) (twoPointState 0 1)).2.points.dim :=
  ⟨⟨by decide, by decide, by norm_num⟩,
    (pspeedy_nearest 1 (fun _ => 12345) (1 / 2) (twoPointState 0 1) (by decide) (by decide)
      (by with_unfolding_all decide) (by norm_num)).2⟩

/-- The claim fails on three points, point 0 at 0 and point 1 at 10 of
weight 1 and point 2 at 10 of weight 0, with `z = 1` and all draws 0:
point 1 is opened (its cost 100 is above the draw), point 2 has
`dist * weight = 0`, which is not below its cost 0, and stays assigned to
point 0 at distance 100, while the opened point 1 is at distance 0. -/
theorem pspeedy_nearest_counterexample :
    (∀ i, i < zeroWeightState.points.num → 0 ≤ (zeroWeightState.points.p i).weight) ∧
    1 ∈ pspeedy_opened 1 (fun _ => 0) 1 zeroWeightState ∧
    ((pspeedy 1 (fun _ => 0) 1 zeroWeightState).2.points.p 2).assign = 0 ∧
    dist ((pspeedy 1 (fun _ => 0) 1 zeroWeightState).2.points.p 1)
        ((pspeedy 1 (fun _ => 0) 1 zeroWeightState).2.points.p 2) 1 = 0 ∧
    dist ((pspeedy 1 (fun _ => 0) 1 zeroWeightState).2.points.p 0)
        ((pspeedy 1 (fun _ => 0) 1 zeroWeightState).2.points.p 2) 1 = 100 :=
  ⟨by with_unfolding_all decide, by with_unfolding_all decide, by with_unfolding_all decide,
    by with_unfolding_all decide, by with_unfolding_all decide⟩

/-! ## The objective along `pFL` -/

theorem valid_draws {s : State} (hv : Valid s) (d : Nat) : Valid { s with draws := d } :=
  ⟨hv.assign_lt, hv.assign_open, hv.center_iff, hv.cost_eq, hv.k_eq⟩

theorem valid_k_pos {s : State} (hv : Valid s) (hn : 1 ≤ s.points.num) : 1 ≤ s.k := by
  have h0 : 0 < s.points.num := hn
  have h1 := centersIn_lt (hv.assign_lt 0 h0) (hv.assign_open 0 h0)
  rw [hv.k_eq]
  omega

theorem valid_cost_nonneg {s : State} (hv : Valid s)
    (hw : ∀ i, i < s.points.num → 0 ≤ (s.points.p i).weight) (i : Nat)
    (hi : i < s.points.num) : 0 ≤ (s.points.p i).cost := by
  rw [hv.cost_eq i hi]
  exact mul_nonneg (hw i hi) (dist_nonneg _ _ _)

/-- With at least one point and nonnegative weights the objective of a valid
state is at least `z`. -/
theorem objective_ge {s : State} (hv : Valid s) (hn : 1 ≤ s.points.num)
    (hw : ∀ i, i < s.points.num → 0 ≤ (s.points.p i).weight) {z : ℚ} (hz : 0 ≤ z) :
    z ≤ objective z s := by
  unfold objective
  have hk : (1 : ℚ) ≤ (s.k : ℚ) := by exact_mod_cast valid_k_pos hv hn
  have hs : 0 ≤ ∑ i ∈ Finset.range s.points.num, (s.points.p i).cost :=
    Finset.sum_nonneg (fun i hi => valid_cost_nonneg hv hw i (Finset.mem_range.mp hi))
  nlinarith

theorem pgain_frame (T x : Nat) (z : ℚ) (s : State) :
    (pgain T x z s).2.feasible = s.feasible ∧
    (pgain T x z s).2.numfeasible = s.numfeasible := by
  unfold pgain
  simp only []
  split <;> exact ⟨rfl, rfl⟩

/-- One call of `pgain` inside `pFL`: the state stays valid, the returned
gain is not negative, and the objective drops by it. -/
theorem pgain_step {T x : Nat} {z : ℚ} {s : State} (hT : 1 ≤ T) (hv : Valid s) (hz : 0 < z)
    (hx : x < s.points.num) :
    Valid (pgain T x z s).2 ∧ 0 ≤ (pgain T x z s).1 ∧
    objective z (pgain T x z s).2 = objective z s - (pgain T x z s).1 ∧
    (pgain T x z s).2.points.num = s.points.num ∧
    (∀ i, ((pgain T x z s).2.points.p i).weight = (s.points.p i).weight) := by
  obtain ⟨q1, -, q3⟩ := pgain_points z s hT hx
  have hwt : ∀ i, ((pgain T x z s).2.points.p i).weight = (s.points.p i).weight := by
    intro i
    rcases q3 i with h | ⟨_, h⟩
    · rw [h]
    · rw [h]; rfl
  refine ⟨pgain_valid hT hv hz hx, ?_, ?_, q1, hwt⟩
  · by_cases h : glCost s x z < 0
    · rw [(pgain_of_lt hT hv hx h).1]
      linarith
    · have h' : ¬ gl_cost_of_opening_x T x z s < 0 := by rw [gl_cost_eq hT x z hv]; exact h
      rw [(pgain_of_not_lt h').1]
  · by_cases h : glCost s x z < 0
    · rw [(pgain_of_lt hT hv hx h).1, objective_of_lt hT hv hx h]
      ring
    · have h' : ¬ gl_cost_of_opening_x T x z s < 0 := by rw [gl_cost_eq hT x z hv]; exact h
      obtain ⟨h1, h2, _, h4⟩ := pgain_of_not_lt h'
      unfold objective
      rw [h1, h2, h4, sub_zero]

/-- A pass of `pFL` over candidates of the point set: the state stays
valid, every gain is `≥ 0`, and the objective drops by the sum of the
gains. -/
theorem pFL_pass_gains_spec {T : Nat} (hT : 1 ≤ T) (feasible : Nat → Nat) (m : Nat) {z : ℚ}
    (hz : 0 < z) (iter : Nat) (s : State) (hv : Valid s)
    (hx : ∀ i, i < iter → feasible (i % m) < s.points.num) :
    Valid (pFL_pass_gains T feasible m z iter s).2 ∧
    (∀ q, q ∈ (pFL_pass_gains T feasible m z iter s).1 → 0 ≤ q) ∧
    objective z (pFL_pass_gains T feasible m z iter s).2 =
      objective z s - (pFL_pass_gains T feasible m z iter s).1.sum ∧
    (pFL_pass_gains T feasible m z iter s).2.points.num = s.points.num ∧
    (∀ i, ((pFL_pass_gains T feasible m z iter s).2.points.p i).weight =
      (s.points.p i).weight) ∧
    (pFL_pass_gains T feasible m z iter s).2.feasible = s.feasible ∧
    (pFL_pass_gains T feasible m z iter s).2.numfeasible = s.numfeasible := by
  unfold pFL_pass_gains
  refine forLoop_induction _ _
    (fun _ (a : List ℚ × State) => Valid a.2 ∧ (∀ q, q ∈ a.1 → 0 ≤ q) ∧
      objective z a.2 = objective z s - a.1.sum ∧ a.2.points.num = s.points.num ∧
      (∀ i, (a.2.points.p i).weight = (s.points.p i).weight) ∧
      a.2.feasible = s.feasible ∧ a.2.numfeasible = s.numfeasible)
    (Nat.zero_le iter)
    ⟨hv, fun q hq => absurd hq (List.not_mem_nil q), by simp, rfl, fun _ => rfl, rfl, rfl⟩ ?_
  intro i a _ hi ha
  obtain ⟨a1, a2, a3, a4, a5, a6, a7⟩ := ha
  obtain ⟨g1, g2, g3, g4, g5⟩ := pgain_step (T := T) (x := feasible (i % m)) (z := z) hT a1 hz
    (by rw [a4]; exact hx i hi)
  obtain ⟨f1, f2⟩ := pgain_frame T (feasible (i % m)) z a.2
  refine ⟨g1, ?_, ?_, g4.trans a4, fun j => (g5 j).trans (a5 j), f1.trans a6, f2.trans a7⟩
  · intro q hq
    rcases List.mem_append.mp hq with hq | hq
    · exact a2 q hq
    · rw [List.mem_singleton.mp hq]
      exact g2
  · show objective z (pgain T (feasible (i % m)) z a.2).2 =
      objective z s - (a.1 ++ [(pgain T (feasible (i % m)) z a.2).1]).sum
    rw [g3, a3, List.sum_append, List.sum_singleton]
    ring

/-- On a feasible set that is not empty, or with no iteration, the pass of
`pFL` returns the sum of the gains of its calls of `pgain`. -/
theorem pFL_pass_eq_gains (T : Nat) (feasible : Nat → Nat) (m : Nat) (z : ℚ) (s : State) :
    ∀ iter, (1 ≤ m ∨ iter = 0) →
      pFL_pass T feasible m z iter s =
        .ok ((pFL_pass_gains T feasible m z iter s).1.sum,
          (pFL_pass_gains T feasible m z iter s).2) := by
  intro iter
  induction iter with
  | zero =>
    intro _
    unfold pFL_pass pFL_pass_gains
    rw [forLoop_of_le _ _ (le_refl 0), forLoop_of_le _ _ (le_refl 0)]
    rfl
  | succ n ih =>
    intro hm
    have hm1 : 1 ≤ m := by
      rcases hm with h | h
      · exact h
      · omega
    rw [pFL_pass_succ, ih (Or.inl hm1)]
    show (if m = 0 then Except.error Fault.div_by_zero
      else Except.ok ((pFL_pass_gains T feasible m z n s).1.sum +
          (pgain T (feasible (n % m)) z (pFL_pass_gains T feasible m z n s).2).1,
        (pgain T (feasible (n % m)) z (pFL_pass_gains T feasible m z n s).2).2)) = _
    rw [if_neg (by omega)]
    unfold pFL_pass_gains
    rw [forLoop_succ _ _ (Nat.zero_le n)]
    simp only [List.sum_append, List.sum_singleton]

theorem pFL_loop_exit (T : Nat) (lrand48 : Nat → Nat) (feasible : Nat → Nat) (m : Nat)
    (z : ℚ) (iter : Nat) (e : ℚ) (fuel : Nat) (change cost : ℚ) (s : State)
    (h : ¬ gtDiv change cost e = true) :
    pFL_loop T lrand48 feasible m z iter e fuel change cost s = .ok (cost, s) := by
  cases fuel with
  | zero => unfold pFL_loop; rw [if_neg h]
  | succ f => unfold pFL_loop; rw [if_neg h]

theorem pFL_gains_exit (T : Nat) (lrand48 : Nat → Nat) (feasible : Nat → Nat) (m : Nat)
    (z : ℚ) (iter : Nat) (e : ℚ) (fuel : Nat) (change cost : ℚ) (s : State)
    (h : ¬ gtDiv change cost e = true) :
    pFL_gains T lrand48 feasible m z iter e fuel change cost s = [] := by
  cases fuel with
  | zero => rfl
  | succ f => unfold pFL_gains; rw [if_neg h]

/-- A pass of the loop of `pFL` that the test lets in and that does not
fault: the loop goes on with the sum of the gains of the pass. -/
theorem pFL_loop_pass {T : Nat} (hT : 1 ≤ T) (lrand48 : Nat → Nat) (feasible : Nat → Nat)
    (m : Nat) {z : ℚ} (hz : 0 < z) (iter : Nat) (e : ℚ) (hm : 1 ≤ m ∨ iter = 0)
    (fuel : Nat) (change cost : ℚ) (s : State) (hv : Valid s)
    (hf : ∀ j, j < m → feasible j < s.points.num) (h : gtDiv change cost e = true) :
    ∃ (g : List ℚ) (t : State),
      pFL_loop T lrand48 feasible m z iter e (fuel + 1) change cost s =
        pFL_loop T lrand48 feasible m z iter e fuel g.sum (cost - g.sum) t ∧
      pFL_gains T lrand48 feasible m z iter e (fuel + 1) change cost s =
        g ++ pFL_gains T lrand48 feasible m z iter e fuel g.sum (cost - g.sum) t ∧
      Valid t ∧ (∀ q, q ∈ g → 0 ≤ q) ∧ objective z t = objective z s - g.sum ∧
      t.points.num = s.points.num ∧
      (∀ i, (t.points.p i).weight = (s.points.p i).weight) ∧
      t.feasible = s.feasible ∧ t.numfeasible = s.numfeasible := by
  have hx : ∀ i, i < iter → feasible (i % m) < s.points.num := by
    intro i hi
    rcases hm with hm | hm
    · exact hf _ (Nat.mod_lt _ hm)
    · omega
  obtain ⟨g1, g2, g3, g4, g5, g6, g7⟩ := pFL_pass_gains_spec hT feasible m hz iter
    { s with draws := (intshuffle lrand48 feasible m s.draws).2 } (valid_draws hv _) hx
  refine ⟨_, _, ?_, ?_, g1, g2, g3, g4, g5, g6, g7⟩
  · rw [pFL_loop, if_pos h]
    simp only []
    rw [pFL_pass_eq_gains T feasible m z _ iter hm]
  · rw [pFL_gains, if_pos h]

/-- Partial correctness of the loop of `pFL`: when it returns, the state is
valid, the returned cost is the incoming cost minus the sum of the gains of
all calls of `pgain`, and the objective has dropped by the same sum. -/
theorem pFL_loop_spec {T : Nat} (hT : 1 ≤ T) (lrand48 : Nat → Nat) (feasible : Nat → Nat)
    (m : Nat) {z : ℚ} (hz : 0 < z) (iter : Nat) (e : ℚ) :
    ∀ (fuel : Nat) (change cost : ℚ) (s : State) (r : ℚ × State), Valid s →
      (∀ j, j < m → feasible j < s.points.num) →
      pFL_loop T lrand48 feasible m z iter e fuel change cost s = .ok r →
      Valid r.2 ∧ r.2.points.num = s.points.num ∧
      (∀ i, (r.2.points.p i).weight = (s.points.p i).weight) ∧
      r.2.feasible = s.feasible ∧ r.2.numfeasible = s.numfeasible ∧
      (∀ q, q ∈ pFL_gains T lrand48 feasible m z iter e fuel change cost s → 0 ≤ q) ∧
      r.1 = cost - (pFL_gains T lrand48 feasible m z iter e fuel change cost s).sum ∧
      objective z r.2 =
        objective z s - (pFL_gains T lrand48 feasible m z iter e fuel change cost s).sum := by
  intro fuel
  induction fuel with
  | zero =>
    intro change cost s r hv hf h
    by_cases ht : gtDiv change cost e = true
    · rw [pFL_loop, if_pos ht] at h
      cases h
    · rw [pFL_loop_exit _ _ _ _ _ _ _ _ _ _ _ ht] at h
      cases h
      rw [pFL_gains_exit _ _ _ _ _ _ _ _ _ _ _ ht]
      exact ⟨hv, rfl, fun _ => rfl, rfl, rfl, fun q hq => absurd hq (List.not_mem_nil q),
        by simp, by simp⟩
  | succ f ih =>
    intro change cost s r hv hf h
    by_cases ht : gtDiv change cost e = true
    · by_cases hm : 1 ≤ m ∨ iter = 0
      · obtain ⟨g, t, e1, e2, t1, t2, t3, t4, t5, t6, t7⟩ :=
          pFL_loop_pass hT lrand48 feasible m hz iter e hm f change cost s hv hf ht
        rw [e1] at h
        obtain ⟨r1, r2, r3, r4, r5, r6, r7, r8⟩ := ih g.sum (cost - g.sum) t r t1
          (by rw [t4]; exact hf) h
        rw [e2]
        refine ⟨r1, r2.trans t4, fun i => (r3 i).trans (t5 i), r4.trans t6, r5.trans t7, ?_, ?_,
          ?_⟩
        · intro q hq
          rcases List.mem_append.mp hq with hq | hq
          · exact t2 q hq
          · exact r6 q hq
        · rw [r7, List.sum_append]; ring
        · rw [r8, t3, List.sum_append]; ring
      · exfalso
        have hm0 : m = 0 := by omega
        have hi : 1 ≤ iter := by omega
        subst hm0
        rw [pFL_loop, if_pos ht] at h
        simp only [pFL_pass_mod_zero T feasible z iter _ hi] at h
        cases h
    · rw [pFL_loop_exit _ _ _ _ _ _ _ _ _ _ _ ht] at h
      cases h
      rw [pFL_gains_exit _ _ _ _ _ _ _ _ _ _ _ ht]
      exact ⟨hv, rfl, fun _ => rfl, rfl, rfl, fun q hq => absurd hq (List.not_mem_nil q),
        by simp, by simp⟩

theorem gtDiv_gt {a b e : ℚ} (hb : 0 < b) (h : gtDiv a b e = true) : e * b < a := by
  unfold gtDiv at h
  rw [if_neg (ne_of_gt hb)] at h
  have h1 : a / b > e := of_decide_eq_true h
  exact (lt_div_iff₀ hb).mp h1

/-- The loop of `pFL` returns: every pass that the test lets through has
lowered the objective by more than `e * z`, and the objective stays at
least `z`. -/
theorem pFL_loop_returns {T : Nat} (hT : 1 ≤ T) (lrand48 : Nat → Nat) (feasible : Nat → Nat)
    (m : Nat) {z : ℚ} (hz : 0 < z) (iter : Nat) {e : ℚ} (he : 0 < e)
    (hm : 1 ≤ m ∨ iter = 0) :
    ∀ (N fuel : Nat) (change cost : ℚ) (s : State), Valid s → 1 ≤ s.points.num →
      (∀ j, j < m → feasible j < s.points.num) →
      (∀ i, i < s.points.num → 0 ≤ (s.points.p i).weight) →
      cost = objective z s → cost ≤ z + (N : ℚ) * (e * z) → N < fuel →
      ∃ r, pFL_loop T lrand48 feasible m z iter e fuel change cost s = .ok r := by
  intro N
  induction N with
  | zero =>
    intro fuel change cost s hv hn hf hw hc hle hlt
    obtain ⟨f, rfl⟩ : ∃ f, fuel = f + 1 := ⟨fuel - 1, by omega⟩
    by_cases ht : gtDiv change cost e = true
    · obtain ⟨g, t, e1, -, t1, t2, t3, t4, t5, -, -⟩ :=
        pFL_loop_pass hT lrand48 feasible m hz iter e hm f change cost s hv hf ht
      rw [e1]
      have hw' : ∀ i, i < t.points.num → 0 ≤ (t.points.p i).weight := by
        intro i hi
        rw [t5 i]
        exact hw i (by rw [← t4]; exact hi)
      have hge := objective_ge t1 (by rw [t4]; exact hn) hw' (le_of_lt hz)
      by_cases ht2 : gtDiv g.sum (cost - g.sum) e = true
      · exfalso
        have hpos : 0 < cost - g.sum := by rw [hc, ← t3]; linarith
        have h1 := gtDiv_gt hpos ht2
        have h2 : 0 < e * (cost - g.sum) := mul_pos he hpos
        rw [t3, ← hc] at hge
        simp only [Nat.cast_zero, zero_mul, add_zero] at hle
        linarith
      · exact ⟨_, pFL_loop_exit _ _ _ _ _ _ _ _ _ _ _ ht2⟩
    · exact ⟨_, pFL_loop_exit _ _ _ _ _ _ _ _ _ _ _ ht⟩
  | succ k ih =>
    intro fuel change cost s hv hn hf hw hc hle hlt
    obtain ⟨f, rfl⟩ : ∃ f, fuel = f + 1 := ⟨fuel - 1, by omega⟩
    by_cases ht : gtDiv change cost e = true
    · obtain ⟨g, t, e1, -, t1, t2, t3, t4, t5, -, -⟩ :=
        pFL_loop_pass hT lrand48 feasible m hz iter e hm f change cost s hv hf ht
      rw [e1]
      have hw' : ∀ i, i < t.points.num → 0 ≤ (t.points.p i).weight := by
        intro i hi
        rw [t5 i]
        exact hw i (by rw [← t4]; exact hi)
      have hge := objective_ge t1 (by rw [t4]; exact hn) hw' (le_of_lt hz)
      by_cases ht2 : gtDiv g.sum (cost - g.sum) e = true
      · have hpos : 0 < cost - g.sum := by rw [hc, ← t3]; linarith
        have h1 := gtDiv_gt hpos ht2
        have h3 : e * z ≤ e * (cost - g.sum) := by
          apply mul_le_mul_of_nonneg_left _ (le_of_lt he)
          rw [hc, ← t3]
          exact hge
        refine ih f g.sum (cost - g.sum) t t1 (by rw [t4]; exact hn) (by rw [t4]; exact hf) hw'
          (by rw [t3, hc]) ?_ (by omega)
        push_cast at hle
        linarith
      · exact ⟨_, pFL_loop_exit _ _ _ _ _ _ _ _ _ _ _ ht2⟩
    · exact ⟨_, pFL_loop_exit _ _ _ _ _ _ _ _ _ _ _ ht⟩

theorem lineFeasibleState_valid : Valid lineFeasibleState := by
  refine ⟨?_, ?_, ?_, ?_, ?_⟩ <;> with_unfolding_all decide

/-! ## The bracket `loz ≤ z ≤ hiz` of `pkmedian` -/

theorem zordered_lower {H L Z : ℚ} (h : ZOrdered H L Z) :
    ZOrdered Z L ((Z + L) / 2) ∧ Z - L = (H - L) / 2 ∧ (0 < H → 0 < Z) := by
  obtain ⟨h1, h2, h3, h4⟩ := h
  refine ⟨⟨h1, by linarith, by linarith, rfl⟩, by linarith, fun _ => by linarith⟩

theorem zordered_raise {H L Z : ℚ} (h : ZOrdered H L Z) :
    ZOrdered H Z ((H + Z) / 2) ∧ H - Z = (H - L) / 2 := by
  obtain ⟨h1, h2, h3, h4⟩ := h
  refine ⟨⟨by linarith, by linarith, by linarith, rfl⟩, by linarith⟩

/-- Invariant rule for the loop of lines 1512-1515. -/
theorem pkmedian_retry_induction (T : Nat) (lrand48 : Nat → Nat) (kmin : Nat)
    (Q : Search → Prop)
    (hstep : ∀ a, Q a → a.state.k < kmin →
      Q { a with
          cost := (pspeedy T lrand48 a.z a.state).1
          state := (pspeedy T lrand48 a.z a.state).2
          i := a.i + 1 }) :
    ∀ n a, Q a → Q (pkmedian_retry T lrand48 kmin n a) := by
  intro n
  induction n with
  | zero => intro a ha; exact ha
  | succ n ih =>
    intro a ha
    rw [pkmedian_retry]
    by_cases hk : a.state.k < kmin
    · rw [if_pos hk]
      exact ih _ (hstep a ha hk)
    · rw [if_neg hk]
      exact ha

/-- Invariant rule for the loop of lines 1518-1525. -/
theorem pkmedian_lower_z_induction (T : Nat) (lrand48 : Nat → Nat) (kmin : Nat)
    (Q : Search → Prop)
    (hlow : ∀ a, Q a → a.state.k < kmin → SP ≤ a.i →
      Q { hiz := a.z, loz := a.loz, z := (a.z + a.loz) / 2,
          cost := (pspeedy T lrand48 ((a.z + a.loz) / 2) (shuffle lrand48 a.state)).1,
          i := 0 + 1,
          state := (pspeedy T lrand48 ((a.z + a.loz) / 2) (shuffle lrand48 a.state)).2 })
    (hsame : ∀ a, Q a → a.state.k < kmin → a.i < SP →
      Q { a with
          cost := (pspeedy T lrand48 a.z (shuffle lrand48 a.state)).1
          state := (pspeedy T lrand48 a.z (shuffle lrand48 a.state)).2
          i := a.i + 1 }) :
    ∀ fuel a r, Q a → pkmedian_lower_z T lrand48 kmin fuel a = .ok r → Q r := by
  intro fuel
  induction fuel with
  | zero =>
    intro a r ha h
    rw [pkmedian_lower_z] at h
    by_cases hk : a.state.k < kmin
    · rw [if_pos hk] at h
      cases h
    · rw [if_neg hk] at h
      cases h
      exact ha
  | succ f ih =>
    intro a r ha h
    rw [pkmedian_lower_z] at h
    by_cases hk : a.state.k < kmin
    · rw [if_pos hk] at h
      by_cases hi : a.i ≥ SP
      · simp only [if_pos hi] at h
        exact ih _ r (hlow a ha hk hi) h
      · simp only [if_neg hi] at h
        exact ih _ r (hsame a ha hk (not_le.mp hi)) h
    · rw [if_neg hk] at h
      cases h
      exact ha

/-- What a round of the binary search returns: the locals `hiz`, `loz`, `z`
stay, and cost and state come from the first `pFL`, or from a second one
run on the result of the first. -/
theorem pkmedian_round_spec (T : Nat) (lrand48 : Nat → Nat) (kmin kmax iter fuel : Nat)
    (a a2 : Search) (h : pkmedian_round T lrand48 kmin kmax iter fuel a = .ok a2) :
    a2.hiz = a.hiz ∧ a2.loz = a.loz ∧ a2.z = a.z ∧
    (pFL T lrand48 a.state.feasible a.state.numfeasible a.z a.cost iter (1 / 10) fuel
        a.state = .ok (a2.cost, a2.state) ∨
      ∃ c1 s1,
        pFL T lrand48 a.state.feasible a.state.numfeasible a.z a.cost iter (1 / 10) fuel
          a.state = .ok (c1, s1) ∧
        pFL T lrand48 s1.feasible s1.numfeasible a.z c1 iter (1 / 1000) fuel s1 =
          .ok (a2.cost, a2.state)) := by
  unfold pkmedian_round at h
  cases h1 : pFL T lrand48 a.state.feasible a.state.numfeasible a.z a.cost iter (1 / 10) fuel
      a.state with
  | error f =>
    rw [h1] at h
    cases h
  | ok r1 =>
    obtain ⟨c1, s1⟩ := r1
    rw [h1] at h
    simp only [] at h
    by_cases hnear : near_target kmin kmax s1.k = true
    · rw [if_pos hnear] at h
      cases h2 : pFL T lrand48 s1.feasible s1.numfeasible a.z c1 iter (1 / 1000) fuel s1 with
      | error f =>
        rw [h2] at h
        cases h
      | ok r2 =>
        obtain ⟨c2, s2⟩ := r2
        rw [h2] at h
        cases h
        exact ⟨rfl, rfl, rfl, Or.inr ⟨c1, s1, rfl, h2⟩⟩
    · rw [if_neg hnear] at h
      cases h
      exact ⟨rfl, rfl, rfl, Or.inl rfl⟩

/-- Invariant rule for the binary search of lines 1544-1582. -/
theorem pkmedian_search_induction (T : Nat) (lrand48 : Nat → Nat)
    (kmin kmax iter fuel : Nat) (Q : Search → Prop)
    (hstep : ∀ a a2, Q a → pkmedian_round T lrand48 kmin kmax iter fuel a = .ok a2 →
      Q (pkmedian_adjust kmin kmax a2)) :
    ∀ n a r, Q a → pkmedian_search T lrand48 kmin kmax iter fuel n a = .ok r → Q r := by
  intro n
  induction n with
  | zero =>
    intro a r _ h
    rw [pkmedian_search] at h
    cases h
  | succ n ih =>
    intro a r ha h
    rw [pkmedian_search] at h
    cases h1 : pkmedian_round T lrand48 kmin kmax iter fuel a with
    | error f =>
      rw [h1] at h
      cases h
    | ok a2 =>
      rw [h1] at h
      simp only [] at h
      by_cases hd : pkmedian_done kmin kmax (pkmedian_adjust kmin kmax a2) = true
      · rw [if_pos hd] at h
        cases h
        exact hstep a a2 ha h1
      · rw [if_neg hd] at h
        exact ih _ r (hstep a a2 ha h1) h

/-- The updates of lines 1560-1571: each of them keeps the bracket and
halves `hiz - loz`; the recorded cost moves by `(z' - z) * k`. -/
theorem pkmedian_adjust_spec (kmin kmax : Nat) (a : Search)
    (h : ZOrdered a.hiz a.loz a.z) :
    ZOrdered (pkmedian_adjust kmin kmax a).hiz (pkmedian_adjust kmin kmax a).loz
      (pkmedian_adjust kmin kmax a).z ∧
    (0 < a.hiz → 0 < (pkmedian_adjust kmin kmax a).hiz) ∧
    ((pkmedian_adjust kmin kmax a).hiz - (pkmedian_adjust kmin kmax a).loz) *
        2 ^ ((if a.state.k > kmax then 1 else 0) + (if a.state.k < kmin then 1 else 0)) =
      a.hiz - a.loz ∧
    (pkmedian_adjust kmin kmax a).cost =
      a.cost + ((pkmedian_adjust kmin kmax a).z - a.z) * (a.state.k : ℚ) ∧
    (¬ a.state.k > kmax → ¬ a.state.k < kmin → pkmedian_adjust kmin kmax a = a) := by
  obtain ⟨hiz, loz, z, cost, i, st⟩ := a
  simp only at h
  obtain ⟨r1, r2⟩ := zordered_raise h
  obtain ⟨l1, l2, l3⟩ := zordered_lower h
  obtain ⟨m1, m2, m3⟩ := zordered_lower r1
  unfold pkmedian_adjust
  by_cases h1 : st.k > kmax
  · by_cases h2 : st.k < kmin
    · rw [if_pos h1, if_pos h1]
      simp only []
      rw [if_pos h2, if_pos h2]
      refine ⟨m1, fun hp => ?_, ?_, ?_, fun hh => absurd h1 hh⟩
      · exact m3 hp
      · norm_num
        linarith
      · show cost + ((hiz + z) / 2 - z) * (st.k : ℚ) +
          (((hiz + z) / 2 + z) / 2 - (hiz + z) / 2) * (st.k : ℚ) = _
        ring
    · rw [if_pos h1, if_pos h1]
      simp only []
      rw [if_neg h2, if_neg h2]
      refine ⟨r1, fun hp => hp, ?_, rfl, fun hh => absurd h1 hh⟩
      norm_num
      linarith
  · by_cases h2 : st.k < kmin
    · rw [if_neg h1, if_neg h1]
      simp only []
      rw [if_pos h2, if_pos h2]
      refine ⟨l1, l3, ?_, rfl, fun _ hh => absurd h2 hh⟩
      norm_num
      linarith
    · rw [if_neg h1, if_neg h1]
      simp only []
      rw [if_neg h2, if_neg h2]
      refine ⟨h, fun hp => hp, ?_, ?_, fun _ _ => rfl⟩
      · norm_num
      · show cost = cost + (z - z) * (st.k : ℚ)
        ring

/-- C36: in `pkmedian` on points of nonnegative weight the locals start with
`0 ≤ loz ≤ z ≤ hiz` and `z = (hiz + loz) / 2`; the loop of lines 1512-1515
does not touch them; the update of line 1519 (taken when `k < kmin` and
`i ≥ SP`) and the updates of lines 1560-1571 (taken when `k > kmax` or
`k < kmin`) keep these relations and each of them halves `hiz - loz`; the
calls of `pFL` do not touch them; hence whenever `pkmedian` returns, the
relations hold and `hiz - loz` is the first `hiz` over a power of two. -/
theorem pkmedian_bracket (T : Nat) (lrand48 : Nat → Nat) (klogk : Nat → Nat)
    (kmin kmax fuel : Nat) (s : State) (hT : 1 ≤ T)
    (hw : ∀ i, i < s.points.num → 0 ≤ (s.points.p i).weight) :
    ZOrdered (pkmedian_hiz T s.points) 0 ((pkmedian_hiz T s.points + 0) / 2) ∧
    (∀ n a, (pkmedian_retry T lrand48 kmin n a).hiz = a.hiz ∧
      (pkmedian_retry T lrand48 kmin n a).loz = a.loz ∧
      (pkmedian_retry T lrand48 kmin n a).z = a.z) ∧
    (∀ f a, a.state.k < kmin → ZOrdered a.hiz a.loz a.z →
      ∃ a', pkmedian_lower_z T lrand48 kmin (f + 1) a = pkmedian_lower_z T lrand48 kmin f a' ∧
        ZOrdered a'.hiz a'.loz a'.z ∧
        (SP ≤ a.i → a'.hiz - a'.loz = (a.hiz - a.loz) / 2) ∧
        (a.i < SP → a'.hiz = a.hiz ∧ a'.loz = a.loz ∧ a'.z = a.z)) ∧
    (∀ iter f a a2, pkmedian_round T lrand48 kmin kmax iter f a = .ok a2 →
      a2.hiz = a.hiz ∧ a2.loz = a.loz ∧ a2.z = a.z) ∧
    (∀ a, ZOrdered a.hiz a.loz a.z →
      ZOrdered (pkmedian_adjust kmin kmax a).hiz (pkmedian_adjust kmin kmax a).loz
        (pkmedian_adjust kmin kmax a).z ∧
      ((pkmedian_adjust kmin kmax a).hiz - (pkmedian_adjust kmin kmax a).loz) *
          2 ^ ((if a.state.k > kmax then 1 else 0) + (if a.state.k < kmin then 1 else 0)) =
        a.hiz - a.loz) ∧
    (∀ r, pkmedian T lrand48 klogk kmin kmax fuel s = .ok r →
      ZOrdered r.hiz r.loz r.z ∧
      ∃ j : Nat, (r.hiz - r.loz) * 2 ^ j = pkmedian_hiz T s.points) := by
  have hH : 0 ≤ pkmedian_hiz T s.points := pkmedian_hiz_nonneg hT s.points hw
  have h0 : ZOrdered (pkmedian_hiz T s.points) 0 ((pkmedian_hiz T s.points + 0) / 2) :=
    ⟨le_refl 0, by linarith, by linarith, rfl⟩
  have hretry : ∀ n a, (pkmedian_retry T lrand48 kmin n a).hiz = a.hiz ∧
      (pkmedian_retry T lrand48 kmin n a).loz = a.loz ∧
      (pkmedian_retry T lrand48 kmin n a).z = a.z := by
    intro n a
    exact pkmedian_retry_induction T lrand48 kmin
      (fun b => b.hiz = a.hiz ∧ b.loz = a.loz ∧ b.z = a.z) (fun b hb _ => hb) n a
      ⟨rfl, rfl, rfl⟩
  refine ⟨h0, hretry, ?_, ?_, ?_, ?_⟩
  · intro f a hk hz
    obtain ⟨l1, l2, -⟩ := zordered_lower hz
    rw [pkmedian_lower_z, if_pos hk]
    by_cases hi : a.i ≥ SP
    · simp only [if_pos hi]
      exact ⟨_, rfl, l1, fun _ => l2, fun hlt => absurd hi (not_le.mpr hlt)⟩
    · simp only [if_neg hi]
      exact ⟨_, rfl, hz, fun hle => absurd hle hi, fun _ => ⟨rfl, rfl, rfl⟩⟩
  · intro iter f a a2 h
    obtain ⟨e1, e2, e3, -⟩ := pkmedian_round_spec T lrand48 kmin kmax iter f a a2 h
    exact ⟨e1, e2, e3⟩
  · intro a hz
    obtain ⟨e1, -, e3, -, -⟩ := pkmedian_adjust_spec kmin kmax a hz
    exact ⟨e1, e3⟩
  · intro r h
    unfold pkmedian at h
    by_cases hn : s.points.num ≤ kmax
    · simp only [if_pos hn] at h
      cases h
      exact ⟨h0, 0, by simp⟩
    · simp only [if_neg hn] at h
      have hQ1 := pkmedian_retry_induction T lrand48 kmin
        (fun b => ZOrdered b.hiz b.loz b.z ∧
          ∃ j : Nat, (b.hiz - b.loz) * 2 ^ j = pkmedian_hiz T s.points)
        (fun b hb _ => hb) SP
        ⟨pkmedian_hiz T s.points, 0, (pkmedian_hiz T s.points + 0) / 2,
          (pspeedy T lrand48 ((pkmedian_hiz T s.points + 0) / 2) (shuffle lrand48 s)).1, 0,
          (pspeedy T lrand48 ((pkmedian_hiz T s.points + 0) / 2) (shuffle lrand48 s)).2⟩
        ⟨h0, 0, by simp⟩
      split at h
      · cases h
      · rename_i a2 ha2
        have hQ2 := pkmedian_lower_z_induction T lrand48 kmin
          (fun b => ZOrdered b.hiz b.loz b.z ∧
            ∃ j : Nat, (b.hiz - b.loz) * 2 ^ j = pkmedian_hiz T s.points)
          (fun b hb _ _ => by
            obtain ⟨b1, j, b2⟩ := hb
            obtain ⟨l1, l2, -⟩ := zordered_lower b1
            refine ⟨l1, j + 1, ?_⟩
            show (b.z - b.loz) * 2 ^ (j + 1) = _
            rw [l2, pow_succ, ← b2]
            ring)
          (fun b hb _ _ => hb) fuel _ a2 hQ1 ha2
        split at h
        · cases h
        · rename_i a ha
          cases h
          refine pkmedian_search_induction T lrand48 kmin kmax (klogk kmax) fuel
            (fun b => ZOrdered b.hiz b.loz b.z ∧
              ∃ j : Nat, (b.hiz - b.loz) * 2 ^ j = pkmedian_hiz T s.points)
            (fun b b2 hb hr => by
              obtain ⟨b1, j, bj⟩ := hb
              obtain ⟨e1, e2, e3, -⟩ :=
                pkmedian_round_spec T lrand48 kmin kmax (klogk kmax) fuel b b2 hr
              have hz2 : ZOrdered b2.hiz b2.loz b2.z := by rw [e1, e2, e3]; exact b1
              obtain ⟨c1, -, c3, -, -⟩ := pkmedian_adjust_spec kmin kmax b2 hz2
              refine ⟨c1, j + ((if b2.state.k > kmax then 1 else 0) +
                (if b2.state.k < kmin then 1 else 0)), ?_⟩
              rw [pow_add, ← bj, ← e1, ← e2, ← c3]
              ring)
            fuel _ a ?_ ha
          exact hQ2

/-- Two points of weight 1 at 0 and 1, `kmin = kmax = 1`: the run returns,
with the bracket in order. -/
theorem pkmedian_bracket_witness :
    (1 ≤ 1 ∧ returns (pkmedian 1 (fun _ => 12345) klogk3 1 1 10 (twoPointState 0 1)) = true) ∧
    ∀ r, pkmedian 1 (fun _ => 12345) klogk3 1 1 10 (twoPointState 0 1) = .ok r →
      ZOrdered r.hiz r.loz r.z ∧
      ∃ j : Nat, (r.hiz - r.loz) * 2 ^ j = pkmedian_hiz 1 (twoPointState 0 1).points :=
  ⟨⟨by decide, by with_unfolding_all decide⟩,
    (pkmedian_bracket 1 (fun _ => 12345) klogk3 1 1 10 (twoPointState 0 1) (by decide)
      (by with_unfolding_all decide)).2.2.2.2.2⟩

/-! ## The recorded cost of `pkmedian` -/

/-- What `pFL` returns on a valid state whose objective is the input cost. -/
theorem pFL_spec {T : Nat} (hT : 1 ≤ T) (lrand48 : Nat → Nat) (feasible : Nat → Nat)
    (m : Nat) {z : ℚ} (hz : 0 < z) (cost : ℚ) (iter : Nat) (e : ℚ) (fuel : Nat) (s : State)
    (r : ℚ × State) (hv : Valid s) (hf : ∀ j, j < m → feasible j < s.points.num)
    (hc : cost = objective z s)
    (h : pFL T lrand48 feasible m z cost iter e fuel s = .ok r) :
    Valid r.2 ∧ r.2.points.num = s.points.num ∧ r.2.feasible = s.feasible ∧
    r.2.numfeasible = s.numfeasible ∧ r.1 = objective z r.2 := by
  unfold pFL at h
  obtain ⟨r1, r2, -, r4, r5, -, r7, r8⟩ :=
    pFL_loop_spec hT lrand48 feasible m hz iter e fuel cost cost s r hv hf h
  exact ⟨r1, r2, r4, r5, by rw [r7, r8, hc]⟩

/-- What `pspeedy` returns on points of nonnegative weight: the objective of
the state it leaves, which satisfies the invariant of its loop. -/
theorem pspeedy_post {T : Nat} (hT : 1 ≤ T) (lrand48 : Nat → Nat) {z : ℚ} (hz : 0 < z)
    (t : State) (hn : 1 ≤ t.points.num)
    (hw : ∀ i, i < t.points.num → 0 ≤ (t.points.p i).weight) :
    (pspeedy T lrand48 z t).1 = objective z (pspeedy T lrand48 z t).2 ∧
    (∃ O, SpeedyInv O (pspeedy T lrand48 z t).2) ∧
    (pspeedy T lrand48 z t).2.points.num = t.points.num ∧
    (pspeedy T lrand48 z t).2.is_center = t.is_center := by
  obtain ⟨inv, hnum⟩ := pspeedy_inv hT lrand48 hz t hn hw
  refine ⟨?_, ⟨_, inv⟩, hnum, (pspeedy_k_spec T lrand48 z t).2.2.1⟩
  show pspeedy_total T z (pspeedy T lrand48 z t).2 = _
  rw [pspeedy_total_eq hT]
  rfl

/-- The same after a `shuffle`. -/
theorem shuffle_pspeedy_post {T : Nat} (hT : 1 ≤ T) (lrand48 : Nat → Nat) {z : ℚ}
    (hz : 0 < z) (t : State) (hn : 1 ≤ t.points.num)
    (hw : ∀ i, i < t.points.num → 0 ≤ (t.points.p i).weight) :
    (pspeedy T lrand48 z (shuffle lrand48 t)).1 =
      objective z (pspeedy T lrand48 z (shuffle lrand48 t)).2 ∧
    (∃ O, SpeedyInv O (pspeedy T lrand48 z (shuffle lrand48 t)).2) ∧
    (pspeedy T lrand48 z (shuffle lrand48 t)).2.points.num = t.points.num ∧
    (pspeedy T lrand48 z (shuffle lrand48 t)).2.is_center = t.is_center := by
  obtain ⟨s1, -, -, s4, -, -, s7⟩ := shuffle_spec lrand48 t (fun q => 0 ≤ q.weight) hw
  obtain ⟨p1, p2, p3, p4⟩ := pspeedy_post hT lrand48 hz (shuffle lrand48 t)
    (by rw [s1]; exact hn) (fun i hi => s7 i (by rw [← s1]; exact hi))
  exact ⟨p1, p2, p3.trans s1, p4.trans s4⟩

/-- All entries of the feasible set are indices of points. -/
theorem selectfeasible_fast_lt (lrand48 : Nat → Nat) (klogk : Nat → Nat) (kmin : Nat)
    (s : State) :
    ∀ i, i < (selectfeasible_fast lrand48 klogk kmin s).numfeasible →
      (selectfeasible_fast lrand48 klogk kmin s).feasible i < s.points.num := by
  unfold selectfeasible_fast
  by_cases hn : s.points.num > klogk kmin
  · have hne : ¬ klogk kmin = s.points.num := by omega
    simp only [hn, if_true, hne, if_false]
    intro i hi
    exact sample_loop lrand48 _ _ _ _ _ _ (by omega) i hi
  · simp only [hn, if_false, if_true]
    intro i hi
    rw [identity_loop, if_pos hi]
    exact hi

theorem objective_congr (z : ℚ) {s t : State} (hp : s.points = t.points) (hk : s.k = t.k) :
    objective z s = objective z t := by
  unfold objective
  rw [hp, hk]

/-! ## `pgain` with one worker, and with two workers that come one after the other

With one worker `pgain` is the source, and the results below hold for every
valid state.  With two workers the source may run lines 1001-1012 of worker
0 before worker 1 reads its offset (`pgain_inorder`); the instances below
are runs of that schedule on the four points in a row. -/

theorem row03State_valid : Valid row03State := by
  refine ⟨?_, ?_, ?_, ?_, ?_⟩ <;> with_unfolding_all decide

theorem rowSelfState_valid : Valid rowSelfState := by
  refine ⟨?_, ?_, ?_, ?_, ?_⟩ <;> with_unfolding_all decide

/-- C1, the code: with one worker `pgain` on a valid state returns a value
`g ≥ 0`, the objective `z * k + Σ cost[i]` after the call is the objective
before the call minus `g`, and `g > 0` exactly when the move is committed.
With two workers that pass lines 1001-1012 one after the other this fails:
on the four points in a row with the centers 0 and 3, `x = 1` and `z = 10`,
both centers get slot 0 of `center_table`, their `lower` values are added
up in that slot, and both close on the sum; `pgain` returns 4 while the
objective drops from 25 to 16 (one worker returns 9). -/
theorem pgain_saves_objective (x : Nat) (z : ℚ) (s : State)
    (hv : Valid s) (hx : x < s.points.num) :
    (0 ≤ (pgain 1 x z s).1 ∧
      objective z (pgain 1 x z s).2 = objective z s - (pgain 1 x z s).1 ∧
      (0 < (pgain 1 x z s).1 ↔ gl_cost_of_opening_x 1 x z s < 0)) ∧
    (Valid row03State ∧ objective 10 row03State = 25 ∧
      (pgain_inorder 2 1 10 row03State).2.center_table 0 = 0 ∧
      (pgain_inorder 2 1 10 row03State).2.center_table 3 = 0 ∧
      (pgain_inorder 2 1 10 row03State).1 = 4 ∧
      objective 10 (pgain_inorder 2 1 10 row03State).2 = 16 ∧
      (pgain 1 1 10 row03State).1 = 9 ∧
      objective 10 (pgain 1 1 10 row03State).2 = 16) := by
  refine ⟨?_, row03State_valid, by with_unfolding_all decide, by with_unfolding_all decide,
    by with_unfolding_all decide, by with_unfolding_all decide, by with_unfolding_all decide,
    by with_unfolding_all decide, by with_unfolding_all decide⟩
  have hT : 1 ≤ 1 := le_refl 1
  have hgl := gl_cost_eq hT x z hv
  by_cases h : glCost s x z < 0
  · have h1 := (pgain_of_lt hT hv hx h).1
    have h2 := objective_of_lt hT hv hx h
    rw [h1, h2, hgl]
    refine ⟨by linarith, by ring, fun _ => h, fun _ => by linarith⟩
  · have h' : ¬ gl_cost_of_opening_x 1 x z s < 0 := by rw [hgl]; exact h
    obtain ⟨h1, h2, _, h4⟩ := pgain_of_not_lt h'
    refine ⟨by rw [h1], ?_, ?_⟩
    · unfold objective
      rw [h1, h2, h4, sub_zero]
    · rw [h1]
      exact ⟨fun hh => absurd hh (lt_irrefl 0), fun hh => absurd hh h'⟩

/-- One worker on the four points of the line, `x = 1`, `z = 1/2`. -/
theorem pgain_saves_objective_witness :
    (Valid lineState ∧ 1 < lineState.points.num) ∧
    (0 ≤ (pgain 1 1 (1 / 2) lineState).1 ∧
      objective (1 / 2) (pgain 1 1 (1 / 2) lineState).2 =
        objective (1 / 2) lineState - (pgain 1 1 (1 / 2) lineState).1 ∧
      (0 < (pgain 1 1 (1 / 2) lineState).1 ↔
        gl_cost_of_opening_x 1 1 (1 / 2) lineState < 0)) :=
  ⟨⟨lineState_valid, by decide⟩,
    (pgain_saves_objective 1 (1 / 2) lineState lineState_valid (by decide)).1⟩

/-- C4, the code: with one worker and `z > 0`, after `pgain` on a valid
state the updated `k` (`k + 1 - gl_number_of_centers_to_close` on commit,
unchanged otherwise) again is the number of true `is_center` entries,
whether or not `x` was open before the call.  With two workers that pass
lines 1001-1012 one after the other this fails: on the four points in a row
with the centers 0 and 3, `x = 3` (open already) and `z = 1`, the centers 0
and 3 share slot 0, the sum in it is not positive, so center 3 is not
counted as closing before it is opened again: `k` becomes 3 with two open
centers; one worker leaves `k = 2`. -/
theorem pgain_k_counts_centers (x : Nat) (z : ℚ) (s : State)
    (hv : Valid s) (hz : 0 < z) (hx : x < s.points.num) :
    ((pgain 1 x z s).2.k =
        centersIn (pgain 1 x z s).2.is_center 0 (pgain 1 x z s).2.points.num ∧
      (pgain 1 x z s).2.k =
        (if gl_cost_of_opening_x 1 x z s < 0 then
          s.k + 1 - gl_number_of_centers_to_close 1 x z s
        else s.k) ∧
      gl_number_of_centers_to_close 1 x z s ≤ s.k) ∧
    (Valid row03State ∧ row03State.is_center 3 = true ∧
      (pgain_inorder 2 3 1 row03State).1 = 2 ∧
      (pgain_inorder 2 3 1 row03State).2.k = 3 ∧
      centersIn (pgain_inorder 2 3 1 row03State).2.is_center 0
        (pgain_inorder 2 3 1 row03State).2.points.num = 2 ∧
      (pgain 1 3 1 row03State).2.k = 2) := by
  refine ⟨?_, row03State_valid, by with_unfolding_all decide, by with_unfolding_all decide,
    by with_unfolding_all decide, by with_unfolding_all decide, by with_unfolding_all decide⟩
  have hT : 1 ≤ 1 := le_refl 1
  refine ⟨(pgain_valid hT hv hz hx).k_eq, ?_, ?_⟩
  · rw [gl_cost_eq hT x z hv, gl_close_eq hT x z hv]
    by_cases h : glCost s x z < 0
    · rw [if_pos h]; exact (pgain_of_lt hT hv hx h).2.2.2.2.2
    · rw [if_neg h]
      have h' : ¬ gl_cost_of_opening_x 1 x z s < 0 := by
        rw [gl_cost_eq hT x z hv]; exact h
      exact (pgain_of_not_lt h').2.2.2
  · rw [gl_close_eq hT x z hv]; exact glClose_le hv x z

/-- One worker on the four points of the line, `x = 2` (an open center),
`z = 3/10`. -/
theorem pgain_k_counts_centers_witness :
    (Valid lineState ∧ (0 : ℚ) < 3 / 10 ∧ 2 < lineState.points.num) ∧
    ((pgain 1 2 (3 / 10) lineState).2.k =
      centersIn (pgain 1 2 (3 / 10) lineState).2.is_center 0
        (pgain 1 2 (3 / 10) lineState).2.points.num ∧
    (pgain 1 2 (3 / 10) lineState).2.k =
      (if gl_cost_of_opening_x 1 2 (3 / 10) lineState < 0 then
        lineState.k + 1 - gl_number_of_centers_to_close 1 2 (3 / 10) lineState
      else lineState.k) ∧
    gl_number_of_centers_to_close 1 2 (3 / 10) lineState ≤ lineState.k) :=
  ⟨⟨lineState_valid, by norm_num, by decide⟩,
    (pgain_k_counts_centers 2 (3 / 10) lineState lineState_valid (by norm_num)
      (by decide)).1⟩

/-- C6, the code: with one worker and `z > 0`, calling `pgain(x)` on a
valid state and then `pgain(x)` again on the resulting state makes the
second call return `0` and change no point (so no `assign` and no `cost`),
no `is_center` entry and not `k`.  With two workers that pass lines
1001-1012 one after the other this fails: on the four points in a row,
every one its own center, `x = 0` and `z = 10`, the first call returns 2 and
leaves `k = 3` with point 1 its own center, and the second call returns 1,
moves point 1 to point 0 and leaves `k = 1`. -/
theorem pgain_twice (x : Nat) (z : ℚ) (s : State)
    (hv : Valid s) (hz : 0 < z) (hx : x < s.points.num) :
    ((pgain 1 x z (pgain 1 x z s).2).1 = 0 ∧
      (pgain 1 x z (pgain 1 x z s).2).2.points = (pgain 1 x z s).2.points ∧
      (pgain 1 x z (pgain 1 x z s).2).2.is_center = (pgain 1 x z s).2.is_center ∧
      (pgain 1 x z (pgain 1 x z s).2).2.k = (pgain 1 x z s).2.k) ∧
    (Valid rowSelfState ∧
      (pgain_inorder 2 0 10 rowSelfState).1 = 2 ∧
      (pgain_inorder 2 0 10 rowSelfState).2.k = 3 ∧
      ((pgain_inorder 2 0 10 rowSelfState).2.points.p 1).assign = 1 ∧
      (pgain_inorder 2 0 10 (pgain_inorder 2 0 10 rowSelfState).2).1 = 1 ∧
      (pgain_inorder 2 0 10 (pgain_inorder 2 0 10 rowSelfState).2).2.k = 1 ∧
      ((pgain_inorder 2 0 10 (pgain_inorder 2 0 10 rowSelfState).2).2.points.p 1).assign =
        0) := by
  refine ⟨?_, rowSelfState_valid, by with_unfolding_all decide, by with_unfolding_all decide,
    by with_unfolding_all decide, by with_unfolding_all decide, by with_unfolding_all decide,
    by with_unfolding_all decide⟩
  have hT : 1 ≤ 1 := le_refl 1
  have hv' := pgain_valid hT hv hz hx
  apply pgain_of_not_lt
  rw [gl_cost_eq hT x z hv']
  by_cases h : glCost s x z < 0
  · rw [glCost_after_commit hT hv hz hx h]
    exact lt_irrefl 0
  · have h' : ¬ gl_cost_of_opening_x 1 x z s < 0 := by
      rw [gl_cost_eq hT x z hv]; exact h
    obtain ⟨_, h2, h3, _⟩ := pgain_of_not_lt h'
    rw [glCost_congr x z h2 h3]
    exact h

/-- One worker on the four points of the line, `x = 1`, `z = 1/2`. -/
theorem pgain_twice_witness :
    (Valid lineState ∧ (0 : ℚ) < 1 / 2 ∧ 1 < lineState.points.num) ∧
    ((pgain 1 1 (1 / 2) (pgain 1 1 (1 / 2) lineState).2).1 = 0 ∧
    (pgain 1 1 (1 / 2) (pgain 1 1 (1 / 2) lineState).2).2.points =
      (pgain 1 1 (1 / 2) lineState).2.points ∧
    (pgain 1 1 (1 / 2) (pgain 1 1 (1 / 2) lineState).2).2.is_center =
      (pgain 1 1 (1 / 2) lineState).2.is_center ∧
    (pgain 1 1 (1 / 2) (pgain 1 1 (1 / 2) lineState).2).2.k =
      (pgain 1 1 (1 / 2) lineState).2.k) :=
  ⟨⟨lineState_valid, by norm_num, by decide⟩,
    (pgain_twice 1 (1 / 2) lineState lineState_valid (by norm_num) (by decide)).1⟩

/-- C7, the code: with one worker, for every `is_center` array of length
`n` and whatever the table, the work memory and `*numcenters` hold on entry,
after the rebuild of lines 976-1005 `center_table[i]` is the number of open
centers with index `< i` for every open center `i`, so `center_table`
restricted to the open centers is an increasing bijection onto `[0, k)`.
With two workers that pass lines 1001-1012 one after the other this fails:
the `fill` of worker 0 has cleared the offset that worker 1 adds, and on the
four points in a row with the centers 0 and 3 both centers get the entry 0,
where center 3 has one open center below it. -/
theorem pgain_table_bijection (n numcenters : Nat) (is_center : Nat → Bool)
    (center_table : Nat → Nat) (work_mem : Nat → ℚ) :
    ((∀ i, i < n → is_center i = true →
        (pgain_table 1 n (stride numcenters) is_center center_table work_mem).1 i =
          centersIn is_center 0 i) ∧
      Set.BijOn (pgain_table 1 n (stride numcenters) is_center center_table work_mem).1
        {i | i < n ∧ is_center i = true} (Set.Iio (centersIn is_center 0 n)) ∧
      StrictMonoOn (pgain_table 1 n (stride numcenters) is_center center_table work_mem).1
        {i | i < n ∧ is_center i = true}) ∧
    (row03State.is_center 0 = true ∧ row03State.is_center 3 = true ∧
      centersIn row03State.is_center 0 0 = 0 ∧ centersIn row03State.is_center 0 3 = 1 ∧
      (pgain_eval_inorder 2 1 10 row03State).1 0 = 0 ∧
      (pgain_eval_inorder 2 1 10 row03State).1 3 = 0 ∧
      (pgain_eval 1 1 10 row03State).1 3 = 1) := by
  refine ⟨?_, by decide, by decide, by decide, by decide, by with_unfolding_all decide,
    by with_unfolding_all decide, by with_unfolding_all decide⟩
  have hT : 1 ≤ 1 := le_refl 1
  have hs : 1 ≤ stride numcenters := by have := stride_ge numcenters; omega
  have key : ∀ i, i < n → is_center i = true →
      (pgain_table 1 n (stride numcenters) is_center center_table work_mem).1 i =
        centersIn is_center 0 i := by
    intro i hi hc
    rw [pgain_table_spec hT hs, if_pos ⟨hi, hc⟩]
  refine ⟨key, ⟨?_, ?_, ?_⟩, ?_⟩
  · rintro i ⟨hi, hc⟩
    rw [Set.mem_Iio, key i hi hc]
    exact centersIn_lt hi hc
  · rintro i ⟨hi, hc⟩ j ⟨hj, hcj⟩ he
    rw [key i hi hc, key j hj hcj] at he
    exact centersIn_inj hc hcj he
  · intro r hr
    obtain ⟨i, hi, hc, he⟩ := centersIn_surj is_center n r hr
    exact ⟨i, ⟨hi, hc⟩, by rw [key i hi hc, he]⟩
  · rintro i ⟨hi, hc⟩ j ⟨hj, hcj⟩ hij
    rw [key i hi hc, key j hj hcj]
    exact centersIn_lt hij hc

/-- C18, as the code has it with one worker: after a committed `pgain(x)` on
a valid state in which every point is recorded at a nearest open center,
every point that switches to `x` or whose center stays open is again
recorded at a nearest open center.  A point that moves only because its
center closes is assigned to `x` at its distance to `x`, whether or not
another center that stays open is nearer. -/
theorem pgain_nearest (x : Nat) (z : ℚ) (s : State) (hv : Valid s)
    (hx : x < s.points.num) (hnear : NearestAssigned s)
    (h : gl_cost_of_opening_x 1 x z s < 0) :
    (∀ i, i < s.points.num →
      switches s.points x i ∨ ¬ closes s x z (s.points.p i).assign →
      ∀ c, c < s.points.num → (pgain 1 x z s).2.is_center c = true →
        ((pgain 1 x z s).2.points.p i).cost ≤
          ((pgain 1 x z s).2.points.p i).weight *
            dist ((pgain 1 x z s).2.points.p i) ((pgain 1 x z s).2.points.p c)
              (pgain 1 x z s).2.points.dim) ∧
    (∀ i, i < s.points.num →
      ¬ switches s.points x i → closes s x z (s.points.p i).assign →
      ((pgain 1 x z s).2.points.p i).assign = x ∧
      ((pgain 1 x z s).2.points.p i).cost =
        (s.points.p i).weight * dist (s.points.p i) (s.points.p x) s.points.dim) := by
  have hT : 1 ≤ 1 := le_refl 1
  rw [gl_cost_eq hT x z hv] at h
  obtain ⟨-, -, p3, p4, p5, -⟩ := pgain_of_lt hT hv hx h
  have hdist : ∀ i c, dist ((pgain 1 x z s).2.points.p i) ((pgain 1 x z s).2.points.p c)
      (pgain 1 x z s).2.points.dim = dist (s.points.p i) (s.points.p c) s.points.dim := by
    intro i c
    rw [p3]
    exact dist_congr (moved_coord _ p4 i).1 (moved_coord _ p4 c).1 _
  constructor
  · intro i hi hcase c hc hopen
    rw [hdist, (moved_coord _ p4 i).2]
    have hc' : c = x ∨ s.is_center c = true := by
      rw [p5 c, if_pos hc] at hopen
      by_cases hcx : c = x
      · exact Or.inl hcx
      · rw [if_neg hcx] at hopen
        right
        simp only [Bool.and_eq_true] at hopen
        exact hopen.1
    by_cases hsw : switches s.points x i
    · rw [p4 i, if_pos ⟨hi, Or.inl hsw⟩, moved_cost]
      rcases hc' with hcx | hco
      · rw [hcx]
        unfold x_cost
        rw [mul_comm]
      · exact le_of_lt (lt_of_lt_of_le hsw (hnear i hi c hc hco))
    · have hncl : ¬ closes s x z (s.points.p i).assign := by
        rcases hcase with h1 | h1
        · exact absurd h1 hsw
        · exact h1
      have hnm : ¬ (i < s.points.num ∧ moves s x z i) := by
        rintro ⟨-, h1 | h1⟩
        · exact hsw h1
        · exact hncl h1
      rw [p4 i, if_neg hnm]
      rcases hc' with hcx | hco
      · rw [hcx]
        have := not_lt.mp hsw
        unfold x_cost at this
        rw [mul_comm]
        exact this
      · exact hnear i hi c hc hco
  · intro i hi _ hcl
    rw [p4 i, if_pos ⟨hi, Or.inr hcl⟩]
    exact ⟨rfl, rfl⟩

/-- The four weighted points with `z = 230` and `x = 3`: the move commits,
and point 3, which switches, is again at a nearest open center: the center
1, which stays open, is not nearer. -/
theorem pgain_nearest_witness :
    (Valid nearestState ∧ NearestAssigned nearestState ∧
      gl_cost_of_opening_x 1 3 230 nearestState < 0 ∧
      switches nearestState.points 3 3 ∧ (pgain 1 3 230 nearestState).2.is_center 1 = true) ∧
    ((pgain 1 3 230 nearestState).2.points.p 3).cost ≤
      ((pgain 1 3 230 nearestState).2.points.p 3).weight *
        dist ((pgain 1 3 230 nearestState).2.points.p 3)
          ((pgain 1 3 230 nearestState).2.points.p 1)
          (pgain 1 3 230 nearestState).2.points.dim :=
  ⟨⟨nearestState_valid, by with_unfolding_all decide, by with_unfolding_all decide,
      by with_unfolding_all decide, by with_unfolding_all decide⟩,
    (pgain_nearest 3 230 nearestState nearestState_valid (by decide)
      (by with_unfolding_all decide) (by with_unfolding_all decide)).1 3 (by decide)
      (Or.inl (by with_unfolding_all decide)) 1 (by decide) (by with_unfolding_all decide)⟩

/-! ## `pFL` and `pkmedian` with one worker, and with two workers that come one after the other -/

/-- C32, the code: with one worker, in exact arithmetic, for every valid
state with `z > 0` and input cost equal to the objective `z * k + Σ cost[i]`
at entry, `pFL` on a feasible set of candidates of the point set returns
(with enough fuel for its passes, for an improvement ratio `e > 0` and
nonnegative weights), and whenever it returns, the returned value is the
input cost minus the sum of the values returned by all its calls of `pgain`,
every one of which is `≥ 0`; it equals the objective of the state at exit,
which is valid, and is `≤` the input cost.  With two workers that pass
lines 1001-1012 of `pgain` one after the other this fails: on the four
points in a row with the centers 0 and 3, `z = 10`, input cost 25 (the
objective), one candidate (point 1) and `iter = 1`, the first call of
`pgain` returns 4 while the objective drops by 9, the second returns 0, and
`pFL` returns 21 with a state of objective 16; one worker returns 16. -/
theorem pFL_objective (lrand48 : Nat → Nat) (feasible : Nat → Nat)
    (numfeasible : Nat) (z cost : ℚ) (iter : Nat) (e : ℚ) (s : State)
    (hv : Valid s) (hz : 0 < z) (he : 0 < e) (hm : 1 ≤ numfeasible)
    (hf : ∀ j, j < numfeasible → feasible j < s.points.num)
    (hw : ∀ i, i < s.points.num → 0 ≤ (s.points.p i).weight)
    (hcost : cost = objective z s) :
    ((∀ fuel r, pFL 1 lrand48 feasible numfeasible z cost iter e fuel s = .ok r →
        r.1 = cost -
          (pFL_gains 1 lrand48 feasible numfeasible z iter e fuel cost cost s).sum ∧
        (∀ q, q ∈ pFL_gains 1 lrand48 feasible numfeasible z iter e fuel cost cost s →
          0 ≤ q) ∧
        r.1 = objective z r.2 ∧ r.1 ≤ cost ∧ Valid r.2) ∧
      ∃ N, ∀ fuel, N < fuel →
        ∃ r, pFL 1 lrand48 feasible numfeasible z cost iter e fuel s = .ok r) ∧
    (Valid row03State ∧ objective 10 row03State = 25 ∧
      (pFL_inorder 2 (fun _ => 0) (fun _ => 1) 1 10 25 1 (1 / 10) 10 row03State).toOption.map
          (fun r => (r.1, objective 10 r.2)) = some (21, 16) ∧
      (pFL 1 (fun _ => 0) (fun _ => 1) 1 10 25 1 (1 / 10) 10 row03State).toOption.map
          (fun r => (r.1, objective 10 r.2)) = some (16, 16)) := by
  refine ⟨?_, row03State_valid, by with_unfolding_all decide, by with_unfolding_all decide,
    by with_unfolding_all decide⟩
  constructor
  · intro fuel r h
    unfold pFL at h
    obtain ⟨r1, -, -, -, -, r6, r7, r8⟩ :=
      pFL_loop_spec (le_refl 1) lrand48 feasible numfeasible hz iter e fuel cost cost s r hv hf h
    refine ⟨r7, r6, ?_, ?_, r1⟩
    · rw [r7, r8, hcost]
    · rw [r7]
      have := List.sum_nonneg r6
      linarith
  · have hn : 1 ≤ s.points.num := by
      have := hf 0 hm
      omega
    have hez : 0 < e * z := mul_pos he hz
    refine ⟨⌈(cost - z) / (e * z)⌉₊, fun fuel hfuel => ?_⟩
    unfold pFL
    refine pFL_loop_returns (le_refl 1) lrand48 feasible numfeasible hz iter he (Or.inl hm) _ fuel cost
      cost s hv hn hf hw hcost ?_ hfuel
    have h1 := Nat.le_ceil ((cost - z) / (e * z))
    have h2 := (div_le_iff₀ hez).mp h1
    linarith

/-- One worker on the four points of the line with the centers 0 and 2, all
four points feasible, `z = 1/2`: the objective is 3. -/
theorem pFL_objective_witness :
    (Valid lineFeasibleState ∧ (0 : ℚ) < 1 / 2 ∧ (0 : ℚ) < 1 / 10 ∧ 1 ≤ 4 ∧
      (3 : ℚ) = objective (1 / 2) lineFeasibleState) ∧
    ∃ N, ∀ fuel, N < fuel →
      ∃ r, pFL 1 (fun _ => 12345) (fun i => i) 4 (1 / 2) 3 4 (1 / 10) fuel
        lineFeasibleState = .ok r :=
  ⟨⟨lineFeasibleState_valid, by norm_num, by norm_num, by decide,
      by with_unfolding_all decide⟩,
    (pFL_objective (fun _ => 12345) (fun i => i) 4 (1 / 2) 3 4 (1 / 10) lineFeasibleState
      lineFeasibleState_valid (by norm_num) (by norm_num) (by decide)
      (fun j hj => hj) (by with_unfolding_all decide) (by with_unfolding_all decide)).1.2⟩

/-- C34, the code: with one worker, in exact arithmetic, for `n > kmax`
points of nonnegative weight whose first `hiz` is positive (so that `z > 0`
throughout), on marks that are clear at entry, whenever `pkmedian` returns,
the returned cost is `z * k + Σ cost[i]` for the final `z`, the final
`k = kfinal` and the final costs of the points, the state is valid and
`z > 0`.  With two workers that pass lines 1001-1012 of `pgain` one after
the other this fails: on three points of weight 1 at 0, 1 and 2 with
`kmin = kmax = 2` and all draws 0, `pspeedy` opens every point (`z = 5/2`,
cost 15/2), the first call `pgain(0)` of `pFL` finds the centers 0 and 1 on
slot 0, closes both on the one sum and returns 1/2 where the objective drops
by 3/2, no later call gains, and `pkmedian` returns the cost 7 with
`kfinal = 2` and a state of objective 6. -/
theorem pkmedian_cost_objective (lrand48 : Nat → Nat) (klogk : Nat → Nat)
    (kmin kmax fuel : Nat) (s : State) (r : KMedianResult)
    (hn : kmax < s.points.num)
    (hw : ∀ i, i < s.points.num → 0 ≤ (s.points.p i).weight)
    (hH : 0 < pkmedian_hiz 1 s.points)
    (hc : ∀ j, j < s.points.num → s.is_center j = false)
    (h : pkmedian 1 lrand48 klogk kmin kmax fuel s = .ok r) :
    (r.cost = objective r.z r.state ∧
      r.cost = r.z * (r.kfinal : ℚ) +
        ∑ i ∈ Finset.range s.points.num, (r.state.points.p i).cost ∧
      Valid r.state ∧ 0 < r.z ∧ r.state.points.num = s.points.num) ∧
    (2 < (threePointState 0 1 2).points.num ∧
      pkmedian_hiz 2 (threePointState 0 1 2).points = 5 ∧
      (pkmedian_inorder 2 (fun _ => 0) klogk3 2 2 20 (threePointState 0 1 2)).toOption.map
          (fun r => (r.cost, objective r.z r.state, r.kfinal, r.z)) =
        some (7, 6, 2, 5 / 2) ∧
      (pkmedian 1 (fun _ => 0) klogk3 2 2 20 (threePointState 0 1 2)).toOption.map
          (fun r => decide (r.cost = objective r.z r.state)) = some true) := by
  refine ⟨?_, by decide, by with_unfolding_all decide, by decide!, by decide!⟩
  have hn1 : 1 ≤ s.points.num := by omega
  have hzpos : ∀ {H L Z : ℚ}, ZOrdered H L Z → 0 < H → 0 < Z := by
    intro H L Z hz hp
    obtain ⟨h1, h2, h3, h4⟩ := hz
    linarith
  have h0 : ZOrdered (pkmedian_hiz 1 s.points) 0 ((pkmedian_hiz 1 s.points + 0) / 2) :=
    ⟨le_refl 0, by linarith, by linarith, rfl⟩
  unfold pkmedian at h
  simp only [if_neg (not_le.mpr hn)] at h
  -- the loops around `pspeedy`
  obtain ⟨i1, i2, i3, i4⟩ := shuffle_pspeedy_post (le_refl 1) lrand48 (hzpos h0 hH) s hn1 hw
  have hQ1 := pkmedian_retry_induction 1 lrand48 kmin
    (fun b => ZOrdered b.hiz b.loz b.z ∧ 0 < b.hiz ∧ b.cost = objective b.z b.state ∧
      (∃ O, SpeedyInv O b.state) ∧ b.state.points.num = s.points.num ∧
      b.state.is_center = s.is_center)
    (fun b hb _ => by
      obtain ⟨b1, b2, -, ⟨O, b4⟩, b5, b6⟩ := hb
      obtain ⟨p1, p2, p3, p4⟩ := pspeedy_post (le_refl 1) lrand48 (hzpos b1 b2) b.state
        (by rw [b5]; exact hn1) b4.weight_nonneg
      exact ⟨b1, b2, p1, p2, p3.trans b5, p4.trans b6⟩)
    SP
    ⟨pkmedian_hiz 1 s.points, 0, (pkmedian_hiz 1 s.points + 0) / 2,
      (pspeedy 1 lrand48 ((pkmedian_hiz 1 s.points + 0) / 2) (shuffle lrand48 s)).1, 0,
      (pspeedy 1 lrand48 ((pkmedian_hiz 1 s.points + 0) / 2) (shuffle lrand48 s)).2⟩
    ⟨h0, hH, i1, i2, i3, i4⟩
  split at h
  · cases h
  · rename_i a2 ha2
    have hQ2 := pkmedian_lower_z_induction 1 lrand48 kmin
      (fun b => ZOrdered b.hiz b.loz b.z ∧ 0 < b.hiz ∧ b.cost = objective b.z b.state ∧
        (∃ O, SpeedyInv O b.state) ∧ b.state.points.num = s.points.num ∧
        b.state.is_center = s.is_center)
      (fun b hb _ _ => by
        obtain ⟨b1, b2, -, ⟨O, b4⟩, b5, b6⟩ := hb
        obtain ⟨l1, -, l3⟩ := zordered_lower b1
        obtain ⟨p1, p2, p3, p4⟩ := shuffle_pspeedy_post (le_refl 1) lrand48 (hzpos l1 (l3 b2)) b.state
          (by rw [b5]; exact hn1) b4.weight_nonneg
        exact ⟨l1, l3 b2, p1, p2, p3.trans b5, p4.trans b6⟩)
      (fun b hb _ _ => by
        obtain ⟨b1, b2, -, ⟨O, b4⟩, b5, b6⟩ := hb
        obtain ⟨p1, p2, p3, p4⟩ := shuffle_pspeedy_post (le_refl 1) lrand48 (hzpos b1 b2) b.state
          (by rw [b5]; exact hn1) b4.weight_nonneg
        exact ⟨b1, b2, p1, p2, p3.trans b5, p4.trans b6⟩)
      fuel _ a2 hQ1 ha2
    obtain ⟨q1, q2, q3, ⟨O, q4⟩, q5, q6⟩ := hQ2
    -- the feasible set and the marks
    obtain ⟨f1, f2, f3⟩ := selectfeasible_fast_frame lrand48 klogk kmin a2.state
    have f4 := selectfeasible_fast_lt lrand48 klogk kmin a2.state
    have hmark := speedy_marked_valid q4
      { selectfeasible_fast lrand48 klogk kmin a2.state with
        is_center := forLoop 0 (selectfeasible_fast lrand48 klogk kmin a2.state).points.num
          (fun i c => Function.update c
            ((selectfeasible_fast lrand48 klogk kmin a2.state).points.p i).assign true)
          (selectfeasible_fast lrand48 klogk kmin a2.state).is_center }
      f1 f2
      (fun j hj => by
        show forLoop 0 (selectfeasible_fast lrand48 klogk kmin a2.state).points.num
          (fun i c => Function.update c
            ((selectfeasible_fast lrand48 klogk kmin a2.state).points.p i).assign true)
          (selectfeasible_fast lrand48 klogk kmin a2.state).is_center j = true ↔ _
        rw [mark_centers, f1, f3, q6, hc j (by rw [← q5]; exact hj), Bool.false_or,
          decide_eq_true_iff])
    split at h
    · cases h
    · rename_i a ha
      cases h
      have hfinal := pkmedian_search_induction 1 lrand48 kmin kmax (klogk kmax) fuel
        (fun b => ZOrdered b.hiz b.loz b.z ∧ 0 < b.hiz ∧ Valid b.state ∧
          b.cost = objective b.z b.state ∧ b.state.points.num = s.points.num ∧
          ∀ j, j < b.state.numfeasible → b.state.feasible j < b.state.points.num)
        (fun b b2 hb hr => by
          obtain ⟨b1, b2', b3, b4, b5, b6⟩ := hb
          obtain ⟨e1, e2, e3, e4⟩ :=
            pkmedian_round_spec 1 lrand48 kmin kmax (klogk kmax) fuel b b2 hr
          have hz2 : ZOrdered b2.hiz b2.loz b2.z := by rw [e1, e2, e3]; exact b1
          have hround : Valid b2.state ∧ b2.state.points.num = b.state.points.num ∧
              b2.state.feasible = b.state.feasible ∧
              b2.state.numfeasible = b.state.numfeasible ∧
              b2.cost = objective b.z b2.state := by
            rcases e4 with e4 | ⟨c1, s1, e4, e5⟩
            · exact pFL_spec (le_refl 1) lrand48 _ _ (hzpos b1 b2') _ _ _ _ _ _ b3 b6 b4 e4
            · obtain ⟨u1, u2, u3, u4, u5⟩ :=
                pFL_spec (le_refl 1) lrand48 _ _ (hzpos b1 b2') _ _ _ _ _ _ b3 b6 b4 e4
              obtain ⟨v1, v2, v3, v4, v5⟩ :=
                pFL_spec (le_refl 1) lrand48 _ _ (hzpos b1 b2') _ _ _ _ _ _ u1
                  (by rw [u3, u4, u2]; exact b6) u5 e5
              exact ⟨v1, v2.trans u2, v3.trans u3, v4.trans u4, v5⟩
          obtain ⟨w1, w2, w3, w4, w5⟩ := hround
          obtain ⟨c1, c2, -, c4, -⟩ := pkmedian_adjust_spec kmin kmax b2 hz2
          have est := pkmedian_adjust_state kmin kmax b2
          refine ⟨c1, c2 (by rw [e1]; exact b2'), by rw [est]; exact w1, ?_,
            by rw [est, w2]; exact b5, ?_⟩
          · rw [c4, w5, est, ← e3]
            unfold objective
            ring
          · rw [est, w3, w4, w2]
            exact b6)
        fuel _ a ?_ ha
      · obtain ⟨g1, g2, g3, g4, g5, -⟩ := hfinal
        refine ⟨g4, ?_, g3, hzpos g1 g2, g5⟩
        show a.cost = a.z * (a.state.k : ℚ) + _
        rw [g4, ← g5]
        rfl
      · refine ⟨q1, q2, hmark.1, ?_, ?_, ?_⟩
        · show a2.cost = objective a2.z _
          rw [q3]
          exact (objective_congr a2.z f1 f2).symm
        · show (selectfeasible_fast lrand48 klogk kmin a2.state).points.num = s.points.num
          rw [f1]
          exact q5
        · intro j hj
          show (selectfeasible_fast lrand48 klogk kmin a2.state).feasible j <
            (selectfeasible_fast lrand48 klogk kmin a2.state).points.num
          rw [f1]
          exact f4 j hj

/-- One worker on three points of weight 1 at 0, 1 and 2, `kmin = kmax = 2`,
all draws 0: the search calls `pgain`, the run returns, and the returned
cost is the objective at the last `z`. -/
theorem pkmedian_cost_objective_witness :
    (2 < (threePointState 0 1 2).points.num ∧
      0 < pkmedian_hiz 1 (threePointState 0 1 2).points) ∧
    ∃ r, pkmedian 1 (fun _ => 0) klogk3 2 2 20 (threePointState 0 1 2) = .ok r ∧
      (r.cost = objective r.z r.state ∧
      r.cost = r.z * (r.kfinal : ℚ) +
        ∑ i ∈ Finset.range (threePointState 0 1 2).points.num, (r.state.points.p i).cost ∧
      Valid r.state ∧ 0 < r.z ∧ r.state.points.num = (threePointState 0 1 2).points.num) :=
  ⟨⟨by decide, by with_unfolding_all decide⟩,
    (exists_of_returns (e := pkmedian 1 (fun _ => 0) klogk3 2 2 20
      (threePointState 0 1 2)) (by decide!)).elim
      (fun r hr => ⟨r, hr,
        (pkmedian_cost_objective (fun _ => 0) klogk3 2 2 20 (threePointState 0 1 2) r
          (by decide) (by with_unfolding_all decide)
          (by with_unfolding_all decide) (fun _ _ => rfl) hr).1⟩)⟩

end StreamCluster
